import Mathlib

/-!
# The `select` emulation, property lists and resources of `src/mac.c`

A shallow embedding of the cross-event-loop blocking wait of the Emacs Mac
port (`sys_select`, `select_and_poll_event` and their helpers, `mac.c`
lines 3294-3808).  Further sections embed the wake channel and its setup
at the level of system calls, the conversion of four-character codes
(`mac.c` lines 2218-2249), Lisp objects in a heap with `cdr_chain_length`
and the conversion of a tagged Lisp object to a property list (lines
77-139, 1280-1503 and 2939-3016), and the parser and the database of X
resources (lines 1605-2070).

* A descriptor set (`SELECT_TYPE`, an `fd_set`) is a finite set of
  descriptor numbers; a `NULL` set pointer is `none`.
* `EventTimeout` is a `double` number of seconds in the source.  Here it is
  an integer number of microseconds, so `kEventDurationSecond = 1000000`,
  `kEventDurationMicrosecond = 1` and `kEventDurationForever = -1000000`
  (the Carbon value `-1.0` second).
* The collaborators that the source calls but does not define (`select`,
  `detect_input_pending`, `mac_run_loop_run_once`, `mac_peek_next_event`)
  are answered by an environment `Env`.  Every answer may depend on the whole
  history of the calls made so far, which is kept in `State.trace`.
* The wake handler (`wakeup_callback`, or the dispatch source handler of the
  Grand Central Dispatch build) runs inside the run loop: the answer of
  `mac_run_loop_run_once` says whether it ran during the slice.
* Loops that need not terminate (the `while (1)` of `select_and_poll_event`
  and the two time-slicing `do ... while` loops) take a fuel argument and
  return `none` when it is exhausted.
-/

namespace Mac

/-- An `fd_set`: the descriptors that are set. -/
abbrev SELECT_TYPE := Finset Nat

/-- `FD_ISSET (n, p)`. -/
def FD_ISSET (n : Nat) (p : SELECT_TYPE) : Bool := decide (n ∈ p)

/-- `FD_SET (n, p)`. -/
def FD_SET (n : Nat) (p : SELECT_TYPE) : SELECT_TYPE := insert n p

/-- `FD_CLR (n, p)`. -/
def FD_CLR (n : Nat) (p : SELECT_TYPE) : SELECT_TYPE := p.erase n

/-- `FD_ZERO (p)`. -/
def FD_ZERO : SELECT_TYPE := ∅

/-- `EMACS_TIME`, a `struct timeval`. -/
structure EMACS_TIME where
  secs : Int
  usecs : Int
deriving DecidableEq

/-- `EventTimeout`, in microseconds. -/
abbrev EventTimeout := Int

/-- One second, in microseconds. -/
def kEventDurationSecond : EventTimeout := 1000000

/-- One microsecond. -/
def kEventDurationMicrosecond : EventTimeout := 1

/-- The Carbon constant `kEventDurationForever` (`-1.0` second). -/
def kEventDurationForever : EventTimeout := -1000000

/-- The value of `EINTR` on Darwin. -/
def EINTR : Int := 4

/-- The arguments of one call of the real `select`. -/
structure SelectReq where
  nfds : Int
  rfds : Option SELECT_TYPE
  wfds : Option SELECT_TYPE
  efds : Option SELECT_TYPE
  timeout : Option EMACS_TIME
deriving DecidableEq

/-- What one call of the real `select` answers: its return value, the
contents it leaves in each set that was passed, and the `errno` it sets
when it fails. -/
structure SelectRes where
  ret : Int
  rfds : SELECT_TYPE
  wfds : SELECT_TYPE
  efds : SELECT_TYPE
  errno : Int
deriving DecidableEq

/-- The calls the emulation makes, with their answers. -/
inductive Event where
  | select (req : SelectReq) (res : SelectRes)
  | detect_input_pending (ans : Bool)
  | mac_run_loop_run_once (timeout : EventTimeout) (remaining : EventTimeout)
      (woke : Bool)
  | mac_peek_next_event (ans : Bool)
  | write_one_byte_to_fd (fd : Nat)
  | read_all_from_nonblocking_fd (fd : Nat)
  | dispatch_sync
  | dispatch_async_read_all (fd : Nat)
  | select_thread_launch
  | select_sem_wait
  | background_select (req : SelectReq)
deriving DecidableEq

/-- The static `select_args` of the Pthreads build.  The set pointers are
the caller's, so only whether each is non-`NULL` is recorded. -/
structure SelectArgs where
  nfds : Int
  rfds : Bool
  wfds : Bool
  efds : Bool
  timeout : Option EMACS_TIME
deriving DecidableEq

/-- The memory the emulation works on. -/
structure State where
  /-- Global `inhibit_window_system`. -/
  inhibit_window_system : Bool
  /-- Global `noninteractive`. -/
  noninteractive : Bool
  /-- Static `wakeup_fds[0]`. -/
  wakeup_fds0 : Nat
  /-- Static `wakeup_fds[1]`. -/
  wakeup_fds1 : Nat
  /-- Static `wokeup_from_run_loop_run_once_p`. -/
  wokeup_from_run_loop_run_once_p : Int
  /-- Whether the static `select_run_loop` is non-`NULL` (Pthreads build). -/
  select_run_loop : Bool
  /-- Static `select_args` (Pthreads build). -/
  select_args : SelectArgs
  /-- The thread's `errno`. -/
  errno : Int
  /-- The caller's `*rfds`, `none` for a `NULL` pointer. -/
  rfds : Option SELECT_TYPE
  /-- The caller's `*wfds`. -/
  wfds : Option SELECT_TYPE
  /-- The caller's `*efds`. -/
  efds : Option SELECT_TYPE
  /-- The calls made so far, oldest first. -/
  trace : List Event
deriving DecidableEq

/-- The answers of the collaborators, each depending on the history. -/
structure Env where
  select : List Event → SelectReq → SelectRes
  detect_input_pending : List Event → Bool
  mac_run_loop_run_once : List Event → EventTimeout → EventTimeout × Bool
  mac_peek_next_event : List Event → Bool

/-- Which build of the background waiter: `SELECT_USE_GCD` or Pthreads. -/
inductive Backend where
  | gcd
  | pthread
deriving DecidableEq

/-- Append one event to the history. -/
def State.log (s : State) (e : Event) : State :=
  { s with trace := s.trace ++ [e] }

/-- The real `select (nfds, rfds, wfds, efds, timeout)` on the caller's
sets: the sets that were passed are overwritten, `errno` is set on
failure. -/
def select (env : Env) (nfds : Int) (timeout : Option EMACS_TIME)
    (s : State) : Int × State :=
  let req : SelectReq := ⟨nfds, s.rfds, s.wfds, s.efds, timeout⟩
  let res := env.select s.trace req
  (res.ret,
   { s with
     rfds := s.rfds.map fun _ => res.rfds
     wfds := s.wfds.map fun _ => res.wfds
     efds := s.efds.map fun _ => res.efds
     errno := if res.ret < 0 then res.errno else s.errno
     trace := s.trace ++ [Event.select req res] })

/-- A call of `detect_input_pending ()`. -/
def detect_input_pending (env : Env) (s : State) : Bool × State :=
  let b := env.detect_input_pending s.trace
  (b, s.log (Event.detect_input_pending b))

/-- A call of `mac_peek_next_event ()`, as a truth value. -/
def mac_peek_next_event (env : Env) (s : State) : Bool × State :=
  let b := env.mac_peek_next_event s.trace
  (b, s.log (Event.mac_peek_next_event b))

/-- `read_all_from_nonblocking_fd (fd)`, its result unused. -/
def read_all_from_nonblocking_fd (fd : Nat) (s : State) : State :=
  s.log (Event.read_all_from_nonblocking_fd fd)

/-- `write_one_byte_to_fd (fd)`, its result unused. -/
def write_one_byte_to_fd (fd : Nat) (s : State) : State :=
  s.log (Event.write_one_byte_to_fd fd)

/-- The wake handler: `wakeup_callback` (lines 3356-3366), and the event
handler of the dispatch source (lines 3393-3396). -/
def wakeup_callback (s : State) : State :=
  { read_all_from_nonblocking_fd s.wakeup_fds0 s with
    wokeup_from_run_loop_run_once_p := 1 }

/-- A call of `mac_run_loop_run_once (timeout)`: the run loop runs for one
slice, during which the wake handler may run, and answers the remaining
time. -/
def mac_run_loop_run_once (env : Env) (timeout : EventTimeout) (s : State) :
    EventTimeout × State :=
  let a := env.mac_run_loop_run_once s.trace timeout
  let s1 := if a.2 then wakeup_callback s else s
  (a.1, s1.log (Event.mac_run_loop_run_once timeout a.1 a.2))

/-- The conversion of the caller's timeout to an `EventTimeout`
(lines 3592-3596 and 3699-3702). -/
def timeoutval_of (timeout : Option EMACS_TIME) : EventTimeout :=
  match timeout with
  | some t => t.secs * kEventDurationSecond + t.usecs * kEventDurationMicrosecond
  | none => kEventDurationForever

/-- The time-slicing loop of `select_and_poll_event` (lines 3636-3641). -/
def poll_slices (env : Env) : Nat → EventTimeout → State →
    Option (EventTimeout × State)
  | 0, _, _ => none
  | fuel + 1, timeoutval, s =>
    let (tv, s1) := mac_run_loop_run_once env timeoutval s
    if tv ≠ 0 then
      let (ev, s2) := mac_peek_next_event env s1
      if !ev then
        let (dip, s3) := detect_input_pending env s2
        if !dip then poll_slices env fuel tv s3
        else some (tv, s3)
      else some (tv, s2)
    else some (tv, s1)

/-- The locals of `select_and_poll_event` that its loop updates. -/
structure PollLocals where
  timedout_p : Bool
  r : Int
  timeoutval : EventTimeout
deriving DecidableEq

/-- The saved sets `orfds`, `owfds`, `oefds`; `none` when not assigned. -/
structure SavedSets where
  orfds : Option SELECT_TYPE
  owfds : Option SELECT_TYPE
  oefds : Option SELECT_TYPE
deriving DecidableEq

/-- The assignments `if (rfds) *rfds = orfds; ...` (lines 3648-3650). -/
def restore_sets (o : SavedSets) (s : State) : State :=
  { s with
    rfds := s.rfds.bind fun _ => o.orfds
    wfds := s.wfds.bind fun _ => o.owfds
    efds := s.efds.bind fun _ => o.oefds }

/-- The `while (1)` loop of `select_and_poll_event` (lines 3610-3654). -/
def select_and_poll_event_loop (env : Env) (nfds : Int)
    (timeout : Option EMACS_TIME) (o : SavedSets) :
    Nat → PollLocals → State → Option (PollLocals × State)
  | 0, _, _ => none
  | fuel + 1, l, s =>
    let (dip, s1) := detect_input_pending env s
    if dip then some (l, s1)
    else
      let (r, s2) := select env nfds (some ⟨0, 0⟩) s1
      if r ≠ 0 then some ({ l with r := r }, s2)
      else
        let sliced : Option (PollLocals × State) :=
          if l.timeoutval = 0 then
            some ({ l with r := r, timedout_p := true }, s2)
          else
            match poll_slices env fuel l.timeoutval s2 with
            | none => none
            | some (tv, s3) =>
              some ({ r := r, timeoutval := tv,
                      timedout_p := if tv = 0 then true else l.timedout_p }, s3)
        match sliced with
        | none => none
        | some (l1, s3) =>
          if timeout.isNone && l1.timedout_p then
            select_and_poll_event_loop env nfds timeout o fuel l1
              (restore_sets o s3)
          else some (l1, s3)

/-- The return of `select_and_poll_event` (lines 3657-3667). -/
def select_and_poll_event_return (env : Env) (l : PollLocals) (s : State) :
    Int × State :=
  if l.r ≠ 0 then (l.r, s)
  else if !l.timedout_p then
    /- Pretend that `select' is interrupted by a signal.  -/
    let (_, s1) := detect_input_pending env s
    (-1, { s1 with errno := EINTR })
  else (0, s)

/-- `select_and_poll_event (nfds, rfds, wfds, efds, timeout)`
(lines 3583-3668), the sets being the caller's. -/
def select_and_poll_event (env : Env) (fuel : Nat) (nfds : Int)
    (timeout : Option EMACS_TIME) (s : State) : Option (Int × State) :=
  let o : SavedSets :=
    if timeout.isNone then ⟨s.rfds, s.wfds, s.efds⟩ else ⟨none, none, none⟩
  match select_and_poll_event_loop env nfds timeout o fuel
      ⟨false, 0, timeoutval_of timeout⟩ s with
  | none => none
  | some (l, s1) => some (select_and_poll_event_return env l s1)

/-- The time-slicing loop of `sys_select` (lines 3754-3759 and 3776-3781),
which also stops when the wake handler has run. -/
def wait_slices (env : Env) : Nat → EventTimeout → State →
    Option (EventTimeout × State)
  | 0, _, _ => none
  | fuel + 1, timeoutval, s =>
    let (tv, s1) := mac_run_loop_run_once env timeoutval s
    if tv ≠ 0 then
      if s1.wokeup_from_run_loop_run_once_p = 0 then
        let (ev, s2) := mac_peek_next_event env s1
        if !ev then
          let (dip, s3) := detect_input_pending env s2
          if !dip then wait_slices env fuel tv s3
          else some (tv, s3)
        else some (tv, s2)
      else some (tv, s1)
    else some (tv, s1)

/-- The arguments of the `select` call in the block that `sys_select` hands
to the dispatch queue (lines 3739-3749): the block works on its own copies
`qrfds`, `qwfds`, `qefds` of the saved sets. -/
def dispatch_select_request (wakeup_fds1 : Nat) (nfds : Int)
    (orfds owfds oefds : SELECT_TYPE) (wfds efds : Bool) : SelectReq :=
  let qrfds := orfds
  let qwfds := owfds
  let qefds := oefds
  let qnfds := if (wakeup_fds1 : Int) ≥ nfds then (wakeup_fds1 : Int) + 1 else nfds
  let qrfds := FD_SET wakeup_fds1 qrfds
  ⟨qnfds, some qrfds, if wfds then some qwfds else none,
    if efds then some qefds else none, none⟩

/-- The arguments of the `select` call of `select_perform`
(lines 3512-3533): copies of the sets `select_args` points to. -/
def select_perform_request (s : State) : SelectReq :=
  let qnfds := s.select_args.nfds
  let qrfds := s.rfds.getD FD_ZERO
  let qwfds := s.wfds.getD FD_ZERO
  let qefds := s.efds.getD FD_ZERO
  let qnfds := if (s.wakeup_fds1 : Int) ≥ qnfds then (s.wakeup_fds1 : Int) + 1 else qnfds
  let qrfds := FD_SET s.wakeup_fds1 qrfds
  ⟨qnfds, if s.select_args.rfds then some qrfds else none,
    if s.select_args.wfds then some qwfds else none,
    if s.select_args.efds then some qefds else none,
    s.select_args.timeout⟩

/-- The secondary thread runs `select_perform` (lines 3508-3538): it issues
its `select` on copies and touches nothing of the caller. -/
def select_perform (s : State) : State :=
  s.log (Event.background_select (select_perform_request s))

/-- `select_fire (nfds, rfds, wfds, efds, timeout)` (lines 3540-3554) with
the caller's set pointers: it fills `select_args` and signals the run loop
source of the secondary thread, which performs `select_perform`. -/
def select_fire (nfds : Int) (timeout : Option EMACS_TIME) (s : State) : State :=
  select_perform
    { s with select_args := ⟨nfds, s.rfds.isSome, s.wfds.isSome, s.efds.isSome, timeout⟩ }

/-- `select_thread_launch ()` (lines 3571-3580): the new thread runs
`select_thread_main`, which sets `select_run_loop`. -/
def select_thread_launch (s : State) : State :=
  { s.log Event.select_thread_launch with select_run_loop := true }

/-- `select_sem_wait ()` (lines 3479-3487). -/
def select_sem_wait (s : State) : State :=
  s.log Event.select_sem_wait

/-- The start of the background waiter (lines 3737-3752 of the Grand
Central Dispatch build, lines 3768-3774 of the Pthreads build): wait for the
previous background work to be over, reset the wake flag and issue the
background `select`. -/
def start_background_waiter (be : Backend) (nfds : Int)
    (orfds owfds oefds : SELECT_TYPE) (s : State) : State :=
  match be with
  | Backend.gcd =>
    let s1 := s.log Event.dispatch_sync
    let s2 := { s1 with wokeup_from_run_loop_run_once_p := 0 }
    s2.log (Event.background_select
      (dispatch_select_request s2.wakeup_fds1 nfds orfds owfds oefds
        s2.wfds.isSome s2.efds.isSome))
  | Backend.pthread =>
    let s1 := if !s.select_run_loop then select_thread_launch s else s
    let s2 := select_sem_wait s1
    let s3 := read_all_from_nonblocking_fd s2.wakeup_fds1 s2
    let s4 := { s3 with wokeup_from_run_loop_run_once_p := 0 }
    select_fire nfds none s4

/-- The wake of the background waiter after the slicing loop (lines
3763-3766 of the Grand Central Dispatch build, line 3785 of the Pthreads
build). -/
def wake_background_waiter (be : Backend) (s : State) : State :=
  match be with
  | Backend.gcd =>
    let s1 := write_one_byte_to_fd s.wakeup_fds0 s
    s1.log (Event.dispatch_async_read_all s1.wakeup_fds1)
  | Backend.pthread => write_one_byte_to_fd s.wakeup_fds0 s

/-- The body of `if (!detect_input_pending ())` in `sys_select`
(lines 3736-3786): start the background waiter, slice the run loop, wake the
background waiter.  Answers `timedout_p`. -/
def hand_off (env : Env) (be : Backend) (fuel : Nat) (nfds : Int)
    (orfds owfds oefds : SELECT_TYPE) (timeoutval : EventTimeout) (s : State) :
    Option (Bool × State) :=
  match wait_slices env fuel timeoutval
      (start_background_waiter be nfds orfds owfds oefds s) with
  | none => none
  | some (tv, s1) => some (decide (tv = 0), wake_background_waiter be s1)

/-- The test `p && FD_ISSET (n, p)` on a set pointer that may be `NULL`. -/
def FD_ISSET_opt (n : Nat) (p : Option SELECT_TYPE) : Bool :=
  match p with
  | some q => FD_ISSET n q
  | none => false

/-- The loop `do nfds--; while (!(FD_ISSET (nfds, rfds) || ...)); nfds++;`
(lines 3705-3711) started at `nfds = n`; `rfds` holds the sentinel. -/
def trim_nfds (rfds : SELECT_TYPE) (wfds efds : Option SELECT_TYPE) : Nat → Nat
  | 0 => 0
  | n + 1 =>
    if FD_ISSET n rfds || FD_ISSET_opt n wfds || FD_ISSET_opt n efds then n + 1
    else trim_nfds rfds wfds efds n

/-- The negation of the test of lines 3682-3683: the window event channel,
descriptor 0, is asked for. -/
def window_channel_requested (nfds : Int) (s : State) : Bool :=
  !(s.inhibit_window_system || s.noninteractive || decide (nfds < 1)
    || (match s.rfds with | none => true | some rfds => !FD_ISSET 0 rfds))

/-- The assignments `*rfds = orfds; if (wfds) *wfds = owfds; if (efds)
*efds = oefds;` (lines 3724-3728). -/
def restore_saved_sets (orfds owfds oefds : SELECT_TYPE) (s : State) : State :=
  { s with
    rfds := some orfds
    wfds := s.wfds.map fun _ => owfds
    efds := s.efds.map fun _ => oefds }

/-- The timeout outcome `FD_ZERO (rfds); if (wfds) FD_ZERO (wfds); if (efds)
FD_ZERO (efds);` (lines 3801-3805). -/
def clear_sets (s : State) : State :=
  { s with
    rfds := some FD_ZERO
    wfds := s.wfds.map fun _ => FD_ZERO
    efds := s.efds.map fun _ => FD_ZERO }

/-- The last poll of `sys_select` (lines 3792-3797): a zero-timeout
`select_and_poll_event`, whose answer 0 is turned into `-1` with `errno`
set to `EINTR`. -/
def final_poll (env : Env) (fuel : Nat) (nfds : Int) (s : State) :
    Option (Int × State) :=
  match select_and_poll_event env fuel nfds (some ⟨0, 0⟩) s with
  | none => none
  | some (r, s1) =>
    if r ≠ 0 then some (r, s1)
    else some (-1, { s1 with errno := EINTR })

/-- `sys_select (nfds, rfds, wfds, efds, timeout)` (lines 3670-3808); the
sets are `s.rfds`, `s.wfds`, `s.efds` before, and those of the answer
after. -/
def sys_select (env : Env) (be : Backend) (fuel : Nat) (nfds : Int)
    (timeout : Option EMACS_TIME) (s : State) : Option (Int × State) :=
  if !window_channel_requested nfds s then
    some (select env nfds timeout s)
  else
    let rfds1 := FD_CLR 0 (s.rfds.getD FD_ZERO)
    let orfds := rfds1
    let owfds := s.wfds.getD FD_ZERO
    let oefds := s.efds.getD FD_ZERO
    let timeoutval := timeoutval_of timeout
    let nfds1 : Int := (trim_nfds (FD_SET 0 rfds1) s.wfds s.efds nfds.toNat : Nat)
    let s1 := { s with rfds := some rfds1 }
    if nfds1 = 1 then
      select_and_poll_event env fuel nfds1 timeout s1
    else
      match select_and_poll_event env fuel nfds1 (some ⟨0, 0⟩) s1 with
      | none => none
      | some (r, s2) =>
        if r ≠ 0 ∨ timeoutval = 0 then some (r, s2)
        else
          let s3 := restore_saved_sets orfds owfds oefds s2
          let (dip, s4) := detect_input_pending env s3
          let handed : Option (Bool × State) :=
            if !dip then hand_off env be fuel nfds1 orfds owfds oefds timeoutval s4
            else some (false, s4)
          match handed with
          | none => none
          | some (timedout_p, s5) =>
            if !timedout_p then final_poll env fuel nfds1 s5
            else some (0, clear_sets s5)

/-! ## The wake channel and its setup, at the level of system calls

In the model above a call of `read_all_from_nonblocking_fd` or of
`write_one_byte_to_fd` is one event, and the secondary thread of the
Pthreads build is taken to run.  The definitions below embed the bodies of
these functions, of the wake handler, of `mac_wakeup_from_run_loop_run_once`,
of `init_wakeup_fds`, of the semaphore and of the thread launch (`mac.c`
lines 3317-3433 and 3471-3580) over a model of what they call.

* The wake channel is a pair of connected stream sockets.  `World.queued`
  counts the bytes queued for reading on each descriptor and `World.peer`
  names the other end of each socket.
* `read` and `write` are the system calls on a non-blocking descriptor: a
  call may be interrupted by a signal (`EINTR`); a `read` that is not
  interrupted takes at least one and at most `nbyte` of the queued bytes, and
  with nothing queued it fails with `EAGAIN`, or returns 0 when the other end
  is closed; a `write` fails, returns 0, or queues its bytes at the other
  end.  Which of these happens is chosen by the host, as are the answers of
  `socketpair`, `fcntl`, the creation calls of Core Foundation and Grand
  Central Dispatch, and `pthread_create`.
* Every answer of the host may depend on the calls made so far
  (`World.calls`).
-/

namespace Posix

/-- The value of `EAGAIN` on Darwin. -/
def EAGAIN : Int := 35

/-- The value of `O_NONBLOCK` on Darwin. -/
def O_NONBLOCK : Int := 4

/-- The calls made to the host, with their answers. -/
inductive Call where
  | read (fd nbyte : Nat) (rtnval errno : Int)
  | write (fd nbyte : Nat) (rtnval errno : Int)
  | socketpair (result : Int)
  | fcntl_getfl (fd : Nat) (flags : Int)
  | fcntl_setfl (fd : Nat) (flags result : Int)
  | dispatch_source_create (fd : Nat) (created : Bool)
  | dispatch_source_set_event_handler
  | dispatch_resume
  | dispatch_queue_create (created : Bool)
  | CFSocketCreateWithNative (fd : Nat) (created : Bool)
  | CFSocketCreateRunLoopSource (created : Bool)
  | CFRunLoopAddSource
  | pthread_create (result : Int)
deriving DecidableEq

/-- The statics of the wake machinery and the state of the sockets. -/
structure World where
  /-- Static `wakeup_fds[0]`. -/
  wakeup_fds0 : Nat
  /-- Static `wakeup_fds[1]`. -/
  wakeup_fds1 : Nat
  /-- Static `wokeup_from_run_loop_run_once_p`. -/
  wokeup_from_run_loop_run_once_p : Int
  /-- Static `select_sem.value` (Pthreads build). -/
  select_sem_value : Int
  /-- Whether the static `select_run_loop` is non-`NULL` (Pthreads build). -/
  select_run_loop : Bool
  /-- Static `select_args` (Pthreads build). -/
  select_args : SelectArgs
  /-- The `errno` of the running thread. -/
  errno : Int
  /-- The number of bytes queued for reading on each descriptor. -/
  queued : Nat → Nat
  /-- The descriptor at the other end of each socket. -/
  peer : Nat → Nat
  /-- The calls made so far, oldest first. -/
  calls : List Call

/-- What the host does with one call of `read`. -/
inductive ReadChoice where
  /-- A signal arrives before any byte is transferred. -/
  | interrupted
  /-- The call goes through; it may deliver up to `short` bytes fewer than it
  could, and `eof` says whether the other end is closed. -/
  | transfer (short : Nat) (eof : Bool)
deriving DecidableEq

/-- What the host does with one call of `write`. -/
inductive WriteChoice where
  /-- The call fails with this `errno` (`EINTR` when a signal arrives,
  `EAGAIN` when the buffer is full). -/
  | fail (errno : Int)
  /-- The call returns 0: nothing was written. -/
  | nothing
  /-- The bytes are queued for the other end. -/
  | accept
deriving DecidableEq

/-- The answers of the host, each depending on the calls made so far. -/
structure Host where
  read : List Call → Nat → Nat → ReadChoice
  write : List Call → Nat → Nat → WriteChoice
  /-- The result of `socketpair` and the two descriptors it stores. -/
  socketpair : List Call → Int × Nat × Nat
  fcntl_getfl : List Call → Nat → Int
  fcntl_setfl : List Call → Nat → Int → Int
  /-- Whether `dispatch_source_create` answers a source (not `NULL`). -/
  dispatch_source_create : List Call → Bool
  /-- Whether `dispatch_queue_create` answers a queue. -/
  dispatch_queue_create : List Call → Bool
  /-- Whether `CFSocketCreateWithNative` answers a socket. -/
  CFSocketCreateWithNative : List Call → Bool
  /-- Whether `CFSocketCreateRunLoopSource` answers a source. -/
  CFSocketCreateRunLoopSource : List Call → Bool
  /-- The result of `pthread_create`, 0 on success. -/
  pthread_create : List Call → Int

/-- Append one call to the history. -/
def World.log (w : World) (c : Call) : World :=
  { w with calls := w.calls ++ [c] }

/-- The system call `read (fd, buf, nbyte)` on a non-blocking descriptor. -/
def read (host : Host) (fd nbyte : Nat) (w : World) : Int × World :=
  match host.read w.calls fd nbyte with
  | ReadChoice.interrupted =>
    (-1, { w with errno := EINTR, calls := w.calls ++ [Call.read fd nbyte (-1) EINTR] })
  | ReadChoice.transfer short eof =>
    if w.queued fd = 0 then
      if eof then (0, w.log (Call.read fd nbyte 0 w.errno))
      else
        (-1, { w with errno := EAGAIN, calls := w.calls ++ [Call.read fd nbyte (-1) EAGAIN] })
    else
      let most := min nbyte (w.queued fd)
      let k := most - min short (most - 1)
      ((k : Int),
       { w with
         queued := Function.update w.queued fd (w.queued fd - k)
         calls := w.calls ++ [Call.read fd nbyte k w.errno] })

/-- The system call `write (fd, buf, nbyte)` on a non-blocking descriptor. -/
def write (host : Host) (fd nbyte : Nat) (w : World) : Int × World :=
  match host.write w.calls fd nbyte with
  | WriteChoice.fail e =>
    (-1, { w with errno := e, calls := w.calls ++ [Call.write fd nbyte (-1) e] })
  | WriteChoice.nothing => (0, w.log (Call.write fd nbyte 0 w.errno))
  | WriteChoice.accept =>
    ((nbyte : Int),
     { w with
       queued := Function.update w.queued (w.peer fd) (w.queued (w.peer fd) + nbyte)
       calls := w.calls ++ [Call.write fd nbyte nbyte w.errno] })

/-- `read_all_from_nonblocking_fd (fd)` (lines 3322-3336); `buf` has 64
bytes. -/
def read_all_from_nonblocking_fd (host : Host) : Nat → Nat → World → Option (Int × World)
  | 0, _, _ => none
  | fuel + 1, fd, w =>
    let (rtnval, w1) := read host fd 64 w
    if rtnval > 0 ∨ (rtnval < 0 ∧ w1.errno = EINTR) then
      read_all_from_nonblocking_fd host fuel fd w1
    else some (rtnval, w1)

/-- `write_one_byte_to_fd (fd)` (lines 3338-3351). -/
def write_one_byte_to_fd (host : Host) : Nat → Nat → World → Option (Int × World)
  | 0, _, _ => none
  | fuel + 1, fd, w =>
    let (rtnval, w1) := write host fd 1 w
    if rtnval = 0 ∨ (rtnval < 0 ∧ w1.errno = EINTR) then
      write_one_byte_to_fd host fuel fd w1
    else some (rtnval, w1)

/-- The wake handler: `wakeup_callback` (lines 3356-3366), whose socket was
created on `wakeup_fds[0]`, and the event handler of the dispatch source on
`wakeup_fds[0]` (lines 3393-3396). -/
def wakeup_callback (host : Host) (fuel : Nat) (w : World) : Option World :=
  match read_all_from_nonblocking_fd host fuel w.wakeup_fds0 w with
  | none => none
  | some (_, w1) => some { w1 with wokeup_from_run_loop_run_once_p := 1 }

/-- `mac_wakeup_from_run_loop_run_once ()` (lines 3427-3433). -/
def mac_wakeup_from_run_loop_run_once (host : Host) (fuel : Nat) (w : World) :
    Option World :=
  match write_one_byte_to_fd host fuel w.wakeup_fds1 w with
  | none => none
  | some (_, w1) => some w1

/-- The body of the loop `for (i = 0; i < 2; i++)` of `init_wakeup_fds`
(lines 3380-3381) for the descriptor `fd`; answers `result`. -/
def set_nonblocking (host : Host) (fd : Nat) (w : World) : Int × World :=
  let flags := host.fcntl_getfl w.calls fd
  let w1 := w.log (Call.fcntl_getfl fd flags)
  let result := host.fcntl_setfl w1.calls fd (Int.lor flags O_NONBLOCK)
  (result, w1.log (Call.fcntl_setfl fd (Int.lor flags O_NONBLOCK) result))

/-- The creation of the wake source in `init_wakeup_fds`: lines 3386-3403
of the Grand Central Dispatch build, lines 3405-3422 of the Pthreads
build. -/
def create_wake_source (host : Host) (be : Backend) (w : World) : Int × World :=
  match be with
  | Backend.gcd =>
    let source := host.dispatch_source_create w.calls
    let w1 := w.log (Call.dispatch_source_create w.wakeup_fds0 source)
    if !source then (-1, w1)
    else
      let w2 := (w1.log Call.dispatch_source_set_event_handler).log Call.dispatch_resume
      let queue := host.dispatch_queue_create w2.calls
      let w3 := w2.log (Call.dispatch_queue_create queue)
      if !queue then (-1, w3) else (0, w3)
  | Backend.pthread =>
    let socket := host.CFSocketCreateWithNative w.calls
    let w1 := w.log (Call.CFSocketCreateWithNative w.wakeup_fds0 socket)
    if !socket then (-1, w1)
    else
      let source := host.CFSocketCreateRunLoopSource w1.calls
      let w2 := w1.log (Call.CFSocketCreateRunLoopSource source)
      if !source then (-1, w2)
      else (0, w2.log Call.CFRunLoopAddSource)

/-- `init_wakeup_fds ()` (lines 3369-3425).  On success `socketpair` stores
two fresh descriptors, each the other end of the other, in `wakeup_fds`. -/
def init_wakeup_fds (host : Host) (be : Backend) (w : World) : Int × World :=
  let (result, fd0, fd1) := host.socketpair w.calls
  let w1 := w.log (Call.socketpair result)
  if result < 0 then (result, w1)
  else
    let w2 : World :=
      { w1 with
        wakeup_fds0 := fd0, wakeup_fds1 := fd1
        queued := Function.update (Function.update w1.queued fd0 0) fd1 0
        peer := Function.update (Function.update w1.peer fd0 fd1) fd1 fd0 }
    let (result, w3) := set_nonblocking host w2.wakeup_fds0 w2
    if result < 0 then (result, w3)
    else
      let (result, w4) := set_nonblocking host w3.wakeup_fds1 w3
      if result < 0 then (result, w4)
      else create_wake_source host be w4

/-- `select_sem_signal ()` (lines 3489-3496). -/
def select_sem_signal (w : World) : World :=
  { w with select_sem_value := w.select_sem_value + 1 }

/-- `select_sem_wait ()` (lines 3479-3487).  While `select_sem.value <= 0`
the caller waits on the condition variable; here no other thread runs that
could signal it, so the call does not return (`none`). -/
def select_sem_wait (w : World) : Option World :=
  if w.select_sem_value ≤ 0 then none
  else some { w with select_sem_value := w.select_sem_value - 1 }

/-- `select_thread_main` (lines 3556-3569) up to its call of `CFRunLoopRun`:
the new thread stores its run loop in `select_run_loop` and signals the
semaphore. -/
def select_thread_main (w : World) : World :=
  select_sem_signal { w with select_run_loop := true }

/-- `select_thread_launch ()` (lines 3571-3580).  The result of
`pthread_create` is not examined; the new thread, when there is one, runs
`select_thread_main`. -/
def select_thread_launch (host : Host) (w : World) : World :=
  let result := host.pthread_create w.calls
  let w1 := w.log (Call.pthread_create result)
  if result = 0 then select_thread_main w1 else w1

end Posix

/-! ## Four-character codes

`mac_get_code_from_arg` and `mac_get_object_from_code` (`mac.c` lines
2218-2249) convert between a Lisp string of four bytes and an `OSType`, a
32-bit unsigned integer.  They read and write the integer through a pointer
to the bytes of the string, so the result depends on the byte order of the
host, which `EndianU32_BtoN` and `EndianU32_NtoB` make up for.  A byte is a
natural number below 256 and an `OSType` a natural number below `2 ^ 32`.
-/

/-- A Lisp object, as far as `mac_get_code_from_arg` tells objects apart:
`nil`, a string with its bytes and whether it is multibyte, or an object of
another type. -/
inductive Lisp_Object where
  | nil
  | string (data : List Nat) (multibyte : Bool)
  | other (tag : Nat)
deriving DecidableEq

/-- The non-local exits of `mac_get_code_from_arg`: `CHECK_STRING` signals
`wrong-type-argument`, and `error` signals an error with a message. -/
inductive Signal where
  | wrong_type_argument (value : Lisp_Object)
  | error (message : String)
deriving DecidableEq

/-- The byte order of the host. -/
inductive ByteOrder where
  | big
  | little
deriving DecidableEq

/-- `*((UInt32 *) p)`, where the four bytes at `p` are `b0`, `b1`, `b2`,
`b3` in memory order. -/
def load_UInt32 (host : ByteOrder) (b0 b1 b2 b3 : Nat) : Nat :=
  match host with
  | ByteOrder.big => b0 * 2 ^ 24 + b1 * 2 ^ 16 + b2 * 2 ^ 8 + b3
  | ByteOrder.little => b3 * 2 ^ 24 + b2 * 2 ^ 16 + b1 * 2 ^ 8 + b0

/-- The four bytes of a `UInt32` variable, in memory order. -/
def store_UInt32 (host : ByteOrder) (x : Nat) : List Nat :=
  match host with
  | ByteOrder.big => [x / 2 ^ 24 % 256, x / 2 ^ 16 % 256, x / 2 ^ 8 % 256, x % 256]
  | ByteOrder.little => [x % 256, x / 2 ^ 8 % 256, x / 2 ^ 16 % 256, x / 2 ^ 24 % 256]

/-- The 32-bit value with its four bytes in the opposite order. -/
def swap_UInt32 (x : Nat) : Nat :=
  x % 256 * 2 ^ 24 + x / 2 ^ 8 % 256 * 2 ^ 16 + x / 2 ^ 16 % 256 * 2 ^ 8 + x / 2 ^ 24 % 256

/-- `EndianU32_BtoN (x)`: from big-endian to the byte order of the host. -/
def EndianU32_BtoN (host : ByteOrder) (x : Nat) : Nat :=
  match host with
  | ByteOrder.big => x
  | ByteOrder.little => swap_UInt32 x

/-- `EndianU32_NtoB (x)`: from the byte order of the host to big-endian. -/
def EndianU32_NtoB (host : ByteOrder) (x : Nat) : Nat :=
  match host with
  | ByteOrder.big => x
  | ByteOrder.little => swap_UInt32 x

/-- `mac_get_code_from_arg (arg, defCode)` (lines 2220-2239). -/
def mac_get_code_from_arg (host : ByteOrder) (arg : Lisp_Object) (defCode : Nat) :
    Except Signal Nat :=
  match arg with
  | Lisp_Object.nil => Except.ok defCode
  | Lisp_Object.string data _ =>
    if data.length ≠ 4 then
      Except.error (Signal.error "Wrong argument: need string of length 4 for code")
    else
      Except.ok (EndianU32_BtoN host
        (load_UInt32 host (data.getD 0 0) (data.getD 1 0) (data.getD 2 0) (data.getD 3 0)))
  | Lisp_Object.other tag => Except.error (Signal.wrong_type_argument (Lisp_Object.other tag))

/-- `mac_get_object_from_code (defCode)` (lines 2243-2249):
`make_unibyte_string` of the four bytes of `code`. -/
def mac_get_object_from_code (host : ByteOrder) (defCode : Nat) : Lisp_Object :=
  let code := EndianU32_NtoB host (defCode % 2 ^ 32)
  Lisp_Object.string (store_UInt32 host code) false

/-! ## Lisp objects in a heap

`cdr_chain_length` (`mac.c` lines 77-105) and the conversion of a tagged Lisp
object to a Core Foundation property list (lines 107-139 and 1280-1503) walk
cons cells, vectors and hash tables that may be shared or circular, and
tell objects apart with `EQ`.  Here a cons, a vector or a hash table is a
reference into a finite heap; symbols, integers, floats and strings are
values.  `EQ` is the equality of `Lisp_Object`: it is only decided between
two objects of which one is a symbol or a cons.  A reference outside the
heap reads as a cell of two `nil`, an empty vector or an empty table.
-/

namespace Plist

/-- A Lisp object: a symbol (numbered), an integer, a float (its bits), a
string (its bytes), or a reference to a cons cell, a vector or a hash table
of the heap. -/
inductive Lisp_Object where
  | symbol (name : Nat)
  | integer (n : Int)
  | float (bits : Nat)
  | string (data : List Nat)
  | cons (addr : Nat)
  | vector (addr : Nat)
  | hash_table (addr : Nat)
deriving DecidableEq

/-- The symbol `nil`. -/
def Qnil : Lisp_Object := Lisp_Object.symbol 0

/-- The symbol `t`. -/
def Qt : Lisp_Object := Lisp_Object.symbol 1

/-- The symbol `string`. -/
def Qstring : Lisp_Object := Lisp_Object.symbol 2

/-- The symbol `number`. -/
def Qnumber : Lisp_Object := Lisp_Object.symbol 3

/-- The symbol `boolean`. -/
def Qboolean : Lisp_Object := Lisp_Object.symbol 4

/-- The symbol `date`. -/
def Qdate : Lisp_Object := Lisp_Object.symbol 5

/-- The symbol `data`. -/
def Qdata : Lisp_Object := Lisp_Object.symbol 6

/-- The symbol `array`. -/
def Qarray : Lisp_Object := Lisp_Object.symbol 7

/-- The symbol `dictionary`. -/
def Qdictionary : Lisp_Object := Lisp_Object.symbol 8

/-- A slot of a hash table: `HASH_HASH`, `HASH_KEY` and `HASH_VALUE` at one
index.  The slot is in use when `HASH_HASH` is not `nil`. -/
structure Slot where
  hash : Lisp_Object
  key : Lisp_Object
  value : Lisp_Object
deriving DecidableEq

/-- The heap: the cons cells (car and cdr), the vectors (their contents) and
the hash tables (their slots), each found by its index. -/
structure Heap where
  conses : List (Lisp_Object × Lisp_Object)
  vectors : List (List Lisp_Object)
  hash_tables : List (List Slot)

/-- `NILP (x)`. -/
def NILP (x : Lisp_Object) : Bool := decide (x = Qnil)

/-- `CONSP (x)`. -/
def CONSP : Lisp_Object → Bool
  | Lisp_Object.cons _ => true
  | _ => false

/-- `XCAR (c)`, for a cons `c`. -/
def XCAR (h : Heap) : Lisp_Object → Lisp_Object
  | Lisp_Object.cons a => (h.conses.getD a (Qnil, Qnil)).1
  | _ => Qnil

/-- `XCDR (c)`, for a cons `c`. -/
def XCDR (h : Heap) : Lisp_Object → Lisp_Object
  | Lisp_Object.cons a => (h.conses.getD a (Qnil, Qnil)).2
  | _ => Qnil

/-- The loop of `cdr_chain_length` (lines 89-102), entered with `hare`,
`tortoise` and `result`.  The answer is the value returned by the function,
`none` when the fuel is exhausted. -/
def cdr_chain_length_loop (h : Heap) : Nat → Lisp_Object → Lisp_Object → Int → Option Int
  | 0, _, _, _ => none
  | fuel + 1, hare, tortoise, result =>
    if CONSP hare then
      let hare1 := XCDR h hare
      let result1 := result + 1
      if !CONSP hare1 then some result1
      else
        let hare2 := XCDR h hare1
        let result2 := result1 + 1
        let tortoise1 := XCDR h tortoise
        if hare2 = tortoise1 then some (-1)
        else cdr_chain_length_loop h fuel hare2 tortoise1 result2
    else some result

/-- `cdr_chain_length (list)` (lines 80-105).  `result` is an `EMACS_INT`; it
counts cons cells of the heap, so it does not overflow. -/
def cdr_chain_length (h : Heap) (fuel : Nat) (list : Lisp_Object) : Option Int :=
  cdr_chain_length_loop h fuel list list 0

end Plist

/-! ## The emulation of the X Resource Manager

The parser of resource lines (`mac.c` lines 1611-1866) and the resource
database (lines 1870-2070).

* A C string is the list of its bytes before the terminating NUL, none of
  which is 0.  The read pointer `P` is the part of the string that is left.
  `char_at` reads at an offset from the pointer and `advance` moves the
  pointer; both answer `none` for a position past the terminating NUL, and
  `store` answers `none` for a write past the end of a buffer.  A parser
  function answers `none` when it meets such a position or runs out of fuel.
* Every loop takes a fuel argument.
* A Lisp object is a symbol, an integer, a string (its bytes: whether it is
  multibyte plays no part here), a cons of two objects, or a hash table,
  which is a reference.  The objects built here are never modified, so a
  cons is the pair of its car and cdr, and `equal`, the test of the hash
  tables, is equality.
* The contents of a hash table is the list of its entries, the newest
  first.  `hash_lookup` answers the value `HASH_VALUE (h, i)` of the entry it
  finds rather than the index `i`.
* `isalnum` is that of the C locale, as the grammar in the comment of
  `parse_component` has it.
-/

namespace Xrm

/-- A Lisp object. -/
inductive Lisp_Object where
  | symbol (name : Nat)
  | integer (n : Int)
  | string (data : List Nat)
  | cons (car cdr : Lisp_Object)
  | hash_table (id : Nat)
deriving DecidableEq

/-- The symbol `nil`. -/
def Qnil : Lisp_Object := Lisp_Object.symbol 0

/-- The symbol `lambda`. -/
def Qlambda : Lisp_Object := Lisp_Object.symbol 1

/-- The symbol `quote`. -/
def Qquote : Lisp_Object := Lisp_Object.symbol 2

/-- `LOOSE_BINDING`, the quark of `*` (line 1625). -/
def LOOSE_BINDING : Lisp_Object := Qlambda

/-- `SINGLE_COMPONENT`, the quark of `?` (line 1626). -/
def SINGLE_COMPONENT : Lisp_Object := Qquote

/-- `NILP (x)`. -/
def NILP (x : Lisp_Object) : Bool := decide (x = Qnil)

/-- `CONSP (x)`. -/
def CONSP : Lisp_Object → Bool
  | Lisp_Object.cons _ _ => true
  | _ => false

/-- `STRINGP (x)`. -/
def STRINGP : Lisp_Object → Bool
  | Lisp_Object.string _ => true
  | _ => false

/-- `XCAR (c)`, for a cons `c`. -/
def XCAR : Lisp_Object → Lisp_Object
  | Lisp_Object.cons a _ => a
  | _ => Qnil

/-- `XCDR (c)`, for a cons `c`. -/
def XCDR : Lisp_Object → Lisp_Object
  | Lisp_Object.cons _ d => d
  | _ => Qnil

/-- `XINT (x)`, for an integer `x`. -/
def XINT : Lisp_Object → Int
  | Lisp_Object.integer n => n
  | _ => 0

/-- `Fcons (car, cdr)`. -/
def Fcons (car cdr : Lisp_Object) : Lisp_Object := Lisp_Object.cons car cdr

/-- The loop of `Fnreverse`: the cells of `list` are moved onto `acc` one
by one. -/
def Fnreverse_loop : Lisp_Object → Lisp_Object → Lisp_Object
  | Lisp_Object.cons a d, acc => Fnreverse_loop d (Lisp_Object.cons a acc)
  | _, acc => acc

/-- `Fnreverse (list)`, for a proper list. -/
def Fnreverse (list : Lisp_Object) : Lisp_Object := Fnreverse_loop list Qnil

/-- `make_unibyte_string (contents, length)`: the string of the first
`length` bytes at `contents`. -/
def make_unibyte_string (contents : List Nat) (length : Nat) : Lisp_Object :=
  Lisp_Object.string (contents.take length)

/-- `make_string (contents, nbytes)`: the string of the first `nbytes` bytes
at `contents`. -/
def make_string (contents : List Nat) (nbytes : Nat) : Lisp_Object :=
  Lisp_Object.string (contents.take nbytes)

/-! ### Reading a C string -/

/-- `P[i]`: the byte at offset `i` from the pointer, which is the
terminating NUL at offset `strlen (P)`; `none` past it. -/
def char_at (p : List Nat) (i : Nat) : Option Nat :=
  if i < p.length then some (p.getD i 0)
  else if i = p.length then some 0
  else none

/-- `P += n`; `none` when this moves the pointer past the terminating
NUL. -/
def advance (p : List Nat) (n : Nat) : Option (List Nat) :=
  if n ≤ p.length then some (p.drop n) else none

/-- `*q++ = c` on a buffer of `buf_len` bytes of which `q` have been
written; `none` when the buffer is full. -/
def store (buf_len : Nat) (q : List Nat) (c : Nat) : Option (List Nat) :=
  if q.length < buf_len then some (q ++ [c]) else none

/-- `isalnum (c)` in the C locale. -/
def isalnum (c : Nat) : Bool :=
  (48 ≤ c && c ≤ 57) || (65 ≤ c && c ≤ 90) || (97 ≤ c && c ≤ 122)

/-- The test `isalnum (*P) || *P == '_' || *P == '-'` of `parse_component`
(lines 1702 and 1706). -/
def name_char (c : Nat) : Bool := isalnum c || c = 95 || c = 45

/-- The test `'0' <= c && c <= '7'` of `parse_value`. -/
def octal_digit (c : Nat) : Bool := 48 ≤ c && c ≤ 55

/-- The value `q ? q - P : strlen (P)` with `q = strchr (P, '\n')` (lines
1757-1758 and 1807-1808): the number of bytes before the first newline, or
before the NUL when there is none. -/
def line_length : List Nat → Nat
  | [] => 0
  | c :: rest => if c = 10 then 0 else line_length rest + 1

/-! ### The parser of resource lines -/

/-- `skip_white_space (p)` (lines 1628-1635). -/
def skip_white_space : Nat → List Nat → Option (List Nat)
  | 0, _ => none
  | fuel + 1, p =>
    match char_at p 0 with
    | none => none
    | some c =>
      if c = 32 ∨ c = 9 then
        match advance p 1 with
        | none => none
        | some p1 => skip_white_space fuel p1
      else some p

/-- The loop `while (*P) if (*P++ == '\n') break;` of `parse_comment` and
`parse_include_file` (lines 1645-1647 and 1663-1665). -/
def skip_line : Nat → List Nat → Option (List Nat)
  | 0, _ => none
  | fuel + 1, p =>
    match char_at p 0 with
    | none => none
    | some c =>
      if c ≠ 0 then
        match advance p 1 with
        | none => none
        | some p1 => if c = 10 then some p1 else skip_line fuel p1
      else some p

/-- `parse_comment (p)` (lines 1637-1652), as a truth value. -/
def parse_comment (fuel : Nat) (p : List Nat) : Option (Bool × List Nat) :=
  match char_at p 0 with
  | none => none
  | some c =>
    if c = 33 then
      match advance p 1 with
      | none => none
      | some p1 =>
        match skip_line fuel p1 with
        | none => none
        | some p2 => some (true, p2)
    else some (false, p)

/-- `parse_include_file (p)` (lines 1655-1670), as a truth value. -/
def parse_include_file (fuel : Nat) (p : List Nat) : Option (Bool × List Nat) :=
  match char_at p 0 with
  | none => none
  | some c =>
    if c = 35 then
      match advance p 1 with
      | none => none
      | some p1 =>
        match skip_line fuel p1 with
        | none => none
        | some p2 => some (true, p2)
    else some (false, p)

/-- The loop of `parse_binding` (lines 1681-1683). -/
def parse_binding_loop : Nat → List Nat → Nat → Option (Nat × List Nat)
  | 0, _, _ => none
  | fuel + 1, p, binding =>
    match char_at p 0 with
    | none => none
    | some c =>
      if c = 46 ∨ c = 42 then
        match advance p 1 with
        | none => none
        | some p1 => parse_binding_loop fuel p1 (if c = 42 then 42 else binding)
      else some (binding, p)

/-- `parse_binding (p)` (lines 1672-1688): the character `'.'` (46) or
`'*'` (42), or 0. -/
def parse_binding (fuel : Nat) (p : List Nat) : Option (Nat × List Nat) :=
  match char_at p 0 with
  | none => none
  | some c =>
    if c = 46 ∨ c = 42 then
      match advance p 1 with
      | none => none
      | some p1 => parse_binding_loop fuel p1 c
    else some (0, p)

/-- The loop of `parse_component` (lines 1706-1707). -/
def parse_component_loop : Nat → List Nat → Option (List Nat)
  | 0, _ => none
  | fuel + 1, p =>
    match char_at p 0 with
    | none => none
    | some c =>
      if name_char c then
        match advance p 1 with
        | none => none
        | some p1 => parse_component_loop fuel p1
      else some p

/-- `parse_component (p)` (lines 1690-1713). -/
def parse_component (fuel : Nat) (p : List Nat) : Option (Lisp_Object × List Nat) :=
  match char_at p 0 with
  | none => none
  | some c =>
    if c = 63 then
      match advance p 1 with
      | none => none
      | some p1 => some (SINGLE_COMPONENT, p1)
    else if name_char c then
      let start := p
      match advance p 1 with
      | none => none
      | some p1 =>
        match parse_component_loop fuel p1 with
        | none => none
        | some p2 => some (make_unibyte_string start (start.length - p2.length), p2)
    else some (Qnil, p)

/-- The loop of `parse_resource_name` and what follows it (lines
1731-1746), entered with `result` and `component`. -/
def parse_resource_name_loop (fuel : Nat) :
    Nat → List Nat → Lisp_Object → Lisp_Object → Option (Lisp_Object × List Nat)
  | 0, _, _, _ => none
  | n + 1, p, result, component =>
    match parse_binding fuel p with
    | none => none
    | some (binding, p1) =>
      if binding ≠ 0 then
        let result1 := if binding = 42 then Fcons LOOSE_BINDING result else result
        match parse_component fuel p1 with
        | none => none
        | some (component1, p2) =>
          if NILP component1 then some (Qnil, p2)
          else parse_resource_name_loop fuel n p2 (Fcons component1 result1) component1
      else
        /- The final component should not be '?'.  -/
        if component = SINGLE_COMPONENT then some (Qnil, p1)
        else some (Fnreverse result, p1)

/-- `parse_resource_name (p)` (lines 1715-1747). -/
def parse_resource_name (fuel : Nat) (p : List Nat) : Option (Lisp_Object × List Nat) :=
  match parse_binding fuel p with
  | none => none
  | some (binding, p1) =>
    let result := if binding = 42 then Fcons LOOSE_BINDING Qnil else Qnil
    match parse_component fuel p1 with
    | none => none
    | some (component, p2) =>
      if NILP component then some (Qnil, p2)
      else parse_resource_name_loop fuel fuel p2 (Fcons component result) component

/-- The test of an octal escape (lines 1788-1790) on the bytes at `P`, the
first of which is `c0`: the byte it stands for when `P[0]`, `P[1]` and
`P[2]` are octal digits.  `P[1]` is read only after an octal `P[0]`, and
`P[2]` only after an octal `P[1]`. -/
def octal_escape (p : List Nat) (c0 : Nat) : Option (Option Nat) :=
  if octal_digit c0 then
    match char_at p 1 with
    | none => none
    | some c1 =>
      if octal_digit c1 then
        match char_at p 2 with
        | none => none
        | some c2 =>
          if octal_digit c2 then
            some (some (((c0 - 48) * 64 + (c1 - 48) * 8 + (c2 - 48)) % 256))
          else some none
      else some none
  else some none

/-- The inner loop of `parse_value` (lines 1765-1800) on a buffer of
`buf_len` bytes: the bytes written to the buffer, `continue_p`, and the
pointer. -/
def parse_value_line (buf_len : Nat) :
    Nat → List Nat → List Nat → Option (List Nat × Bool × List Nat)
  | 0, _, _ => none
  | fuel + 1, p, q =>
    match char_at p 0 with
    | none => none
    | some c =>
      if c ≠ 0 then
        if c = 10 then
          match advance p 1 with
          | none => none
          | some p1 => some (q, false, p1)
        else if c = 92 then
          match advance p 1 with
          | none => none
          | some p1 =>
            match char_at p1 0 with
            | none => none
            | some c0 =>
              if c0 = 0 then some (q, false, p1)
              else if c0 = 10 then
                match advance p1 1 with
                | none => none
                | some p2 => some (q, true, p2)
              else if c0 = 110 then
                match store buf_len q 10, advance p1 1 with
                | some q1, some p2 => parse_value_line buf_len fuel p2 q1
                | _, _ => none
              else
                match octal_escape p1 c0 with
                | none => none
                | some (some b) =>
                  match store buf_len q b, advance p1 3 with
                  | some q1, some p2 => parse_value_line buf_len fuel p2 q1
                  | _, _ => none
                | some none =>
                  match store buf_len q c0, advance p1 1 with
                  | some q1, some p2 => parse_value_line buf_len fuel p2 q1
                  | _, _ => none
        else
          match store buf_len q c, advance p 1 with
          | some q1, some p1 => parse_value_line buf_len fuel p1 q1
          | _, _ => none
      else some (q, false, p)

/-- The outer loop of `parse_value` (lines 1761-1818): `seq` (the newest
segment first), `total_len` and the pointer. -/
def parse_value_loop (fuel : Nat) :
    Nat → List Nat → Nat → List (List Nat) → Nat → Option (List (List Nat) × Nat × List Nat)
  | 0, _, _, _, _ => none
  | n + 1, p, buf_len, seq, total_len =>
    match parse_value_line buf_len fuel p [] with
    | none => none
    | some (q, continue_p, p1) =>
      let len := q.length
      let seq1 := q :: seq
      let total_len1 := total_len + len
      if continue_p then
        let len1 := line_length p1
        parse_value_loop fuel n p1 (if len1 > buf_len then len1 else buf_len) seq1 total_len1
      else some (seq1, total_len1, p1)

/-- `memcpy (buf + q, src, len)` on a buffer `buf`. -/
def memcpy (buf : List Nat) (q : Nat) (src : List Nat) : List Nat :=
  buf.take q ++ src ++ buf.drop (q + src.length)

/-- The loop that joins the segments (lines 1827-1832): `q` is the offset
of the write pointer in `buf`; `none` when `q -= len` moves it before the
buffer. -/
def parse_value_join : List (List Nat) → Nat → List Nat → Option (List Nat)
  | [], _, buf => some buf
  | s :: seq, q, buf =>
    if s.length ≤ q then parse_value_join seq (q - s.length) (memcpy buf (q - s.length) s)
    else none

/-- `parse_value (p)` (lines 1749-1837). -/
def parse_value (fuel : Nat) (p : List Nat) : Option (Lisp_Object × List Nat) :=
  let buf_len := line_length p
  match parse_value_loop fuel fuel p buf_len [] 0 with
  | none => none
  | some (seq, total_len, p1) =>
    if (seq.headD []).length = total_len then
      some (make_string (seq.headD []) total_len, p1)
    else
      match parse_value_join seq total_len (List.replicate total_len 0) with
      | none => none
      | some buf => some (make_string buf total_len, p1)

/-- The label `cleanup` of `parse_resource_line` (lines 1862-1865). -/
def parse_resource_line_cleanup (fuel : Nat) (p : List Nat) :
    Option (Lisp_Object × List Nat) :=
  match parse_value fuel p with
  | none => none
  | some (_, p1) => some (Qnil, p1)

/-- `parse_resource_line (p)` (lines 1839-1866). -/
def parse_resource_line (fuel : Nat) (p : List Nat) : Option (Lisp_Object × List Nat) :=
  match parse_comment fuel p with
  | none => none
  | some (true, p1) => some (Qnil, p1)
  | some (false, p1) =>
    match parse_include_file fuel p1 with
    | none => none
    | some (true, p2) => some (Qnil, p2)
    | some (false, p2) =>
      match skip_white_space fuel p2 with
      | none => none
      | some p3 =>
        match parse_resource_name fuel p3 with
        | none => none
        | some (quarks, p4) =>
          if NILP quarks then parse_resource_line_cleanup fuel p4
          else
            match skip_white_space fuel p4 with
            | none => none
            | some p5 =>
              match char_at p5 0 with
              | none => none
              | some c =>
                if c ≠ 58 then parse_resource_line_cleanup fuel p5
                else
                  match advance p5 1 with
                  | none => none
                  | some p6 =>
                    match skip_white_space fuel p6 with
                    | none => none
                    | some p7 =>
                      match parse_value fuel p7 with
                      | none => none
                      | some (value, p8) => some (Fcons quarks value, p8)

/-! ### The resource database -/

/-- The contents of a hash table whose test is `equal`: its entries, the
newest first. -/
abbrev Table := List (Lisp_Object × Lisp_Object)

/-- `hash_lookup (h, key, ...)` followed by `HASH_VALUE (h, i)`: the value of
the entry of `key`, `none` when `hash_lookup` answers a negative index. -/
def hash_lookup : Table → Lisp_Object → Option Lisp_Object
  | [], _ => none
  | (k, v) :: rest, key => if key = k then some v else hash_lookup rest key

/-- `hash_put (h, key, value, hash_code)`: a new entry. -/
def hash_put (h : Table) (key value : Lisp_Object) : Table := (key, value) :: h

/-- `Fgethash (key, table, dflt)`. -/
def Fgethash (key : Lisp_Object) (table : Table) (dflt : Lisp_Object) : Lisp_Object :=
  match hash_lookup table key with
  | some v => v
  | none => dflt

/-- The entries of a table with the value of `key` replaced. -/
def set_value (key value : Lisp_Object) : Table → Table
  | [] => []
  | (k, v) :: rest =>
    if key = k then (k, value) :: rest else (k, v) :: set_value key value rest

/-- `Fputhash (key, value, table)`: the value of the entry of `key` is
replaced when there is one, and a new entry is put otherwise. -/
def Fputhash (key value : Lisp_Object) (table : Table) : Table :=
  match hash_lookup table key with
  | some _ => set_value key value table
  | none => hash_put table key value

/-- `HASHKEY_MAX_NID` (line 1886). -/
def HASHKEY_MAX_NID : Lisp_Object := Lisp_Object.integer 0

/-- `HASHKEY_QUERY_CACHE` (line 1887). -/
def HASHKEY_QUERY_CACHE : Lisp_Object := Lisp_Object.integer (-1)

/-- `xrm_create_database ()` (lines 1889-1902): the contents of the new
table. -/
def xrm_create_database : Table :=
  Fputhash HASHKEY_QUERY_CACHE Qnil (Fputhash HASHKEY_MAX_NID (Lisp_Object.integer 0) [])

/-- The loop of `xrm_q_put_resource` (lines 1918-1930): the table, `max_nid`
and `node_id` after it. -/
def xrm_q_put_resource_loop : Table → Int → Lisp_Object → Lisp_Object →
    Table × Int × Lisp_Object
  | h, max_nid, node_id, Lisp_Object.cons q rest =>
    let key := Fcons node_id q
    match hash_lookup h key with
    | none =>
      let max_nid1 := max_nid + 1
      let node_id1 := Lisp_Object.integer max_nid1
      xrm_q_put_resource_loop (hash_put h key node_id1) max_nid1 node_id1 rest
    | some v => xrm_q_put_resource_loop h max_nid v rest
  | h, max_nid, node_id, _ => (h, max_nid, node_id)

/-- `xrm_q_put_resource (database, quarks, value)` (lines 1904-1935): the
contents of `database` after the call.  `max_nid` is an `EMACS_INT`; it
counts entries of the table, so it does not overflow. -/
def xrm_q_put_resource (database : Table) (quarks value : Lisp_Object) : Table :=
  let max_nid := XINT (Fgethash HASHKEY_MAX_NID database Qnil)
  let (h, max_nid1, node_id) :=
    xrm_q_put_resource_loop database max_nid (Lisp_Object.integer 0) quarks
  Fputhash HASHKEY_QUERY_CACHE Qnil
    (Fputhash HASHKEY_MAX_NID (Lisp_Object.integer max_nid1)
      (Fputhash node_id value h))

/-- The loop of `xrm_merge_string_database` (lines 1949-1955). -/
def xrm_merge_string_database_loop (fuel : Nat) : Nat → Table → List Nat → Option Table
  | 0, _, _ => none
  | n + 1, database, data =>
    match char_at data 0 with
    | none => none
    | some c =>
      if c ≠ 0 then
        match parse_resource_line fuel data with
        | none => none
        | some (quarks_value, data1) =>
          if !NILP quarks_value then
            xrm_merge_string_database_loop fuel n
              (xrm_q_put_resource database (XCAR quarks_value) (XCDR quarks_value)) data1
          else xrm_merge_string_database_loop fuel n database data1
      else some database

/-- `xrm_merge_string_database (database, data)` (lines 1942-1956): the
contents of `database` after the call. -/
def xrm_merge_string_database (fuel : Nat) (database : Table) (data : List Nat) :
    Option Table :=
  xrm_merge_string_database_loop fuel fuel database data

/-- The loop over the tight bindings of `xrm_q_get_resource_1` (lines
1976-1987), `get` being the recursive call: `some (some value)` when the
loop returns `value` from the function, `some none` when it ends. -/
def xrm_q_get_resource_tight (database : Table)
    (get : Lisp_Object → Lisp_Object → Lisp_Object → Option Lisp_Object)
    (node_id quark_name quark_class : Lisp_Object) :
    List Lisp_Object → Option (Option Lisp_Object)
  | [] => some none
  | label :: labels =>
    match hash_lookup database (Fcons node_id label) with
    | some dest =>
      match get dest (XCDR quark_name) (XCDR quark_class) with
      | none => none
      | some value =>
        if !NILP value then some (some value)
        else xrm_q_get_resource_tight database get node_id quark_name quark_class labels
    | none => xrm_q_get_resource_tight database get node_id quark_name quark_class labels

/-- `xrm_q_get_resource_1 (database, node_id, quark_name, quark_class)`
(lines 1958-2004); the fuel bounds the depth of the recursion. -/
def xrm_q_get_resource_1 (database : Table) :
    Nat → Lisp_Object → Lisp_Object → Lisp_Object → Option Lisp_Object
  | 0, _, _, _ => none
  | fuel + 1, node_id, quark_name, quark_class =>
    if !CONSP quark_name then some (Fgethash node_id database Qnil)
    else
      /- First, try tight bindings -/
      match xrm_q_get_resource_tight database (xrm_q_get_resource_1 database fuel)
          node_id quark_name quark_class
          [XCAR quark_name, XCAR quark_class, SINGLE_COMPONENT] with
      | none => none
      | some (some value) => some value
      | some none =>
        /- Then, try loose bindings -/
        match hash_lookup database (Fcons node_id LOOSE_BINDING) with
        | some dest =>
          match xrm_q_get_resource_1 database fuel dest quark_name quark_class with
          | none => none
          | some value =>
            if !NILP value then some value
            else xrm_q_get_resource_1 database fuel node_id
              (XCDR quark_name) (XCDR quark_class)
        | none => some Qnil

/-- `xrm_q_get_resource (database, quark_name, quark_class)` (lines
2006-2013). -/
def xrm_q_get_resource (database : Table) (fuel : Nat)
    (quark_name quark_class : Lisp_Object) : Option Lisp_Object :=
  xrm_q_get_resource_1 database fuel (Lisp_Object.integer 0) quark_name quark_class

/-- The hash tables: the contents of the resource database, and the
contents of the other hash tables, each found by the number of its
reference. -/
structure Store where
  database : Table
  tables : List Table

/-- The loops of `xrm_get_resource` that check that every quark is a string
(lines 2051-2053 and 2058-2060): the number of quarks, `none` when one is
not a string. -/
def count_strings : Lisp_Object → Option Nat
  | Lisp_Object.cons a d =>
    if !STRINGP a then none
    else
      match count_strings d with
      | none => none
      | some n => some (n + 1)
  | _ => some 0

/-- The part of `xrm_get_resource` after a miss in the query cache, up to
the lookup (lines 2048-2066): `some none` when it returns `Qnil` early. -/
def xrm_get_resource_query (fuel : Nat) (database : Table) (name cls : List Nat) :
    Option (Option Lisp_Object) :=
  match parse_resource_name fuel name with
  | none => none
  | some (quark_name, name1) =>
    match char_at name1 0 with
    | none => none
    | some c =>
      if c ≠ 0 then some none
      else
        match count_strings quark_name with
        | none => some none
        | some nn =>
          match parse_resource_name fuel cls with
          | none => none
          | some (quark_class, cls1) =>
            match char_at cls1 0 with
            | none => none
            | some c1 =>
              if c1 ≠ 0 then some none
              else
                match count_strings quark_class with
                | none => some none
                | some nc =>
                  if nn ≠ nc then some none
                  else
                    match xrm_q_get_resource database fuel quark_name quark_class with
                    | none => none
                    | some tmp => some (some tmp)

/-- `xrm_get_resource (database, name, class)` (lines 2018-2070): the value
returned and the hash tables after the call.  `none` also when the value of
`HASHKEY_QUERY_CACHE` is neither `nil` nor a hash table. -/
def xrm_get_resource (fuel : Nat) (st : Store) (name cls : List Nat) :
    Option (Lisp_Object × Store) :=
  let key := Lisp_Object.string (name ++ [0] ++ cls)
  let query_cache := Fgethash HASHKEY_QUERY_CACHE st.database Qnil
  let made : Lisp_Object × Store :=
    if NILP query_cache then
      (Lisp_Object.hash_table st.tables.length,
        { database := Fputhash HASHKEY_QUERY_CACHE (Lisp_Object.hash_table st.tables.length)
            st.database
          tables := st.tables ++ [[]] })
    else (query_cache, st)
  let st1 := made.2
  match made.1 with
  | Lisp_Object.hash_table id =>
    if id < st1.tables.length then
      let h := st1.tables.getD id []
      match hash_lookup h key with
      | some value => some (value, st1)
      | none =>
        match xrm_get_resource_query fuel st1.database name cls with
        | none => none
        | some none => some (Qnil, st1)
        | some (some tmp) =>
          some (tmp, { st1 with tables := st1.tables.set id (hash_put h key tmp) })
    else none
  | _ => none

end Xrm

/-! ## Conversion of a tagged Lisp object to a property list

`cfproperty_list_create_with_lisp_1` (`mac.c` lines 1280-1491) with the
binary search tree of the objects on the traversal stack (lines 107-139),
and `Fmac_convert_property_list` (lines 2939-3016) as far as it deals with a
Lisp representation.  The Core Foundation calls that create an object may
each return `NULL`; which of them do is given by `host`, a function of the
number of calls made before.  `XHASH` comes from `lisp.h` and is a
parameter: the number by which the tree orders its objects.
-/

namespace Plist

/-- `STRINGP (x)`. -/
def STRINGP : Lisp_Object → Bool
  | Lisp_Object.string _ => true
  | _ => false

/-- `INTEGERP (x)`. -/
def INTEGERP : Lisp_Object → Bool
  | Lisp_Object.integer _ => true
  | _ => false

/-- `FLOATP (x)`. -/
def FLOATP : Lisp_Object → Bool
  | Lisp_Object.float _ => true
  | _ => false

/-- `VECTORP (x)`. -/
def VECTORP : Lisp_Object → Bool
  | Lisp_Object.vector _ => true
  | _ => false

/-- `HASH_TABLE_P (x)`. -/
def HASH_TABLE_P : Lisp_Object → Bool
  | Lisp_Object.hash_table _ => true
  | _ => false

/-- `XINT (x)`, for an integer `x`. -/
def XINT : Lisp_Object → Int
  | Lisp_Object.integer n => n
  | _ => 0

/-- `XFLOAT_DATA (x)`, for a float `x`: its bits. -/
def XFLOAT_DATA : Lisp_Object → Nat
  | Lisp_Object.float bits => bits
  | _ => 0

/-- `SDATA (x)` with `SBYTES (x)`, for a string `x`: its bytes. -/
def SDATA : Lisp_Object → List Nat
  | Lisp_Object.string data => data
  | _ => []

/-- The elements `AREF (x, 0)` ... `AREF (x, ASIZE (x) - 1)` of a vector
`x`. -/
def contents (h : Heap) : Lisp_Object → List Lisp_Object
  | Lisp_Object.vector a => h.vectors.getD a []
  | _ => []

/-- The slots `0` ... `HASH_TABLE_SIZE (h) - 1` of a hash table `x`. -/
def slots (h : Heap) : Lisp_Object → List Slot
  | Lisp_Object.hash_table a => h.hash_tables.getD a []
  | _ => []

/-- `struct bstree_node` (lines 112-116), a pointer to a node being the
node, and `NULL` the empty tree. -/
inductive bstree_node where
  | NULL
  | node (obj : Lisp_Object) (left right : bstree_node)
deriving DecidableEq

/-- `bstree_find (bstree, obj)` (lines 125-139).  The value returned points
to a variable of the tree; it is given as the way to that variable from
`*bstree`: `false` for `left` and `true` for `right`. -/
def bstree_find (XHASH : Lisp_Object → Nat) : bstree_node → Lisp_Object → List Bool
  | bstree_node.NULL, _ => []
  | bstree_node.node o left right, obj =>
    if XHASH obj < XHASH o then false :: bstree_find XHASH left obj
    else if XHASH obj > XHASH o then true :: bstree_find XHASH right obj
    else []

/-- `*bstree_ref`: the value of the variable of the tree at the end of the
way `bstree_ref`. -/
def deref : bstree_node → List Bool → bstree_node
  | t, [] => t
  | bstree_node.NULL, _ :: _ => bstree_node.NULL
  | bstree_node.node _ left _, false :: way => deref left way
  | bstree_node.node _ _ right, true :: way => deref right way

/-- `*bstree_ref = v`: the tree after the assignment to the variable at the
end of the way `bstree_ref`. -/
def assign : bstree_node → List Bool → bstree_node → bstree_node
  | _, [], v => v
  | bstree_node.NULL, _ :: _, _ => bstree_node.NULL
  | bstree_node.node o left right, false :: way, v =>
    bstree_node.node o (assign left way v) right
  | bstree_node.node o left right, true :: way, v =>
    bstree_node.node o left (assign right way v)

/-- A Core Foundation property list: what the create calls were given.  A
number made from a string holds the text that `strtoll` reads, and a date
holds the three integers it is computed from. -/
inductive CFPropertyList where
  | string (data : List Nat)
  | number_long (value : Int)
  | number_double (bits : Nat)
  | number_sint64 (text : List Nat)
  | boolean (value : Bool)
  | date (high low usec : Int)
  | data (bytes : List Nat)
  | array (values : List CFPropertyList)
  | dictionary (entries : List (List Nat × CFPropertyList))

/-- `CFDictionaryAddValue (dictionary, key, value)`: the entries after the
call, which adds the value when the key is not there yet. -/
def CFDictionaryAddValue (dictionary : List (List Nat × CFPropertyList))
    (key : List Nat) (value : CFPropertyList) : List (List Nat × CFPropertyList) :=
  if dictionary.any (fun e => decide (e.1 = key)) then dictionary
  else dictionary ++ [(key, value)]

/-- The state of a conversion: the tree `*ancestors`, and the number of
Core Foundation create calls made so far. -/
structure Conv where
  ancestors : bstree_node
  created : Nat

/-- One Core Foundation create call (`CFNumberCreate`, `CFDateCreate`,
`CFDataCreate`, `CFArrayCreateMutable`, `CFDictionaryCreateMutable`, or the
calls of `cfstring_create_with_string`, lines 885-904, taken as one):
whether it returns an object, and the state after it. -/
def cf_create (host : Nat → Bool) (s : Conv) : Bool × Conv :=
  (host s.created, { s with created := s.created + 1 })

/-- A create call that gives `value` when it returns an object. -/
def cf_value (host : Nat → Bool) (s : Conv) (value : CFPropertyList) :
    Option CFPropertyList × Conv :=
  (if (cf_create host s).1 then some value else none, (cf_create host s).2)

/-- The loop over the elements of a vector (lines 1369-1387), `create`
being the recursive call: the array, or `none` when it was released because
an element gave `NULL`. -/
def array_loop (create : Lisp_Object → Conv → Option (Option CFPropertyList × Conv)) :
    List Lisp_Object → List CFPropertyList → Conv →
    Option (Option (List CFPropertyList) × Conv)
  | [], array, s => some (some array, s)
  | x :: rest, array, s =>
    match create x s with
    | none => none
    | some (some value, s1) => array_loop create rest (array ++ [value]) s1
    | some (none, s1) => some (none, s1)

/-- The loop over the cells of an alist (lines 1407-1435), `create` being
the recursive call: the dictionary, or `none` when it was released because
an entry gave `NULL` or the list does not end in `nil`. -/
def alist_loop (h : Heap) (host : Nat → Bool)
    (create : Lisp_Object → Conv → Option (Option CFPropertyList × Conv)) :
    Nat → Lisp_Object → List (List Nat × CFPropertyList) → Conv →
    Option (Option (List (List Nat × CFPropertyList)) × Conv)
  | 0, _, _, _ => none
  | steps + 1, data, dictionary, s =>
    if CONSP data then
      if CONSP (XCAR h data) && STRINGP (XCAR h (XCAR h data)) then
        if (cf_create host s).1 then
          match create (XCDR h (XCAR h data)) (cf_create host s).2 with
          | none => none
          | some (some value, s1) =>
            alist_loop h host create steps (XCDR h data)
              (CFDictionaryAddValue dictionary (SDATA (XCAR h (XCAR h data))) value) s1
          | some (none, s1) => some (none, s1)
        else some (none, (cf_create host s).2)
      else some (none, s)
    else if !NILP data then some (none, s)
    else some (some dictionary, s)

/-- The loop over the slots of a hash table (lines 1451-1481), `create`
being the recursive call: the dictionary, or `none` when it was released
because an entry gave `NULL`. -/
def hash_loop (host : Nat → Bool)
    (create : Lisp_Object → Conv → Option (Option CFPropertyList × Conv)) :
    List Slot → List (List Nat × CFPropertyList) → Conv →
    Option (Option (List (List Nat × CFPropertyList)) × Conv)
  | [], dictionary, s => some (some dictionary, s)
  | slot :: rest, dictionary, s =>
    if !NILP slot.hash then
      if STRINGP slot.key then
        if (cf_create host s).1 then
          match create slot.value (cf_create host s).2 with
          | none => none
          | some (some value, s1) =>
            hash_loop host create rest
              (CFDictionaryAddValue dictionary (SDATA slot.key) value) s1
          | some (none, s1) => some (none, s1)
        else some (none, (cf_create host s).2)
      else some (none, s)
    else hash_loop host create rest dictionary s

/-- The test of the data of a date (lines 1329-1332). -/
def date_data (h : Heap) (data : Lisp_Object) : Bool :=
  CONSP data && INTEGERP (XCAR h data)
    && CONSP (XCDR h data) && INTEGERP (XCAR h (XCDR h data))
    && CONSP (XCDR h (XCDR h data))
    && INTEGERP (XCAR h (XCDR h (XCDR h data)))

/-- The recursive cases of `cfproperty_list_create_with_lisp_1` (lines
1357-1485), entered with `obj` recorded in the tree, `create` being the
recursive call: the value of `result` and the state after them. -/
def recursive_cases (h : Heap) (host : Nat → Bool) (steps : Nat)
    (create : Lisp_Object → Conv → Option (Option CFPropertyList × Conv))
    (obj : Lisp_Object) (s1 : Conv) : Option (Option CFPropertyList × Conv) :=
  if XCAR h obj = Qarray then
    if VECTORP (XCDR h obj) then
      if (cf_create host s1).1 then
        match array_loop create (contents h (XCDR h obj)) [] (cf_create host s1).2 with
        | none => none
        | some (array, s2) => some (array.map CFPropertyList.array, s2)
      else some (none, (cf_create host s1).2)
    else some (none, s1)
  else if XCAR h obj = Qdictionary then
    if CONSP (XCDR h obj) || NILP (XCDR h obj) then
      match cdr_chain_length h steps (XCDR h obj) with
      | none => none
      | some size =>
        if size ≥ 0 then
          if (cf_create host s1).1 then
            match alist_loop h host create steps (XCDR h obj) [] (cf_create host s1).2 with
            | none => none
            | some (dictionary, s2) => some (dictionary.map CFPropertyList.dictionary, s2)
          else some (none, (cf_create host s1).2)
        else some (none, s1)
    else if HASH_TABLE_P (XCDR h obj) then
      if (cf_create host s1).1 then
        match hash_loop host create (slots h (XCDR h obj)) [] (cf_create host s1).2 with
        | none => none
        | some (dictionary, s2) => some (dictionary.map CFPropertyList.dictionary, s2)
      else some (none, (cf_create host s1).2)
    else some (none, s1)
  else some (none, s1)

/-- `cfproperty_list_create_with_lisp_1 (obj, ancestors)` (lines
1280-1491): the value returned, `none` being `NULL`, and the state after
the call.  `fuel` bounds the depth of the recursion, and `steps` the
iterations of `cdr_chain_length` and of the loop over an alist. -/
def cfproperty_list_create_with_lisp_1 (h : Heap) (XHASH : Lisp_Object → Nat)
    (host : Nat → Bool) (steps : Nat) :
    Nat → Lisp_Object → Conv → Option (Option CFPropertyList × Conv)
  | 0, _, _ => none
  | fuel + 1, obj, s =>
    if !CONSP obj then some (none, s)
    else if XCAR h obj = Qstring then
      if STRINGP (XCDR h obj) then
        some (cf_value host s (CFPropertyList.string (SDATA (XCDR h obj))))
      else some (none, s)
    else if XCAR h obj = Qnumber then
      if INTEGERP (XCDR h obj) then
        some (cf_value host s (CFPropertyList.number_long (XINT (XCDR h obj))))
      else if FLOATP (XCDR h obj) then
        some (cf_value host s (CFPropertyList.number_double (XFLOAT_DATA (XCDR h obj))))
      else if STRINGP (XCDR h obj) then
        some (cf_value host s (CFPropertyList.number_sint64 (SDATA (XCDR h obj))))
      else some (none, s)
    else if XCAR h obj = Qboolean then
      if NILP (XCDR h obj) then some (some (CFPropertyList.boolean false), s)
      else if XCDR h obj = Qt then some (some (CFPropertyList.boolean true), s)
      else some (none, s)
    else if XCAR h obj = Qdate then
      if date_data h (XCDR h obj) then
        some (cf_value host s
          (CFPropertyList.date (XINT (XCAR h (XCDR h obj)))
            (XINT (XCAR h (XCDR h (XCDR h obj))))
            (XINT (XCAR h (XCDR h (XCDR h (XCDR h obj)))))))
      else some (none, s)
    else if XCAR h obj = Qdata then
      if STRINGP (XCDR h obj) then
        some (cf_value host s (CFPropertyList.data (SDATA (XCDR h obj))))
      else some (none, s)
    /- Recursive cases follow. -/
    else if deref s.ancestors (bstree_find XHASH s.ancestors obj) = bstree_node.NULL then
      match recursive_cases h host steps
          (cfproperty_list_create_with_lisp_1 h XHASH host steps fuel) obj
          { ancestors :=
              assign s.ancestors (bstree_find XHASH s.ancestors obj)
                (bstree_node.node obj bstree_node.NULL bstree_node.NULL)
            created := s.created } with
      | none => none
      | some (result, s3) =>
        some (result,
          { ancestors :=
              assign s3.ancestors (bstree_find XHASH s.ancestors obj) bstree_node.NULL
            created := s3.created })
    else some (none, s)

/-- `cfproperty_list_create_with_lisp (obj)` (lines 1496-1503): the value
returned, `none` being `NULL`. -/
def cfproperty_list_create_with_lisp (h : Heap) (XHASH : Lisp_Object → Nat)
    (host : Nat → Bool) (fuel : Nat) (obj : Lisp_Object) :
    Option (Option CFPropertyList) :=
  match cfproperty_list_create_with_lisp_1 h XHASH host fuel fuel obj
      ⟨bstree_node.NULL, 0⟩ with
  | none => none
  | some (result, _) => some result

/-- How a call of a Lisp function ends: it returns a value, or it signals
`wrong-type-argument` for an argument. -/
inductive Outcome where
  | value (v : Lisp_Object)
  | wrong_type_argument (arg : Lisp_Object)
deriving DecidableEq

/-- `Fmac_convert_property_list (property_list, format, hash_bound)` (lines
2976-3016).  `create_with_string` is `cfproperty_list_create_with_string`,
for a property list given as a string, and `convert` is the conversion of a
property list that is not `NULL` to the format (lines 2998-3007). -/
def Fmac_convert_property_list (h : Heap) (XHASH : Lisp_Object → Nat) (host : Nat → Bool)
    (create_with_string : Lisp_Object → Option CFPropertyList)
    (convert : CFPropertyList → Lisp_Object → Lisp_Object → Lisp_Object)
    (fuel : Nat) (property_list format hash_bound : Lisp_Object) : Option Outcome :=
  if !CONSP property_list && !STRINGP property_list then
    some (Outcome.wrong_type_argument property_list)
  else if !NILP hash_bound && !INTEGERP hash_bound then
    some (Outcome.wrong_type_argument hash_bound)
  else
    let plist : Option (Option CFPropertyList) :=
      if CONSP property_list then
        cfproperty_list_create_with_lisp h XHASH host fuel property_list
      else some (create_with_string property_list)
    match plist with
    | none => none
    | some none => some (Outcome.value Qnil)
    | some (some p) => some (Outcome.value (convert p format hash_bound))

end Plist

/-! ## Traces, frames, invariants and examples

The definitions below serve the proofs: predicates on the history of a call
(which calls `sys_select` can make, in which order), what the steps leave
unchanged, what a cdr chain, a resource name, a resource value and a
resource database are, and concrete callers, environments, heaps and
databases on which the theorems are evaluated. -/

/-- The events of the wake handler when it ran during a slice. -/
def wake_events (fd0 : Nat) (woke : Bool) : List Event :=
  if woke then [Event.read_all_from_nonblocking_fd fd0] else []

/-- The traces of the time-slicing loop of `select_and_poll_event`, started
with `timeoutval = t` and ending with `timeoutval = t'`. -/
inductive PollTrace (fd0 : Nat) : EventTimeout → List Event → EventTimeout → Prop
  | timeout (t : EventTimeout) (w : Bool) :
      PollTrace fd0 t (wake_events fd0 w ++ [Event.mac_run_loop_run_once t 0 w]) 0
  | event (t r : EventTimeout) (w : Bool) : r ≠ 0 →
      PollTrace fd0 t (wake_events fd0 w ++ [Event.mac_run_loop_run_once t r w,
        Event.mac_peek_next_event true]) r
  | pending (t r : EventTimeout) (w : Bool) : r ≠ 0 →
      PollTrace fd0 t (wake_events fd0 w ++ [Event.mac_run_loop_run_once t r w,
        Event.mac_peek_next_event false, Event.detect_input_pending true]) r
  | again (t r : EventTimeout) (w : Bool) (rest : List Event) (t' : EventTimeout) :
      r ≠ 0 → PollTrace fd0 r rest t' →
      PollTrace fd0 t (wake_events fd0 w ++ [Event.mac_run_loop_run_once t r w,
        Event.mac_peek_next_event false, Event.detect_input_pending false] ++ rest) t'

/-- What the time-slicing loops leave unchanged. -/
def SliceFrame (s s' : State) : Prop :=
  s'.inhibit_window_system = s.inhibit_window_system ∧
  s'.noninteractive = s.noninteractive ∧
  s'.wakeup_fds0 = s.wakeup_fds0 ∧ s'.wakeup_fds1 = s.wakeup_fds1 ∧
  s'.select_run_loop = s.select_run_loop ∧ s'.select_args = s.select_args ∧
  s'.errno = s.errno ∧ s'.rfds = s.rfds ∧ s'.wfds = s.wfds ∧ s'.efds = s.efds

/-- The traces of the time-slicing loop of `sys_select`, entered with the
wake flag clear. -/
inductive WaitTrace (fd0 : Nat) : EventTimeout → List Event → EventTimeout → Prop
  | timeout (t : EventTimeout) (w : Bool) :
      WaitTrace fd0 t (wake_events fd0 w ++ [Event.mac_run_loop_run_once t 0 w]) 0
  | woke (t r : EventTimeout) : r ≠ 0 →
      WaitTrace fd0 t (wake_events fd0 true ++ [Event.mac_run_loop_run_once t r true]) r
  | event (t r : EventTimeout) : r ≠ 0 →
      WaitTrace fd0 t [Event.mac_run_loop_run_once t r false,
        Event.mac_peek_next_event true] r
  | pending (t r : EventTimeout) : r ≠ 0 →
      WaitTrace fd0 t [Event.mac_run_loop_run_once t r false,
        Event.mac_peek_next_event false, Event.detect_input_pending true] r
  | again (t r : EventTimeout) (rest : List Event) (t' : EventTimeout) :
      r ≠ 0 → WaitTrace fd0 r rest t' →
      WaitTrace fd0 t ([Event.mac_run_loop_run_once t r false,
        Event.mac_peek_next_event false, Event.detect_input_pending false] ++ rest) t'

/-- Events after which the time-slicing loop of `select_and_poll_event`
stops. -/
def poll_stop : Event → Prop
  | Event.mac_run_loop_run_once _ r _ => r = 0
  | Event.mac_peek_next_event b => b = true
  | Event.detect_input_pending b => b = true
  | _ => False

/-- Events after which the time-slicing loop of `sys_select` stops. -/
def wait_stop : Event → Prop
  | Event.mac_run_loop_run_once _ r w => r = 0 ∨ w = true
  | Event.mac_peek_next_event b => b = true
  | Event.detect_input_pending b => b = true
  | _ => False

/-- An answer of `mac_run_loop_run_once` saying that no time remains. -/
def timed_out_slice : Event → Prop
  | Event.mac_run_loop_run_once _ r _ => r = 0
  | _ => False

/-- The events a time-slicing loop can append. -/
def slice_event (fd0 : Nat) : Event → Prop
  | Event.mac_run_loop_run_once _ _ _ => True
  | Event.mac_peek_next_event _ => True
  | Event.detect_input_pending _ => True
  | Event.read_all_from_nonblocking_fd fd => fd = fd0
  | _ => False

/-- What every step of the emulation keeps: which set pointers are `NULL`,
and the wake descriptors. -/
def SameShape (s s' : State) : Prop :=
  s'.rfds.isSome = s.rfds.isSome ∧ s'.wfds.isSome = s.wfds.isSome ∧
  s'.efds.isSome = s.efds.isSome ∧
  s'.wakeup_fds0 = s.wakeup_fds0 ∧ s'.wakeup_fds1 = s.wakeup_fds1

/-- The answer `out` carries what the `select` answer `res` left. -/
def select_left (s : State) (res : SelectRes) (out : Int × State) : Prop :=
  out.1 = res.ret ∧
  out.2.rfds = (s.rfds.map fun _ => res.rfds) ∧
  out.2.wfds = (s.wfds.map fun _ => res.wfds) ∧
  out.2.efds = (s.efds.map fun _ => res.efds) ∧
  (res.ret < 0 → out.2.errno = res.errno)

/-- The traces of the `while (1)` loop of `select_and_poll_event` once
`timeoutval` is 0 and the timeout is `NULL`: it polls until something is
pending or ready. -/
inductive SpinTrace (s : State) : List Event → Int × State → Prop
  | pending (out : Int × State) : out.1 = 0 →
      SpinTrace s [Event.detect_input_pending true] out
  | ready (req : SelectReq) (res : SelectRes) (out : Int × State) :
      res.ret ≠ 0 → select_left s res out →
      SpinTrace s [Event.detect_input_pending false, Event.select req res] out
  | again (req : SelectReq) (res : SelectRes) (rest : List Event)
      (out : Int × State) : res.ret = 0 → SpinTrace s rest out →
      SpinTrace s ([Event.detect_input_pending false, Event.select req res] ++ rest) out

/-- The traces and answers of `select_and_poll_event` started in a state
shaped like `s`. -/
inductive PollRun (fd0 : Nat) (s : State) (timeout : Option EMACS_TIME) :
    List Event → Int × State → Prop
  | pending (d : Bool) (out : Int × State) : out.1 = -1 → out.2.errno = EINTR →
      PollRun fd0 s timeout
        [Event.detect_input_pending true, Event.detect_input_pending d] out
  | ready (req : SelectReq) (res : SelectRes) (out : Int × State) :
      res.ret ≠ 0 → select_left s res out →
      PollRun fd0 s timeout
        [Event.detect_input_pending false, Event.select req res] out
  | zero (req : SelectReq) (res : SelectRes) (out : Int × State) :
      res.ret = 0 → timeoutval_of timeout = 0 → out.1 = 0 →
      PollRun fd0 s timeout
        [Event.detect_input_pending false, Event.select req res] out
  | timed_out (req : SelectReq) (res : SelectRes) (sl : List Event)
      (out : Int × State) :
      res.ret = 0 → timeoutval_of timeout ≠ 0 →
      PollTrace fd0 (timeoutval_of timeout) sl 0 → timeout ≠ none → out.1 = 0 →
      PollRun fd0 s timeout
        ([Event.detect_input_pending false, Event.select req res] ++ sl) out
  | interrupted (req : SelectReq) (res : SelectRes) (sl : List Event)
      (t' : EventTimeout) (d : Bool) (out : Int × State) :
      res.ret = 0 → timeoutval_of timeout ≠ 0 →
      PollTrace fd0 (timeoutval_of timeout) sl t' → t' ≠ 0 →
      out.1 = -1 → out.2.errno = EINTR →
      PollRun fd0 s timeout
        ([Event.detect_input_pending false, Event.select req res] ++ sl
          ++ [Event.detect_input_pending d]) out
  | spun (req : SelectReq) (res : SelectRes) (sl rest : List Event)
      (out : Int × State) :
      res.ret = 0 → timeoutval_of timeout ≠ 0 →
      PollTrace fd0 (timeoutval_of timeout) sl 0 → timeout = none →
      SpinTrace s rest out →
      PollRun fd0 s timeout
        ([Event.detect_input_pending false, Event.select req res] ++ sl ++ rest) out

/-- The request of the background `select`, for the sets the caller passed. -/
def background_request (wakeup_fds1 : Nat) (nfds : Int) (orfds : SELECT_TYPE)
    (wfds efds : Option SELECT_TYPE) : SelectReq :=
  ⟨max nfds ((wakeup_fds1 : Int) + 1), some (insert wakeup_fds1 orfds), wfds, efds, none⟩

/-- The events of `start_background_waiter`. -/
def start_events (be : Backend) (launched : Bool) (wakeup_fds1 : Nat)
    (req : SelectReq) : List Event :=
  match be with
  | Backend.gcd => [Event.dispatch_sync, Event.background_select req]
  | Backend.pthread =>
    (if launched then [] else [Event.select_thread_launch]) ++
      [Event.select_sem_wait, Event.read_all_from_nonblocking_fd wakeup_fds1,
        Event.background_select req]

/-- The events of `wake_background_waiter`. -/
def stop_events (be : Backend) (wakeup_fds0 wakeup_fds1 : Nat) : List Event :=
  match be with
  | Backend.gcd => [Event.write_one_byte_to_fd wakeup_fds0,
      Event.dispatch_async_read_all wakeup_fds1]
  | Backend.pthread => [Event.write_one_byte_to_fd wakeup_fds0]

/-- The traces and answers of the last poll of `sys_select`. -/
inductive FinalPoll (s : State) : List Event → Int × State → Prop
  | pending (d : Bool) (out : Int × State) : out.1 = -1 → out.2.errno = EINTR →
      FinalPoll s [Event.detect_input_pending true, Event.detect_input_pending d] out
  | ready (req : SelectReq) (res : SelectRes) (out : Int × State) :
      res.ret ≠ 0 → select_left s res out →
      FinalPoll s [Event.detect_input_pending false, Event.select req res] out
  | idle (req : SelectReq) (res : SelectRes) (out : Int × State) :
      res.ret = 0 → out.1 = -1 → out.2.errno = EINTR →
      FinalPoll s [Event.detect_input_pending false, Event.select req res] out

/-- The traces and answers of `sys_select` when descriptor 0 and a real
descriptor are asked for; `r0` is the answer of the first poll and `d` the
answer of the `detect_input_pending` call that follows it. -/
inductive MixedRun (be : Backend) (s : State) (nfds : Int) (tv : EventTimeout)
    (r0 : Int) (d : Bool) : List Event → Int × State → Prop
  | early (p : List Event) (out : Int × State) :
      PollRun s.wakeup_fds0 s (some ⟨0, 0⟩) p out → out.1 = r0 → r0 ≠ 0 ∨ tv = 0 →
      MixedRun be s nfds tv r0 d p out
  | pending (req : SelectReq) (res : SelectRes) (fin : List Event)
      (out : Int × State) :
      r0 = 0 → d = true → res.ret = 0 → tv ≠ 0 → FinalPoll s fin out →
      MixedRun be s nfds tv r0 d
        ([Event.detect_input_pending false, Event.select req res,
          Event.detect_input_pending true] ++ fin) out
  | timed_out (req : SelectReq) (res : SelectRes) (b : Bool) (sl : List Event)
      (out : Int × State) :
      r0 = 0 → d = false → res.ret = 0 → tv ≠ 0 →
      WaitTrace s.wakeup_fds0 tv sl 0 → out.1 = 0 →
      out.2.rfds = some ∅ → out.2.wfds = (s.wfds.map fun _ => ∅) →
      out.2.efds = (s.efds.map fun _ => ∅) →
      MixedRun be s nfds tv r0 d
        ([Event.detect_input_pending false, Event.select req res,
          Event.detect_input_pending false]
          ++ start_events be b s.wakeup_fds1
              (background_request s.wakeup_fds1 nfds (FD_CLR 0 (s.rfds.getD FD_ZERO))
                s.wfds s.efds)
          ++ sl ++ stop_events be s.wakeup_fds0 s.wakeup_fds1) out
  | interrupted (req : SelectReq) (res : SelectRes) (b : Bool) (sl : List Event)
      (t' : EventTimeout) (fin : List Event) (out : Int × State) :
      r0 = 0 → d = false → res.ret = 0 → tv ≠ 0 →
      WaitTrace s.wakeup_fds0 tv sl t' → t' ≠ 0 → FinalPoll s fin out →
      MixedRun be s nfds tv r0 d
        ([Event.detect_input_pending false, Event.select req res,
          Event.detect_input_pending false]
          ++ start_events be b s.wakeup_fds1
              (background_request s.wakeup_fds1 nfds (FD_CLR 0 (s.rfds.getD FD_ZERO))
                s.wfds s.efds)
          ++ sl ++ stop_events be s.wakeup_fds0 s.wakeup_fds1 ++ fin) out

/-- The value of `nfds` after the loop of lines 3705-3711. -/
def trimmed_nfds (nfds : Int) (s : State) : Int :=
  (trim_nfds (FD_SET 0 (FD_CLR 0 (s.rfds.getD FD_ZERO))) s.wfds s.efds nfds.toNat : Nat)

/-- Some descriptor other than 0 and below `nfds` is set in one of the
caller's sets. -/
def real_descriptor_requested (nfds : Int) (s : State) : Prop :=
  ∃ d : Nat, 1 ≤ d ∧ (d : Int) < nfds ∧
    ((∃ r, s.rfds = some r ∧ d ∈ r) ∨ (∃ w, s.wfds = some w ∧ d ∈ w) ∨
      (∃ e, s.efds = some e ∧ d ∈ e))

/-- An environment whose answers depend on the number of calls made so far. -/
def scripted (sel : SelectRes) (dip : Nat → Bool)
    (run : Nat → EventTimeout → EventTimeout × Bool) (peek : Nat → Bool) : Env :=
  ⟨fun _ _ => sel, fun h => dip h.length, fun h tv => run h.length tv,
    fun h => peek h.length⟩

/-- A caller asking for the window event channel, descriptor 3 for reading
and for exceptions, and no write set; the wake descriptors are 10 and 11. -/
def caller_mixed : State :=
  { inhibit_window_system := false, noninteractive := false,
    wakeup_fds0 := 10, wakeup_fds1 := 11, wokeup_from_run_loop_run_once_p := 0,
    select_run_loop := false, select_args := ⟨0, false, false, false, none⟩,
    errno := 0, rfds := some {0, 3}, wfds := none, efds := some {3}, trace := [] }

/-- A caller asking for the window event channel only. -/
def caller_window_only : State :=
  { caller_mixed with rfds := some {0}, efds := none }

/-- A caller that does not ask for the window event channel. -/
def caller_descriptors_only : State :=
  { caller_mixed with rfds := some {3} }

/-- Nothing ever happens: no descriptor is ready, no input is pending, no
event is queued, and every slice uses 40 microseconds. -/
def env_idle : Env :=
  scripted ⟨0, ∅, ∅, ∅, 0⟩ (fun _ => false)
    (fun _ tv => (if tv ≤ 40 then 0 else tv - 40, false)) (fun _ => false)

/-- Descriptor 3 is ready for reading. -/
def env_ready : Env :=
  scripted ⟨1, {3}, ∅, ∅, 0⟩ (fun _ => false)
    (fun _ tv => (if tv ≤ 40 then 0 else tv - 40, false)) (fun _ => false)

/-- Input is pending from the start. -/
def env_pending : Env :=
  scripted ⟨0, ∅, ∅, ∅, 0⟩ (fun _ => true)
    (fun _ tv => (if tv ≤ 40 then 0 else tv - 40, false)) (fun _ => false)

/-- The events of the polls: calls of `detect_input_pending` and `select`. -/
def poll_event : Event → Prop
  | Event.detect_input_pending _ => True
  | Event.select _ _ => True
  | _ => False

/-- The events around the time-slicing loop of `sys_select`. -/
def waiter_event : Event → Prop
  | Event.write_one_byte_to_fd _ => True
  | Event.read_all_from_nonblocking_fd _ => True
  | Event.dispatch_sync => True
  | Event.dispatch_async_read_all _ => True
  | Event.select_thread_launch => True
  | Event.select_sem_wait => True
  | Event.background_select _ => True
  | _ => False

/-- The calls of `sys_select` on `caller_mixed` with a timeout of 100
microseconds when nothing happens (Grand Central Dispatch build). -/
def idle_trace : List Event :=
  [Event.detect_input_pending false,
   Event.select ⟨4, some {3}, none, some {3}, some ⟨0, 0⟩⟩ ⟨0, ∅, ∅, ∅, 0⟩,
   Event.detect_input_pending false,
   Event.dispatch_sync,
   Event.background_select ⟨12, some {11, 3}, none, some {3}, none⟩,
   Event.mac_run_loop_run_once 100 60 false,
   Event.mac_peek_next_event false,
   Event.detect_input_pending false,
   Event.mac_run_loop_run_once 60 20 false,
   Event.mac_peek_next_event false,
   Event.detect_input_pending false,
   Event.mac_run_loop_run_once 20 0 false,
   Event.write_one_byte_to_fd 10,
   Event.dispatch_async_read_all 11]

/-- The answer of that call. -/
def idle_outcome : Int × State :=
  (0, { caller_mixed with rfds := some ∅, efds := some ∅, trace := idle_trace })

/-- The events that end the time-slicing loop of `sys_select` before the
timeout: a queued event, or a slice during which the wake handler ran. -/
def interrupting : Event → Prop
  | Event.mac_run_loop_run_once _ r w => r ≠ 0 ∧ w = true
  | Event.mac_peek_next_event b => b = true
  | _ => False

/-- An event is queued after the second slice of the hand-off (the tenth
call of the Grand Central Dispatch build on `caller_mixed`). -/
def env_event : Env :=
  scripted ⟨0, ∅, ∅, ∅, 0⟩ (fun _ => false)
    (fun _ tv => (if tv ≤ 40 then 0 else tv - 40, false)) (fun n => decide (9 ≤ n))

/-- The calls of `sys_select` on `caller_mixed` up to the second slice. -/
def event_trace_before : List Event :=
  [Event.detect_input_pending false,
   Event.select ⟨4, some {3}, none, some {3}, some ⟨0, 0⟩⟩ ⟨0, ∅, ∅, ∅, 0⟩,
   Event.detect_input_pending false,
   Event.dispatch_sync,
   Event.background_select ⟨12, some {11, 3}, none, some {3}, none⟩,
   Event.mac_run_loop_run_once 100 60 false,
   Event.mac_peek_next_event false,
   Event.detect_input_pending false,
   Event.mac_run_loop_run_once 60 20 false]

/-- The calls after the event was seen. -/
def event_trace_after : List Event :=
  [Event.write_one_byte_to_fd 10,
   Event.dispatch_async_read_all 11,
   Event.detect_input_pending false,
   Event.select ⟨4, some {3}, none, some {3}, some ⟨0, 0⟩⟩ ⟨0, ∅, ∅, ∅, 0⟩]

/-- The answer of `sys_select` in `env_event`. -/
def event_outcome : Int × State :=
  (-1, { caller_mixed with
    errno := EINTR, rfds := some ∅, efds := some ∅
    trace := event_trace_before ++ Event.mac_peek_next_event true :: event_trace_after })

/-- The wake handler runs during the second slice of the hand-off. -/
def env_wake : Env :=
  scripted ⟨0, ∅, ∅, ∅, 0⟩ (fun _ => false)
    (fun n tv => (if tv ≤ 40 then 0 else tv - 40, decide (n = 8))) (fun _ => false)

/-- The calls of `sys_select` on `caller_mixed` up to the slice of the wake. -/
def wake_trace_before : List Event :=
  [Event.detect_input_pending false,
   Event.select ⟨4, some {3}, none, some {3}, some ⟨0, 0⟩⟩ ⟨0, ∅, ∅, ∅, 0⟩,
   Event.detect_input_pending false,
   Event.dispatch_sync,
   Event.background_select ⟨12, some {11, 3}, none, some {3}, none⟩,
   Event.mac_run_loop_run_once 100 60 false,
   Event.mac_peek_next_event false,
   Event.detect_input_pending false,
   Event.read_all_from_nonblocking_fd 10]

/-- The answer of `sys_select` in `env_wake`. -/
def wake_outcome : Int × State :=
  (-1, { caller_mixed with
    errno := EINTR, rfds := some ∅, efds := some ∅
    wokeup_from_run_loop_run_once_p := 1
    trace := wake_trace_before ++ Event.mac_run_loop_run_once 60 20 true
      :: event_trace_after })

/-- The answer of `sys_select` in `env_ready`. -/
def ready_outcome : Int × State :=
  (1, { caller_mixed with
    rfds := some {3}, efds := some ∅
    trace := [Event.detect_input_pending false,
      Event.select ⟨4, some {3}, none, some {3}, some ⟨0, 0⟩⟩ ⟨1, {3}, ∅, ∅, 0⟩] })

/-- The wake handler runs during the first slice of a wait for the window
event channel alone; nothing else happens. -/
def env_wake_pure : Env :=
  scripted ⟨0, ∅, ∅, ∅, 0⟩ (fun _ => false)
    (fun n tv => (if tv ≤ 40 then 0 else tv - 40, decide (n = 2))) (fun _ => false)

/-- The calls of `sys_select` on `caller_window_only` after the slice of the
wake. -/
def wake_pure_trace_after : List Event :=
  [Event.mac_peek_next_event false,
   Event.detect_input_pending false,
   Event.mac_run_loop_run_once 60 20 false,
   Event.mac_peek_next_event false,
   Event.detect_input_pending false,
   Event.mac_run_loop_run_once 20 0 false]

/-- The calls of `sys_select` on `caller_window_only` before the slice of
the wake. -/
def wake_pure_trace_before : List Event :=
  [Event.detect_input_pending false,
   Event.select ⟨1, some ∅, none, none, some ⟨0, 0⟩⟩ ⟨0, ∅, ∅, ∅, 0⟩,
   Event.read_all_from_nonblocking_fd 10]

/-- The answer of `sys_select` in `env_wake_pure`. -/
def wake_pure_outcome : Int × State :=
  (0, { caller_window_only with
    rfds := some ∅
    wokeup_from_run_loop_run_once_p := 1
    trace := wake_pure_trace_before
      ++ Event.mac_run_loop_run_once 100 60 true :: wake_pure_trace_after })

/-- The events that follow the wake of the background waiter when the wait
was handed off: in the Grand Central Dispatch build the drain block is
queued, and then the last poll runs unless the wait timed out. -/
def after_wake (be : Backend) (s : State) (post : List Event) (out : Int × State) :
    Prop :=
  ∃ fin, post = (stop_events be s.wakeup_fds0 s.wakeup_fds1).tail ++ fin ∧
    ((fin = [] ∧ out.1 = 0) ∨ FinalPoll s fin out)

/-- The waits of the foreground for the background waiter: `dispatch_sync`
on the select queue (Grand Central Dispatch build) and `select_sem_wait`
(Pthreads build). -/
def handshake : Event → Prop
  | Event.dispatch_sync => True
  | Event.select_sem_wait => True
  | _ => False

/-- The calls of `sys_select` on `caller_mixed` in `env_event` up to the end
of the time-slicing loop, in the Pthreads build. -/
def pthread_trace_before : List Event :=
  [Event.detect_input_pending false,
   Event.select ⟨4, some {3}, none, some {3}, some ⟨0, 0⟩⟩ ⟨0, ∅, ∅, ∅, 0⟩,
   Event.detect_input_pending false,
   Event.select_thread_launch,
   Event.select_sem_wait,
   Event.read_all_from_nonblocking_fd 11,
   Event.background_select ⟨12, some {11, 3}, none, some {3}, none⟩,
   Event.mac_run_loop_run_once 100 60 false,
   Event.mac_peek_next_event false,
   Event.detect_input_pending false,
   Event.mac_run_loop_run_once 60 20 false,
   Event.mac_peek_next_event true]

/-- The calls that follow the wake of the background waiter in that run. -/
def pthread_trace_after : List Event :=
  [Event.detect_input_pending false,
   Event.select ⟨4, some {3}, none, some {3}, some ⟨0, 0⟩⟩ ⟨0, ∅, ∅, ∅, 0⟩]

/-- The answer of `sys_select` in `env_event`, in the Pthreads build. -/
def pthread_event_outcome : Int × State :=
  (-1, { caller_mixed with
    errno := EINTR, rfds := some ∅, efds := some ∅
    select_run_loop := true, select_args := ⟨4, true, false, true, none⟩
    trace := pthread_trace_before ++ Event.write_one_byte_to_fd 10 :: pthread_trace_after })

/-- The calls of `sys_select` on `caller_mixed` in `env_event` before the
background `select` is issued (Grand Central Dispatch build). -/
def event_trace_head : List Event :=
  [Event.detect_input_pending false,
   Event.select ⟨4, some {3}, none, some {3}, some ⟨0, 0⟩⟩ ⟨0, ∅, ∅, ∅, 0⟩,
   Event.detect_input_pending false,
   Event.dispatch_sync]

/-- The calls after the background `select` was issued. -/
def event_trace_tail : List Event :=
  [Event.mac_run_loop_run_once 100 60 false,
   Event.mac_peek_next_event false,
   Event.detect_input_pending false,
   Event.mac_run_loop_run_once 60 20 false,
   Event.mac_peek_next_event true,
   Event.write_one_byte_to_fd 10,
   Event.dispatch_async_read_all 11,
   Event.detect_input_pending false,
   Event.select ⟨4, some {3}, none, some {3}, some ⟨0, 0⟩⟩ ⟨0, ∅, ∅, ∅, 0⟩]

/-- Nothing is ready and no event is queued; every slice of the run loop
answers that no time remains; input is pending from the fourth call on. -/
def env_late_input : Env :=
  scripted ⟨0, ∅, ∅, ∅, 0⟩ (fun n => decide (3 ≤ n)) (fun _ _ => (0, false))
    (fun _ => false)

/-- The calls of `sys_select` on `caller_mixed` without a timeout when the
first slice answers that no time remains (Pthreads build). -/
def forever_trace : List Event :=
  [Event.detect_input_pending false,
   Event.select ⟨4, some {3}, none, some {3}, some ⟨0, 0⟩⟩ ⟨0, ∅, ∅, ∅, 0⟩,
   Event.detect_input_pending false,
   Event.select_thread_launch,
   Event.select_sem_wait,
   Event.read_all_from_nonblocking_fd 11,
   Event.background_select ⟨12, some {11, 3}, none, some {3}, none⟩,
   Event.mac_run_loop_run_once (-1000000) 0 false,
   Event.write_one_byte_to_fd 10]

/-- The answer of that call. -/
def forever_outcome : Int × State :=
  (0, { caller_mixed with
    rfds := some ∅, efds := some ∅
    select_run_loop := true, select_args := ⟨4, true, false, true, none⟩
    trace := forever_trace })

/-- The calls of `sys_select` on `caller_window_only` without a timeout in
`env_late_input`. -/
def late_input_trace : List Event :=
  [Event.detect_input_pending false,
   Event.select ⟨1, some ∅, none, none, some ⟨0, 0⟩⟩ ⟨0, ∅, ∅, ∅, 0⟩,
   Event.mac_run_loop_run_once (-1000000) 0 false,
   Event.detect_input_pending true]

/-- The answer of that call. -/
def late_input_outcome : Int × State :=
  (0, { caller_window_only with rfds := some ∅, trace := late_input_trace })

/-- The calls that both builds of the background waiter make: the calls of
the collaborators with their answers, the wake of the background waiter and
the background `select` request.  The other events are the mechanics of one
build (queueing on the dispatch queue, thread launch, semaphore, draining). -/
def common_call : Event → Bool
  | Event.select _ _ => true
  | Event.detect_input_pending _ => true
  | Event.mac_run_loop_run_once _ _ _ => true
  | Event.mac_peek_next_event _ => true
  | Event.write_one_byte_to_fd _ => true
  | Event.background_select _ => true
  | _ => false

/-- The part of a history that does not depend on the build. -/
def common (h : List Event) : List Event := h.filter common_call

/-- The answers of the collaborators do not depend on the build: they are
the same after histories that differ only in the mechanics of the background
waiter. -/
def build_blind (env : Env) : Prop :=
  ∀ h h', common h = common h' →
    env.select h = env.select h' ∧
    env.detect_input_pending h = env.detect_input_pending h' ∧
    env.mac_run_loop_run_once h = env.mac_run_loop_run_once h' ∧
    env.mac_peek_next_event h = env.mac_peek_next_event h'

/-- Two states that differ only in what belongs to one build: the statics
`select_run_loop` and `select_args` of the Pthreads build, and the mechanics
recorded in the history. -/
def Sim (a b : State) : Prop :=
  a.inhibit_window_system = b.inhibit_window_system ∧
  a.noninteractive = b.noninteractive ∧
  a.wakeup_fds0 = b.wakeup_fds0 ∧ a.wakeup_fds1 = b.wakeup_fds1 ∧
  a.wokeup_from_run_loop_run_once_p = b.wokeup_from_run_loop_run_once_p ∧
  a.errno = b.errno ∧ a.rfds = b.rfds ∧ a.wfds = b.wfds ∧ a.efds = b.efds ∧
  common a.trace = common b.trace

/-- Two answers that agree: both runs need more fuel, or both return the
same value in states that differ only in what belongs to one build. -/
def SimRes {α : Type} (x y : Option (α × State)) : Prop :=
  match x, y with
  | none, none => True
  | some p, some q => p.1 = q.1 ∧ Sim p.2 q.2
  | _, _ => False

/-- The state after the start of the background waiter, up to what belongs to
one build: the wake flag is reset and the background `select` is issued. -/
def started (nfds : Int) (orfds : SELECT_TYPE) (s : State) : State :=
  { s with
    wokeup_from_run_loop_run_once_p := 0
    trace := s.trace ++ [Event.background_select
      (background_request s.wakeup_fds1 nfds orfds s.wfds s.efds)] }

/-- The state after the wake of the background waiter, up to what belongs to
one build. -/
def woken (s : State) : State :=
  { s with trace := s.trace ++ [Event.write_one_byte_to_fd s.wakeup_fds0] }

/-- An environment whose answers depend on the number of calls made so far
that both builds make. -/
def scripted_common (sel : SelectRes) (dip : Nat → Bool)
    (run : Nat → EventTimeout → EventTimeout × Bool) (peek : Nat → Bool) : Env :=
  ⟨fun _ _ => sel, fun h => dip (common h).length, fun h tv => run (common h).length tv,
    fun h => peek (common h).length⟩

/-- An event is queued after the second slice of the hand-off, in either
build. -/
def env_common_event : Env :=
  scripted_common ⟨0, ∅, ∅, ∅, 0⟩ (fun _ => false)
    (fun _ tv => (if tv ≤ 40 then 0 else tv - 40, false)) (fun n => decide (6 ≤ n))

/-- What the calls on the wake channel leave unchanged: the statics of the
wake machinery other than the wake flag, and which sockets are connected. -/
def Posix.SameStatics (w w' : Posix.World) : Prop :=
  w'.wakeup_fds0 = w.wakeup_fds0 ∧ w'.wakeup_fds1 = w.wakeup_fds1 ∧
  w'.select_sem_value = w.select_sem_value ∧ w'.select_run_loop = w.select_run_loop ∧
  w'.select_args = w.select_args ∧ w'.peer = w.peer

/-- After `m` calls the host no longer interrupts a `read`. -/
def Posix.reads_calm (host : Posix.Host) (m : Nat) : Prop :=
  ∀ h fd n, m ≤ h.length → host.read h fd n ≠ Posix.ReadChoice.interrupted

/-- The answers of `read` after which `read_all_from_nonblocking_fd` reads
again: some bytes, or a failure with `EINTR`. -/
def Posix.read_again (rtnval errno : Int) : Prop :=
  rtnval > 0 ∨ (rtnval < 0 ∧ errno = EINTR)

/-- The answers of `read` after which `read_all_from_nonblocking_fd`
returns: 0, or a failure with another `errno`. -/
def Posix.read_done (rtnval errno : Int) : Prop :=
  rtnval = 0 ∨ (rtnval < 0 ∧ errno ≠ EINTR)

/-- A host that interrupts a `read` made as second call and delivers four
bytes fewer than it could to a `read` made as third call; it interrupts a
`write` made as first call and answers 0 to a `write` made as second call.
Every other call goes through. -/
def Posix.host_busy : Posix.Host :=
  { read := fun h _ _ =>
      if h.length = 1 then Posix.ReadChoice.interrupted
      else Posix.ReadChoice.transfer (if h.length = 2 then 4 else 0) false
    write := fun h _ _ =>
      if h.length = 0 then Posix.WriteChoice.fail EINTR
      else if h.length = 1 then Posix.WriteChoice.nothing
      else Posix.WriteChoice.accept
    socketpair := fun _ => (0, 10, 11)
    fcntl_getfl := fun _ _ => 2
    fcntl_setfl := fun _ _ _ => 0
    dispatch_source_create := fun _ => true
    dispatch_queue_create := fun _ => true
    CFSocketCreateWithNative := fun _ => true
    CFSocketCreateRunLoopSource := fun _ => true
    pthread_create := fun _ => 0 }

/-- The wake channel on the descriptors 10 and 11, with `n` bytes queued for
reading on descriptor 10, before any call. -/
def Posix.world_queued (n : Nat) : Posix.World :=
  { wakeup_fds0 := 10, wakeup_fds1 := 11, wokeup_from_run_loop_run_once_p := 0,
    select_sem_value := 0, select_run_loop := false,
    select_args := ⟨0, false, false, false, none⟩, errno := 0,
    queued := fun fd => if fd = 10 then n else 0,
    peer := fun fd => if fd = 10 then 11 else if fd = 11 then 10 else fd,
    calls := [] }

/-- The calls of `read_all_from_nonblocking_fd (10)` on `host_busy` with 130
bytes queued. -/
def Posix.drain_calls : List Posix.Call :=
  [Posix.Call.read 10 64 64 0,
   Posix.Call.read 10 64 (-1) 4,
   Posix.Call.read 10 64 60 4,
   Posix.Call.read 10 64 6 4,
   Posix.Call.read 10 64 (-1) 35]

/-- After `m` calls the host accepts every `write` or fails it with an
`errno` other than `EINTR`. -/
def Posix.writes_settle (host : Posix.Host) (m : Nat) : Prop :=
  ∀ h fd n, m ≤ h.length →
    host.write h fd n = Posix.WriteChoice.accept ∨
      ∃ e, e ≠ EINTR ∧ host.write h fd n = Posix.WriteChoice.fail e

/-- The answers of `write` after which `write_one_byte_to_fd` writes again:
0, or a failure with `EINTR`. -/
def Posix.write_again (rtnval errno : Int) : Prop :=
  rtnval = 0 ∨ (rtnval < 0 ∧ errno = EINTR)

/-- The answers of `write` after which `write_one_byte_to_fd` returns: a
positive count, or a failure with another `errno`. -/
def Posix.write_done (rtnval errno : Int) : Prop :=
  rtnval > 0 ∨ (rtnval < 0 ∧ errno ≠ EINTR)

/-- The calls of `mac_wakeup_from_run_loop_run_once ()` on `host_busy`. -/
def Posix.wakeup_calls : List Posix.Call :=
  [Posix.Call.write 11 1 (-1) 4, Posix.Call.write 11 1 0 4, Posix.Call.write 11 1 1 4]

/-- Calls of `mac_wakeup_from_run_loop_run_once ()`, `k` of them, one after
the other. -/
def Posix.wakeups (host : Posix.Host) (fuel : Nat) : Nat → Posix.World → Option Posix.World
  | 0, w => some w
  | k + 1, w =>
    match Posix.mac_wakeup_from_run_loop_run_once host fuel w with
    | none => none
    | some w1 => Posix.wakeups host fuel k w1

/-- A wake is pending: `wakeup_fds[0]` is readable, which is when the run
loop calls the wake handler. -/
def Posix.wake_pending (w : Posix.World) : Prop :=
  0 < w.queued w.wakeup_fds0

/-- Two worlds in the same state: they differ at most in the history of the
calls and in `errno`. -/
def Posix.SameState (a b : Posix.World) : Prop :=
  a.wakeup_fds0 = b.wakeup_fds0 ∧ a.wakeup_fds1 = b.wakeup_fds1 ∧
  a.wokeup_from_run_loop_run_once_p = b.wokeup_from_run_loop_run_once_p ∧
  a.select_sem_value = b.select_sem_value ∧ a.select_run_loop = b.select_run_loop ∧
  a.select_args = b.select_args ∧ a.queued = b.queued ∧ a.peer = b.peer

/-- The calls of the setup that report a failure: a negative result of
`socketpair` or of `fcntl (F_SETFL)`, and a creation call that answers
`NULL`. -/
def Posix.failed_step : Posix.Call → Prop
  | Posix.Call.socketpair result => result < 0
  | Posix.Call.fcntl_setfl _ _ result => result < 0
  | Posix.Call.dispatch_source_create _ created => created = false
  | Posix.Call.dispatch_queue_create created => created = false
  | Posix.Call.CFSocketCreateWithNative _ created => created = false
  | Posix.Call.CFSocketCreateRunLoopSource created => created = false
  | _ => False

/-- The calls by which `create_wake_source` succeeds. -/
def Posix.wake_source_calls (be : Backend) (fd0 : Nat) : List Posix.Call :=
  match be with
  | Backend.gcd =>
    [Posix.Call.dispatch_source_create fd0 true, Posix.Call.dispatch_source_set_event_handler,
      Posix.Call.dispatch_resume, Posix.Call.dispatch_queue_create true]
  | Backend.pthread =>
    [Posix.Call.CFSocketCreateWithNative fd0 true,
      Posix.Call.CFSocketCreateRunLoopSource true, Posix.Call.CFRunLoopAddSource]

/-- The statics before `init_wakeup_fds`: zero-initialised, with no byte
queued anywhere. -/
def Posix.world_boot : Posix.World :=
  { wakeup_fds0 := 0, wakeup_fds1 := 0, wokeup_from_run_loop_run_once_p := 0,
    select_sem_value := 0, select_run_loop := false,
    select_args := ⟨0, false, false, false, none⟩, errno := 0,
    queued := fun _ => 0, peer := fun fd => fd, calls := [] }

/-- A host on which every step of `init_wakeup_fds` succeeds and
`pthread_create` fails with `EAGAIN`. -/
def Posix.host_no_thread : Posix.Host :=
  { Posix.host_busy with pthread_create := fun _ => Posix.EAGAIN }

/-- The calls of `init_wakeup_fds` on `host_no_thread` in the Pthreads
build. -/
def Posix.init_calls : List Posix.Call :=
  [Posix.Call.socketpair 0,
   Posix.Call.fcntl_getfl 10 2, Posix.Call.fcntl_setfl 10 6 0,
   Posix.Call.fcntl_getfl 11 2, Posix.Call.fcntl_setfl 11 6 0,
   Posix.Call.CFSocketCreateWithNative 10 true,
   Posix.Call.CFSocketCreateRunLoopSource true,
   Posix.Call.CFRunLoopAddSource]

/-- The big-endian value of four bytes. -/
def big_endian_value (b0 b1 b2 b3 : Nat) : Nat :=
  b0 * 2 ^ 24 + b1 * 2 ^ 16 + b2 * 2 ^ 8 + b3

/-- The big-endian encoding of a 32-bit value. -/
def big_endian_bytes (c : Nat) : List Nat :=
  [c / 2 ^ 24 % 256, c / 2 ^ 16 % 256, c / 2 ^ 8 % 256, c % 256]

/-- The calls of `mac_run_loop_run_once` among the events of a history. -/
def run_loop_call : Event → Prop
  | Event.mac_run_loop_run_once _ _ _ => True
  | _ => False

/-- Why a time-slicing loop stopped after a slice that left time: in the
loop of `sys_select` the wake handler ran during the slice, or a foreign
event is queued, or input is pending.  `post` holds the events after the
slice. -/
def slice_stop (mixed woke : Bool) (post : List Event) : Prop :=
  (mixed = true ∧ woke = true) ∨
  (∃ post', post = Event.mac_peek_next_event true :: post') ∨
  (∃ post', post = Event.mac_peek_next_event false ::
    Event.detect_input_pending true :: post')

/-- The events `ext` of a wait that slices the run loop, started with the
remaining time `t` and left with the remaining time `t'`:
the first call of `mac_run_loop_run_once` receives `t`; a later call
receives what the call before it returned, which was not zero, after
`mac_peek_next_event` and `detect_input_pending` both answered false (and,
when `mixed`, the wake handler had not run during the slice before); the
last call returned `t'`, and when that is not zero the loop stopped for one
of the reasons of `slice_stop`. -/
def Sliced (mixed : Bool) (fd0 : Nat) (t : EventTimeout) (ext : List Event)
    (t' : EventTimeout) : Prop :=
  (∀ pre a r w post, ext = pre ++ Event.mac_run_loop_run_once a r w :: post →
    (∀ e ∈ pre, ¬ run_loop_call e) → a = t) ∧
  (∀ pre a r w mid a2 r2 w2 post,
    ext = pre ++ Event.mac_run_loop_run_once a r w ::
      (mid ++ Event.mac_run_loop_run_once a2 r2 w2 :: post) →
    (∀ e ∈ mid, ¬ run_loop_call e) →
    a2 = r ∧ r ≠ 0 ∧ (mixed = true → w = false) ∧
      mid = [Event.mac_peek_next_event false, Event.detect_input_pending false]
        ++ wake_events fd0 w2) ∧
  (∀ pre a r w post, ext = pre ++ Event.mac_run_loop_run_once a r w :: post →
    (∀ e ∈ post, ¬ run_loop_call e) → r = t' ∧ (r ≠ 0 → slice_stop mixed w post))

/-- The object reached from `x` by `n` steps along the cdr chain. -/
def Plist.nthcdr (h : Plist.Heap) (n : Nat) (x : Plist.Lisp_Object) : Plist.Lisp_Object :=
  (Plist.XCDR h)^[n] x

/-- The cdr chain of `x` is circular: it never reaches an object that is not
a cons. -/
def Plist.circular (h : Plist.Heap) (x : Plist.Lisp_Object) : Prop :=
  ∀ n, Plist.CONSP (Plist.nthcdr h n x) = true

/-- The cdr chain of `x` has exactly `n` cons cells: `n` steps along it pass
conses only and reach an object that is not a cons (`nil` for a proper list,
another object for a dotted one). -/
def Plist.chain_of (h : Plist.Heap) (x : Plist.Lisp_Object) (n : Nat) : Prop :=
  (∀ k < n, Plist.CONSP (Plist.nthcdr h k x) = true) ∧
    Plist.CONSP (Plist.nthcdr h n x) = false

/-- The index of the cell of a cons. -/
def Plist.addr : Plist.Lisp_Object → Nat
  | Plist.Lisp_Object.cons a => a
  | _ => 0

/-- A heap with a circular list of two cells (cells 0 and 1), a proper list
of two cells (cells 2 and 3) and a dotted pair (cell 4). -/
def Plist.heap_lists : Plist.Heap :=
  { conses := [(Plist.Lisp_Object.integer 1, Plist.Lisp_Object.cons 1),
               (Plist.Lisp_Object.integer 2, Plist.Lisp_Object.cons 0),
               (Plist.Lisp_Object.integer 3, Plist.Lisp_Object.cons 3),
               (Plist.Lisp_Object.integer 4, Plist.Qnil),
               (Plist.Lisp_Object.integer 5, Plist.Lisp_Object.integer 6)]
    vectors := []
    hash_tables := [] }

/-- A run of binding characters: every character is `'.'` or `'*'`. -/
def Xrm.binding_run (run : List Nat) : Prop := ∀ c ∈ run, c = 46 ∨ c = 42

/-- What follows does not start with a binding character. -/
def Xrm.no_binding_ahead (p : List Nat) : Prop :=
  ∀ c rest, p = c :: rest → ¬ (c = 46 ∨ c = 42)

/-- The text of a component name: not empty, and every character is a
letter, a digit, `'_'` or `'-'`. -/
def Xrm.component_name (s : List Nat) : Prop :=
  s ≠ [] ∧ ∀ c ∈ s, Xrm.name_char c = true

/-- The Lisp list of the objects `l`. -/
def Xrm.list_of : List Xrm.Lisp_Object → Xrm.Lisp_Object
  | [] => Xrm.Qnil
  | x :: l => Xrm.Fcons x (Xrm.list_of l)

/-- A component of a resource name as a quark: `SINGLE_COMPONENT`, or the
string of a component name. -/
def Xrm.component (x : Xrm.Lisp_Object) : Prop :=
  x = Xrm.SINGLE_COMPONENT ∨ ∃ s, x = Xrm.Lisp_Object.string s ∧ Xrm.component_name s

/-- The text of a component: `'?'`, or the component name. -/
def Xrm.component_text : Xrm.Lisp_Object → List Nat
  | Xrm.Lisp_Object.string s => s
  | _ => [63]

/-- The quarks of a resource name given as its items, an item being a run
of binding characters and the component that follows it: a run yields
`LOOSE_BINDING` when it holds a `'*'` and nothing otherwise, and the
component yields itself. -/
def Xrm.quarks_of : List (List Nat × Xrm.Lisp_Object) → List Xrm.Lisp_Object
  | [] => []
  | it :: rest =>
    (if 42 ∈ it.1 then [Xrm.LOOSE_BINDING] else []) ++ [it.2] ++ Xrm.quarks_of rest

/-- The text of a resource name given as its items. -/
def Xrm.text_of : List (List Nat × Xrm.Lisp_Object) → List Nat
  | [] => []
  | it :: rest => it.1 ++ Xrm.component_text it.2 ++ Xrm.text_of rest

/-- The bytes of `"Emacs*font"`. -/
def Xrm.emacs_font : List Nat := [69, 109, 97, 99, 115, 42, 102, 111, 110, 116]

/-- A decoded byte put in front of what a segment decodes to. -/
def Xrm.decoded (b : Nat) (r : List Nat × Bool × List Nat) : List Nat × Bool × List Nat :=
  (b :: r.1, r.2.1, r.2.2)

/-- The decoding of one segment of a value, which is the part of the
logical line that lies on one physical line: the decoded bytes, whether the
segment ends with a backslash-newline that joins the next physical line, and
the text after the segment.  A backslash followed by `n` yields a newline, a
backslash followed by three octal digits yields the byte they denote, a
backslash followed by another character yields that character, and the
decoding stops after an unescaped newline or at the end of the text. -/
def Xrm.decode_segment : List Nat → List Nat × Bool × List Nat
  | [] => ([], false, [])
  | c :: rest =>
    if c = 10 then ([], false, rest)
    else if c = 92 then
      match rest with
      | [] => ([], false, [])
      | x :: rest1 =>
        if x = 10 then ([], true, rest1)
        else if x = 110 then Xrm.decoded 10 (Xrm.decode_segment rest1)
        else
          match rest1 with
          | y :: z :: rest2 =>
            if Xrm.octal_digit x && Xrm.octal_digit y && Xrm.octal_digit z then
              Xrm.decoded (((x - 48) * 64 + (y - 48) * 8 + (z - 48)) % 256)
                (Xrm.decode_segment rest2)
            else Xrm.decoded x (Xrm.decode_segment (y :: z :: rest2))
          | [y] => Xrm.decoded x (Xrm.decode_segment [y])
          | [] => Xrm.decoded x (Xrm.decode_segment [])
    else Xrm.decoded c (Xrm.decode_segment rest)

/-- The decoding of a value, which is a logical line: the decoded bytes and
the text after the value.  It is that of a segment, except that a
backslash-newline is skipped and the decoding goes on with the next physical
line. -/
def Xrm.decode_value : List Nat → List Nat × List Nat
  | [] => ([], [])
  | c :: rest =>
    if c = 10 then ([], rest)
    else if c = 92 then
      match rest with
      | [] => ([], [])
      | x :: rest1 =>
        if x = 10 then Xrm.decode_value rest1
        else if x = 110 then (10 :: (Xrm.decode_value rest1).1, (Xrm.decode_value rest1).2)
        else
          match rest1 with
          | y :: z :: rest2 =>
            if Xrm.octal_digit x && Xrm.octal_digit y && Xrm.octal_digit z then
              ((((x - 48) * 64 + (y - 48) * 8 + (z - 48)) % 256) ::
                (Xrm.decode_value rest2).1, (Xrm.decode_value rest2).2)
            else (x :: (Xrm.decode_value (y :: z :: rest2)).1,
              (Xrm.decode_value (y :: z :: rest2)).2)
          | [y] => (x :: (Xrm.decode_value [y]).1, (Xrm.decode_value [y]).2)
          | [] => (x :: (Xrm.decode_value []).1, (Xrm.decode_value []).2)
    else (c :: (Xrm.decode_value rest).1, (Xrm.decode_value rest).2)

/-- A C string: none of its bytes is the NUL. -/
def Xrm.c_string (p : List Nat) : Prop := ∀ c ∈ p, c ≠ 0

/-- The three bytes at the head of `x :: rest` are octal digits. -/
def Xrm.octal_ahead (x : Nat) (rest : List Nat) : Prop :=
  ∃ y z rest2, rest = y :: z :: rest2 ∧
    Xrm.octal_digit x = true ∧ Xrm.octal_digit y = true ∧ Xrm.octal_digit z = true

/-- The concatenation of segments. -/
def Xrm.concat : List (List Nat) → List Nat
  | [] => []
  | s :: l => s ++ Xrm.concat l

/-- The bytes of a value on three physical lines: `fi`, backslash, newline,
`x`, backslash, `145`, `d`, backslash, `n`, backslash, backslash, newline,
`next`. -/
def Xrm.value_text : List Nat :=
  [102, 105, 92, 10, 120, 92, 49, 52, 53, 100, 92, 110, 92, 92, 10, 110, 101, 120, 116]

/-- The bytes of four resource lines: `:x` (no name), `a?:v` (a name that
ends with `?`), `b:` followed by a backslash and `12` (an incomplete octal
escape), and, without a newline, `c:z` followed by a backslash. -/
def Xrm.malformed_text : List Nat :=
  [58, 120, 10, 97, 63, 58, 118, 10, 98, 58, 92, 49, 50, 10, 99, 58, 122, 92]

/-- The Lisp list of the strings of `qs`. -/
def Xrm.strings (qs : List (List Nat)) : Xrm.Lisp_Object :=
  Xrm.list_of (qs.map Xrm.Lisp_Object.string)

/-- The node reached from `node` along the edges labelled by `labels`. -/
def Xrm.walk (h : Xrm.Table) : Xrm.Lisp_Object → List Xrm.Lisp_Object →
    Option Xrm.Lisp_Object
  | node, [] => some node
  | node, l :: labels =>
    match Xrm.hash_lookup h (Xrm.Fcons node l) with
    | none => none
    | some dest => Xrm.walk h dest labels

/-- The edges of a table lead from a node numbered from 0 to a node with a
greater number, which is at most `m`. -/
def Xrm.edges_ok (h : Xrm.Table) (m : Int) : Prop :=
  ∀ n l v, Xrm.hash_lookup h (Xrm.Lisp_Object.cons n l) = some v →
    ∃ a b : Int, n = Xrm.Lisp_Object.integer a ∧ v = Xrm.Lisp_Object.integer b ∧
      0 ≤ a ∧ a < b ∧ b ≤ m

/-- The table is a trie: the value of `HASHKEY_MAX_NID` is an integer that
is not negative, and bounds the edges. -/
def Xrm.trie (db : Xrm.Table) : Prop :=
  ∃ m : Int, Xrm.hash_lookup db Xrm.HASHKEY_MAX_NID = some (Xrm.Lisp_Object.integer m) ∧
    0 ≤ m ∧ Xrm.edges_ok db m

/-- The contents that a resource database can have: those of a new
database, those after `xrm_q_put_resource`, and those after a query cache
was put in, as `xrm_get_resource` does. -/
inductive Xrm.Reachable : Xrm.Table → Prop
  | create : Xrm.Reachable Xrm.xrm_create_database
  | put (db : Xrm.Table) (quarks value : Xrm.Lisp_Object) :
      Xrm.Reachable db → Xrm.Reachable (Xrm.xrm_q_put_resource db quarks value)
  | cache (db : Xrm.Table) (c : Xrm.Lisp_Object) :
      Xrm.Reachable db → Xrm.Reachable (Xrm.Fputhash Xrm.HASHKEY_QUERY_CACHE c db)

/-- The cars of the cells of the cdr chain of an object. -/
def Xrm.elements : Xrm.Lisp_Object → List Xrm.Lisp_Object
  | Xrm.Lisp_Object.cons a d => a :: Xrm.elements d
  | _ => []

/-- A database with a loose-binding entry and a single-component entry: the
values `"fixed"` of `*font` and `"q"` of `?.b`. -/
def Xrm.db_loose : Xrm.Table :=
  Xrm.xrm_q_put_resource
    (Xrm.xrm_q_put_resource Xrm.xrm_create_database
      (Xrm.list_of [Xrm.LOOSE_BINDING, Xrm.Lisp_Object.string [102, 111, 110, 116]])
      (Xrm.Lisp_Object.string [102, 105, 120, 101, 100]))
    (Xrm.list_of [Xrm.SINGLE_COMPONENT, Xrm.Lisp_Object.string [98]])
    (Xrm.Lisp_Object.string [113])

/-- The lookup without the query cache: parse the name and the class and
look the quarks up in the database; `nil` when the name or the class does
not parse to the end as a list of strings, or when the two lists differ in
length (lines 2048-2066 of `xrm_get_resource`). -/
def Xrm.uncached_lookup (fuel : Nat) (database : Xrm.Table) (name cls : List Nat) :
    Option Xrm.Lisp_Object :=
  match Xrm.xrm_get_resource_query fuel database name cls with
  | none => none
  | some none => some Xrm.Qnil
  | some (some tmp) => some tmp

/-- The states that the hash tables go through, with a given fuel, from a
new database by any interleaving of `xrm_q_put_resource`,
`xrm_merge_string_database` and `xrm_get_resource` calls. -/
inductive Xrm.Running (fuel : Nat) : Xrm.Store → Prop
  | create (tables : List Xrm.Table) : Xrm.Running fuel ⟨Xrm.xrm_create_database, tables⟩
  | put (st : Xrm.Store) (quarks value : Xrm.Lisp_Object) : Xrm.Running fuel st →
      Xrm.Running fuel { st with
        database := Xrm.xrm_q_put_resource st.database quarks value }
  | merge (st : Xrm.Store) (data : List Nat) (database' : Xrm.Table) :
      Xrm.Running fuel st →
      Xrm.xrm_merge_string_database fuel st.database data = some database' →
      Xrm.Running fuel { st with database := database' }
  | get (st : Xrm.Store) (name cls : List Nat) (r : Xrm.Lisp_Object) (st' : Xrm.Store) :
      Xrm.Running fuel st → Xrm.c_string name → Xrm.c_string cls →
      Xrm.xrm_get_resource fuel st name cls = some (r, st') → Xrm.Running fuel st'

/-- The query cache is right: the database is a trie, and the value of
`HASHKEY_QUERY_CACHE` is `nil` or a hash table each entry of which maps the
key of a name and a class to what the lookup without the cache gives for
them. -/
def Xrm.cache_ok (fuel : Nat) (st : Xrm.Store) : Prop :=
  Xrm.trie st.database ∧
  (Xrm.Fgethash Xrm.HASHKEY_QUERY_CACHE st.database Xrm.Qnil = Xrm.Qnil ∨
    ∃ id, Xrm.Fgethash Xrm.HASHKEY_QUERY_CACHE st.database Xrm.Qnil
        = Xrm.Lisp_Object.hash_table id ∧
      id < st.tables.length ∧
      ∀ key value, Xrm.hash_lookup (st.tables.getD id []) key = some value →
        ∃ name cls, Xrm.c_string name ∧
          key = Xrm.Lisp_Object.string (name ++ [0] ++ cls) ∧
          Xrm.uncached_lookup fuel st.database name cls = some value)

/-- The value of `HASHKEY_MAX_NID` in the database, as a number. -/
def Xrm.max_nid (db : Xrm.Table) : Nat :=
  (Xrm.XINT (Xrm.Fgethash Xrm.HASHKEY_MAX_NID db Xrm.Qnil)).toNat

/-- The tables after the two puts of `db_loose` and one lookup of `x.font`
with the class `X.Font`: the database holds a query cache, which holds the
value `"fixed"` for the key of that name and class. -/
def Xrm.st_cached : Xrm.Store :=
  { database := Xrm.Fputhash Xrm.HASHKEY_QUERY_CACHE (Xrm.Lisp_Object.hash_table 0)
      Xrm.db_loose
    tables := [[(Xrm.Lisp_Object.string
      ([120, 46, 102, 111, 110, 116] ++ [0] ++ [88, 46, 70, 111, 110, 116]),
      Xrm.Lisp_Object.string [102, 105, 120, 101, 100])]] }

/-- The databases made from a new one by calls of `xrm_q_put_resource` with
quark lists that are not empty, each with the values that were put. -/
inductive Xrm.Built : Xrm.Table → List Xrm.Lisp_Object → Prop
  | create : Xrm.Built Xrm.xrm_create_database []
  | put (db : Xrm.Table) (values : List Xrm.Lisp_Object) (quarks value : Xrm.Lisp_Object) :
      Xrm.Built db values → Xrm.elements quarks ≠ [] →
      Xrm.Built (Xrm.xrm_q_put_resource db quarks value) (value :: values)

/-- The database after `xrm_q_put_resource` of the value `"fixed"` for the
quarks `(LOOSE_BINDING "font")` on a new database, which is what merging
the line `*font: fixed` gives. -/
def Xrm.db_star_font : Xrm.Table :=
  Xrm.xrm_q_put_resource Xrm.xrm_create_database
    (Xrm.list_of [Xrm.LOOSE_BINDING, Xrm.Lisp_Object.string [102, 111, 110, 116]])
    (Xrm.Lisp_Object.string [102, 105, 120, 101, 100])

/-- The bytes of the line `*font: fixed` with its newline. -/
def Xrm.star_font_line : List Nat :=
  [42, 102, 111, 110, 116, 58, 32, 102, 105, 120, 101, 100, 10]

/-- The objects of a tree, from left to right. -/
def Plist.objs : Plist.bstree_node → List Plist.Lisp_Object
  | Plist.bstree_node.NULL => []
  | Plist.bstree_node.node o left right => Plist.objs left ++ o :: Plist.objs right

/-- The tree is a search tree for `XHASH`: at every node the objects on
the left are smaller and those on the right are greater. -/
def Plist.ordered (XHASH : Plist.Lisp_Object → Nat) : Plist.bstree_node → Prop
  | Plist.bstree_node.NULL => True
  | Plist.bstree_node.node o left right =>
    Plist.ordered XHASH left ∧ Plist.ordered XHASH right ∧
      (∀ x ∈ Plist.objs left, XHASH x < XHASH o) ∧
      (∀ x ∈ Plist.objs right, XHASH o < XHASH x)

/-- An element of a tagged array or dictionary `x`: `y` is an element of
the vector of an array, the cdr of the car of a cell of the alist of a
dictionary, or the value of a slot in use of the hash table of a
dictionary. -/
inductive Plist.element (h : Plist.Heap) : Plist.Lisp_Object → Plist.Lisp_Object → Prop
  | array (x y : Plist.Lisp_Object) :
      Plist.XCAR h x = Plist.Qarray → Plist.VECTORP (Plist.XCDR h x) = true →
      y ∈ Plist.contents h (Plist.XCDR h x) → Plist.element h x y
  | alist (x : Plist.Lisp_Object) (k : Nat) :
      Plist.XCAR h x = Plist.Qdictionary →
      Plist.CONSP (Plist.nthcdr h k (Plist.XCDR h x)) = true →
      Plist.element h x (Plist.XCDR h (Plist.XCAR h (Plist.nthcdr h k (Plist.XCDR h x))))
  | hash (x : Plist.Lisp_Object) (slot : Plist.Slot) :
      Plist.XCAR h x = Plist.Qdictionary → Plist.HASH_TABLE_P (Plist.XCDR h x) = true →
      slot ∈ Plist.slots h (Plist.XCDR h x) → Plist.NILP slot.hash = false →
      Plist.element h x slot.value

/-- The alist of the dictionary `x` has a circular cdr chain. -/
def Plist.circular_alist (h : Plist.Heap) (x : Plist.Lisp_Object) : Prop :=
  Plist.XCAR h x = Plist.Qdictionary ∧ Plist.circular h (Plist.XCDR h x)

/-- The tagged object `obj` is circular: an array or a dictionary that is
`obj` or is nested in it at some depth occurs again inside its own
elements at some depth, or is a dictionary whose alist has a circular cdr
chain. -/
def Plist.Circular (h : Plist.Heap) (obj : Plist.Lisp_Object) : Prop :=
  ∃ x, Relation.ReflTransGen (Plist.element h) obj x ∧
    (Relation.TransGen (Plist.element h) x x ∨ Plist.circular_alist h x)

/-- The nesting below `obj` is finite and has no circular alist. -/
inductive Plist.WellFormed (h : Plist.Heap) : Plist.Lisp_Object → Prop
  | intro (obj : Plist.Lisp_Object) :
      (∀ y, Plist.element h obj y → Plist.WellFormed h y) →
      ¬ Plist.circular_alist h obj → Plist.WellFormed h obj

/-- A heap with an array (cell 0) of a string (cell 1) and a dictionary
(cell 2) whose alist has the one entry `("k" . array)` (cells 3 and 4), the
value being the array of cell 0 again; a dictionary (cell 5) whose alist
(cell 6) is its own cdr; and an array (cell 7) that holds the string of
cell 1 twice. -/
def Plist.heap_plists : Plist.Heap :=
  { conses := [(Plist.Qarray, Plist.Lisp_Object.vector 0),
               (Plist.Qstring, Plist.Lisp_Object.string [97]),
               (Plist.Qdictionary, Plist.Lisp_Object.cons 3),
               (Plist.Lisp_Object.cons 4, Plist.Qnil),
               (Plist.Lisp_Object.string [107], Plist.Lisp_Object.cons 0),
               (Plist.Qdictionary, Plist.Lisp_Object.cons 6),
               (Plist.Lisp_Object.cons 4, Plist.Lisp_Object.cons 6),
               (Plist.Qarray, Plist.Lisp_Object.vector 1)]
    vectors := [[Plist.Lisp_Object.cons 1, Plist.Lisp_Object.cons 2],
                [Plist.Lisp_Object.cons 1, Plist.Lisp_Object.cons 1]]
    hash_tables := [] }

/-! ## Theorems -/

/-! ### Lists, and the traces of the time-slicing loops -/

theorem split_left {α : Type} {A L pre post : List α} {e : α}
    (h : A ++ L = pre ++ e :: post) (hA : e ∉ A) :
    ∃ pre', pre = A ++ pre' ∧ L = pre' ++ e :: post := by
  rcases List.append_eq_append_iff.1 h with ⟨a', h1, h2⟩ | ⟨c', h1, h2⟩
  · exact ⟨a', h1, h2⟩
  · cases c' with
    | nil => exact ⟨[], by simpa using h1.symm, by simpa using h2.symm⟩
    | cons x c' =>
      simp at h2
      exact absurd (by rw [h1, h2.1]; simp) hA

theorem split_right {α : Type} {S B pre post : List α} {e : α}
    (h : S ++ B = pre ++ e :: post) (hB : e ∉ B) :
    ∃ post', post = post' ++ B ∧ S = pre ++ e :: post' := by
  rcases List.append_eq_append_iff.1 h with ⟨a', _, h2⟩ | ⟨c', h1, h2⟩
  · exact absurd (by rw [h2]; simp) hB
  · cases c' with
    | nil =>
      simp at h2
      exact absurd (by rw [← h2]; simp) hB
    | cons x c' =>
      simp at h2
      exact ⟨c', h2.2, by rw [h1, h2.1]⟩

theorem SliceFrame.frame_refl (s : State) : SliceFrame s s := by
  simp [SliceFrame]

theorem SliceFrame.frame_trans {s s1 s2 : State} (h1 : SliceFrame s s1)
    (h2 : SliceFrame s1 s2) : SliceFrame s s2 := by
  simp only [SliceFrame] at *
  simp [h1, h2]

theorem SliceFrame.frame_log (s : State) (e : Event) : SliceFrame s (s.log e) := by
  simp [SliceFrame, State.log]

theorem mac_run_loop_run_once_spec (env : Env) (tv : EventTimeout) (s : State) :
    ∃ w : Bool,
      (mac_run_loop_run_once env tv s).2.trace =
        s.trace ++ (wake_events s.wakeup_fds0 w
          ++ [Event.mac_run_loop_run_once tv (mac_run_loop_run_once env tv s).1 w]) ∧
      (mac_run_loop_run_once env tv s).2.wokeup_from_run_loop_run_once_p =
        (if w then 1 else s.wokeup_from_run_loop_run_once_p) ∧
      SliceFrame s (mac_run_loop_run_once env tv s).2 := by
  refine ⟨(env.mac_run_loop_run_once s.trace tv).2, ?_⟩
  by_cases h : (env.mac_run_loop_run_once s.trace tv).2 = true <;>
    simp [mac_run_loop_run_once, h, State.log, wakeup_callback,
      read_all_from_nonblocking_fd, wake_events, SliceFrame]

theorem mac_peek_next_event_spec (env : Env) (s : State) :
    (mac_peek_next_event env s).2.trace =
      s.trace ++ [Event.mac_peek_next_event (mac_peek_next_event env s).1] ∧
    (mac_peek_next_event env s).2.wokeup_from_run_loop_run_once_p =
      s.wokeup_from_run_loop_run_once_p ∧
    SliceFrame s (mac_peek_next_event env s).2 := by
  simp [mac_peek_next_event, State.log, SliceFrame]

theorem detect_input_pending_spec (env : Env) (s : State) :
    (detect_input_pending env s).2.trace =
      s.trace ++ [Event.detect_input_pending (detect_input_pending env s).1] ∧
    (detect_input_pending env s).2.wokeup_from_run_loop_run_once_p =
      s.wokeup_from_run_loop_run_once_p ∧
    SliceFrame s (detect_input_pending env s).2 := by
  simp [detect_input_pending, State.log, SliceFrame]

theorem poll_slices_trace (env : Env) :
    ∀ (fuel : Nat) (tv : EventTimeout) (s : State) (tv' : EventTimeout) (s' : State),
      poll_slices env fuel tv s = some (tv', s') →
      SliceFrame s s' ∧
        ∃ ext, s'.trace = s.trace ++ ext ∧ PollTrace s.wakeup_fds0 tv ext tv' := by
  intro fuel
  induction fuel with
  | zero => intro tv s tv' s' h; simp [poll_slices] at h
  | succ fuel ih =>
    intro tv s tv' s' h
    simp only [poll_slices] at h
    obtain ⟨w, h2, -, h4⟩ := mac_run_loop_run_once_spec env tv s
    obtain ⟨p2, -, p4⟩ := mac_peek_next_event_spec env (mac_run_loop_run_once env tv s).2
    obtain ⟨d2, -, d4⟩ := detect_input_pending_spec env
      (mac_peek_next_event env (mac_run_loop_run_once env tv s).2).2
    generalize detect_input_pending env
      (mac_peek_next_event env (mac_run_loop_run_once env tv s).2).2 = c at h d2 d4
    generalize mac_peek_next_event env (mac_run_loop_run_once env tv s).2 = b at h p2 p4 d2 d4
    generalize mac_run_loop_run_once env tv s = a at h h2 h4 p2 p4
    obtain ⟨r, s1⟩ := a
    obtain ⟨ev, s2⟩ := b
    obtain ⟨dip, s3⟩ := c
    simp only at h h2 h4 p2 p4 d2 d4
    have hfd : s3.wakeup_fds0 = s.wakeup_fds0 := by
      rw [d4.2.2.1, p4.2.2.1, h4.2.2.1]
    split_ifs at h with hr hp hd
    · obtain ⟨hf, ext, he, hpt⟩ := ih _ _ _ _ h
      have e1 : ev = false := by simpa using hp
      have e2 : dip = false := by simpa using hd
      subst e1 e2
      refine ⟨((h4.frame_trans p4).frame_trans d4).frame_trans hf, _, ?_,
        PollTrace.again tv r w ext tv' hr (hfd ▸ hpt)⟩
      rw [he, d2, p2, h2]; simp
    · simp only [Option.some.injEq, Prod.mk.injEq] at h
      obtain ⟨rfl, rfl⟩ := h
      have e1 : ev = false := by simpa using hp
      have e2 : dip = true := by simpa using hd
      subst e1 e2
      refine ⟨(h4.frame_trans p4).frame_trans d4, _, ?_, PollTrace.pending tv r w hr⟩
      rw [d2, p2, h2]; simp
    · simp only [Option.some.injEq, Prod.mk.injEq] at h
      obtain ⟨rfl, rfl⟩ := h
      have e1 : ev = true := by simpa using hp
      subst e1
      refine ⟨h4.frame_trans p4, _, ?_, PollTrace.event tv r w hr⟩
      rw [p2, h2]; simp
    · simp only [Option.some.injEq, Prod.mk.injEq] at h
      obtain ⟨rfl, rfl⟩ := h
      simp only [ne_eq, not_not] at hr
      subst hr
      exact ⟨h4, _, h2, PollTrace.timeout tv w⟩

theorem wait_slices_trace (env : Env) :
    ∀ (fuel : Nat) (tv : EventTimeout) (s : State) (tv' : EventTimeout) (s' : State),
      wait_slices env fuel tv s = some (tv', s') →
      s.wokeup_from_run_loop_run_once_p = 0 →
      SliceFrame s s' ∧
        ∃ ext, s'.trace = s.trace ++ ext ∧ WaitTrace s.wakeup_fds0 tv ext tv' := by
  intro fuel
  induction fuel with
  | zero => intro tv s tv' s' h; simp [wait_slices] at h
  | succ fuel ih =>
    intro tv s tv' s' h h0
    simp only [wait_slices] at h
    obtain ⟨w, h2, h3, h4⟩ := mac_run_loop_run_once_spec env tv s
    obtain ⟨p2, p3, p4⟩ := mac_peek_next_event_spec env (mac_run_loop_run_once env tv s).2
    obtain ⟨d2, d3, d4⟩ := detect_input_pending_spec env
      (mac_peek_next_event env (mac_run_loop_run_once env tv s).2).2
    generalize detect_input_pending env
      (mac_peek_next_event env (mac_run_loop_run_once env tv s).2).2 = c at h d2 d3 d4
    generalize mac_peek_next_event env (mac_run_loop_run_once env tv s).2 = b
      at h p2 p3 p4 d2 d3 d4
    generalize mac_run_loop_run_once env tv s = a at h h2 h3 h4 p2 p3 p4
    obtain ⟨r, s1⟩ := a
    obtain ⟨ev, s2⟩ := b
    obtain ⟨dip, s3⟩ := c
    simp only at h h2 h3 h4 p2 p3 p4 d2 d3 d4
    have hfd : s3.wakeup_fds0 = s.wakeup_fds0 := by
      rw [d4.2.2.1, p4.2.2.1, h4.2.2.1]
    rw [h0] at h3
    split_ifs at h with hr hw hp hd
    · have e0 : w = false := by
        cases w
        · rfl
        · simp [h3] at hw
      have e1 : ev = false := by simpa using hp
      have e2 : dip = false := by simpa using hd
      subst e0 e1 e2
      obtain ⟨hf, ext, he, hpt⟩ := ih _ _ _ _ h (by rw [d3, p3, hw])
      refine ⟨((h4.frame_trans p4).frame_trans d4).frame_trans hf, _, ?_,
        WaitTrace.again tv r ext tv' hr (hfd ▸ hpt)⟩
      rw [he, d2, p2, h2]; simp [wake_events]
    · simp only [Option.some.injEq, Prod.mk.injEq] at h
      obtain ⟨rfl, rfl⟩ := h
      have e0 : w = false := by
        cases w
        · rfl
        · simp [h3] at hw
      have e1 : ev = false := by simpa using hp
      have e2 : dip = true := by simpa using hd
      subst e0 e1 e2
      refine ⟨(h4.frame_trans p4).frame_trans d4, _, ?_, WaitTrace.pending tv r hr⟩
      rw [d2, p2, h2]; simp [wake_events]
    · simp only [Option.some.injEq, Prod.mk.injEq] at h
      obtain ⟨rfl, rfl⟩ := h
      have e0 : w = false := by
        cases w
        · rfl
        · simp [h3] at hw
      have e1 : ev = true := by simpa using hp
      subst e0 e1
      refine ⟨h4.frame_trans p4, _, ?_, WaitTrace.event tv r hr⟩
      rw [p2, h2]; simp [wake_events]
    · simp only [Option.some.injEq, Prod.mk.injEq] at h
      obtain ⟨rfl, rfl⟩ := h
      have e0 : w = true := by
        cases w
        · simp [h3] at hw
        · rfl
      subst e0
      exact ⟨h4, _, h2, WaitTrace.woke tv r hr⟩
    · simp only [Option.some.injEq, Prod.mk.injEq] at h
      obtain ⟨rfl, rfl⟩ := h
      simp only [ne_eq, not_not] at hr
      subst hr
      exact ⟨h4, _, h2, WaitTrace.timeout tv w⟩

theorem stop_is_last {α : Type} {P : α → Prop} {init pre post : List α} {last e : α}
    (h : init ++ [last] = pre ++ e :: post) (hinit : ∀ x ∈ init, ¬ P x) (he : P e) :
    post = [] ∧ e = last := by
  obtain ⟨pre', -, h2⟩ := split_left h (fun hm => hinit e hm he)
  cases pre' with
  | nil => simp at h2; exact ⟨h2.2, h2.1.symm⟩
  | cons x pre' => simp at h2

theorem stop_in_rest {α : Type} {P : α → Prop} {round rest pre post : List α} {e : α}
    (h : round ++ rest = pre ++ e :: post) (hround : ∀ x ∈ round, ¬ P x) (he : P e) :
    ∃ pre', pre = round ++ pre' ∧ rest = pre' ++ e :: post :=
  split_left h (fun hm => hround e hm he)

theorem PollTrace.poll_stop_last {fd0 : Nat} {t t' : EventTimeout} {ext : List Event}
    (h : PollTrace fd0 t ext t') :
    ∀ (pre post : List Event) (e : Event), ext = pre ++ e :: post → poll_stop e →
      post = [] ∧ (timed_out_slice e ↔ t' = 0) := by
  induction h with
  | timeout t w =>
    intro pre post e h he
    obtain ⟨h1, h2⟩ := stop_is_last h
      (by cases w <;> simp [wake_events, poll_stop]) he
    subst h2
    simp [h1, timed_out_slice]
  | event t r w hr =>
    intro pre post e h he
    rw [show wake_events fd0 w ++ [Event.mac_run_loop_run_once t r w,
        Event.mac_peek_next_event true]
        = (wake_events fd0 w ++ [Event.mac_run_loop_run_once t r w])
          ++ [Event.mac_peek_next_event true] by simp] at h
    obtain ⟨h1, h2⟩ := stop_is_last h
      (by cases w <;> simp [wake_events, poll_stop, hr]) he
    subst h2
    simp [h1, timed_out_slice, hr]
  | pending t r w hr =>
    intro pre post e h he
    rw [show wake_events fd0 w ++ [Event.mac_run_loop_run_once t r w,
        Event.mac_peek_next_event false, Event.detect_input_pending true]
        = (wake_events fd0 w ++ [Event.mac_run_loop_run_once t r w,
            Event.mac_peek_next_event false])
          ++ [Event.detect_input_pending true] by simp] at h
    obtain ⟨h1, h2⟩ := stop_is_last h
      (by cases w <;> simp [wake_events, poll_stop, hr]) he
    subst h2
    simp [h1, timed_out_slice, hr]
  | again t r w rest t' hr _ ih =>
    intro pre post e h he
    obtain ⟨pre', -, h2⟩ := stop_in_rest h
      (by cases w <;> simp [wake_events, poll_stop, hr]) he
    exact ih pre' post e h2 he

theorem WaitTrace.wait_stop_last {fd0 : Nat} {t t' : EventTimeout} {ext : List Event}
    (h : WaitTrace fd0 t ext t') :
    ∀ (pre post : List Event) (e : Event), ext = pre ++ e :: post → wait_stop e →
      post = [] ∧ (timed_out_slice e ↔ t' = 0) := by
  induction h with
  | timeout t w =>
    intro pre post e h he
    obtain ⟨h1, h2⟩ := stop_is_last h
      (by cases w <;> simp [wake_events, wait_stop]) he
    subst h2
    simp [h1, timed_out_slice]
  | woke t r hr =>
    intro pre post e h he
    obtain ⟨h1, h2⟩ := stop_is_last h (by simp [wake_events, wait_stop]) he
    subst h2
    simp [h1, timed_out_slice, hr]
  | event t r hr =>
    intro pre post e h he
    rw [show [Event.mac_run_loop_run_once t r false, Event.mac_peek_next_event true]
        = [Event.mac_run_loop_run_once t r false]
          ++ [Event.mac_peek_next_event true] by simp] at h
    obtain ⟨h1, h2⟩ := stop_is_last h (by simp [wait_stop, hr]) he
    subst h2
    simp [h1, timed_out_slice, hr]
  | pending t r hr =>
    intro pre post e h he
    rw [show [Event.mac_run_loop_run_once t r false,
        Event.mac_peek_next_event false, Event.detect_input_pending true]
        = [Event.mac_run_loop_run_once t r false, Event.mac_peek_next_event false]
          ++ [Event.detect_input_pending true] by simp] at h
    obtain ⟨h1, h2⟩ := stop_is_last h (by simp [wait_stop, hr]) he
    subst h2
    simp [h1, timed_out_slice, hr]
  | again t r rest t' hr _ ih =>
    intro pre post e h he
    obtain ⟨pre', -, h2⟩ := stop_in_rest h (by simp [wait_stop, hr]) he
    exact ih pre' post e h2 he

theorem PollTrace.poll_slice_events {fd0 : Nat} {t t' : EventTimeout} {ext : List Event}
    (h : PollTrace fd0 t ext t') : ∀ e ∈ ext, slice_event fd0 e := by
  induction h with
  | timeout t w => cases w <;> simp [wake_events, slice_event]
  | event t r w hr => cases w <;> simp [wake_events, slice_event]
  | pending t r w hr => cases w <;> simp [wake_events, slice_event]
  | again t r w rest t' hr _ ih =>
    intro e he
    rcases List.mem_append.1 he with he | he
    · have hround : ∀ x ∈ wake_events fd0 w ++ [Event.mac_run_loop_run_once t r w,
          Event.mac_peek_next_event false, Event.detect_input_pending false],
          slice_event fd0 x := by
        cases w <;> simp [wake_events, slice_event]
      exact hround e he
    · exact ih e he

theorem WaitTrace.wait_slice_events {fd0 : Nat} {t t' : EventTimeout} {ext : List Event}
    (h : WaitTrace fd0 t ext t') : ∀ e ∈ ext, slice_event fd0 e := by
  induction h with
  | timeout t w => cases w <;> simp [wake_events, slice_event]
  | woke t r hr => simp [wake_events, slice_event]
  | event t r hr => simp [slice_event]
  | pending t r hr => simp [slice_event]
  | again t r rest t' hr _ ih =>
    intro e he
    rcases List.mem_append.1 he with he | he
    · have hround : ∀ x ∈ [Event.mac_run_loop_run_once t r false,
          Event.mac_peek_next_event false, Event.detect_input_pending false],
          slice_event fd0 x := by
        simp [slice_event]
      exact hround e he
    · exact ih e he

/-! ### The traces of `select_and_poll_event` -/

theorem SameShape.shape_refl (s : State) : SameShape s s := by simp [SameShape]

theorem SameShape.shape_trans {s s1 s2 : State} (h1 : SameShape s s1)
    (h2 : SameShape s1 s2) : SameShape s s2 := by
  simp only [SameShape] at *
  simp [h1, h2]

theorem SliceFrame.shape {s s' : State} (h : SliceFrame s s') : SameShape s s' := by
  simp only [SliceFrame, SameShape] at *
  simp [h]

theorem map_const_of_isSome {α β : Type} {a b : Option α} (c : β)
    (h : a.isSome = b.isSome) : (a.map fun _ => c) = b.map fun _ => c := by
  cases a <;> cases b <;> simp at h ⊢

theorem select_spec (env : Env) (nfds : Int) (timeout : Option EMACS_TIME)
    (s s0 : State) (hs : SameShape s s0) :
    ∃ req res, req.timeout = timeout ∧
      (select env nfds timeout s0).2.trace = s0.trace ++ [Event.select req res] ∧
      (select env nfds timeout s0).1 = res.ret ∧
      select_left s res (select env nfds timeout s0) ∧
      SameShape s (select env nfds timeout s0).2 := by
  refine ⟨_, _, ?_, rfl, rfl, ?_, ?_⟩
  · rfl
  · simp only [select_left, select, true_and]
    refine ⟨map_const_of_isSome _ hs.1, map_const_of_isSome _ hs.2.1,
      map_const_of_isSome _ hs.2.2.1, ?_⟩
    intro h
    simp [h]
  · simp only [SameShape, select] at *
    simp [hs]

theorem restore_sets_shape (s s0 : State) (o : SavedSets) (hs : SameShape s s0)
    (ho : o.orfds.isSome = s.rfds.isSome ∧ o.owfds.isSome = s.wfds.isSome ∧
      o.oefds.isSome = s.efds.isSome) :
    SameShape s (restore_sets o s0) ∧ (restore_sets o s0).trace = s0.trace := by
  obtain ⟨h1, h2, h3, h4, h5⟩ := hs
  obtain ⟨o1, o2, o3⟩ := ho
  simp only [SameShape, restore_sets]
  refine ⟨⟨?_, ?_, ?_, h4, h5⟩, trivial⟩
  · revert h1 o1; cases s0.rfds <;> cases s.rfds <;> cases o.orfds <;> simp
  · revert h2 o2; cases s0.wfds <;> cases s.wfds <;> cases o.owfds <;> simp
  · revert h3 o3; cases s0.efds <;> cases s.efds <;> cases o.oefds <;> simp

theorem spin_trace (env : Env) (nfds : Int) (s : State) (o : SavedSets)
    (ho : o.orfds.isSome = s.rfds.isSome ∧ o.owfds.isSome = s.wfds.isSome ∧
      o.oefds.isSome = s.efds.isSome) :
    ∀ (fuel : Nat) (l : PollLocals) (s0 : State) (l' : PollLocals) (s' : State),
      select_and_poll_event_loop env nfds none o fuel l s0 = some (l', s') →
      l.timeoutval = 0 → l.timedout_p = true → l.r = 0 → SameShape s s0 →
      SameShape s s' ∧ l'.timedout_p = true ∧
        ∃ ext, s'.trace = s0.trace ++ ext ∧ SpinTrace s ext (l'.r, s') := by
  intro fuel
  induction fuel with
  | zero => intro l s0 l' s' h; simp [select_and_poll_event_loop] at h
  | succ fuel ih =>
    intro l s0 l' s' h htv htp hr hs
    simp only [select_and_poll_event_loop] at h
    obtain ⟨d2, -, d4⟩ := detect_input_pending_spec env s0
    generalize detect_input_pending env s0 = a at h d2 d4
    obtain ⟨dip, s1⟩ := a
    simp only at h d2 d4
    obtain ⟨req, res, -, e2, e3, e4, e5⟩ := select_spec env nfds (some ⟨0, 0⟩) s s1
      (hs.shape_trans d4.shape)
    generalize select env nfds (some ⟨0, 0⟩) s1 = b at h e2 e3 e4 e5
    obtain ⟨r, s2⟩ := b
    simp only at h e2 e3 e4 e5
    split_ifs at h with hd hr0
    · simp only [Option.some.injEq, Prod.mk.injEq] at h
      obtain ⟨rfl, rfl⟩ := h
      subst hd
      exact ⟨hs.shape_trans d4.shape, htp, _, d2, SpinTrace.pending _ hr⟩
    · simp only [Option.some.injEq, Prod.mk.injEq] at h
      obtain ⟨rfl, rfl⟩ := h
      have hd' : dip = false := by simpa using hd
      subst hd'
      refine ⟨e5, htp, _, ?_, SpinTrace.ready req res _ (e3 ▸ hr0) e4⟩
      rw [e2, d2]; simp
    · have hd' : dip = false := by simpa using hd
      subst hd'
      simp only [htv, if_true] at h
      simp only [ne_eq, not_not] at hr0
      simp only [Option.isNone_none, Bool.true_and, if_true] at h
      obtain ⟨h1, h2⟩ := restore_sets_shape s s2 o e5 ho
      obtain ⟨i1, i2, ext, i3, i4⟩ := ih _ _ _ _ h rfl rfl hr0 h1
      refine ⟨i1, i2, _, ?_, SpinTrace.again req res ext _ (e3 ▸ hr0) i4⟩
      rw [i3, h2, e2, d2]; simp

theorem select_and_poll_event_return_spec (env : Env) (l : PollLocals) (s0 : State) :
    (l.r ≠ 0 ∧ select_and_poll_event_return env l s0 = (l.r, s0)) ∨
    (l.r = 0 ∧ l.timedout_p = true ∧ select_and_poll_event_return env l s0 = (0, s0)) ∨
    (l.r = 0 ∧ l.timedout_p = false ∧
      (select_and_poll_event_return env l s0).1 = -1 ∧
      (select_and_poll_event_return env l s0).2.errno = EINTR ∧
      SameShape s0 (select_and_poll_event_return env l s0).2 ∧
      ∃ d, (select_and_poll_event_return env l s0).2.trace
        = s0.trace ++ [Event.detect_input_pending d]) := by
  by_cases hr : l.r = 0
  · cases htp : l.timedout_p
    · right; right
      simp [select_and_poll_event_return, hr, htp, detect_input_pending, State.log,
        SameShape]
    · right; left
      simp [select_and_poll_event_return, hr, htp]
  · left
    simp [select_and_poll_event_return, hr]

theorem select_and_poll_event_run (env : Env) (fuel : Nat) (nfds : Int)
    (timeout : Option EMACS_TIME) (s s0 : State) (out : Int × State)
    (hs : SameShape s s0)
    (h : select_and_poll_event env fuel nfds timeout s0 = some out) :
    SameShape s out.2 ∧
      ∃ ext, out.2.trace = s0.trace ++ ext ∧ PollRun s.wakeup_fds0 s timeout ext out := by
  cases fuel with
  | zero => simp [select_and_poll_event, select_and_poll_event_loop] at h
  | succ fuel =>
    simp only [select_and_poll_event, select_and_poll_event_loop] at h
    obtain ⟨d2, -, d4⟩ := detect_input_pending_spec env s0
    generalize detect_input_pending env s0 = a at h d2 d4
    obtain ⟨dip, s1⟩ := a
    simp only at h d2 d4
    obtain ⟨req, res, -, e2, e3, e4, e5⟩ := select_spec env nfds (some ⟨0, 0⟩) s s1
      (hs.shape_trans d4.shape)
    generalize select env nfds (some ⟨0, 0⟩) s1 = b at h e2 e3 e4 e5
    obtain ⟨r, s2⟩ := b
    simp only at h e2 e3 e4 e5
    by_cases hd : dip = true
    · subst hd
      simp only [if_true, Option.some.injEq] at h
      subst h
      rcases select_and_poll_event_return_spec env
        ⟨false, 0, timeoutval_of timeout⟩ s1 with h | h | ⟨-, -, h1, h2, h3, d, h4⟩
      · simp at h
      · simp at h
      · refine ⟨(hs.shape_trans d4.shape).shape_trans h3, _, ?_, PollRun.pending d _ h1 h2⟩
        rw [h4, d2]; simp
    · have hd' : dip = false := by simpa using hd
      subst hd'
      simp only [Bool.false_eq_true, if_false] at h
      by_cases hr : r = 0
      · subst hr
        simp only [ne_eq, not_true_eq_false, if_false] at h
        by_cases htv : timeoutval_of timeout = 0
        · simp only [htv, if_true] at h
          cases timeout with
          | none => simp [timeoutval_of, kEventDurationForever] at htv
          | some t =>
            simp only [Option.isNone_some, Bool.false_and, Bool.false_eq_true,
              if_false, Option.some.injEq] at h
            subst h
            refine ⟨?_, _, ?_, PollRun.zero req res _ e3.symm htv ?_⟩
            · simpa [select_and_poll_event_return] using e5
            · simp [select_and_poll_event_return, e2, d2]
            · simp [select_and_poll_event_return]
        · simp only [htv, if_false] at h
          cases hsl : poll_slices env fuel (timeoutval_of timeout) s2 with
          | none => simp [hsl] at h
          | some p =>
            obtain ⟨tv1, s3⟩ := p
            obtain ⟨g1, sl, g2, g3⟩ := poll_slices_trace env _ _ _ _ _ hsl
            simp only [hsl] at h
            have hfd : s2.wakeup_fds0 = s.wakeup_fds0 := e5.2.2.2.1
            rw [hfd] at g3
            have hs3 : SameShape s s3 := e5.shape_trans g1.shape
            by_cases htv1 : tv1 = 0
            · subst htv1
              cases timeout with
              | some t =>
                simp only [Option.isNone_some, Bool.false_and, Bool.false_eq_true,
                  if_false, Option.some.injEq] at h
                subst h
                refine ⟨?_, _, ?_, PollRun.timed_out req res sl _ e3.symm htv g3
                  (by simp) ?_⟩
                · simpa [select_and_poll_event_return] using hs3
                · simp [select_and_poll_event_return, g2, e2, d2]
                · simp [select_and_poll_event_return]
              | none =>
                simp only [Option.isNone_none, Bool.true_and, if_true] at h
                cases hloop : select_and_poll_event_loop env nfds none
                    ⟨s0.rfds, s0.wfds, s0.efds⟩ fuel ⟨true, 0, 0⟩
                    (restore_sets ⟨s0.rfds, s0.wfds, s0.efds⟩ s3) with
                | none => simp [hloop] at h
                | some q =>
                  obtain ⟨l', s'⟩ := q
                  simp only [hloop, Option.some.injEq] at h
                  subst h
                  have ho : (⟨s0.rfds, s0.wfds, s0.efds⟩ : SavedSets).orfds.isSome
                        = s.rfds.isSome ∧
                      (⟨s0.rfds, s0.wfds, s0.efds⟩ : SavedSets).owfds.isSome
                        = s.wfds.isSome ∧
                      (⟨s0.rfds, s0.wfds, s0.efds⟩ : SavedSets).oefds.isSome
                        = s.efds.isSome := ⟨hs.1, hs.2.1, hs.2.2.1⟩
                  obtain ⟨k1, k2⟩ := restore_sets_shape s s3 _ hs3 ho
                  obtain ⟨i1, i2, rest, i3, i4⟩ :=
                    spin_trace env nfds s _ ho fuel _ _ _ _ hloop rfl rfl rfl k1
                  have hret : select_and_poll_event_return env l' s' = (l'.r, s') := by
                    rcases select_and_poll_event_return_spec env l' s' with
                      h | ⟨h1, -, h⟩ | ⟨-, h, -⟩
                    · exact h.2
                    · rw [h, h1]
                    · rw [i2] at h; simp at h
                  rw [hret]
                  refine ⟨i1, _, ?_, PollRun.spun req res sl rest _ e3.symm htv g3 rfl i4⟩
                  simp only
                  rw [i3, k2, g2, e2, d2]; simp
            · simp only [htv1, if_false, Bool.and_false, Bool.false_eq_true,
                Option.some.injEq] at h
              subst h
              rcases select_and_poll_event_return_spec env ⟨false, 0, tv1⟩ s3 with
                h | h | ⟨-, -, h1, h2, h3, d, h4⟩
              · simp at h
              · simp at h
              · refine ⟨hs3.shape_trans h3, _, ?_,
                  PollRun.interrupted req res sl tv1 d _ e3.symm htv g3 htv1 h1 h2⟩
                rw [h4, g2, e2, d2]; simp
      · simp [hr] at h
        subst h
        refine ⟨?_, _, ?_, PollRun.ready req res _ (e3 ▸ hr) ?_⟩
        · simpa [select_and_poll_event_return, hr] using e5
        · simp [select_and_poll_event_return, hr, e2, d2]
        · simpa [select_and_poll_event_return, hr] using e4

/-! ### The hand-off and the traces of `sys_select` -/

theorem max_eq_ite (n : Int) (w : Nat) :
    (if (w : Int) ≥ n then (w : Int) + 1 else n) = max n ((w : Int) + 1) := by
  split_ifs with h
  · rw [max_eq_right]; omega
  · rw [max_eq_left]; omega

theorem start_background_waiter_spec (be : Backend) (nfds : Int)
    (orfds owfds oefds : SELECT_TYPE) (s : State)
    (hr : s.rfds = some orfds) (hw : s.wfds = s.wfds.map fun _ => owfds)
    (he : s.efds = s.efds.map fun _ => oefds) :
    (start_background_waiter be nfds orfds owfds oefds s).trace =
      s.trace ++ start_events be s.select_run_loop s.wakeup_fds1
        (background_request s.wakeup_fds1 nfds orfds s.wfds s.efds) ∧
    (start_background_waiter be nfds orfds owfds oefds s).wokeup_from_run_loop_run_once_p
      = 0 ∧
    (start_background_waiter be nfds orfds owfds oefds s).rfds = s.rfds ∧
    (start_background_waiter be nfds orfds owfds oefds s).wfds = s.wfds ∧
    (start_background_waiter be nfds orfds owfds oefds s).efds = s.efds ∧
    (start_background_waiter be nfds orfds owfds oefds s).errno = s.errno ∧
    SameShape s (start_background_waiter be nfds orfds owfds oefds s) := by
  have hw' : (if s.wfds.isSome then some owfds else none) = s.wfds := by
    revert hw; cases s.wfds <;> simp
    intro h; exact h.symm
  have he' : (if s.efds.isSome then some oefds else none) = s.efds := by
    revert he; cases s.efds <;> simp
    intro h; exact h.symm
  cases be with
  | gcd =>
    simp [start_background_waiter, State.log, start_events, background_request,
      dispatch_select_request, SameShape, FD_SET, max_eq_ite, hw', he']
  | pthread =>
    have hw2 : (if s.wfds.isSome then some (s.wfds.getD FD_ZERO) else none) = s.wfds := by
      cases s.wfds <;> simp
    have he2 : (if s.efds.isSome then some (s.efds.getD FD_ZERO) else none) = s.efds := by
      cases s.efds <;> simp
    by_cases hl : s.select_run_loop = true <;>
      simp [start_background_waiter, State.log, start_events, background_request,
        select_fire, select_perform, select_perform_request, select_sem_wait,
        select_thread_launch, read_all_from_nonblocking_fd, SameShape, FD_SET,
        max_eq_ite, hl, hr, hw2, he2]

theorem wake_background_waiter_spec (be : Backend) (s : State) :
    (wake_background_waiter be s).trace =
      s.trace ++ stop_events be s.wakeup_fds0 s.wakeup_fds1 ∧
    (wake_background_waiter be s).rfds = s.rfds ∧
    (wake_background_waiter be s).wfds = s.wfds ∧
    (wake_background_waiter be s).efds = s.efds ∧
    (wake_background_waiter be s).errno = s.errno ∧
    SameShape s (wake_background_waiter be s) := by
  cases be <;>
    simp [wake_background_waiter, write_one_byte_to_fd, State.log, stop_events, SameShape]

theorem PollRun.zero_cases {fd0 : Nat} {s : State} {ext : List Event}
    {out : Int × State} (h : PollRun fd0 s (some ⟨0, 0⟩) ext out) :
    (∃ d, ext = [Event.detect_input_pending true, Event.detect_input_pending d] ∧
      out.1 = -1 ∧ out.2.errno = EINTR) ∨
    (∃ req res, ext = [Event.detect_input_pending false, Event.select req res] ∧
      res.ret ≠ 0 ∧ select_left s res out) ∨
    (∃ req res, ext = [Event.detect_input_pending false, Event.select req res] ∧
      res.ret = 0 ∧ out.1 = 0) := by
  have htv : timeoutval_of (some ⟨0, 0⟩) = 0 := by simp [timeoutval_of]
  cases h with
  | pending d _ h1 h2 => exact Or.inl ⟨d, rfl, h1, h2⟩
  | ready req res _ h1 h2 => exact Or.inr (Or.inl ⟨req, res, rfl, h1, h2⟩)
  | zero req res _ h1 h2 h3 => exact Or.inr (Or.inr ⟨req, res, rfl, h1, h3⟩)
  | timed_out req res sl _ h1 h2 => exact absurd htv h2
  | interrupted req res sl t' d _ h1 h2 => exact absurd htv h2
  | spun req res sl rest _ h1 h2 => exact absurd htv h2

theorem final_poll_run (env : Env) (fuel : Nat) (nfds : Int) (s s0 : State)
    (out : Int × State) (hs : SameShape s s0)
    (h : final_poll env fuel nfds s0 = some out) :
    SameShape s out.2 ∧ ∃ fin, out.2.trace = s0.trace ++ fin ∧ FinalPoll s fin out := by
  simp only [final_poll] at h
  cases hp : select_and_poll_event env fuel nfds (some ⟨0, 0⟩) s0 with
  | none => simp [hp] at h
  | some mid =>
    obtain ⟨r, s1⟩ := mid
    simp only [hp] at h
    obtain ⟨h1, fin, h2, h3⟩ := select_and_poll_event_run env fuel nfds _ s s0 _ hs hp
    by_cases hr : r = 0
    · subst hr
      simp at h
      subst h
      rcases h3.zero_cases with ⟨d, -, h4, -⟩ | ⟨req, res, -, h4, h5⟩ | ⟨req, res, h4, h5, -⟩
      · simp at h4
      · exact absurd h5.1.symm h4
      · subst h4
        refine ⟨?_, _, ?_, FinalPoll.idle req res _ h5 rfl rfl⟩
        · simpa [SameShape] using h1
        · simpa using h2
    · simp [hr] at h
      subst h
      rcases h3.zero_cases with ⟨d, h4, h5, h6⟩ | ⟨req, res, h4, h5, h6⟩ | ⟨req, res, -, -, h6⟩
      · subst h4
        exact ⟨h1, _, h2, FinalPoll.pending d _ h5 h6⟩
      · subst h4
        exact ⟨h1, _, h2, FinalPoll.ready req res _ h5 h6⟩
      · exact absurd h6 hr

theorem requested_rfds {nfds : Int} {s : State}
    (h : window_channel_requested nfds s = true) :
    s.inhibit_window_system = false ∧ s.noninteractive = false ∧ 1 ≤ nfds ∧
      ∃ r, s.rfds = some r ∧ 0 ∈ r := by
  simp only [window_channel_requested] at h
  cases hr : s.rfds with
  | none => simp [hr] at h
  | some r =>
    simp [hr, FD_ISSET] at h
    exact ⟨h.1.1.1, h.1.1.2, by omega, r, rfl, h.2⟩

theorem restore_saved_sets_spec (s s2 : State) {r : SELECT_TYPE}
    (hr : s.rfds = some r) (hs : SameShape s s2) :
    (restore_saved_sets (FD_CLR 0 (s.rfds.getD FD_ZERO))
        (s.wfds.getD FD_ZERO)
        (s.efds.getD FD_ZERO) s2).trace = s2.trace ∧
    (restore_saved_sets (FD_CLR 0 (s.rfds.getD FD_ZERO))
        (s.wfds.getD FD_ZERO)
        (s.efds.getD FD_ZERO) s2).rfds
      = some (FD_CLR 0 (s.rfds.getD FD_ZERO)) ∧
    (restore_saved_sets (FD_CLR 0 (s.rfds.getD FD_ZERO))
        (s.wfds.getD FD_ZERO)
        (s.efds.getD FD_ZERO) s2).wfds = s.wfds ∧
    (restore_saved_sets (FD_CLR 0 (s.rfds.getD FD_ZERO))
        (s.wfds.getD FD_ZERO)
        (s.efds.getD FD_ZERO) s2).efds = s.efds ∧
    SameShape s (restore_saved_sets (FD_CLR 0 (s.rfds.getD FD_ZERO))
        (s.wfds.getD FD_ZERO)
        (s.efds.getD FD_ZERO) s2) := by
  obtain ⟨h1, h2, h3, h4, h5⟩ := hs
  have hw : (s2.wfds.map fun _ => (s.wfds.getD FD_ZERO))
      = s.wfds := by
    revert h2; cases s2.wfds <;> cases s.wfds <;> simp
  have he : (s2.efds.map fun _ => (s.efds.getD FD_ZERO))
      = s.efds := by
    revert h3; cases s2.efds <;> cases s.efds <;> simp
  simp only [restore_saved_sets, SameShape, hw, he, hr]
  simp [h4, h5]

theorem sys_select_mixed_run (env : Env) (be : Backend) (fuel : Nat) (nfds : Int)
    (timeout : Option EMACS_TIME) (s : State) (out : Int × State)
    (hreq : window_channel_requested nfds s = true)
    (hn : trimmed_nfds nfds s ≠ 1)
    (h : sys_select env be fuel nfds timeout s = some out) :
    ∃ r0 s2 ext,
      select_and_poll_event env fuel (trimmed_nfds nfds s) (some ⟨0, 0⟩)
        { s with rfds := some (FD_CLR 0 (s.rfds.getD FD_ZERO)) } = some (r0, s2) ∧
      (∃ post, out.2.trace = s2.trace ++ post) ∧
      (r0 ≠ 0 ∨ timeoutval_of timeout = 0 → out = (r0, s2)) ∧
      out.2.trace = s.trace ++ ext ∧
      MixedRun be s (trimmed_nfds nfds s) (timeoutval_of timeout) r0
        (env.detect_input_pending s2.trace) ext out := by
  obtain ⟨-, -, -, r, hr, -⟩ := requested_rfds hreq
  simp only [sys_select, hreq, Bool.not_true, Bool.false_eq_true, if_false] at h
  rw [show ((trim_nfds (FD_SET 0 (FD_CLR 0 (s.rfds.getD FD_ZERO))) s.wfds s.efds
      nfds.toNat : Nat) : Int) = trimmed_nfds nfds s from rfl] at h
  simp only [hn, if_false] at h
  have hs1 : SameShape s { s with rfds := some (FD_CLR 0 (s.rfds.getD FD_ZERO)) } := by
    simp [SameShape, hr]
  have ht1 : ({ s with rfds := some (FD_CLR 0 (s.rfds.getD FD_ZERO)) } : State).trace
      = s.trace := rfl
  generalize ({ s with rfds := some (FD_CLR 0 (s.rfds.getD FD_ZERO)) } : State) = s1
    at h hs1 ht1
  cases hp : select_and_poll_event env fuel (trimmed_nfds nfds s) (some ⟨0, 0⟩) s1 with
  | none => simp [hp] at h
  | some mid =>
    obtain ⟨r0, s2⟩ := mid
    simp only [hp] at h
    obtain ⟨hs2, p, hp2, hp3⟩ := select_and_poll_event_run env fuel _ _ s s1 _ hs1 hp
    refine ⟨r0, s2, ?_⟩
    by_cases hearly : r0 ≠ 0 ∨ timeoutval_of timeout = 0
    · simp only [hearly, if_true, Option.some.injEq] at h
      subst h
      exact ⟨p, rfl, ⟨[], by simp⟩, fun _ => rfl, by rw [hp2, ht1],
        MixedRun.early p _ hp3 rfl hearly⟩
    · simp only [hearly, if_false] at h
      suffices hx : ∃ ext, (∃ post, out.2.trace = s2.trace ++ post) ∧
          out.2.trace = s.trace ++ ext ∧
          MixedRun be s (trimmed_nfds nfds s) (timeoutval_of timeout) r0
            (env.detect_input_pending s2.trace) ext out by
        obtain ⟨ext, a, b, c⟩ := hx
        exact ⟨ext, rfl, a, fun hc => absurd hc hearly, b, c⟩
      simp only [not_or, not_not] at hearly
      obtain ⟨hr0, htv⟩ := hearly
      subst hr0
      -- the poll found nothing
      obtain ⟨req, res, hpe, hres⟩ : ∃ req res,
          p = [Event.detect_input_pending false, Event.select req res] ∧ res.ret = 0 := by
        rcases hp3.zero_cases with ⟨d, -, h4, -⟩ | ⟨req, res, -, h4, h5⟩ | ⟨req, res, h4, h5, -⟩
        · simp at h4
        · exact absurd h5.1.symm h4
        · exact ⟨req, res, h4, h5⟩
      subst hpe
      -- the saved sets are put back
      have hres3 := restore_saved_sets_spec s s2 hr hs2
      generalize restore_saved_sets (FD_CLR 0 (s.rfds.getD FD_ZERO))
        (s.wfds.getD FD_ZERO) (s.efds.getD FD_ZERO) s2 = s3 at h hres3
      obtain ⟨k1, k2, k3, k4, k5⟩ := hres3
      obtain ⟨d2, -, d4⟩ := detect_input_pending_spec env s3
      have d1 : (detect_input_pending env s3).1 = env.detect_input_pending s2.trace := by
        rw [← k1]; rfl
      generalize detect_input_pending env s3 = a at h d1 d2 d4
      obtain ⟨dip, s4⟩ := a
      simp only at h d1 d2 d4
      rw [← d1]
      have hs4 : SameShape s s4 := k5.shape_trans d4.shape
      cases dip with
      | true =>
        simp only [Bool.not_true, Bool.false_eq_true, if_false, Bool.not_false,
          if_true] at h
        obtain ⟨-, fin, f2, f3⟩ := final_poll_run env fuel _ s s4 out hs4 h
        refine ⟨_, ⟨?post, ?hpost⟩, ?_, MixedRun.pending req res fin out rfl rfl hres htv f3⟩
        case hpost => rw [f2, d2, k1]; simp only [List.append_assoc]; exact rfl
        rw [f2, d2, k1, hp2, ht1]; simp
      | false =>
        simp only [Bool.not_false, if_true, hand_off] at h
        have hst := start_background_waiter_spec be (trimmed_nfds nfds s)
          (FD_CLR 0 (s.rfds.getD FD_ZERO)) (s.wfds.getD FD_ZERO) (s.efds.getD FD_ZERO) s4
          (by rw [d4.2.2.2.2.2.2.2.1, k2])
          (by rw [d4.2.2.2.2.2.2.2.2.1, k3]; cases s.wfds <;> simp)
          (by rw [d4.2.2.2.2.2.2.2.2.2, k4]; cases s.efds <;> simp)
        generalize start_background_waiter be (trimmed_nfds nfds s)
          (FD_CLR 0 (s.rfds.getD FD_ZERO)) (s.wfds.getD FD_ZERO) (s.efds.getD FD_ZERO) s4
          = s5 at h hst
        obtain ⟨t1, t2, t3, t4, t5, -, t7⟩ := hst
        cases hw : wait_slices env fuel (timeoutval_of timeout) s5 with
        | none => simp [hw] at h
        | some q =>
          obtain ⟨tv', s6⟩ := q
          simp only [hw] at h
          obtain ⟨w1, sl, w2, w3⟩ := wait_slices_trace env _ _ _ _ _ hw t2
          obtain ⟨u1, u2, u3, u4, -, u6⟩ := wake_background_waiter_spec be s6
          generalize wake_background_waiter be s6 = s7 at h u1 u2 u3 u4 u6
          have hs6 : SameShape s s6 := (hs4.shape_trans t7).shape_trans w1.shape
          have hs7 : SameShape s s7 := hs6.shape_trans u6
          rw [(hs4.shape_trans t7).2.2.2.1] at w3
          rw [hs6.2.2.2.1, hs6.2.2.2.2] at u1
          rw [hs4.2.2.2.2, d4.2.2.2.2.2.2.2.2.1, d4.2.2.2.2.2.2.2.2.2, k3, k4] at t1
          by_cases htv' : tv' = 0
          · subst htv'
            simp only [decide_True, Bool.not_true, Bool.false_eq_true, if_false,
              Option.some.injEq] at h
            subst h
            refine ⟨_, ⟨?post2, ?hpost⟩, ?_, MixedRun.timed_out req res s4.select_run_loop sl _
              rfl rfl hres htv w3 rfl ?_ ?_ ?_⟩
            case hpost =>
              simp only [clear_sets]
              rw [u1, w2, t1, d2, k1]; simp only [List.append_assoc]; exact rfl
            · simp only [clear_sets]
              rw [u1, w2, t1, d2, k1, hp2, ht1]; simp
            · simp [clear_sets, FD_ZERO]
            · simp only [clear_sets, FD_ZERO]
              exact map_const_of_isSome _ hs7.2.1
            · simp only [clear_sets, FD_ZERO]
              exact map_const_of_isSome _ hs7.2.2.1
          · simp only [htv', decide_False, Bool.not_false, if_true] at h
            obtain ⟨-, fin, f2, f3⟩ := final_poll_run env fuel _ s s7 out hs7 h
            refine ⟨_, ⟨?post3, ?hpost⟩, ?_, MixedRun.interrupted req res s4.select_run_loop sl
              tv' fin _ rfl rfl hres htv w3 htv' f3⟩
            case hpost =>
              rw [f2, u1, w2, t1, d2, k1]; simp only [List.append_assoc]; exact rfl
            rw [f2, u1, w2, t1, d2, k1, hp2, ht1]; simp

/-! ### The trimmed `nfds` -/

theorem trim_nfds_eq_one (rfds : SELECT_TYPE) (wfds efds : Option SELECT_TYPE)
    (h0 : 0 ∈ rfds) :
    ∀ n : Nat, 1 ≤ n →
      (trim_nfds rfds wfds efds n = 1 ↔
        ∀ d : Nat, 1 ≤ d → d < n →
          d ∉ rfds ∧ (∀ w, wfds = some w → d ∉ w) ∧ (∀ e, efds = some e → d ∉ e)) := by
  intro n
  induction n with
  | zero => intro h; omega
  | succ n ih =>
    intro _
    cases n with
    | zero =>
      simp [trim_nfds, FD_ISSET, h0]
      intro d h1 h2; omega
    | succ n =>
      have ih' := ih (by omega)
      have hstep : trim_nfds rfds wfds efds (n + 1 + 1) =
          if (FD_ISSET (n + 1) rfds || FD_ISSET_opt (n + 1) wfds
            || FD_ISSET_opt (n + 1) efds) = true
          then n + 1 + 1 else trim_nfds rfds wfds efds (n + 1) := rfl
      rw [hstep]
      by_cases hset : (FD_ISSET (n + 1) rfds || FD_ISSET_opt (n + 1) wfds
          || FD_ISSET_opt (n + 1) efds) = true
      · rw [if_pos hset]
        constructor
        · intro h; omega
        · intro h
          obtain ⟨h1, h2, h3⟩ := h (n + 1) (by omega) (by omega)
          exfalso
          simp only [Bool.or_eq_true] at hset
          rcases hset with (hset | hset) | hset
          · exact h1 (by simpa [FD_ISSET] using hset)
          · cases wfds with
            | none => simp [FD_ISSET_opt] at hset
            | some w => exact h2 w rfl (by simpa [FD_ISSET, FD_ISSET_opt] using hset)
          · cases efds with
            | none => simp [FD_ISSET_opt] at hset
            | some e => exact h3 e rfl (by simpa [FD_ISSET, FD_ISSET_opt] using hset)
      · rw [if_neg hset, ih']
        simp only [Bool.or_eq_true, not_or] at hset
        obtain ⟨⟨g1, g2⟩, g3⟩ := hset
        constructor
        · intro h d h1 h2
          by_cases hd : d = n + 1
          · subst hd
            refine ⟨by simpa [FD_ISSET] using g1, ?_, ?_⟩
            · intro w hw; subst hw; simpa [FD_ISSET, FD_ISSET_opt] using g2
            · intro e he; subst he; simpa [FD_ISSET, FD_ISSET_opt] using g3
          · exact h d h1 (by omega)
        · intro h d h1 h2
          exact h d h1 (by omega)

theorem trimmed_nfds_eq_one_iff {nfds : Int} {s : State}
    (hreq : window_channel_requested nfds s = true) :
    trimmed_nfds nfds s = 1 ↔ ¬ real_descriptor_requested nfds s := by
  obtain ⟨-, -, hn, r, hr, -⟩ := requested_rfds hreq
  have key := trim_nfds_eq_one (FD_SET 0 (FD_CLR 0 (s.rfds.getD FD_ZERO))) s.wfds s.efds
    (by simp [FD_SET]) nfds.toNat (by omega)
  simp only [trimmed_nfds]
  rw [show ((trim_nfds (FD_SET 0 (FD_CLR 0 (s.rfds.getD FD_ZERO))) s.wfds s.efds
      nfds.toNat : Nat) : Int) = 1 ↔
      trim_nfds (FD_SET 0 (FD_CLR 0 (s.rfds.getD FD_ZERO))) s.wfds s.efds nfds.toNat = 1
      by omega, key]
  simp only [real_descriptor_requested, hr, Option.getD_some, FD_SET, FD_CLR]
  constructor
  · rintro h ⟨d, h1, h2, h3⟩
    obtain ⟨g1, g2, g3⟩ := h d h1 (by omega)
    rcases h3 with ⟨r', hr', hd⟩ | ⟨w, hw, hd⟩ | ⟨e, he, hd⟩
    · simp only [Option.some.injEq] at hr'
      subst hr'
      exact g1 (by simp [hd]; omega)
    · exact g2 w hw hd
    · exact g3 e he hd
  · intro h d h1 h2
    refine ⟨?_, ?_, ?_⟩
    · intro hd
      simp only [Finset.mem_insert, Finset.mem_erase] at hd
      rcases hd with hd | hd
      · omega
      · exact h ⟨d, h1, by omega, Or.inl ⟨r, rfl, hd.2⟩⟩
    · intro w hw hd
      exact h ⟨d, h1, by omega, Or.inr (Or.inl ⟨w, hw, hd⟩)⟩
    · intro e he hd
      exact h ⟨d, h1, by omega, Or.inr (Or.inr ⟨e, he, hd⟩)⟩

theorem sys_select_pure (env : Env) (be : Backend) (fuel : Nat) (nfds : Int)
    (timeout : Option EMACS_TIME) (s : State)
    (hreq : window_channel_requested nfds s = true)
    (hn : trimmed_nfds nfds s = 1) :
    sys_select env be fuel nfds timeout s =
      select_and_poll_event env fuel 1 timeout
        { s with rfds := some (FD_CLR 0 (s.rfds.getD FD_ZERO)) } := by
  simp only [sys_select, hreq, Bool.not_true, Bool.false_eq_true, if_false]
  rw [show ((trim_nfds (FD_SET 0 (FD_CLR 0 (s.rfds.getD FD_ZERO))) s.wfds s.efds
      nfds.toNat : Nat) : Int) = trimmed_nfds nfds s from rfl]
  simp only [hn, if_true]

/-! ### More fuel does not change an answer -/

theorem poll_slices_fuel_mono (env : Env) :
    ∀ (fuel fuel' : Nat) (tv : EventTimeout) (s : State) (x : EventTimeout × State),
      fuel ≤ fuel' → poll_slices env fuel tv s = some x →
      poll_slices env fuel' tv s = some x := by
  intro fuel
  induction fuel with
  | zero => intro fuel' tv s x _ h; simp [poll_slices] at h
  | succ fuel ih =>
    intro fuel' tv s x hle h
    obtain ⟨k, rfl⟩ : ∃ k, fuel' = k + 1 := ⟨fuel' - 1, by omega⟩
    simp only [poll_slices] at h ⊢
    split_ifs at h ⊢ with h1 h2 h3
    · exact ih k _ _ _ (by omega) h
    · exact h
    · exact h
    · exact h

theorem wait_slices_fuel_mono (env : Env) :
    ∀ (fuel fuel' : Nat) (tv : EventTimeout) (s : State) (x : EventTimeout × State),
      fuel ≤ fuel' → wait_slices env fuel tv s = some x →
      wait_slices env fuel' tv s = some x := by
  intro fuel
  induction fuel with
  | zero => intro fuel' tv s x _ h; simp [wait_slices] at h
  | succ fuel ih =>
    intro fuel' tv s x hle h
    obtain ⟨k, rfl⟩ : ∃ k, fuel' = k + 1 := ⟨fuel' - 1, by omega⟩
    simp only [wait_slices] at h ⊢
    split_ifs at h ⊢ with h1 h2 h3 h4
    · exact ih k _ _ _ (by omega) h
    · exact h
    · exact h
    · exact h
    · exact h

theorem select_and_poll_event_loop_fuel_mono (env : Env) (nfds : Int)
    (timeout : Option EMACS_TIME) (o : SavedSets) :
    ∀ (fuel fuel' : Nat) (l : PollLocals) (s : State) (x : PollLocals × State),
      fuel ≤ fuel' → select_and_poll_event_loop env nfds timeout o fuel l s = some x →
      select_and_poll_event_loop env nfds timeout o fuel' l s = some x := by
  intro fuel
  induction fuel with
  | zero => intro fuel' l s x _ h; simp [select_and_poll_event_loop] at h
  | succ fuel ih =>
    intro fuel' l s x hle h
    obtain ⟨k, rfl⟩ : ∃ k, fuel' = k + 1 := ⟨fuel' - 1, by omega⟩
    simp only [select_and_poll_event_loop] at h ⊢
    split_ifs at h ⊢ with h1 h2 h3
    · exact h
    · exact h
    · simp only at h ⊢
      split_ifs at h ⊢ with h4
      · exact ih k _ _ _ (by omega) h
      · exact h
    · cases hsl : poll_slices env fuel l.timeoutval
          (select env nfds (some ⟨0, 0⟩) (detect_input_pending env s).2).2 with
      | none => simp [hsl] at h
      | some q =>
        rw [poll_slices_fuel_mono env fuel k _ _ q (by omega) hsl]
        simp only [hsl] at h
        simp only at h ⊢
        split_ifs at h ⊢ <;> first | exact h | exact ih k _ _ _ (by omega) h

theorem select_and_poll_event_fuel_mono (env : Env) (fuel fuel' : Nat) (nfds : Int)
    (timeout : Option EMACS_TIME) (s : State) (x : Int × State) (hle : fuel ≤ fuel')
    (h : select_and_poll_event env fuel nfds timeout s = some x) :
    select_and_poll_event env fuel' nfds timeout s = some x := by
  simp only [select_and_poll_event] at h ⊢
  generalize (if timeout.isNone = true then (⟨s.rfds, s.wfds, s.efds⟩ : SavedSets)
    else ⟨none, none, none⟩) = o at h ⊢
  cases hl : select_and_poll_event_loop env nfds timeout o
      fuel ⟨false, 0, timeoutval_of timeout⟩ s with
  | none => rw [hl] at h; cases h
  | some q =>
    rw [select_and_poll_event_loop_fuel_mono env nfds timeout _ fuel fuel' _ _ q hle hl]
    rw [hl] at h
    exact h

theorem final_poll_fuel_mono (env : Env) (fuel fuel' : Nat) (nfds : Int)
    (s : State) (x : Int × State) (hle : fuel ≤ fuel')
    (h : final_poll env fuel nfds s = some x) :
    final_poll env fuel' nfds s = some x := by
  simp only [final_poll] at h ⊢
  cases hp : select_and_poll_event env fuel nfds (some ⟨0, 0⟩) s with
  | none => rw [hp] at h; cases h
  | some q =>
    rw [select_and_poll_event_fuel_mono env fuel fuel' _ _ _ q hle hp]
    rw [hp] at h
    exact h

theorem hand_off_fuel_mono (env : Env) (be : Backend) (fuel fuel' : Nat) (nfds : Int)
    (orfds owfds oefds : SELECT_TYPE) (tv : EventTimeout) (s : State)
    (x : Bool × State) (hle : fuel ≤ fuel')
    (h : hand_off env be fuel nfds orfds owfds oefds tv s = some x) :
    hand_off env be fuel' nfds orfds owfds oefds tv s = some x := by
  simp only [hand_off] at h ⊢
  cases hw : wait_slices env fuel tv
      (start_background_waiter be nfds orfds owfds oefds s) with
  | none => rw [hw] at h; cases h
  | some q =>
    rw [wait_slices_fuel_mono env fuel fuel' _ _ q hle hw]
    rw [hw] at h
    exact h

theorem sys_select_fuel_mono (env : Env) (be : Backend) (fuel fuel' : Nat) (nfds : Int)
    (timeout : Option EMACS_TIME) (s : State) (x : Int × State) (hle : fuel ≤ fuel')
    (h : sys_select env be fuel nfds timeout s = some x) :
    sys_select env be fuel' nfds timeout s = some x := by
  simp only [sys_select] at h ⊢
  split_ifs at h ⊢ with h1 h2
  · exact h
  · exact select_and_poll_event_fuel_mono env fuel fuel' _ _ _ _ hle h
  · cases hp : select_and_poll_event env fuel
        ((trim_nfds (FD_SET 0 (FD_CLR 0 (s.rfds.getD FD_ZERO))) s.wfds s.efds
          nfds.toNat : Nat) : Int) (some ⟨0, 0⟩)
        { s with rfds := some (FD_CLR 0 (s.rfds.getD FD_ZERO)) } with
    | none => rw [hp] at h; cases h
    | some q =>
      obtain ⟨r, s2⟩ := q
      rw [select_and_poll_event_fuel_mono env fuel fuel' _ _ _ _ hle hp]
      rw [hp] at h
      simp only at h ⊢
      split_ifs at h ⊢ with h3 h4
      · exact h
      · cases hh : hand_off env be fuel
            ((trim_nfds (FD_SET 0 (FD_CLR 0 (s.rfds.getD FD_ZERO))) s.wfds s.efds
              nfds.toNat : Nat) : Int)
            (FD_CLR 0 (s.rfds.getD FD_ZERO)) (s.wfds.getD FD_ZERO) (s.efds.getD FD_ZERO)
            (timeoutval_of timeout)
            (detect_input_pending env (restore_saved_sets (FD_CLR 0 (s.rfds.getD FD_ZERO))
              (s.wfds.getD FD_ZERO) (s.efds.getD FD_ZERO) s2)).2 with
        | none => rw [hh] at h; cases h
        | some q =>
          obtain ⟨tp, s5⟩ := q
          rw [hand_off_fuel_mono env be fuel fuel' _ _ _ _ _ _ _ hle hh]
          rw [hh] at h
          simp only at h ⊢
          split_ifs at h ⊢ with h5
          · exact final_poll_fuel_mono env fuel fuel' _ _ _ hle h
          · exact h
      · simp only at h ⊢
        exact final_poll_fuel_mono env fuel fuel' _ _ _ hle h

/-! ### The fast paths (C1, C2) -/

/-- Claim C1 (pure-descriptor fast path).  When the window system is
inhibited, or Emacs is noninteractive, or `nfds < 1`, or `rfds` is `NULL`, or
descriptor 0 is not in `rfds`, `sys_select` is exactly one call of the real
`select` with the caller's `nfds`, sets and timeout: it returns what that call
returns, and the history grows by that one `select` call only, so no run
loop slice, no `detect_input_pending`, no background waiter and no access to
the wake channel takes place.  This holds for every fuel. -/
theorem sys_select_without_window_channel (env : Env) (be : Backend) (fuel : Nat)
    (nfds : Int) (timeout : Option EMACS_TIME) (s : State)
    (h : s.inhibit_window_system = true ∨ s.noninteractive = true ∨ nfds < 1 ∨
      s.rfds = none ∨ ∃ r, s.rfds = some r ∧ 0 ∉ r) :
    sys_select env be fuel nfds timeout s = some (select env nfds timeout s) ∧
    (select env nfds timeout s).1
      = (env.select s.trace ⟨nfds, s.rfds, s.wfds, s.efds, timeout⟩).ret ∧
    (select env nfds timeout s).2.trace
      = s.trace ++ [Event.select ⟨nfds, s.rfds, s.wfds, s.efds, timeout⟩
          (env.select s.trace ⟨nfds, s.rfds, s.wfds, s.efds, timeout⟩)] := by
  refine ⟨?_, rfl, rfl⟩
  have hw : window_channel_requested nfds s = false := by
    simp only [window_channel_requested]
    rcases h with h | h | h | h | ⟨r, h, h0⟩
    · simp [h]
    · simp [h]
    · simp [h]
    · simp [h]
    · simp [h, FD_ISSET, h0]
  simp [sys_select, hw]

/-- Witness of C1: a caller that asks for descriptor 3 only, with
descriptor 3 ready. -/
theorem sys_select_without_window_channel_witness :
    sys_select env_ready Backend.gcd 0 4 (some ⟨5, 0⟩) caller_descriptors_only
      = some (select env_ready 4 (some ⟨5, 0⟩) caller_descriptors_only) ∧
    (select env_ready 4 (some ⟨5, 0⟩) caller_descriptors_only).1 = 1 ∧
    (select env_ready 4 (some ⟨5, 0⟩) caller_descriptors_only).2.trace
      = [Event.select ⟨4, some {3}, none, some {3}, some ⟨5, 0⟩⟩ ⟨1, {3}, ∅, ∅, 0⟩] :=
  sys_select_without_window_channel env_ready Backend.gcd 0 4 (some ⟨5, 0⟩)
    caller_descriptors_only (Or.inr (Or.inr (Or.inr (Or.inr ⟨{3}, rfl, by decide⟩))))

theorem select_and_poll_event_pending (env : Env) (fuel : Nat) (nfds : Int)
    (timeout : Option EMACS_TIME) (s : State)
    (h : env.detect_input_pending s.trace = true) :
    select_and_poll_event env (fuel + 1) nfds timeout s =
      some (-1, { s with
        errno := EINTR
        trace := s.trace ++ [Event.detect_input_pending true,
          Event.detect_input_pending
            (env.detect_input_pending (s.trace ++ [Event.detect_input_pending true]))] }) := by
  simp [select_and_poll_event, select_and_poll_event_loop, select_and_poll_event_return,
    detect_input_pending, State.log, h]

/-- Claim C2 (pending-input fast exit).  When descriptor 0 is asked for and
`detect_input_pending` answers true at its first check, `sys_select` returns
`-1` with `errno = EINTR`, and the only calls it makes are two calls of
`detect_input_pending` (the check, and the one of the "pretend that select
is interrupted" return): no `select`, no run loop slice, no background
waiter, no byte written to the wake channel.  Any positive fuel is enough. -/
theorem sys_select_pending_input (env : Env) (be : Backend) (fuel : Nat)
    (nfds : Int) (timeout : Option EMACS_TIME) (s : State)
    (hreq : window_channel_requested nfds s = true)
    (hdip : env.detect_input_pending s.trace = true) :
    ∃ out, sys_select env be (fuel + 1) nfds timeout s = some out ∧
      out.1 = -1 ∧ out.2.errno = EINTR ∧
      out.2.trace = s.trace ++ [Event.detect_input_pending true,
        Event.detect_input_pending
          (env.detect_input_pending (s.trace ++ [Event.detect_input_pending true]))] := by
  by_cases hn : trimmed_nfds nfds s = 1
  · rw [sys_select_pure env be _ nfds timeout s hreq hn,
      select_and_poll_event_pending env fuel 1 timeout
        { s with rfds := some (FD_CLR 0 (s.rfds.getD FD_ZERO)) } hdip]
    exact ⟨_, rfl, rfl, rfl, rfl⟩
  · simp only [sys_select, hreq, Bool.not_true, Bool.false_eq_true, if_false]
    rw [show ((trim_nfds (FD_SET 0 (FD_CLR 0 (s.rfds.getD FD_ZERO))) s.wfds s.efds
      nfds.toNat : Nat) : Int) = trimmed_nfds nfds s from rfl]
    simp only [hn, if_false]
    rw [select_and_poll_event_pending env fuel (trimmed_nfds nfds s) (some ⟨0, 0⟩)
        { s with rfds := some (FD_CLR 0 (s.rfds.getD FD_ZERO)) } hdip]
    simp

/-- Witness of C2: input is pending when `caller_mixed` waits without
timeout (Pthreads build). -/
theorem sys_select_pending_input_witness :
    ∃ out, sys_select env_pending Backend.pthread (0 + 1) 4 none caller_mixed = some out ∧
      out.1 = -1 ∧ out.2.errno = EINTR ∧
      out.2.trace = caller_mixed.trace ++ [Event.detect_input_pending true,
        Event.detect_input_pending
          (env_pending.detect_input_pending
            (caller_mixed.trace ++ [Event.detect_input_pending true]))] :=
  sys_select_pending_input env_pending Backend.pthread 0 4 none caller_mixed
    (by decide) (by decide)

/-! ### The timeout outcome (C3) -/

theorem FinalPoll.final_events {s : State} {fin : List Event} {out : Int × State}
    (h : FinalPoll s fin out) : ∀ e ∈ fin, poll_event e := by
  cases h <;> simp [poll_event]

theorem start_events_waiter (be : Backend) (b : Bool) (fd1 : Nat) (req : SelectReq) :
    ∀ e ∈ start_events be b fd1 req, waiter_event e := by
  cases be <;> cases b <;> simp [start_events, waiter_event]

theorem stop_events_waiter (be : Backend) (fd0 fd1 : Nat) :
    ∀ e ∈ stop_events be fd0 fd1, waiter_event e := by
  cases be <;> simp [stop_events, waiter_event]

theorem PollRun.zero_events {fd0 : Nat} {s : State} {p : List Event}
    {out : Int × State} (h : PollRun fd0 s (some ⟨0, 0⟩) p out) :
    ∀ e ∈ p, poll_event e := by
  rcases h.zero_cases with ⟨d, h, -⟩ | ⟨req, res, h, -⟩ | ⟨req, res, h, -⟩ <;>
    subst h <;> simp [poll_event]

/-- Claim C3, as amended.  When `sys_select` is called with descriptor 0
plus a real descriptor and some slice of the run loop answers that no time
remains (the overall timeout expires while time-slicing, which needs a
non-zero timeout), it returns 0 and the caller's sets are cleared: `rfds` is
empty, and `wfds` and `efds` are empty where they were passed and stay `NULL`
where they were not.  The same answer is returned with any larger fuel. -/
theorem sys_select_timeout_clears_sets (env : Env) (be : Backend) (fuel : Nat)
    (nfds : Int) (timeout : Option EMACS_TIME) (s : State) (out : Int × State)
    (ext : List Event)
    (hreq : window_channel_requested nfds s = true)
    (hmix : real_descriptor_requested nfds s)
    (hrun : sys_select env be fuel nfds timeout s = some out)
    (htr : out.2.trace = s.trace ++ ext)
    (hto : ∃ t w, Event.mac_run_loop_run_once t 0 w ∈ ext) :
    (out.1 = 0 ∧ out.2.rfds = some ∅ ∧ out.2.wfds = (s.wfds.map fun _ => ∅) ∧
      out.2.efds = (s.efds.map fun _ => ∅)) ∧
      ∀ fuel', fuel ≤ fuel' → sys_select env be fuel' nfds timeout s = some out := by
  refine ⟨?_, fun fuel' hle =>
    sys_select_fuel_mono env be fuel fuel' nfds timeout s out hle hrun⟩
  have hn : trimmed_nfds nfds s ≠ 1 := fun h => (trimmed_nfds_eq_one_iff hreq).1 h hmix
  obtain ⟨r0, s2, ext', -, -, -, htr', hm⟩ :=
    sys_select_mixed_run env be fuel nfds timeout s out hreq hn hrun
  obtain rfl : ext' = ext := List.append_cancel_left (htr'.symm.trans htr)
  obtain ⟨t, w, hmem⟩ := hto
  cases hm with
  | early p _ hp _ _ => exact absurd (hp.zero_events _ hmem) (by simp [poll_event])
  | pending req res fin _ _ _ _ _ hf =>
    exfalso
    rcases List.mem_append.1 hmem with h | h
    · simp at h
    · exact absurd (hf.final_events _ h) (by simp [poll_event])
  | timed_out req res b sl _ _ _ _ _ _ h1 h2 h3 h4 => exact ⟨h1, h2, h3, h4⟩
  | interrupted req res b sl t' fin _ _ _ _ _ hw ht' hf =>
    exfalso
    simp only [List.mem_append] at hmem
    rcases hmem with (((h | h) | h) | h) | h
    · simp at h
    · exact absurd (start_events_waiter _ _ _ _ _ h) (by simp [waiter_event])
    · obtain ⟨pre, post, hsl⟩ := List.append_of_mem h
      exact ht' ((hw.wait_stop_last pre post _ hsl (by simp [wait_stop])).2.1
        (by simp [timed_out_slice]))
    · exact absurd (stop_events_waiter _ _ _ _ h) (by simp [waiter_event])
    · exact absurd (hf.final_events _ h) (by simp [poll_event])

theorem caller_mixed_real_descriptor : real_descriptor_requested 4 caller_mixed :=
  ⟨3, by decide, by decide, Or.inl ⟨{0, 3}, rfl, by decide⟩⟩

theorem idle_run :
    sys_select env_idle Backend.gcd 3 4 (some ⟨0, 100⟩) caller_mixed = some idle_outcome := by
  decide

/-- Witness of C3 as amended: nothing happens during a wait of 100
microseconds, which ends after three slices. -/
theorem sys_select_timeout_clears_sets_witness :
    (idle_outcome.1 = 0 ∧ idle_outcome.2.rfds = some ∅ ∧
      idle_outcome.2.wfds = (caller_mixed.wfds.map fun _ => ∅) ∧
      idle_outcome.2.efds = (caller_mixed.efds.map fun _ => ∅)) ∧
      ∀ fuel', 3 ≤ fuel' →
        sys_select env_idle Backend.gcd fuel' 4 (some ⟨0, 100⟩) caller_mixed
          = some idle_outcome :=
  sys_select_timeout_clears_sets env_idle Backend.gcd 3 4 (some ⟨0, 100⟩) caller_mixed
    idle_outcome idle_trace (by decide)
    caller_mixed_real_descriptor idle_run rfl ⟨20, false, by decide⟩

/-- Counterexample to C3 as stated: `caller_mixed` passes the read set
`{0, 3}` and the exception set `{3}`, the timeout of 100 microseconds expires
while time-slicing, `sys_select` returns 0, and both sets come back empty
rather than as supplied. -/
theorem sys_select_timeout_sets_not_restored :
    ∃ out, sys_select env_idle Backend.gcd 3 4 (some ⟨0, 100⟩) caller_mixed = some out ∧
      Event.mac_run_loop_run_once 20 0 false ∈ out.2.trace ∧
      out.1 = 0 ∧
      caller_mixed.rfds = some {0, 3} ∧ caller_mixed.efds = some {3} ∧
      out.2.rfds = some ∅ ∧ out.2.efds = some ∅ ∧
      out.2.rfds ≠ caller_mixed.rfds ∧ out.2.efds ≠ caller_mixed.efds :=
  ⟨idle_outcome, idle_run, by decide, rfl, rfl, rfl, rfl, rfl, by decide, by decide⟩

/-! ### Events that interrupt a wait (C4, C6) -/

theorem split_mid {α : Type} {A S B pre post : List α} {e : α}
    (h : A ++ S ++ B = pre ++ e :: post) (hA : e ∉ A) (hB : e ∉ B) :
    ∃ pre' post', S = pre' ++ e :: post' ∧ pre = A ++ pre' ∧ post = post' ++ B := by
  rw [List.append_assoc] at h
  obtain ⟨pre', h1, h2⟩ := split_left h hA
  obtain ⟨post', h3, h4⟩ := split_right h2 hB
  exact ⟨pre', post', h4, h1, h3⟩

theorem interrupting_wait_stop {e : Event} (h : interrupting e) :
    wait_stop e ∧ ¬ timed_out_slice e ∧ ¬ poll_event e ∧ ¬ waiter_event e := by
  cases e <;> simp_all [interrupting, wait_stop, timed_out_slice, poll_event, waiter_event]

theorem not_mem_of_forall {P : Event → Prop} {l : List Event} {e : Event}
    (h : ∀ x ∈ l, P x) (he : ¬ P e) : e ∉ l :=
  fun hm => he (h e hm)

theorem FinalPoll.final_outcome {s : State} {fin : List Event} {out : Int × State}
    (h : FinalPoll s fin out) :
    out.1 ≠ 0 ∧
      ((∀ req res, Event.select req res ∈ fin → res.ret = 0) →
        out.1 = -1 ∧ out.2.errno = EINTR) := by
  cases h with
  | pending d _ h1 h2 => exact ⟨by rw [h1]; decide, fun _ => ⟨h1, h2⟩⟩
  | ready req res _ h1 h2 =>
    exact ⟨by rw [h2.1]; exact h1, fun h => absurd (h req res (by simp)) h1⟩
  | idle req res _ h1 h2 h3 => exact ⟨by rw [h2]; decide, fun _ => ⟨h2, h3⟩⟩

theorem MixedRun.interrupted_by {be : Backend} {s : State} {nfds : Int}
    {tv : EventTimeout} {r0 : Int} {d : Bool} {ext : List Event} {out : Int × State}
    (h : MixedRun be s nfds tv r0 d ext out) {pre post : List Event} {e : Event}
    (hev : ext = pre ++ e :: post) (he : interrupting e) :
    (∀ t r w, Event.mac_run_loop_run_once t r w ∉ post) ∧ out.1 ≠ 0 ∧
      ((∀ req res, Event.select req res ∈ post → res.ret = 0) →
        out.1 = -1 ∧ out.2.errno = EINTR) := by
  obtain ⟨he1, he2, he3, he4⟩ := interrupting_wait_stop he
  have hmem : e ∈ ext := by rw [hev]; simp
  cases h with
  | early p _ hp _ _ => exact absurd (hp.zero_events _ hmem) he3
  | pending req res fin _ _ _ _ _ hf =>
    exfalso
    rcases List.mem_append.1 hmem with h | h
    · revert h; cases e <;> simp_all [interrupting]
    · exact he3 (hf.final_events _ h)
  | timed_out req res b sl _ _ _ _ _ hw =>
    exfalso
    obtain ⟨pre', post', h1, -, -⟩ := split_mid hev
      (by
        intro h
        rcases List.mem_append.1 h with h | h
        · revert h; cases e <;> simp_all [interrupting]
        · exact he4 (start_events_waiter _ _ _ _ _ h))
      (not_mem_of_forall (stop_events_waiter _ _ _) he4)
    exact he2 ((hw.wait_stop_last pre' post' _ h1 he1).2.2 rfl)
  | interrupted req res b sl t' fin _ _ _ _ _ hw ht' hf =>
    rw [List.append_assoc _ (stop_events _ _ _) fin] at hev
    obtain ⟨pre', post', h1, -, h3⟩ := split_mid hev
      (by
        intro h
        rcases List.mem_append.1 h with h | h
        · revert h; cases e <;> simp_all [interrupting]
        · exact he4 (start_events_waiter _ _ _ _ _ h))
      (by
        intro h
        rcases List.mem_append.1 h with h | h
        · exact he4 (stop_events_waiter _ _ _ _ h)
        · exact he3 (hf.final_events _ h))
    obtain ⟨h4, -⟩ := hw.wait_stop_last pre' post' _ h1 he1
    subst h4
    simp only [List.nil_append] at h3
    subst h3
    refine ⟨?_, hf.final_outcome.1, ?_⟩
    · intro t r w h
      rcases List.mem_append.1 h with h | h
      · exact absurd (stop_events_waiter _ _ _ _ h) (by simp [waiter_event])
      · exact absurd (hf.final_events _ h) (by simp [poll_event])
    · intro h
      exact hf.final_outcome.2 (fun req res hm => h req res (List.mem_append_right _ hm))

theorem SpinTrace.spin_events {s : State} {ext : List Event} {out : Int × State}
    (h : SpinTrace s ext out) : ∀ e ∈ ext, poll_event e := by
  induction h with
  | pending out h1 => simp [poll_event]
  | ready req res out h1 h2 => simp [poll_event]
  | again req res rest out h1 _ ih =>
    intro e he
    rcases List.mem_append.1 he with he | he
    · have hround : ∀ x ∈ [Event.detect_input_pending false, Event.select req res],
          poll_event x := by simp [poll_event]
      exact hround e he
    · exact ih e he

theorem PollRun.foreign_event {fd0 : Nat} {s : State} {timeout : Option EMACS_TIME}
    {ext : List Event} {out : Int × State} (h : PollRun fd0 s timeout ext out)
    {pre post : List Event}
    (hev : ext = pre ++ Event.mac_peek_next_event true :: post) :
    (∃ d, post = [Event.detect_input_pending d]) ∧ out.1 = -1 ∧ out.2.errno = EINTR := by
  have hmem : Event.mac_peek_next_event true ∈ ext := by rw [hev]; simp
  have hstop : poll_stop (Event.mac_peek_next_event true) := by simp [poll_stop]
  cases h with
  | pending d _ h1 h2 => simp at hmem
  | ready req res _ h1 h2 => simp at hmem
  | zero req res _ h1 h2 h3 => simp at hmem
  | timed_out req res sl _ h1 h2 h3 h4 h5 =>
    exfalso
    obtain ⟨pre', -, h6⟩ := split_left hev (by simp)
    simpa [timed_out_slice] using (h3.poll_stop_last pre' post _ h6 hstop).2
  | interrupted req res sl t' d _ h1 h2 h3 h4 h5 h6 =>
    obtain ⟨pre', post', h7, -, h8⟩ := split_mid hev (by simp) (by simp)
    obtain ⟨h9, -⟩ := h3.poll_stop_last pre' post' _ h7 hstop
    subst h9
    exact ⟨⟨d, by simpa using h8⟩, h5, h6⟩
  | spun req res sl rest _ h1 h2 h3 h4 h5 =>
    exfalso
    obtain ⟨pre', post', h7, -, -⟩ := split_mid hev (by simp)
      (not_mem_of_forall h5.spin_events (by simp [poll_event]))
    simpa [timed_out_slice] using (h3.poll_stop_last pre' post' _ h7 hstop).2

/-- Claim C4 (a foreign event ends the wait as interrupted).  In a
`sys_select` call that asks for descriptor 0, with or without real
descriptors, take any call of `mac_peek_next_event` that reports a queued
event (such a call is only made after a slice that left a non-zero remaining
time).  No run loop slice follows it, the answer is never 0, and if every
`select` made after it finds nothing ready the answer is `-1` with
`errno = EINTR`.  The same answer is returned with any larger fuel. -/
theorem sys_select_foreign_event (env : Env) (be : Backend) (fuel : Nat)
    (nfds : Int) (timeout : Option EMACS_TIME) (s : State) (out : Int × State)
    (ext pre post : List Event)
    (hreq : window_channel_requested nfds s = true)
    (hrun : sys_select env be fuel nfds timeout s = some out)
    (htr : out.2.trace = s.trace ++ ext)
    (hev : ext = pre ++ Event.mac_peek_next_event true :: post) :
    ((∀ t r w, Event.mac_run_loop_run_once t r w ∉ post) ∧ out.1 ≠ 0 ∧
      ((∀ req res, Event.select req res ∈ post → res.ret = 0) →
        out.1 = -1 ∧ out.2.errno = EINTR)) ∧
      ∀ fuel', fuel ≤ fuel' → sys_select env be fuel' nfds timeout s = some out := by
  refine ⟨?_, fun fuel' hle =>
    sys_select_fuel_mono env be fuel fuel' nfds timeout s out hle hrun⟩
  by_cases hn : trimmed_nfds nfds s = 1
  · rw [sys_select_pure env be fuel nfds timeout s hreq hn] at hrun
    obtain ⟨-, -, -, r, hr, -⟩ := requested_rfds hreq
    obtain ⟨-, ext', htr', hp⟩ := select_and_poll_event_run env fuel 1 timeout s _ out
      (by simp [SameShape, hr]) hrun
    obtain rfl : ext' = ext := List.append_cancel_left (htr'.symm.trans htr)
    obtain ⟨⟨d, h1⟩, h2, h3⟩ := hp.foreign_event hev
    subst h1
    exact ⟨by simp, by rw [h2]; decide, fun _ => ⟨h2, h3⟩⟩
  · obtain ⟨r0, s2, ext', -, -, -, htr', hm⟩ :=
      sys_select_mixed_run env be fuel nfds timeout s out hreq hn hrun
    obtain rfl : ext' = ext := List.append_cancel_left (htr'.symm.trans htr)
    exact hm.interrupted_by hev (by simp [interrupting])

theorem background_select_mem_start_events (be : Backend) (b : Bool) (fd1 : Nat)
    (req : SelectReq) : Event.background_select req ∈ start_events be b fd1 req := by
  cases be <;> cases b <;> simp [start_events]

theorem MixedRun.handed_off {be : Backend} {s : State} {nfds : Int}
    {tv : EventTimeout} {r0 : Int} {d : Bool} {ext : List Event} {out : Int × State}
    (h : MixedRun be s nfds tv r0 d ext out) {pre post : List Event}
    {t r : EventTimeout} {w : Bool}
    (hev : ext = pre ++ Event.mac_run_loop_run_once t r w :: post) :
    ∃ req, Event.background_select req ∈ pre := by
  have hmem : Event.mac_run_loop_run_once t r w ∈ ext := by rw [hev]; simp
  have hA : ∀ (req : SelectReq) (res : SelectRes) (b : Bool) (q : SelectReq),
      Event.mac_run_loop_run_once t r w ∉
        [Event.detect_input_pending false, Event.select req res,
          Event.detect_input_pending false] ++ start_events be b s.wakeup_fds1 q := by
    intro req res b q h
    rcases List.mem_append.1 h with h | h
    · simp at h
    · exact absurd (start_events_waiter _ _ _ _ _ h) (by simp [waiter_event])
  cases h with
  | early p _ hp _ _ => exact absurd (hp.zero_events _ hmem) (by simp [poll_event])
  | pending req res fin _ _ _ _ _ hf =>
    exfalso
    rcases List.mem_append.1 hmem with h | h
    · simp at h
    · exact absurd (hf.final_events _ h) (by simp [poll_event])
  | timed_out req res b sl _ _ _ _ _ hw =>
    rw [List.append_assoc] at hev
    obtain ⟨pre', h1, -⟩ := split_left hev (hA req res b _)
    exact ⟨_, by
      rw [h1]
      exact List.mem_append_left _ (List.mem_append_right _
        (background_select_mem_start_events _ _ _ _))⟩
  | interrupted req res b sl t' fin _ _ _ _ _ hw ht' hf =>
    rw [List.append_assoc, List.append_assoc] at hev
    obtain ⟨pre', h1, -⟩ := split_left hev (hA req res b _)
    exact ⟨_, by
      rw [h1]
      exact List.mem_append_left _ (List.mem_append_right _
        (background_select_mem_start_events _ _ _ _))⟩

/-- Claim C6 (an asynchronous wake interrupts a mixed wait).  In a
`sys_select` call with descriptor 0 and a real descriptor, take any run loop
slice during which the wake handler ran (it set
`wokeup_from_run_loop_run_once_p`) and which left a non-zero remaining time
`r`, whatever `r` is.  The background `select` was issued before that slice,
no run loop slice follows it, the answer is not 0, and if every `select` made
after it finds nothing ready the answer is `-1` with `errno = EINTR`.  The
same answer is returned with any larger fuel. -/
theorem sys_select_async_wake (env : Env) (be : Backend) (fuel : Nat)
    (nfds : Int) (timeout : Option EMACS_TIME) (s : State) (out : Int × State)
    (ext pre post : List Event) (t r : EventTimeout)
    (hreq : window_channel_requested nfds s = true)
    (hmix : real_descriptor_requested nfds s)
    (hrun : sys_select env be fuel nfds timeout s = some out)
    (htr : out.2.trace = s.trace ++ ext)
    (hev : ext = pre ++ Event.mac_run_loop_run_once t r true :: post)
    (hr : r ≠ 0) :
    ((∃ req, Event.background_select req ∈ pre) ∧
      (∀ t' r' w', Event.mac_run_loop_run_once t' r' w' ∉ post) ∧ out.1 ≠ 0 ∧
      ((∀ req res, Event.select req res ∈ post → res.ret = 0) →
        out.1 = -1 ∧ out.2.errno = EINTR)) ∧
      ∀ fuel', fuel ≤ fuel' → sys_select env be fuel' nfds timeout s = some out := by
  refine ⟨?_, fun fuel' hle =>
    sys_select_fuel_mono env be fuel fuel' nfds timeout s out hle hrun⟩
  have hn : trimmed_nfds nfds s ≠ 1 := fun h => (trimmed_nfds_eq_one_iff hreq).1 h hmix
  obtain ⟨r0, s2, ext', -, -, -, htr', hm⟩ :=
    sys_select_mixed_run env be fuel nfds timeout s out hreq hn hrun
  obtain rfl : ext' = ext := List.append_cancel_left (htr'.symm.trans htr)
  exact ⟨hm.handed_off hev, hm.interrupted_by hev (by simp [interrupting, hr])⟩

theorem event_run :
    sys_select env_event Backend.gcd 3 4 (some ⟨0, 100⟩) caller_mixed
      = some event_outcome := by
  decide

theorem wake_run :
    sys_select env_wake Backend.gcd 3 4 (some ⟨0, 100⟩) caller_mixed
      = some wake_outcome := by
  decide

/-- Witness of C4: an event is queued after the second slice of a mixed
wait. -/
theorem sys_select_foreign_event_witness :
    ((∀ t r w, Event.mac_run_loop_run_once t r w ∉ event_trace_after) ∧
      event_outcome.1 ≠ 0 ∧
      ((∀ req res, Event.select req res ∈ event_trace_after → res.ret = 0) →
        event_outcome.1 = -1 ∧ event_outcome.2.errno = EINTR)) ∧
      ∀ fuel', 3 ≤ fuel' →
        sys_select env_event Backend.gcd fuel' 4 (some ⟨0, 100⟩) caller_mixed
          = some event_outcome :=
  sys_select_foreign_event env_event Backend.gcd 3 4 (some ⟨0, 100⟩) caller_mixed
    event_outcome _ event_trace_before event_trace_after (by decide) event_run rfl rfl

/-- Witness of C6: the wake handler runs during the second slice of a mixed
wait, with 20 microseconds left. -/
theorem sys_select_async_wake_witness :
    ((∃ req, Event.background_select req ∈ wake_trace_before) ∧
      (∀ t' r' w', Event.mac_run_loop_run_once t' r' w' ∉ event_trace_after) ∧
      wake_outcome.1 ≠ 0 ∧
      ((∀ req res, Event.select req res ∈ event_trace_after → res.ret = 0) →
        wake_outcome.1 = -1 ∧ wake_outcome.2.errno = EINTR)) ∧
      ∀ fuel', 3 ≤ fuel' →
        sys_select env_wake Backend.gcd fuel' 4 (some ⟨0, 100⟩) caller_mixed
          = some wake_outcome :=
  sys_select_async_wake env_wake Backend.gcd 3 4 (some ⟨0, 100⟩) caller_mixed
    wake_outcome _ wake_trace_before event_trace_after 60 20 (by decide)
    caller_mixed_real_descriptor wake_run rfl rfl (by decide)

/-! ### Results of the foreground `select` (C5) -/

theorem split_two {α : Type} {a b e : α} {L pre post : List α}
    (h : [a, b] ++ L = pre ++ e :: post) (ha : e ≠ a) :
    (pre = [a] ∧ e = b ∧ post = L) ∨ ∃ pre', pre = a :: b :: pre' ∧ L = pre' ++ e :: post := by
  rcases pre with _ | ⟨x, pre⟩
  · simp at h; exact absurd h.1.symm ha
  · rcases pre with _ | ⟨y, pre⟩
    · simp at h
      exact Or.inl ⟨by rw [h.1], h.2.1.symm, h.2.2.symm⟩
    · simp at h
      exact Or.inr ⟨pre, by rw [h.1, h.2.1], h.2.2⟩

theorem SpinTrace.spin_select_last {s : State} {ext : List Event} {out : Int × State}
    (h : SpinTrace s ext out) :
    ∀ (pre post : List Event) (req : SelectReq) (res : SelectRes),
      ext = pre ++ Event.select req res :: post → res.ret ≠ 0 →
      post = [] ∧ select_left s res out := by
  induction h with
  | pending out h1 =>
    intro pre post req res h
    have hm : Event.select req res ∈ [Event.detect_input_pending true] := by rw [h]; simp
    simp at hm
  | ready req' res' out h1 h2 =>
    intro pre post req res h hres
    rcases split_two (L := []) h (by simp) with ⟨-, h3, h4⟩ | ⟨pre', -, h3⟩
    · simp only [Event.select.injEq] at h3
      obtain ⟨-, rfl⟩ := h3
      exact ⟨h4, h2⟩
    · simp at h3
  | again req' res' rest out h1 _ ih =>
    intro pre post req res h hres
    rcases split_two h (by simp) with ⟨-, h3, -⟩ | ⟨pre', -, h3⟩
    · simp only [Event.select.injEq] at h3
      obtain ⟨-, rfl⟩ := h3
      exact absurd h1 hres
    · exact ih pre' post req res h3 hres

theorem not_select_of_slice {fd0 : Nat} {l : List Event}
    (h : ∀ e ∈ l, slice_event fd0 e) (req : SelectReq) (res : SelectRes) :
    Event.select req res ∉ l :=
  not_mem_of_forall h (by simp [slice_event])

theorem PollRun.run_select_last {fd0 : Nat} {s : State} {timeout : Option EMACS_TIME}
    {ext : List Event} {out : Int × State} (h : PollRun fd0 s timeout ext out)
    {pre post : List Event} {req : SelectReq} {res : SelectRes}
    (hev : ext = pre ++ Event.select req res :: post) (hres : res.ret ≠ 0) :
    post = [] ∧ select_left s res out := by
  have hmem : Event.select req res ∈ ext := by rw [hev]; simp
  cases h with
  | pending d _ h1 h2 => simp at hmem
  | ready req' res' _ h1 h2 =>
    rcases split_two (L := []) hev (by simp) with ⟨-, h3, h4⟩ | ⟨pre', -, h3⟩
    · simp only [Event.select.injEq] at h3
      obtain ⟨-, rfl⟩ := h3
      exact ⟨h4, h2⟩
    · simp at h3
  | zero req' res' _ h1 h2 h3 =>
    exfalso
    rcases split_two (L := []) hev (by simp) with ⟨-, h3, h4⟩ | ⟨pre', -, h3⟩
    · simp only [Event.select.injEq] at h3
      obtain ⟨-, rfl⟩ := h3
      exact hres h1
    · simp at h3
  | timed_out req' res' sl _ h1 h2 h3 h4 h5 =>
    exfalso
    rcases split_two hev (by simp) with ⟨-, h6, -⟩ | ⟨pre', -, h6⟩
    · simp only [Event.select.injEq] at h6
      obtain ⟨-, rfl⟩ := h6
      exact hres h1
    · exact not_select_of_slice h3.poll_slice_events req res (by rw [h6]; simp)
  | interrupted req' res' sl t' d _ h1 h2 h3 h4 h5 h6 =>
    exfalso
    rw [List.append_assoc] at hev
    rcases split_two hev (by simp) with ⟨-, h7, -⟩ | ⟨pre', -, h7⟩
    · simp only [Event.select.injEq] at h7
      obtain ⟨-, rfl⟩ := h7
      exact hres h1
    · have hm : Event.select req res ∈ sl ++ [Event.detect_input_pending d] := by
        rw [h7]; simp
      rcases List.mem_append.1 hm with hm | hm
      · exact not_select_of_slice h3.poll_slice_events req res hm
      · simp at hm
  | spun req' res' sl rest _ h1 h2 h3 h4 h5 =>
    rw [List.append_assoc] at hev
    rcases split_two hev (by simp) with ⟨-, h7, -⟩ | ⟨pre', -, h7⟩
    · simp only [Event.select.injEq] at h7
      obtain ⟨-, rfl⟩ := h7
      exact absurd h1 hres
    · obtain ⟨pre'', -, h8⟩ := split_left h7
        (not_select_of_slice h3.poll_slice_events req res)
      exact h5.spin_select_last pre'' post req res h8 hres

theorem FinalPoll.final_select_last {s : State} {fin : List Event} {out : Int × State}
    (h : FinalPoll s fin out) {pre post : List Event} {req : SelectReq} {res : SelectRes}
    (hev : fin = pre ++ Event.select req res :: post) (hres : res.ret ≠ 0) :
    post = [] ∧ select_left s res out := by
  cases h with
  | pending d _ h1 h2 =>
    have hm : Event.select req res ∈
        [Event.detect_input_pending true, Event.detect_input_pending d] := by
      rw [hev]; simp
    simp at hm
  | ready req' res' _ h1 h2 =>
    rcases split_two (L := []) hev (by simp) with ⟨-, h3, h4⟩ | ⟨pre', -, h3⟩
    · simp only [Event.select.injEq] at h3
      obtain ⟨-, rfl⟩ := h3
      exact ⟨h4, h2⟩
    · simp at h3
  | idle req' res' _ h1 h2 h3 =>
    exfalso
    rcases split_two (L := []) hev (by simp) with ⟨-, h3, h4⟩ | ⟨pre', -, h3⟩
    · simp only [Event.select.injEq] at h3
      obtain ⟨-, rfl⟩ := h3
      exact hres h1
    · simp at h3

theorem not_select_of_waiter {l : List Event} (h : ∀ e ∈ l, waiter_event e)
    (req : SelectReq) (res : SelectRes) : Event.select req res ∉ l :=
  not_mem_of_forall h (by simp [waiter_event])

theorem MixedRun.mixed_select_last {be : Backend} {s : State} {nfds : Int}
    {tv : EventTimeout} {r0 : Int} {d : Bool} {ext : List Event} {out : Int × State}
    (h : MixedRun be s nfds tv r0 d ext out)
    {pre post : List Event} {req : SelectReq} {res : SelectRes}
    (hev : ext = pre ++ Event.select req res :: post) (hres : res.ret ≠ 0) :
    post = [] ∧ select_left s res out := by
  have hA : ∀ (req' : SelectReq) (res' : SelectRes) (b : Bool), res'.ret = 0 →
      Event.select req res ∉ [Event.detect_input_pending false, Event.select req' res',
        Event.detect_input_pending b] := by
    intro req' res' b h0 hm
    simp only [List.mem_cons, List.mem_singleton, Event.select.injEq, List.not_mem_nil,
      or_false, false_or] at hm
    rcases hm with hm | hm | hm
    · cases hm
    · exact hres (hm.2 ▸ h0)
    · cases hm
  cases h with
  | early p _ hp _ _ => exact hp.run_select_last hev hres
  | pending req' res' fin _ _ _ h0 _ hf =>
    obtain ⟨pre', -, h1⟩ := split_left hev (hA req' res' true h0)
    exact hf.final_select_last h1 hres
  | timed_out req' res' b sl _ _ _ h0 _ hw =>
    exfalso
    have hmem : Event.select req res ∈ pre ++ Event.select req res :: post := by simp
    rw [← hev] at hmem
    simp only [List.mem_append] at hmem
    rcases hmem with ((hm | hm) | hm) | hm
    · exact hA req' res' false h0 hm
    · exact not_select_of_waiter (start_events_waiter _ _ _ _) req res hm
    · exact not_select_of_slice hw.wait_slice_events req res hm
    · exact not_select_of_waiter (stop_events_waiter _ _ _) req res hm
  | interrupted req' res' b sl t' fin _ _ _ h0 _ hw ht' hf =>
    obtain ⟨pre', -, h1⟩ := split_left hev (by
      intro hmem
      simp only [List.mem_append] at hmem
      rcases hmem with ((hm | hm) | hm) | hm
      · exact hA req' res' false h0 hm
      · exact not_select_of_waiter (start_events_waiter _ _ _ _) req res hm
      · exact not_select_of_slice hw.wait_slice_events req res hm
      · exact not_select_of_waiter (stop_events_waiter _ _ _) req res hm)
    exact hf.final_select_last h1 hres

/-- Claim C5 (foreground select results are surfaced verbatim).  In a
`sys_select` call that asks for descriptor 0, any `select` call of the
foreground whose answer `res.ret` is not 0 (a ready count or an error) is the
last call made, and `sys_select` returns exactly `res.ret` with the sets as
that `select` left them and, on an error, its `errno`.  Nothing is assumed of
`detect_input_pending` or of `mac_peek_next_event`, so it holds whether or
not a foreign event is pending.  The same answer is returned with any larger
fuel. -/
theorem sys_select_select_result (env : Env) (be : Backend) (fuel : Nat)
    (nfds : Int) (timeout : Option EMACS_TIME) (s : State) (out : Int × State)
    (ext pre post : List Event) (req : SelectReq) (res : SelectRes)
    (hreq : window_channel_requested nfds s = true)
    (hrun : sys_select env be fuel nfds timeout s = some out)
    (htr : out.2.trace = s.trace ++ ext)
    (hev : ext = pre ++ Event.select req res :: post)
    (hres : res.ret ≠ 0) :
    (post = [] ∧ out.1 = res.ret ∧ out.2.rfds = some res.rfds ∧
      out.2.wfds = (s.wfds.map fun _ => res.wfds) ∧
      out.2.efds = (s.efds.map fun _ => res.efds) ∧
      (res.ret < 0 → out.2.errno = res.errno)) ∧
      ∀ fuel', fuel ≤ fuel' → sys_select env be fuel' nfds timeout s = some out := by
  refine ⟨?_, fun fuel' hle =>
    sys_select_fuel_mono env be fuel fuel' nfds timeout s out hle hrun⟩
  obtain ⟨-, -, -, r, hr, -⟩ := requested_rfds hreq
  have key : post = [] ∧ select_left s res out := by
    by_cases hn : trimmed_nfds nfds s = 1
    · rw [sys_select_pure env be fuel nfds timeout s hreq hn] at hrun
      obtain ⟨-, ext', htr', hp⟩ := select_and_poll_event_run env fuel 1 timeout s _ out
        (by simp [SameShape, hr]) hrun
      obtain rfl : ext' = ext := List.append_cancel_left (htr'.symm.trans htr)
      exact hp.run_select_last hev hres
    · obtain ⟨r0, s2, ext', -, -, -, htr', hm⟩ :=
        sys_select_mixed_run env be fuel nfds timeout s out hreq hn hrun
      obtain rfl : ext' = ext := List.append_cancel_left (htr'.symm.trans htr)
      exact hm.mixed_select_last hev hres
  obtain ⟨h1, h2, h3, h4, h5, h6⟩ := key
  rw [hr] at h3
  exact ⟨h1, h2, h3, h4, h5, h6⟩

/-! ### A wake during a wait for the window event channel alone (C7) -/

theorem ready_run :
    sys_select env_ready Backend.pthread 1 4 none caller_mixed = some ready_outcome := by
  decide

/-- Witness of C5: descriptor 3 is ready at the first poll of a wait without
timeout (Pthreads build). -/
theorem sys_select_select_result_witness :
    (([] : List Event) = [] ∧ ready_outcome.1 = (⟨1, {3}, ∅, ∅, 0⟩ : SelectRes).ret ∧
      ready_outcome.2.rfds = some (⟨1, {3}, ∅, ∅, 0⟩ : SelectRes).rfds ∧
      ready_outcome.2.wfds
        = (caller_mixed.wfds.map fun _ => (⟨1, {3}, ∅, ∅, 0⟩ : SelectRes).wfds) ∧
      ready_outcome.2.efds
        = (caller_mixed.efds.map fun _ => (⟨1, {3}, ∅, ∅, 0⟩ : SelectRes).efds) ∧
      ((⟨1, {3}, ∅, ∅, 0⟩ : SelectRes).ret < 0 →
        ready_outcome.2.errno = (⟨1, {3}, ∅, ∅, 0⟩ : SelectRes).errno)) ∧
      ∀ fuel', 1 ≤ fuel' →
        sys_select env_ready Backend.pthread fuel' 4 none caller_mixed
          = some ready_outcome :=
  sys_select_select_result env_ready Backend.pthread 1 4 none caller_mixed
    ready_outcome _ [Event.detect_input_pending false] []
    ⟨4, some {3}, none, some {3}, some ⟨0, 0⟩⟩ ⟨1, {3}, ∅, ∅, 0⟩
    (by decide) ready_run rfl rfl (by decide)

theorem PollTrace.poll_head {fd0 : Nat} {t t' : EventTimeout} {ext : List Event}
    (h : PollTrace fd0 t ext t') :
    ∃ r w rest, ext = wake_events fd0 w ++ Event.mac_run_loop_run_once t r w :: rest := by
  cases h with
  | timeout _ w => exact ⟨0, w, [], rfl⟩
  | event _ _ w hr => exact ⟨t', w, _, rfl⟩
  | pending _ _ w hr => exact ⟨t', w, _, rfl⟩
  | again _ r w rest _ hr h =>
    exact ⟨r, w, Event.mac_peek_next_event false :: Event.detect_input_pending false
      :: rest, by simp⟩

theorem not_run_loop_mem_wake_events (fd0 : Nat) (w : Bool) (t r : EventTimeout)
    (w' : Bool) : Event.mac_run_loop_run_once t r w' ∉ wake_events fd0 w := by
  cases w <;> simp [wake_events]

theorem PollTrace.poll_next {fd0 : Nat} {t0 t' : EventTimeout} {ext : List Event}
    (h : PollTrace fd0 t0 ext t') :
    ∀ (pre post : List Event) (t r : EventTimeout) (w : Bool),
      ext = pre ++ Event.mac_run_loop_run_once t r w :: post → r ≠ 0 →
      (post = [Event.mac_peek_next_event true] ∧ t' = r) ∨
      (post = [Event.mac_peek_next_event false, Event.detect_input_pending true]
        ∧ t' = r) ∨
      ∃ r2 w2 post', post = Event.mac_peek_next_event false
        :: Event.detect_input_pending false
        :: (wake_events fd0 w2 ++ Event.mac_run_loop_run_once r r2 w2 :: post') := by
  induction h with
  | timeout t1 w1 =>
    intro pre post t r w h hr
    exfalso
    obtain ⟨pre', -, h2⟩ := split_left h (not_run_loop_mem_wake_events _ _ _ _ _)
    rcases pre' with _ | ⟨x, pre'⟩
    · simp at h2; exact hr h2.1.2.1.symm
    · simp at h2
  | event t1 r1 w1 hr1 =>
    intro pre post t r w h hr
    obtain ⟨pre', -, h2⟩ := split_left h (not_run_loop_mem_wake_events _ _ _ _ _)
    rcases pre' with _ | ⟨x, pre'⟩
    · simp at h2
      obtain ⟨⟨-, rfl, -⟩, rfl⟩ := h2
      exact Or.inl ⟨rfl, rfl⟩
    · rcases pre' with _ | ⟨y, pre'⟩
      · simp at h2
      · simp at h2
  | pending t1 r1 w1 hr1 =>
    intro pre post t r w h hr
    obtain ⟨pre', -, h2⟩ := split_left h (not_run_loop_mem_wake_events _ _ _ _ _)
    rcases pre' with _ | ⟨x, pre'⟩
    · simp at h2
      obtain ⟨⟨-, rfl, -⟩, rfl⟩ := h2
      exact Or.inr (Or.inl ⟨rfl, rfl⟩)
    · rcases pre' with _ | ⟨y, pre'⟩
      · simp at h2
      · rcases pre' with _ | ⟨z, pre'⟩
        · simp at h2
        · simp at h2
  | again t1 r1 w1 rest t2 hr1 hrest ih =>
    intro pre post t r w h hr
    rw [List.append_assoc] at h
    obtain ⟨pre', -, h2⟩ := split_left h (not_run_loop_mem_wake_events _ _ _ _ _)
    rcases pre' with _ | ⟨x, pre'⟩
    · simp at h2
      obtain ⟨⟨-, rfl, -⟩, rfl⟩ := h2
      obtain ⟨r2, w2, rest', h3⟩ := hrest.poll_head
      exact Or.inr (Or.inr ⟨r2, w2, rest', by rw [h3]⟩)
    · rcases pre' with _ | ⟨y, pre'⟩
      · simp at h2
      · rcases pre' with _ | ⟨z, pre'⟩
        · simp at h2
        · simp at h2
          exact ih pre' post t r w h2.2.2.2 hr

theorem PollRun.run_next {fd0 : Nat} {s : State} {timeout : Option EMACS_TIME}
    {ext : List Event} {out : Int × State} (h : PollRun fd0 s timeout ext out)
    {pre post : List Event} {t r : EventTimeout} {w : Bool}
    (hev : ext = pre ++ Event.mac_run_loop_run_once t r w :: post) (hr : r ≠ 0) :
    (∃ d, post = [Event.mac_peek_next_event true, Event.detect_input_pending d] ∧
      out.1 = -1 ∧ out.2.errno = EINTR) ∨
    (∃ d, post = [Event.mac_peek_next_event false, Event.detect_input_pending true,
        Event.detect_input_pending d] ∧ out.1 = -1 ∧ out.2.errno = EINTR) ∨
    ∃ r2 w2 post', post = Event.mac_peek_next_event false
      :: Event.detect_input_pending false
      :: (wake_events fd0 w2 ++ Event.mac_run_loop_run_once r r2 w2 :: post') := by
  have hmem : Event.mac_run_loop_run_once t r w ∈ ext := by rw [hev]; simp
  cases h with
  | pending d _ h1 h2 => simp at hmem
  | ready req res _ h1 h2 => simp at hmem
  | zero req res _ h1 h2 h3 => simp at hmem
  | timed_out req res sl _ h1 h2 h3 h4 h5 =>
    obtain ⟨pre', -, h6⟩ := split_left hev (by simp)
    rcases h3.poll_next pre' post t r w h6 hr with ⟨-, h7⟩ | ⟨-, h7⟩ | h7
    · exact absurd h7.symm hr
    · exact absurd h7.symm hr
    · exact Or.inr (Or.inr h7)
  | interrupted req res sl t' d _ h1 h2 h3 h4 h5 h6 =>
    obtain ⟨pre', post', h7, -, h8⟩ := split_mid hev (by simp) (by simp)
    rcases h3.poll_next pre' post' t r w h7 hr with ⟨h9, -⟩ | ⟨h9, -⟩ | ⟨r2, w2, post'', h9⟩
    · exact Or.inl ⟨d, by rw [h8, h9]; rfl, h5, h6⟩
    · exact Or.inr (Or.inl ⟨d, by rw [h8, h9]; rfl, h5, h6⟩)
    · exact Or.inr (Or.inr ⟨r2, w2, post'' ++ [Event.detect_input_pending d], by
        rw [h8, h9]; simp⟩)
  | spun req res sl rest _ h1 h2 h3 h4 h5 =>
    obtain ⟨pre', post', h7, -, h8⟩ := split_mid hev (by simp)
      (not_mem_of_forall h5.spin_events (by simp [poll_event]))
    rcases h3.poll_next pre' post' t r w h7 hr with ⟨-, h9⟩ | ⟨-, h9⟩ | ⟨r2, w2, post'', h9⟩
    · exact absurd h9.symm hr
    · exact absurd h9.symm hr
    · exact Or.inr (Or.inr ⟨r2, w2, post'' ++ rest, by rw [h8, h9]; simp⟩)

/-- Claim C7, as amended.  In a `sys_select` call whose only requested
descriptor is descriptor 0, take any run loop slice during which the wake
handler ran and which left a non-zero remaining time `r`.  The wake flag is
not consulted: `mac_peek_next_event` is called next, and either it reports an
event and the call returns `-1` with `errno = EINTR`, or it reports none,
`detect_input_pending` is true and the call returns `-1` with
`errno = EINTR`, or both report nothing and another slice is run with the
time `r`.  The same answer is returned with any larger fuel. -/
theorem sys_select_pure_wake (env : Env) (be : Backend) (fuel : Nat)
    (nfds : Int) (timeout : Option EMACS_TIME) (s : State) (out : Int × State)
    (ext pre post : List Event) (t r : EventTimeout)
    (hreq : window_channel_requested nfds s = true)
    (hpure : ¬ real_descriptor_requested nfds s)
    (hrun : sys_select env be fuel nfds timeout s = some out)
    (htr : out.2.trace = s.trace ++ ext)
    (hev : ext = pre ++ Event.mac_run_loop_run_once t r true :: post)
    (hr : r ≠ 0) :
    ((∃ d, post = [Event.mac_peek_next_event true, Event.detect_input_pending d] ∧
        out.1 = -1 ∧ out.2.errno = EINTR) ∨
      (∃ d, post = [Event.mac_peek_next_event false, Event.detect_input_pending true,
          Event.detect_input_pending d] ∧ out.1 = -1 ∧ out.2.errno = EINTR) ∨
      ∃ r2 w2 post', post = Event.mac_peek_next_event false
        :: Event.detect_input_pending false
        :: (wake_events s.wakeup_fds0 w2
          ++ Event.mac_run_loop_run_once r r2 w2 :: post')) ∧
      ∀ fuel', fuel ≤ fuel' → sys_select env be fuel' nfds timeout s = some out := by
  refine ⟨?_, fun fuel' hle =>
    sys_select_fuel_mono env be fuel fuel' nfds timeout s out hle hrun⟩
  have hn : trimmed_nfds nfds s = 1 := (trimmed_nfds_eq_one_iff hreq).2 hpure
  rw [sys_select_pure env be fuel nfds timeout s hreq hn] at hrun
  obtain ⟨-, -, -, r', hr', -⟩ := requested_rfds hreq
  obtain ⟨-, ext', htr', hp⟩ := select_and_poll_event_run env fuel 1 timeout s _ out
    (by simp [SameShape, hr']) hrun
  obtain rfl : ext' = ext := List.append_cancel_left (htr'.symm.trans htr)
  exact hp.run_next hev hr

theorem wake_pure_run :
    sys_select env_wake_pure Backend.gcd 4 4 (some ⟨0, 100⟩) caller_window_only
      = some wake_pure_outcome := by
  decide

theorem caller_window_only_pure : ¬ real_descriptor_requested 4 caller_window_only := by
  rintro ⟨d, h1, -, ⟨r, hr, hd⟩ | ⟨w, hw, -⟩ | ⟨e, he, -⟩⟩
  · simp only [caller_window_only, Option.some.injEq] at hr
    subst hr
    simp at hd
    omega
  · simp [caller_window_only, caller_mixed] at hw
  · simp [caller_window_only] at he

/-- Counterexample to C7 as stated: the caller asks for descriptor 0 only
with a timeout of 100 microseconds, the wake handler runs during the first
slice (60 microseconds are left), no event is queued and no input is
pending; `sys_select` goes on slicing and returns 0 when the timeout
expires, not `-1` with `EINTR`. -/
theorem sys_select_pure_wake_not_interrupted :
    ∃ out, sys_select env_wake_pure Backend.gcd 4 4 (some ⟨0, 100⟩) caller_window_only
        = some out ∧
      caller_window_only.rfds = some {0} ∧ caller_window_only.wfds = none ∧
      caller_window_only.efds = none ∧
      Event.mac_run_loop_run_once 100 60 true ∈ out.2.trace ∧
      Event.mac_peek_next_event true ∉ out.2.trace ∧
      Event.detect_input_pending true ∉ out.2.trace ∧
      out.1 = 0 ∧ ¬ (out.1 = -1 ∧ out.2.errno = EINTR) :=
  ⟨wake_pure_outcome, wake_pure_run, rfl, rfl, rfl, by decide, by decide, by decide, rfl,
    by decide⟩

/-- Witness of C7 as amended: after the slice of the wake the same run
carries on with another slice. -/
theorem sys_select_pure_wake_witness :
    ((∃ d, wake_pure_trace_after
          = [Event.mac_peek_next_event true, Event.detect_input_pending d] ∧
        wake_pure_outcome.1 = -1 ∧ wake_pure_outcome.2.errno = EINTR) ∨
      (∃ d, wake_pure_trace_after
          = [Event.mac_peek_next_event false, Event.detect_input_pending true,
            Event.detect_input_pending d] ∧
        wake_pure_outcome.1 = -1 ∧ wake_pure_outcome.2.errno = EINTR) ∨
      ∃ r2 w2 post', wake_pure_trace_after = Event.mac_peek_next_event false
        :: Event.detect_input_pending false
        :: (wake_events caller_window_only.wakeup_fds0 w2
          ++ Event.mac_run_loop_run_once 60 r2 w2 :: post')) ∧
      ∀ fuel', 4 ≤ fuel' →
        sys_select env_wake_pure Backend.gcd fuel' 4 (some ⟨0, 100⟩) caller_window_only
          = some wake_pure_outcome :=
  sys_select_pure_wake env_wake_pure Backend.gcd 4 4 (some ⟨0, 100⟩) caller_window_only
    wake_pure_outcome _ wake_pure_trace_before wake_pure_trace_after 100 60 (by decide)
    caller_window_only_pure wake_pure_run rfl rfl (by decide)

/-! ### The path without real descriptors (C8) -/

theorem PollRun.run_events {fd0 : Nat} {s : State} {timeout : Option EMACS_TIME}
    {ext : List Event} {out : Int × State} (h : PollRun fd0 s timeout ext out) :
    ∀ e ∈ ext, poll_event e ∨ slice_event fd0 e := by
  have h2 : ∀ (req : SelectReq) (res : SelectRes),
      ∀ e ∈ [Event.detect_input_pending false, Event.select req res],
        poll_event e ∨ slice_event fd0 e := by
    intro req res e he
    left
    revert e
    simp [poll_event]
  cases h with
  | pending d _ h1 h2 => intro e he; left; revert e; simp [poll_event]
  | ready req res _ h1 _ => exact h2 req res
  | zero req res _ h1 _ h3 => exact h2 req res
  | timed_out req res sl _ h1 _ h3 h4 h5 =>
    intro e he
    rcases List.mem_append.1 he with he | he
    · exact h2 req res e he
    · exact Or.inr (h3.poll_slice_events e he)
  | interrupted req res sl t' d _ h1 _ h3 h4 h5 h6 =>
    intro e he
    simp only [List.mem_append] at he
    rcases he with (he | he) | he
    · exact h2 req res e he
    · exact Or.inr (h3.poll_slice_events e he)
    · left; revert e; simp [poll_event]
  | spun req res sl rest _ h1 _ h3 h4 h5 =>
    intro e he
    simp only [List.mem_append] at he
    rcases he with (he | he) | he
    · exact h2 req res e he
    · exact Or.inr (h3.poll_slice_events e he)
    · exact Or.inl (h5.spin_events e he)

/-- Claim C8 (the pure-foreign path stays in the calling context).  When
descriptor 0 is asked for and no descriptor from 1 on is set in the read,
write or exception set, `sys_select` is
`select_and_poll_event (1, rfds without descriptor 0, wfds, efds, timeout)`,
for every fuel; and in whatever it returns the background waiter was never
started (no background `select`, no thread launch, no `dispatch_sync`, no
semaphore wait) and no byte was written to the wake channel. -/
theorem sys_select_window_only (env : Env) (be : Backend) (fuel : Nat)
    (nfds : Int) (timeout : Option EMACS_TIME) (s : State)
    (hreq : window_channel_requested nfds s = true)
    (hnone : ∀ d : Nat, 1 ≤ d → (∀ r, s.rfds = some r → d ∉ r) ∧
      (∀ w, s.wfds = some w → d ∉ w) ∧ (∀ e, s.efds = some e → d ∉ e)) :
    sys_select env be fuel nfds timeout s =
      select_and_poll_event env fuel 1 timeout { s with rfds := s.rfds.map (FD_CLR 0) } ∧
    ∀ out ext, sys_select env be fuel nfds timeout s = some out →
      out.2.trace = s.trace ++ ext →
      (∀ req, Event.background_select req ∉ ext) ∧
      (∀ fd, Event.write_one_byte_to_fd fd ∉ ext) ∧
      Event.select_thread_launch ∉ ext ∧ Event.dispatch_sync ∉ ext ∧
      Event.select_sem_wait ∉ ext := by
  obtain ⟨-, -, -, r, hr, -⟩ := requested_rfds hreq
  have hpure : ¬ real_descriptor_requested nfds s := by
    rintro ⟨d, h1, -, ⟨r', hr', hd⟩ | ⟨w, hw, hd⟩ | ⟨e, he, hd⟩⟩
    · exact (hnone d h1).1 r' hr' hd
    · exact (hnone d h1).2.1 w hw hd
    · exact (hnone d h1).2.2 e he hd
  have hn : trimmed_nfds nfds s = 1 := (trimmed_nfds_eq_one_iff hreq).2 hpure
  have hst : ({ s with rfds := s.rfds.map (FD_CLR 0) } : State)
      = { s with rfds := some (FD_CLR 0 (s.rfds.getD FD_ZERO)) } := by
    simp [hr]
  have heq := sys_select_pure env be fuel nfds timeout s hreq hn
  refine ⟨by rw [hst]; exact heq, ?_⟩
  intro out ext hrun htr
  rw [heq] at hrun
  obtain ⟨-, ext', htr', hp⟩ := select_and_poll_event_run env fuel 1 timeout s _ out
    (by simp [SameShape, hr]) hrun
  obtain rfl : ext = ext' := List.append_cancel_left (htr.symm.trans htr')
  have key : ∀ e, ¬ (poll_event e ∨ slice_event s.wakeup_fds0 e) → e ∉ ext :=
    fun e he hm => he (hp.run_events e hm)
  refine ⟨fun req => key _ ?_, fun fd => key _ ?_, key _ ?_, key _ ?_, key _ ?_⟩ <;>
    simp [poll_event, slice_event]

/-- Witness of C8: `caller_window_only` asks for descriptor 0 only. -/
theorem sys_select_window_only_witness :
    sys_select env_wake_pure Backend.gcd 4 4 (some ⟨0, 100⟩) caller_window_only =
      select_and_poll_event env_wake_pure 4 1 (some ⟨0, 100⟩)
        { caller_window_only with rfds := caller_window_only.rfds.map (FD_CLR 0) } ∧
    ∀ out ext,
      sys_select env_wake_pure Backend.gcd 4 4 (some ⟨0, 100⟩) caller_window_only
        = some out →
      out.2.trace = caller_window_only.trace ++ ext →
      (∀ req, Event.background_select req ∉ ext) ∧
      (∀ fd, Event.write_one_byte_to_fd fd ∉ ext) ∧
      Event.select_thread_launch ∉ ext ∧ Event.dispatch_sync ∉ ext ∧
      Event.select_sem_wait ∉ ext :=
  sys_select_window_only env_wake_pure Backend.gcd 4 4 (some ⟨0, 100⟩) caller_window_only
    (by decide) (by
      intro d hd
      refine ⟨?_, ?_, ?_⟩
      · intro r hr
        simp only [caller_window_only, Option.some.injEq] at hr
        subst hr
        simp
        omega
      · intro w hw
        simp [caller_window_only, caller_mixed] at hw
      · intro e he
        simp [caller_window_only] at he)

/-! ### The first poll and the background request (C9, C10) -/

theorem background_select_of_start_events {be : Backend} {b : Bool} {fd1 : Nat}
    {q req : SelectReq} (h : Event.background_select req ∈ start_events be b fd1 q) :
    req = q := by
  cases be <;> cases b <;> simpa [start_events] using h

theorem MixedRun.background {be : Backend} {s : State} {nfds : Int}
    {tv : EventTimeout} {r0 : Int} {d : Bool} {ext : List Event} {out : Int × State}
    (h : MixedRun be s nfds tv r0 d ext out) {req : SelectReq}
    (hbg : Event.background_select req ∈ ext) :
    r0 = 0 ∧ tv ≠ 0 ∧ d = false ∧
      req = background_request s.wakeup_fds1 nfds (FD_CLR 0 (s.rfds.getD FD_ZERO))
        s.wfds s.efds := by
  have hstop : Event.background_select req ∉ stop_events be s.wakeup_fds0 s.wakeup_fds1 := by
    cases be <;> simp [stop_events]
  cases h with
  | early p _ hp _ _ => exact absurd (hp.zero_events _ hbg) (by simp [poll_event])
  | pending req' res fin _ _ _ _ _ hf =>
    exfalso
    rcases List.mem_append.1 hbg with h | h
    · simp at h
    · exact absurd (hf.final_events _ h) (by simp [poll_event])
  | timed_out req' res b sl _ h1 h2 _ h4 hw =>
    simp only [List.mem_append] at hbg
    rcases hbg with ((h | h) | h) | h
    · simp at h
    · exact ⟨h1, h4, h2, background_select_of_start_events h⟩
    · exact absurd (hw.wait_slice_events _ h) (by simp [slice_event])
    · exact absurd h hstop
  | interrupted req' res b sl t' fin _ h1 h2 _ h4 hw ht' hf =>
    simp only [List.mem_append] at hbg
    rcases hbg with (((h | h) | h) | h) | h
    · simp at h
    · exact ⟨h1, h4, h2, background_select_of_start_events h⟩
    · exact absurd (hw.wait_slice_events _ h) (by simp [slice_event])
    · exact absurd h hstop
    · exact absurd (hf.final_events _ h) (by simp [poll_event])

theorem MixedRun.started {be : Backend} {s : State} {nfds : Int}
    {tv : EventTimeout} {r0 : Int} {d : Bool} {ext : List Event} {out : Int × State}
    (h : MixedRun be s nfds tv r0 d ext out)
    (h1 : r0 = 0) (h2 : tv ≠ 0) (h3 : d = false) :
    ∃ req, Event.background_select req ∈ ext := by
  cases h with
  | early p _ hp _ he =>
    rcases he with he | he
    · exact absurd h1 he
    · exact absurd he h2
  | pending req' res fin _ _ hd _ _ hf => rw [h3] at hd; cases hd
  | timed_out req' res b sl _ _ _ _ _ hw =>
    exact ⟨_, List.mem_append_left _ (List.mem_append_left _ (List.mem_append_right _
      (background_select_mem_start_events _ _ _ _)))⟩
  | interrupted req' res b sl t' fin _ _ _ _ _ hw ht' hf =>
    exact ⟨_, List.mem_append_left _ (List.mem_append_left _ (List.mem_append_left _
      (List.mem_append_right _ (background_select_mem_start_events _ _ _ _))))⟩

theorem MixedRun.zero_timeout {be : Backend} {s : State} {nfds : Int}
    {tv : EventTimeout} {r0 : Int} {d : Bool} {ext : List Event} {out : Int × State}
    (h : MixedRun be s nfds tv r0 d ext out) (htv : tv = 0) :
    ∀ e ∈ ext, poll_event e := by
  cases h with
  | early p _ hp _ _ => exact hp.zero_events
  | pending req' res fin _ _ _ _ h4 hf => exact absurd htv h4
  | timed_out req' res b sl _ _ _ _ h4 hw => exact absurd htv h4
  | interrupted req' res b sl t' fin _ _ _ _ h4 hw ht' hf => exact absurd htv h4

/-- Claim C9 (zero-timeout poll first, hand-off only when needed).  In a
`sys_select` call with descriptor 0 and a real descriptor, the first thing
done is `select_and_poll_event` with a zero timeout on the trimmed `nfds`
and the sets without descriptor 0; its calls open the history of the whole
call.  The background `select` is issued if and only if that poll answered
0, the requested timeout is not zero, and `detect_input_pending` is false
when asked right after the poll.  With a zero timeout the answer of the poll
is the answer of `sys_select`, and neither a run loop slice nor the
background `select` occurs. -/
theorem sys_select_poll_first (env : Env) (be : Backend) (fuel : Nat)
    (nfds : Int) (timeout : Option EMACS_TIME) (s : State) (out : Int × State)
    (ext : List Event)
    (hreq : window_channel_requested nfds s = true)
    (hmix : real_descriptor_requested nfds s)
    (hrun : sys_select env be fuel nfds timeout s = some out)
    (htr : out.2.trace = s.trace ++ ext) :
    ∃ r0 s2,
      select_and_poll_event env fuel (trimmed_nfds nfds s) (some ⟨0, 0⟩)
        { s with rfds := s.rfds.map (FD_CLR 0) } = some (r0, s2) ∧
      (∃ post, out.2.trace = s2.trace ++ post) ∧
      ((∃ req, Event.background_select req ∈ ext) ↔
        (r0 = 0 ∧ timeoutval_of timeout ≠ 0 ∧
          env.detect_input_pending s2.trace = false)) ∧
      (timeoutval_of timeout = 0 →
        out = (r0, s2) ∧ (∀ t r w, Event.mac_run_loop_run_once t r w ∉ ext) ∧
          ∀ req, Event.background_select req ∉ ext) := by
  have hn : trimmed_nfds nfds s ≠ 1 := fun h => (trimmed_nfds_eq_one_iff hreq).1 h hmix
  obtain ⟨-, -, -, r, hr, -⟩ := requested_rfds hreq
  have hst : ({ s with rfds := s.rfds.map (FD_CLR 0) } : State)
      = { s with rfds := some (FD_CLR 0 (s.rfds.getD FD_ZERO)) } := by
    simp [hr]
  obtain ⟨r0, s2, ext', hpoll, hpost, hearly, htr', hm⟩ :=
    sys_select_mixed_run env be fuel nfds timeout s out hreq hn hrun
  obtain rfl : ext' = ext := List.append_cancel_left (htr'.symm.trans htr)
  refine ⟨r0, s2, by rw [hst]; exact hpoll, hpost, ⟨?_, ?_⟩, ?_⟩
  · rintro ⟨req, hbg⟩
    obtain ⟨h1, h2, h3, -⟩ := hm.background hbg
    exact ⟨h1, h2, h3⟩
  · rintro ⟨h1, h2, h3⟩
    exact hm.started h1 h2 h3
  · intro htv
    refine ⟨hearly (Or.inr htv), ?_, ?_⟩
    · intro t r w h
      exact absurd (hm.zero_timeout htv _ h) (by simp [poll_event])
    · intro req h
      exact absurd (hm.zero_timeout htv _ h) (by simp [poll_event])

/-- Claim C10 (the background wait request).  In a `sys_select` call with
descriptor 0 and a real descriptor, every `select` issued by the background
waiter has: `nfds` the maximum of the trimmed `nfds` and `wakeup_fds[1] + 1`;
as read set the caller's original read set without descriptor 0 and with
`wakeup_fds[1]`; as write and exception sets the caller's originals, `NULL`
where the caller passed `NULL`; and no timeout.  Starting the background
waiter leaves the caller's three sets as they are, in both builds. -/
theorem sys_select_background_request (env : Env) (be : Backend) (fuel : Nat)
    (nfds : Int) (timeout : Option EMACS_TIME) (s : State) (out : Int × State)
    (ext : List Event) (rfds : SELECT_TYPE) (req : SelectReq)
    (hreq : window_channel_requested nfds s = true)
    (hmix : real_descriptor_requested nfds s)
    (hrfds : s.rfds = some rfds)
    (hrun : sys_select env be fuel nfds timeout s = some out)
    (htr : out.2.trace = s.trace ++ ext)
    (hbg : Event.background_select req ∈ ext) :
    req = ⟨max (trimmed_nfds nfds s) ((s.wakeup_fds1 : Int) + 1),
        some (insert s.wakeup_fds1 (rfds.erase 0)), s.wfds, s.efds, none⟩ ∧
      ∀ (n : Int) (orfds owfds oefds : SELECT_TYPE) (s' : State),
        (start_background_waiter be n orfds owfds oefds s').rfds = s'.rfds ∧
        (start_background_waiter be n orfds owfds oefds s').wfds = s'.wfds ∧
        (start_background_waiter be n orfds owfds oefds s').efds = s'.efds := by
  have hn : trimmed_nfds nfds s ≠ 1 := fun h => (trimmed_nfds_eq_one_iff hreq).1 h hmix
  obtain ⟨r0, s2, ext', -, -, -, htr', hm⟩ :=
    sys_select_mixed_run env be fuel nfds timeout s out hreq hn hrun
  obtain rfl : ext' = ext := List.append_cancel_left (htr'.symm.trans htr)
  obtain ⟨-, -, -, h⟩ := hm.background hbg
  refine ⟨by rw [h]; simp [background_request, hrfds, FD_CLR], ?_⟩
  intro n orfds owfds oefds s'
  cases be with
  | gcd => simp [start_background_waiter, State.log]
  | pthread =>
    by_cases hl : s'.select_run_loop = true <;>
      simp [start_background_waiter, State.log, select_fire, select_perform,
        select_sem_wait, select_thread_launch, read_all_from_nonblocking_fd, hl]

/-- Witness of C9: the idle wait of 100 microseconds hands off to the
background waiter. -/
theorem sys_select_poll_first_witness :
    ∃ r0 s2,
      select_and_poll_event env_idle 3 (trimmed_nfds 4 caller_mixed) (some ⟨0, 0⟩)
        { caller_mixed with rfds := caller_mixed.rfds.map (FD_CLR 0) } = some (r0, s2) ∧
      (∃ post, idle_outcome.2.trace = s2.trace ++ post) ∧
      ((∃ req, Event.background_select req ∈ idle_trace) ↔
        (r0 = 0 ∧ timeoutval_of (some ⟨0, 100⟩) ≠ 0 ∧
          env_idle.detect_input_pending s2.trace = false)) ∧
      (timeoutval_of (some ⟨0, 100⟩) = 0 →
        idle_outcome = (r0, s2) ∧
          (∀ t r w, Event.mac_run_loop_run_once t r w ∉ idle_trace) ∧
          ∀ req, Event.background_select req ∉ idle_trace) :=
  sys_select_poll_first env_idle Backend.gcd 3 4 (some ⟨0, 100⟩) caller_mixed
    idle_outcome idle_trace (by decide) caller_mixed_real_descriptor idle_run rfl

/-- Witness of C10: with the wake descriptors 10 and 11, the background
`select` of the idle wait is called with `nfds = 12` and the read set
`{11, 3}`. -/
theorem sys_select_background_request_witness :
    (⟨12, some {11, 3}, none, some {3}, none⟩ : SelectReq)
      = ⟨max (trimmed_nfds 4 caller_mixed) ((caller_mixed.wakeup_fds1 : Int) + 1),
        some (insert caller_mixed.wakeup_fds1 (({0, 3} : Finset Nat).erase 0)),
        caller_mixed.wfds, caller_mixed.efds, none⟩ ∧
      ∀ (n : Int) (orfds owfds oefds : SELECT_TYPE) (s' : State),
        (start_background_waiter Backend.gcd n orfds owfds oefds s').rfds = s'.rfds ∧
        (start_background_waiter Backend.gcd n orfds owfds oefds s').wfds = s'.wfds ∧
        (start_background_waiter Backend.gcd n orfds owfds oefds s').efds = s'.efds :=
  sys_select_background_request env_idle Backend.gcd 3 4 (some ⟨0, 100⟩) caller_mixed
    idle_outcome idle_trace {0, 3} ⟨12, some {11, 3}, none, some {3}, none⟩
    (by decide) caller_mixed_real_descriptor rfl idle_run rfl (by decide)

/-! ### The wake of the background waiter (C11) -/

theorem WaitTrace.wait_last {fd0 : Nat} {t t' : EventTimeout} {ext : List Event}
    (h : WaitTrace fd0 t ext t') : ∃ init e, ext = init ++ [e] ∧ wait_stop e := by
  induction h with
  | timeout t w => exact ⟨_, _, rfl, by simp [wait_stop]⟩
  | woke t r hr => exact ⟨_, _, rfl, by simp [wait_stop]⟩
  | event t r hr =>
    exact ⟨[Event.mac_run_loop_run_once t r false], _, rfl, by simp [wait_stop]⟩
  | pending t r hr =>
    exact ⟨[Event.mac_run_loop_run_once t r false, Event.mac_peek_next_event false], _,
      rfl, by simp [wait_stop]⟩
  | again t r rest t' hr _ ih =>
    obtain ⟨init, e, h1, h2⟩ := ih
    exact ⟨_ ++ init, e, by rw [h1, List.append_assoc], h2⟩

theorem stop_events_cons (be : Backend) (fd0 fd1 : Nat) :
    stop_events be fd0 fd1 =
      Event.write_one_byte_to_fd fd0 :: (stop_events be fd0 fd1).tail := by
  cases be <;> rfl

theorem stop_events_tail (be : Backend) (fd0 fd1 : Nat) :
    ∀ e ∈ (stop_events be fd0 fd1).tail, e = Event.dispatch_async_read_all fd1 := by
  cases be <;> simp [stop_events]

theorem not_write_of_start_events {be : Backend} {b : Bool} {fd1 fd : Nat}
    {req : SelectReq} : Event.write_one_byte_to_fd fd ∉ start_events be b fd1 req := by
  cases be <;> cases b <;> simp [start_events]

theorem MixedRun.one_wake {be : Backend} {s : State} {nfds : Int}
    {tv : EventTimeout} {r0 : Int} {d : Bool} {ext : List Event} {out : Int × State}
    (h : MixedRun be s nfds tv r0 d ext out) :
    ((∃ req, Event.background_select req ∈ ext) →
      ∃ init last post,
        ext = init ++ [last] ++ Event.write_one_byte_to_fd s.wakeup_fds0 :: post ∧
        wait_stop last ∧
        (∀ fd, Event.write_one_byte_to_fd fd ∉ init ++ [last]) ∧
        (∀ fd, Event.write_one_byte_to_fd fd ∉ post) ∧
        (∀ t r w, Event.mac_run_loop_run_once t r w ∉ post) ∧
        after_wake be s post out) ∧
    ((∀ req, Event.background_select req ∉ ext) →
      ∀ fd, Event.write_one_byte_to_fd fd ∉ ext) := by
  cases h with
  | early p _ hp _ _ =>
    have hpe := hp.zero_events
    refine ⟨fun ⟨req, hm⟩ => absurd (hpe _ hm) (by simp [poll_event]),
      fun _ fd hm => absurd (hpe _ hm) (by simp [poll_event])⟩
  | pending req res fin _ _ _ _ _ hf =>
    have hfe := hf.final_events
    refine ⟨fun ⟨req, hm⟩ => ?_, fun _ fd hm => ?_⟩
    · rcases List.mem_append.1 hm with h | h
      · simp at h
      · exact absurd (hfe _ h) (by simp [poll_event])
    · rcases List.mem_append.1 hm with h | h
      · simp at h
      · exact absurd (hfe _ h) (by simp [poll_event])
  | timed_out req res b sl _ _ _ _ _ hw h1 h2 h3 h4 =>
    obtain ⟨init, last, hsl, hlast⟩ := hw.wait_last
    have hse := hw.wait_slice_events
    refine ⟨fun _ => ⟨([Event.detect_input_pending false, Event.select req res,
        Event.detect_input_pending false]
        ++ start_events be b s.wakeup_fds1
          (background_request s.wakeup_fds1 nfds (FD_CLR 0 (s.rfds.getD FD_ZERO))
            s.wfds s.efds)) ++ init, last, (stop_events be s.wakeup_fds0 s.wakeup_fds1).tail,
      ?_, hlast, ?_, ?_, ?_, ⟨[], by simp, Or.inl ⟨rfl, h1⟩⟩⟩, fun hno => ?_⟩
    · rw [hsl]
      nth_rewrite 1 [stop_events_cons be s.wakeup_fds0 s.wakeup_fds1]
      simp only [List.append_assoc]
    · intro fd hm
      rw [List.append_assoc, ← hsl] at hm
      simp only [List.mem_append] at hm
      rcases hm with (h | h) | h
      · simp at h
      · exact not_write_of_start_events h
      · exact absurd (hse _ h) (by simp [slice_event])
    · intro fd hm
      have := stop_events_tail be _ _ _ hm
      simp at this
    · intro t r w hm
      have := stop_events_tail be _ _ _ hm
      simp at this
    · exfalso
      refine hno (background_request s.wakeup_fds1 nfds (FD_CLR 0 (s.rfds.getD FD_ZERO))
        s.wfds s.efds) ?_
      cases be <;> cases b <;> simp [start_events]
  | interrupted req res b sl t' fin _ _ _ _ _ hw ht' hf =>
    obtain ⟨init, last, hsl, hlast⟩ := hw.wait_last
    have hse := hw.wait_slice_events
    have hfe := hf.final_events
    refine ⟨fun _ => ⟨([Event.detect_input_pending false, Event.select req res,
        Event.detect_input_pending false]
        ++ start_events be b s.wakeup_fds1
          (background_request s.wakeup_fds1 nfds (FD_CLR 0 (s.rfds.getD FD_ZERO))
            s.wfds s.efds)) ++ init, last,
      (stop_events be s.wakeup_fds0 s.wakeup_fds1).tail ++ fin,
      ?_, hlast, ?_, ?_, ?_, ⟨fin, rfl, Or.inr hf⟩⟩, fun hno => ?_⟩
    · rw [hsl]
      nth_rewrite 1 [stop_events_cons be s.wakeup_fds0 s.wakeup_fds1]
      simp only [List.append_assoc, List.cons_append]
    · intro fd hm
      rw [List.append_assoc, ← hsl] at hm
      simp only [List.mem_append] at hm
      rcases hm with (h | h) | h
      · simp at h
      · exact not_write_of_start_events h
      · exact absurd (hse _ h) (by simp [slice_event])
    · intro fd hm
      rcases List.mem_append.1 hm with h | h
      · have := stop_events_tail be _ _ _ h
        simp at this
      · exact absurd (hfe _ h) (by simp [poll_event])
    · intro t r w hm
      rcases List.mem_append.1 hm with h | h
      · have := stop_events_tail be _ _ _ h
        simp at this
      · exact absurd (hfe _ h) (by simp [poll_event])
    · exfalso
      refine hno (background_request s.wakeup_fds1 nfds (FD_CLR 0 (s.rfds.getD FD_ZERO))
        s.wfds s.efds) ?_
      cases be <;> cases b <;> simp [start_events]

theorem sys_select_direct (env : Env) (be : Backend) (fuel : Nat) (nfds : Int)
    (timeout : Option EMACS_TIME) (s : State)
    (hreq : ¬ window_channel_requested nfds s = true) :
    sys_select env be fuel nfds timeout s = some (select env nfds timeout s) := by
  simp [sys_select, hreq]

/-- Claim C11.  In every call of `sys_select` that hands the wait to the
background waiter (it issues a background `select`), the foreground calls
`write_one_byte_to_fd` exactly once, on `wakeup_fds[0]`: the call comes right
after the event that ended the time-slicing loop, no slice of the run loop
follows it, and what follows it is the last zero-timeout poll (preceded, in
the Grand Central Dispatch build, by the queueing of the drain block) unless
the wait timed out.  In every call that does not hand off,
`write_one_byte_to_fd` is not called at all.  The same answer is returned
with any larger fuel. -/
theorem sys_select_one_wake (env : Env) (be : Backend) (fuel : Nat) (nfds : Int)
    (timeout : Option EMACS_TIME) (s : State) (out : Int × State) (ext : List Event)
    (hrun : sys_select env be fuel nfds timeout s = some out)
    (htr : out.2.trace = s.trace ++ ext) :
    (((∃ req, Event.background_select req ∈ ext) →
      ∃ init last post,
        ext = init ++ [last] ++ Event.write_one_byte_to_fd s.wakeup_fds0 :: post ∧
        wait_stop last ∧
        (∀ fd, Event.write_one_byte_to_fd fd ∉ init ++ [last]) ∧
        (∀ fd, Event.write_one_byte_to_fd fd ∉ post) ∧
        (∀ t r w, Event.mac_run_loop_run_once t r w ∉ post) ∧
        after_wake be s post out) ∧
      ((∀ req, Event.background_select req ∉ ext) →
        ∀ fd, Event.write_one_byte_to_fd fd ∉ ext)) ∧
      ∀ fuel', fuel ≤ fuel' → sys_select env be fuel' nfds timeout s = some out := by
  refine ⟨?_, fun fuel' hle =>
    sys_select_fuel_mono env be fuel fuel' nfds timeout s out hle hrun⟩
  by_cases hreq : window_channel_requested nfds s = true
  · by_cases hn : trimmed_nfds nfds s = 1
    · rw [sys_select_pure env be fuel nfds timeout s hreq hn] at hrun
      obtain ⟨-, -, -, r, hr, -⟩ := requested_rfds hreq
      obtain ⟨-, ext', htr', hp⟩ := select_and_poll_event_run env fuel 1 timeout s _ out
        (by simp [SameShape, hr]) hrun
      obtain rfl : ext = ext' := List.append_cancel_left (htr.symm.trans htr')
      have key : ∀ e, ¬ (poll_event e ∨ slice_event s.wakeup_fds0 e) → e ∉ ext :=
        fun e he hm => he (hp.run_events e hm)
      exact ⟨fun ⟨req, hm⟩ => absurd hm (key _ (by simp [poll_event, slice_event])),
        fun _ fd => key _ (by simp [poll_event, slice_event])⟩
    · obtain ⟨r0, s2, ext', -, -, -, htr', hm⟩ :=
        sys_select_mixed_run env be fuel nfds timeout s out hreq hn hrun
      obtain rfl : ext' = ext := List.append_cancel_left (htr'.symm.trans htr)
      exact hm.one_wake
  · rw [sys_select_direct env be fuel nfds timeout s hreq] at hrun
    obtain ⟨req, res, -, h2, -⟩ := select_spec env nfds timeout s s
      (SameShape.shape_refl s)
    simp only [Option.some.injEq] at hrun
    subst hrun
    obtain rfl : ext = [Event.select req res] :=
      List.append_cancel_left (htr.symm.trans h2)
    exact ⟨fun ⟨r, hm⟩ => by simp at hm, fun _ fd => by simp⟩

/-- Witness of C11: the wait on `caller_mixed` that a queued event ends. -/
theorem sys_select_one_wake_witness :
    (((∃ req, Event.background_select req ∈
        event_trace_before ++ Event.mac_peek_next_event true :: event_trace_after) →
      ∃ init last post,
        event_trace_before ++ Event.mac_peek_next_event true :: event_trace_after =
          init ++ [last] ++ Event.write_one_byte_to_fd caller_mixed.wakeup_fds0 :: post ∧
        wait_stop last ∧
        (∀ fd, Event.write_one_byte_to_fd fd ∉ init ++ [last]) ∧
        (∀ fd, Event.write_one_byte_to_fd fd ∉ post) ∧
        (∀ t r w, Event.mac_run_loop_run_once t r w ∉ post) ∧
        after_wake Backend.gcd caller_mixed post event_outcome) ∧
      ((∀ req, Event.background_select req ∉
          event_trace_before ++ Event.mac_peek_next_event true :: event_trace_after) →
        ∀ fd, Event.write_one_byte_to_fd fd ∉
          event_trace_before ++ Event.mac_peek_next_event true :: event_trace_after)) ∧
      ∀ fuel', 3 ≤ fuel' →
        sys_select env_event Backend.gcd fuel' 4 (some ⟨0, 100⟩) caller_mixed
          = some event_outcome :=
  sys_select_one_wake env_event Backend.gcd 3 4 (some ⟨0, 100⟩) caller_mixed
    event_outcome _ event_run rfl

/-! ### The wait for the background waiter (C12) -/

theorem start_events_handshake {be : Backend} {b : Bool} {fd1 : Nat}
    {r0 req : SelectReq} {pre post : List Event}
    (h : start_events be b fd1 r0 = pre ++ Event.background_select req :: post) :
    post = [] ∧ ∃ e ∈ pre, handshake e := by
  have key : ∀ init : List Event, (∀ x ∈ init, ¬ ∃ r, x = Event.background_select r) →
      init ++ [Event.background_select r0] = pre ++ Event.background_select req :: post →
      post = [] ∧ pre = init := by
    intro init hinit h'
    obtain ⟨h1, -⟩ := stop_is_last h' hinit ⟨req, rfl⟩
    subst h1
    exact ⟨rfl, (List.append_inj_left' h' (by simp)).symm⟩
  cases be with
  | gcd =>
    obtain ⟨h1, h2⟩ := key [Event.dispatch_sync] (by simp) (by simpa [start_events] using h)
    exact ⟨h1, Event.dispatch_sync, by simp [h2], by simp [handshake]⟩
  | pthread =>
    cases b with
    | true =>
      obtain ⟨h1, h2⟩ := key [Event.select_sem_wait,
        Event.read_all_from_nonblocking_fd fd1] (by simp) (by simpa [start_events] using h)
      exact ⟨h1, Event.select_sem_wait, by simp [h2], by simp [handshake]⟩
    | false =>
      obtain ⟨h1, h2⟩ := key [Event.select_thread_launch, Event.select_sem_wait,
        Event.read_all_from_nonblocking_fd fd1] (by simp) (by simpa [start_events] using h)
      exact ⟨h1, Event.select_sem_wait, by simp [h2], by simp [handshake]⟩

theorem not_handshake_of_stop_events {be : Backend} {fd0 fd1 : Nat} :
    ∀ e ∈ stop_events be fd0 fd1, ¬ handshake e := by
  cases be <;> simp [stop_events, handshake]

theorem not_handshake_of_slice {fd0 : Nat} {e : Event} (h : slice_event fd0 e) :
    ¬ handshake e := by
  cases e <;> simp [slice_event, handshake] at h ⊢

theorem not_handshake_of_poll {e : Event} (h : poll_event e) : ¬ handshake e := by
  cases e <;> simp [poll_event, handshake] at h ⊢

theorem MixedRun.handshake_first {be : Backend} {s : State} {nfds : Int}
    {tv : EventTimeout} {r0 : Int} {d : Bool} {ext : List Event} {out : Int × State}
    (h : MixedRun be s nfds tv r0 d ext out) {pre post : List Event} {req : SelectReq}
    (hev : ext = pre ++ Event.background_select req :: post) :
    (∃ e ∈ pre, handshake e) ∧ (∀ e ∈ post, ¬ handshake e) ∧
      ∃ sl fin, post = sl ++ Event.write_one_byte_to_fd s.wakeup_fds0 :: fin ∧
        after_wake be s fin out := by
  have hstop : Event.background_select req ∉ stop_events be s.wakeup_fds0 s.wakeup_fds1 := by
    cases be <;> simp [stop_events]
  cases h with
  | early p _ hp _ _ =>
    exact absurd (hp.zero_events (Event.background_select req) (by simp [hev]))
      (by simp [poll_event])
  | pending req' res fin _ _ _ _ _ hf =>
    exfalso
    have hm : Event.background_select req ∈
        [Event.detect_input_pending false, Event.select req' res,
          Event.detect_input_pending true] ++ fin := by simp [hev]
    rcases List.mem_append.1 hm with h | h
    · simp at h
    · exact absurd (hf.final_events _ h) (by simp [poll_event])
  | timed_out req' res b sl _ _ _ _ _ hw h1 _ _ _ =>
    have hB : Event.background_select req ∉
        sl ++ stop_events be s.wakeup_fds0 s.wakeup_fds1 := by
      intro hm
      rcases List.mem_append.1 hm with h | h
      · exact absurd (hw.wait_slice_events _ h) (by simp [slice_event])
      · exact hstop h
    have hE : [Event.detect_input_pending false, Event.select req' res,
        Event.detect_input_pending false]
        ++ start_events be b s.wakeup_fds1
          (background_request s.wakeup_fds1 nfds (FD_CLR 0 (s.rfds.getD FD_ZERO))
            s.wfds s.efds)
        ++ (sl ++ stop_events be s.wakeup_fds0 s.wakeup_fds1)
        = pre ++ Event.background_select req :: post := by
      rw [← hev]; simp only [List.append_assoc]
    obtain ⟨pre', post', hS, hpre, hpost⟩ := split_mid hE (by simp) hB
    obtain ⟨hnil, e, he, hh⟩ := start_events_handshake hS
    subst hnil
    refine ⟨⟨e, by simp [hpre, he], hh⟩, ?_, sl,
      (stop_events be s.wakeup_fds0 s.wakeup_fds1).tail, ?_, [], by simp, Or.inl ⟨rfl, h1⟩⟩
    · intro x hx
      rw [hpost] at hx
      simp only [List.nil_append, List.mem_append] at hx
      rcases hx with h | h
      · exact not_handshake_of_slice (hw.wait_slice_events _ h)
      · exact not_handshake_of_stop_events _ h
    · rw [hpost, List.nil_append]
      nth_rewrite 1 [stop_events_cons be s.wakeup_fds0 s.wakeup_fds1]
      rfl
  | interrupted req' res b sl t' fin _ _ _ _ _ hw ht' hf =>
    have hB : Event.background_select req ∉
        sl ++ stop_events be s.wakeup_fds0 s.wakeup_fds1 ++ fin := by
      intro hm
      simp only [List.mem_append] at hm
      rcases hm with (h | h) | h
      · exact absurd (hw.wait_slice_events _ h) (by simp [slice_event])
      · exact hstop h
      · exact absurd (hf.final_events _ h) (by simp [poll_event])
    have hE : [Event.detect_input_pending false, Event.select req' res,
        Event.detect_input_pending false]
        ++ start_events be b s.wakeup_fds1
          (background_request s.wakeup_fds1 nfds (FD_CLR 0 (s.rfds.getD FD_ZERO))
            s.wfds s.efds)
        ++ (sl ++ stop_events be s.wakeup_fds0 s.wakeup_fds1 ++ fin)
        = pre ++ Event.background_select req :: post := by
      rw [← hev]; simp only [List.append_assoc]
    obtain ⟨pre', post', hS, hpre, hpost⟩ := split_mid hE (by simp) hB
    obtain ⟨hnil, e, he, hh⟩ := start_events_handshake hS
    subst hnil
    refine ⟨⟨e, by simp [hpre, he], hh⟩, ?_, sl,
      (stop_events be s.wakeup_fds0 s.wakeup_fds1).tail ++ fin, ?_, fin, rfl, Or.inr hf⟩
    · intro x hx
      rw [hpost] at hx
      simp only [List.nil_append, List.mem_append] at hx
      rcases hx with (h | h) | h
      · exact not_handshake_of_slice (hw.wait_slice_events _ h)
      · exact not_handshake_of_stop_events _ h
      · exact not_handshake_of_poll (hf.final_events _ h)
    · rw [hpost, List.nil_append]
      nth_rewrite 1 [stop_events_cons be s.wakeup_fds0 s.wakeup_fds1]
      simp only [List.append_assoc, List.cons_append]

theorem pthread_event_run :
    sys_select env_event Backend.pthread 3 4 (some ⟨0, 100⟩) caller_mixed
      = some pthread_event_outcome := by
  decide

/-- Claim C12, as amended.  In every call of `sys_select` that hands the
wait to the background waiter, the calling thread waits for the background
waiter (`dispatch_sync` on the select queue, or `select_sem_wait`) before it
issues the background `select`, and not again afterwards: after it has
signalled the wake channel with `write_one_byte_to_fd`, what follows is the
last zero-timeout poll that computes the result (preceded, in the Grand
Central Dispatch build, by the queueing of the drain block), or nothing when
the wait timed out.  The same answer is returned with any larger fuel. -/
theorem sys_select_handshake_first (env : Env) (be : Backend) (fuel : Nat)
    (nfds : Int) (timeout : Option EMACS_TIME) (s : State) (out : Int × State)
    (ext pre post : List Event) (req : SelectReq)
    (hrun : sys_select env be fuel nfds timeout s = some out)
    (htr : out.2.trace = s.trace ++ ext)
    (hev : ext = pre ++ Event.background_select req :: post) :
    ((∃ e ∈ pre, handshake e) ∧ (∀ e ∈ post, ¬ handshake e) ∧
      ∃ sl fin, post = sl ++ Event.write_one_byte_to_fd s.wakeup_fds0 :: fin ∧
        after_wake be s fin out) ∧
      ∀ fuel', fuel ≤ fuel' → sys_select env be fuel' nfds timeout s = some out := by
  refine ⟨?_, fun fuel' hle =>
    sys_select_fuel_mono env be fuel fuel' nfds timeout s out hle hrun⟩
  have hmem : Event.background_select req ∈ ext := by simp [hev]
  by_cases hreq : window_channel_requested nfds s = true
  · by_cases hn : trimmed_nfds nfds s = 1
    · rw [sys_select_pure env be fuel nfds timeout s hreq hn] at hrun
      obtain ⟨-, -, -, r, hr, -⟩ := requested_rfds hreq
      obtain ⟨-, ext', htr', hp⟩ := select_and_poll_event_run env fuel 1 timeout s _ out
        (by simp [SameShape, hr]) hrun
      obtain rfl : ext = ext' := List.append_cancel_left (htr.symm.trans htr')
      exact absurd (hp.run_events _ hmem) (by simp [poll_event, slice_event])
    · obtain ⟨r0, s2, ext', -, -, -, htr', hm⟩ :=
        sys_select_mixed_run env be fuel nfds timeout s out hreq hn hrun
      obtain rfl : ext' = ext := List.append_cancel_left (htr'.symm.trans htr)
      exact hm.handshake_first hev
  · rw [sys_select_direct env be fuel nfds timeout s hreq] at hrun
    obtain ⟨req', res, -, h2, -⟩ := select_spec env nfds timeout s s
      (SameShape.shape_refl s)
    simp only [Option.some.injEq] at hrun
    subst hrun
    obtain rfl : ext = [Event.select req' res] :=
      List.append_cancel_left (htr.symm.trans h2)
    simp at hmem

/-- Witness of C12, as amended: the wait on `caller_mixed` that a queued
event ends (Grand Central Dispatch build). -/
theorem sys_select_handshake_first_witness :
    ((∃ e ∈ event_trace_head, handshake e) ∧ (∀ e ∈ event_trace_tail, ¬ handshake e) ∧
      ∃ sl fin, event_trace_tail =
          sl ++ Event.write_one_byte_to_fd caller_mixed.wakeup_fds0 :: fin ∧
        after_wake Backend.gcd caller_mixed fin event_outcome) ∧
      ∀ fuel', 3 ≤ fuel' →
        sys_select env_event Backend.gcd fuel' 4 (some ⟨0, 100⟩) caller_mixed
          = some event_outcome :=
  sys_select_handshake_first env_event Backend.gcd 3 4 (some ⟨0, 100⟩) caller_mixed
    event_outcome _ event_trace_head event_trace_tail
    ⟨12, some {11, 3}, none, some {3}, none⟩ event_run rfl rfl

/-- Claim C12 fails as stated.  In the Pthreads build, on `caller_mixed` with
an event queued after the second slice, the call hands off (it issues the
background `select`) and, after `write_one_byte_to_fd (wakeup_fds[0])`, goes
on at once to `detect_input_pending` and the zero-timeout `select` that
inspects the descriptors: no `select_sem_wait` and no `dispatch_sync`
follows the signal.  The only `select_sem_wait` of the call precedes the
background `select`. -/
theorem sys_select_no_handshake_after_wake :
    sys_select env_event Backend.pthread 3 4 (some ⟨0, 100⟩) caller_mixed
      = some pthread_event_outcome ∧
    pthread_event_outcome.2.trace =
      pthread_trace_before ++ Event.write_one_byte_to_fd 10 ::
        [Event.detect_input_pending false,
         Event.select ⟨4, some {3}, none, some {3}, some ⟨0, 0⟩⟩ ⟨0, ∅, ∅, ∅, 0⟩] ∧
    (∃ req, Event.background_select req ∈ pthread_trace_before) ∧
    ¬ ∃ e ∈ pthread_trace_after, handshake e := by
  refine ⟨pthread_event_run, rfl, ⟨⟨12, some {11, 3}, none, some {3}, none⟩, ?_⟩, ?_⟩
  · simp [pthread_trace_before]
  · simp [pthread_trace_after, handshake]

/-! ### A call without a timeout (C18) -/

theorem PollTrace.timed_out_mem {fd0 : Nat} {t t' : EventTimeout} {ext : List Event}
    (h : PollTrace fd0 t ext t') (h0 : t' = 0) :
    ∃ t₁ w, Event.mac_run_loop_run_once t₁ 0 w ∈ ext := by
  induction h with
  | timeout t w => exact ⟨t, w, by simp⟩
  | event t r w hr => exact absurd h0 hr
  | pending t r w hr => exact absurd h0 hr
  | again t r w rest t' hr _ ih =>
    obtain ⟨t₁, w₁, hm⟩ := ih h0
    exact ⟨t₁, w₁, List.mem_append_right _ hm⟩

theorem WaitTrace.timed_out_slice_mem {fd0 : Nat} {t t' : EventTimeout}
    {ext : List Event} (h : WaitTrace fd0 t ext t') (h0 : t' = 0) :
    ∃ t₁ w, Event.mac_run_loop_run_once t₁ 0 w ∈ ext := by
  induction h with
  | timeout t w => exact ⟨t, w, by simp⟩
  | woke t r hr => exact absurd h0 hr
  | event t r hr => exact absurd h0 hr
  | pending t r hr => exact absurd h0 hr
  | again t r rest t' hr _ ih =>
    obtain ⟨t₁, w₁, hm⟩ := ih h0
    exact ⟨t₁, w₁, List.mem_append_right _ hm⟩

theorem PollRun.forever_nonzero {fd0 : Nat} {s : State} {ext : List Event}
    {out : Int × State} (h : PollRun fd0 s none ext out)
    (hno : ∀ t w, Event.mac_run_loop_run_once t 0 w ∉ ext) : out.1 ≠ 0 := by
  cases h with
  | pending d _ h1 h2 => rw [h1]; decide
  | ready req res _ hr hl => rw [hl.1]; exact hr
  | zero req res _ hr htv h0 => simp [timeoutval_of, kEventDurationForever] at htv
  | timed_out req res sl _ hr htv hpt hne h0 => exact absurd rfl hne
  | interrupted req res sl t' d _ hr htv hpt ht' h1 h2 => rw [h1]; decide
  | spun req res sl rest _ hr htv hpt _ hsp =>
    obtain ⟨t₁, w, hm⟩ := hpt.timed_out_mem rfl
    exact absurd (List.mem_append_left _ (List.mem_append_right _ hm)) (hno t₁ w)

theorem sys_select_null_timeout_nonzero (env : Env) (be : Backend) (fuel : Nat)
    (nfds : Int) (s : State) (out : Int × State) (ext : List Event)
    (hreq : window_channel_requested nfds s = true)
    (hrun : sys_select env be fuel nfds none s = some out)
    (htr : out.2.trace = s.trace ++ ext)
    (hno : ∀ t w, Event.mac_run_loop_run_once t 0 w ∉ ext) : out.1 ≠ 0 := by
  by_cases hn : trimmed_nfds nfds s = 1
  · rw [sys_select_pure env be fuel nfds none s hreq hn] at hrun
    obtain ⟨-, -, -, r, hr, -⟩ := requested_rfds hreq
    obtain ⟨-, ext', htr', hp⟩ := select_and_poll_event_run env fuel 1 none s _ out
      (by simp [SameShape, hr]) hrun
    obtain rfl : ext = ext' := List.append_cancel_left (htr.symm.trans htr')
    exact hp.forever_nonzero hno
  · obtain ⟨r0, s2, ext', -, -, -, htr', hm⟩ :=
      sys_select_mixed_run env be fuel nfds none s out hreq hn hrun
    obtain rfl : ext' = ext := List.append_cancel_left (htr'.symm.trans htr)
    cases hm with
    | early p _ hp h1 h2 =>
      rcases h2 with h2 | h2
      · rw [h1]; exact h2
      · simp [timeoutval_of, kEventDurationForever] at h2
    | pending req res fin _ _ _ _ _ hf => exact hf.final_outcome.1
    | timed_out req res b sl _ _ _ _ _ hw =>
      obtain ⟨t₁, w, hm⟩ := hw.timed_out_slice_mem rfl
      exact absurd (List.mem_append_left _ (List.mem_append_right _ hm)) (hno t₁ w)
    | interrupted req res b sl t' fin _ _ _ _ _ hw ht' hf => exact hf.final_outcome.1

/-- Claim C18 fails on the code.  Called without a timeout (`timeout` is
`NULL`) for descriptor 0 and descriptor 3, with nothing ready and a first
slice of the run loop that answers that no time remains, `sys_select`
returns 0 with the sets cleared (lines 3782-3783 and 3799-3807), for every
fuel from 1 on.  Called without a timeout for descriptor 0 alone, with such a
slice and input that is pending afterwards, `select_and_poll_event` restores
the sets and loops (lines 3646-3651) but `timedout_p` stays set, and
`sys_select` returns 0 (lines 3612-3613 and 3666-3667), for every fuel from
2 on. -/
theorem sys_select_null_timeout_returns_zero :
    (∀ fuel, 1 ≤ fuel →
      sys_select env_idle Backend.pthread fuel 4 none caller_mixed
        = some forever_outcome) ∧
    forever_outcome.1 = 0 ∧
    (∀ fuel, 2 ≤ fuel →
      sys_select env_late_input Backend.pthread fuel 4 none caller_window_only
        = some late_input_outcome) ∧
    late_input_outcome.1 = 0 := by
  refine ⟨fun fuel h => ?_, rfl, fun fuel h => ?_, rfl⟩
  · exact sys_select_fuel_mono env_idle Backend.pthread 1 fuel 4 none caller_mixed _ h
      (by decide)
  · exact sys_select_fuel_mono env_late_input Backend.pthread 2 fuel 4 none
      caller_window_only _ h (by decide)

/-! ### The two builds of the background waiter (C19) -/

theorem common_append (h₁ h₂ : List Event) : common (h₁ ++ h₂) = common h₁ ++ common h₂ := by
  simp [common]

theorem Sim.sim_refl (s : State) : Sim s s := by
  simp [Sim]

theorem select_sim (env : Env) (hb : build_blind env) (nfds : Int)
    (timeout : Option EMACS_TIME) (a b : State) (hs : Sim a b) :
    (select env nfds timeout a).1 = (select env nfds timeout b).1 ∧
      Sim (select env nfds timeout a).2 (select env nfds timeout b).2 := by
  obtain ⟨h1, h2, h3, h4, h5, h6, h7, h8, h9, h10⟩ := hs
  have he := (hb _ _ h10).1
  simp only [select, Sim, he, h1, h2, h3, h4, h5, h6, h7, h8, h9, common_append, h10]
  simp [common, common_call]

theorem detect_input_pending_sim (env : Env) (hb : build_blind env) (a b : State)
    (hs : Sim a b) :
    (detect_input_pending env a).1 = (detect_input_pending env b).1 ∧
      Sim (detect_input_pending env a).2 (detect_input_pending env b).2 := by
  obtain ⟨h1, h2, h3, h4, h5, h6, h7, h8, h9, h10⟩ := hs
  have he := (hb _ _ h10).2.1
  simp only [detect_input_pending, State.log, Sim, he, h1, h2, h3, h4, h5, h6, h7, h8, h9,
    common_append, h10]
  simp [common, common_call]

theorem mac_peek_next_event_sim (env : Env) (hb : build_blind env) (a b : State)
    (hs : Sim a b) :
    (mac_peek_next_event env a).1 = (mac_peek_next_event env b).1 ∧
      Sim (mac_peek_next_event env a).2 (mac_peek_next_event env b).2 := by
  obtain ⟨h1, h2, h3, h4, h5, h6, h7, h8, h9, h10⟩ := hs
  have he := (hb _ _ h10).2.2.2
  simp only [mac_peek_next_event, State.log, Sim, he, h1, h2, h3, h4, h5, h6, h7, h8, h9,
    common_append, h10]
  simp [common, common_call]

theorem mac_run_loop_run_once_sim (env : Env) (hb : build_blind env)
    (tv : EventTimeout) (a b : State) (hs : Sim a b) :
    (mac_run_loop_run_once env tv a).1 = (mac_run_loop_run_once env tv b).1 ∧
      Sim (mac_run_loop_run_once env tv a).2 (mac_run_loop_run_once env tv b).2 := by
  obtain ⟨h1, h2, h3, h4, h5, h6, h7, h8, h9, h10⟩ := hs
  have he := (hb _ _ h10).2.2.1
  simp only [mac_run_loop_run_once, he]
  have h10' : List.filter common_call a.trace = List.filter common_call b.trace := h10
  by_cases hw : (env.mac_run_loop_run_once b.trace tv).2 = true <;>
    simp [hw, wakeup_callback, read_all_from_nonblocking_fd, State.log, Sim, h1, h2, h3,
      h4, h5, h6, h7, h8, h9, h10', common, common_call]

theorem poll_slices_sim (env : Env) (hb : build_blind env) :
    ∀ (fuel : Nat) (tv : EventTimeout) (a b : State), Sim a b →
      SimRes (poll_slices env fuel tv a) (poll_slices env fuel tv b) := by
  intro fuel
  induction fuel with
  | zero => intro tv a b _; simp [poll_slices, SimRes]
  | succ fuel ih =>
    intro tv a b hs
    simp only [poll_slices]
    obtain ⟨e1, s1⟩ := mac_run_loop_run_once_sim env hb tv a b hs
    obtain ⟨e2, s2⟩ := mac_peek_next_event_sim env hb _ _ s1
    obtain ⟨e3, s3⟩ := detect_input_pending_sim env hb _ _ s2
    rw [e1, e2, e3]
    split_ifs
    · exact ih _ _ _ s3
    · exact ⟨rfl, s3⟩
    · exact ⟨rfl, s2⟩
    · exact ⟨rfl, s1⟩

theorem wait_slices_sim (env : Env) (hb : build_blind env) :
    ∀ (fuel : Nat) (tv : EventTimeout) (a b : State), Sim a b →
      SimRes (wait_slices env fuel tv a) (wait_slices env fuel tv b) := by
  intro fuel
  induction fuel with
  | zero => intro tv a b _; simp [wait_slices, SimRes]
  | succ fuel ih =>
    intro tv a b hs
    simp only [wait_slices]
    obtain ⟨e1, s1⟩ := mac_run_loop_run_once_sim env hb tv a b hs
    obtain ⟨e2, s2⟩ := mac_peek_next_event_sim env hb _ _ s1
    obtain ⟨e3, s3⟩ := detect_input_pending_sim env hb _ _ s2
    have e4 := s1.2.2.2.2.1
    rw [e1, e2, e3, e4]
    split_ifs
    · exact ih _ _ _ s3
    · exact ⟨rfl, s3⟩
    · exact ⟨rfl, s2⟩
    · exact ⟨rfl, s1⟩
    · exact ⟨rfl, s1⟩

theorem restore_sets_sim (o : SavedSets) (a b : State) (hs : Sim a b) :
    Sim (restore_sets o a) (restore_sets o b) := by
  obtain ⟨h1, h2, h3, h4, h5, h6, h7, h8, h9, h10⟩ := hs
  simp [restore_sets, Sim, h1, h2, h3, h4, h5, h6, h7, h8, h9, h10]

theorem select_and_poll_event_loop_sim (env : Env) (hb : build_blind env) (nfds : Int)
    (timeout : Option EMACS_TIME) (o : SavedSets) :
    ∀ (fuel : Nat) (l : PollLocals) (a b : State), Sim a b →
      SimRes (select_and_poll_event_loop env nfds timeout o fuel l a)
        (select_and_poll_event_loop env nfds timeout o fuel l b) := by
  intro fuel
  induction fuel with
  | zero => intro l a b _; simp [select_and_poll_event_loop, SimRes]
  | succ fuel ih =>
    intro l a b hs
    simp only [select_and_poll_event_loop]
    obtain ⟨e1, s1⟩ := detect_input_pending_sim env hb a b hs
    obtain ⟨e2, s2⟩ := select_sim env hb nfds (some ⟨0, 0⟩) _ _ s1
    rw [e1, e2]
    split_ifs with h1 h2 h3
    · exact ⟨rfl, s1⟩
    · exact ⟨rfl, s2⟩
    · simp only
      split_ifs
      · exact ih _ _ _ (restore_sets_sim o _ _ s2)
      · exact ⟨rfl, s2⟩
    · have hp := poll_slices_sim env hb fuel l.timeoutval _ _ s2
      generalize poll_slices env fuel l.timeoutval
        (select env nfds (some ⟨0, 0⟩) (detect_input_pending env a).2).2 = x at hp ⊢
      generalize poll_slices env fuel l.timeoutval
        (select env nfds (some ⟨0, 0⟩) (detect_input_pending env b).2).2 = y at hp ⊢
      cases x with
      | none =>
        cases y with
        | none => simp [SimRes]
        | some q => simp [SimRes] at hp
      | some p =>
        cases y with
        | none => simp [SimRes] at hp
        | some q =>
          obtain ⟨tv, a3⟩ := p
          obtain ⟨tv', b3⟩ := q
          simp only [SimRes] at hp
          obtain ⟨rfl, s3⟩ := hp
          simp only
          split_ifs <;>
            first
            | exact ih _ _ _ (restore_sets_sim o _ _ s3)
            | exact ⟨rfl, s3⟩

theorem select_and_poll_event_return_sim (env : Env) (hb : build_blind env)
    (l : PollLocals) (a b : State) (hs : Sim a b) :
    (select_and_poll_event_return env l a).1 = (select_and_poll_event_return env l b).1 ∧
      Sim (select_and_poll_event_return env l a).2
        (select_and_poll_event_return env l b).2 := by
  simp only [select_and_poll_event_return]
  obtain ⟨e1, s1⟩ := detect_input_pending_sim env hb a b hs
  split_ifs
  · exact ⟨rfl, hs⟩
  · refine ⟨rfl, ?_⟩
    obtain ⟨h1, h2, h3, h4, h5, h6, h7, h8, h9, h10⟩ := s1
    simp [Sim, h1, h2, h3, h4, h5, h7, h8, h9, h10]
  · exact ⟨rfl, hs⟩

theorem SimRes.of_some {α : Type} {p q : α × State} (h1 : p.1 = q.1) (h2 : Sim p.2 q.2) :
    SimRes (some p) (some q) :=
  ⟨h1, h2⟩

theorem select_and_poll_event_sim (env : Env) (hb : build_blind env) (fuel : Nat)
    (nfds : Int) (timeout : Option EMACS_TIME) (a b : State) (hs : Sim a b) :
    SimRes (select_and_poll_event env fuel nfds timeout a)
      (select_and_poll_event env fuel nfds timeout b) := by
  simp only [select_and_poll_event]
  have ho : (if timeout.isNone = true then (⟨a.rfds, a.wfds, a.efds⟩ : SavedSets)
      else ⟨none, none, none⟩)
      = (if timeout.isNone = true then (⟨b.rfds, b.wfds, b.efds⟩ : SavedSets)
        else ⟨none, none, none⟩) := by
    rw [hs.2.2.2.2.2.2.1, hs.2.2.2.2.2.2.2.1, hs.2.2.2.2.2.2.2.2.1]
  rw [ho]
  have hl := select_and_poll_event_loop_sim env hb nfds timeout
    (if timeout.isNone = true then (⟨b.rfds, b.wfds, b.efds⟩ : SavedSets)
      else ⟨none, none, none⟩) fuel ⟨false, 0, timeoutval_of timeout⟩ a b hs
  generalize select_and_poll_event_loop env nfds timeout
    (if timeout.isNone = true then (⟨b.rfds, b.wfds, b.efds⟩ : SavedSets)
      else ⟨none, none, none⟩) fuel ⟨false, 0, timeoutval_of timeout⟩ a = x at hl ⊢
  generalize select_and_poll_event_loop env nfds timeout
    (if timeout.isNone = true then (⟨b.rfds, b.wfds, b.efds⟩ : SavedSets)
      else ⟨none, none, none⟩) fuel ⟨false, 0, timeoutval_of timeout⟩ b = y at hl ⊢
  cases x with
  | none =>
    cases y with
    | none => simp [SimRes]
    | some q => simp [SimRes] at hl
  | some p =>
    cases y with
    | none => simp [SimRes] at hl
    | some q =>
      obtain ⟨l, a1⟩ := p
      obtain ⟨l', b1⟩ := q
      simp only [SimRes] at hl
      obtain ⟨rfl, s1⟩ := hl
      obtain ⟨e, s2⟩ := select_and_poll_event_return_sim env hb l a1 b1 s1
      exact SimRes.of_some e s2

theorem final_poll_sim (env : Env) (hb : build_blind env) (fuel : Nat)
    (nfds : Int) (a b : State) (hs : Sim a b) :
    SimRes (final_poll env fuel nfds a) (final_poll env fuel nfds b) := by
  simp only [final_poll]
  have hp := select_and_poll_event_sim env hb fuel nfds (some ⟨0, 0⟩) a b hs
  generalize select_and_poll_event env fuel nfds (some ⟨0, 0⟩) a = x at hp ⊢
  generalize select_and_poll_event env fuel nfds (some ⟨0, 0⟩) b = y at hp ⊢
  cases x with
  | none =>
    cases y with
    | none => simp [SimRes]
    | some q => simp [SimRes] at hp
  | some p =>
    cases y with
    | none => simp [SimRes] at hp
    | some q =>
      obtain ⟨r, a1⟩ := p
      obtain ⟨r', b1⟩ := q
      simp only [SimRes] at hp
      obtain ⟨rfl, s1⟩ := hp
      simp only
      split_ifs
      · exact ⟨rfl, s1⟩
      · refine ⟨rfl, ?_⟩
        obtain ⟨h1, h2, h3, h4, h5, h6, h7, h8, h9, h10⟩ := s1
        simp [Sim, h1, h2, h3, h4, h5, h7, h8, h9, h10]

theorem Sim.sim_symm {a b : State} (h : Sim a b) : Sim b a := by
  obtain ⟨h1, h2, h3, h4, h5, h6, h7, h8, h9, h10⟩ := h
  exact ⟨h1.symm, h2.symm, h3.symm, h4.symm, h5.symm, h6.symm, h7.symm, h8.symm, h9.symm,
    h10.symm⟩

theorem Sim.sim_trans {a b c : State} (h : Sim a b) (h' : Sim b c) : Sim a c := by
  obtain ⟨h1, h2, h3, h4, h5, h6, h7, h8, h9, h10⟩ := h
  obtain ⟨k1, k2, k3, k4, k5, k6, k7, k8, k9, k10⟩ := h'
  exact ⟨h1.trans k1, h2.trans k2, h3.trans k3, h4.trans k4, h5.trans k5, h6.trans k6,
    h7.trans k7, h8.trans k8, h9.trans k9, h10.trans k10⟩

theorem start_background_waiter_started (be : Backend) (nfds : Int)
    (orfds owfds oefds : SELECT_TYPE) (s : State)
    (hr : s.rfds = some orfds) (hw : s.wfds = s.wfds.map fun _ => owfds)
    (he : s.efds = s.efds.map fun _ => oefds) :
    Sim (start_background_waiter be nfds orfds owfds oefds s) (started nfds orfds s) := by
  have hw' : (if s.wfds.isSome then some owfds else none) = s.wfds := by
    revert hw; cases s.wfds <;> simp
    intro h; exact h.symm
  have he' : (if s.efds.isSome then some oefds else none) = s.efds := by
    revert he; cases s.efds <;> simp
    intro h; exact h.symm
  cases be with
  | gcd =>
    simp [start_background_waiter, State.log, started, background_request,
      dispatch_select_request, Sim, FD_SET, max_eq_ite, hw', he', common, common_call]
  | pthread =>
    have hw2 : (if s.wfds.isSome then some (s.wfds.getD FD_ZERO) else none) = s.wfds := by
      cases s.wfds <;> simp
    have he2 : (if s.efds.isSome then some (s.efds.getD FD_ZERO) else none) = s.efds := by
      cases s.efds <;> simp
    by_cases hl : s.select_run_loop = true <;>
      simp [start_background_waiter, State.log, started, background_request,
        select_fire, select_perform, select_perform_request, select_sem_wait,
        select_thread_launch, read_all_from_nonblocking_fd, Sim, FD_SET,
        max_eq_ite, hl, hr, hw2, he2, common, common_call]

theorem started_sim (nfds : Int) (orfds : SELECT_TYPE) (a b : State) (hs : Sim a b) :
    Sim (started nfds orfds a) (started nfds orfds b) := by
  obtain ⟨h1, h2, h3, h4, h5, h6, h7, h8, h9, h10⟩ := hs
  have h10' : List.filter common_call a.trace = List.filter common_call b.trace := h10
  simp [started, Sim, h1, h2, h3, h4, h6, h7, h8, h9, h10', common, common_call]

theorem wake_background_waiter_woken (be : Backend) (s : State) :
    Sim (wake_background_waiter be s) (woken s) := by
  cases be <;>
    simp [wake_background_waiter, write_one_byte_to_fd, State.log, woken, Sim, common,
      common_call]

theorem woken_sim (a b : State) (hs : Sim a b) : Sim (woken a) (woken b) := by
  obtain ⟨h1, h2, h3, h4, h5, h6, h7, h8, h9, h10⟩ := hs
  have h10' : List.filter common_call a.trace = List.filter common_call b.trace := h10
  simp [woken, Sim, h1, h2, h3, h4, h5, h6, h7, h8, h9, h10', common, common_call]

theorem hand_off_sim (env : Env) (hb : build_blind env) (be₁ be₂ : Backend)
    (fuel : Nat) (nfds : Int) (orfds owfds oefds : SELECT_TYPE) (tv : EventTimeout)
    (a b : State) (hs : Sim a b)
    (hr : a.rfds = some orfds) (hw : a.wfds = a.wfds.map fun _ => owfds)
    (he : a.efds = a.efds.map fun _ => oefds) :
    SimRes (hand_off env be₁ fuel nfds orfds owfds oefds tv a)
      (hand_off env be₂ fuel nfds orfds owfds oefds tv b) := by
  have hr' : b.rfds = some orfds := by rw [← hs.2.2.2.2.2.2.1]; exact hr
  have hw' : b.wfds = b.wfds.map fun _ => owfds := by
    rw [← hs.2.2.2.2.2.2.2.1]; exact hw
  have he' : b.efds = b.efds.map fun _ => oefds := by
    rw [← hs.2.2.2.2.2.2.2.2.1]; exact he
  have h0 : Sim (start_background_waiter be₁ nfds orfds owfds oefds a)
      (start_background_waiter be₂ nfds orfds owfds oefds b) :=
    ((start_background_waiter_started be₁ nfds orfds owfds oefds a hr hw he).sim_trans
      (started_sim nfds orfds a b hs)).sim_trans
      (start_background_waiter_started be₂ nfds orfds owfds oefds b hr' hw' he').sim_symm
  simp only [hand_off]
  have hp := wait_slices_sim env hb fuel tv _ _ h0
  generalize wait_slices env fuel tv (start_background_waiter be₁ nfds orfds owfds oefds a)
    = x at hp ⊢
  generalize wait_slices env fuel tv (start_background_waiter be₂ nfds orfds owfds oefds b)
    = y at hp ⊢
  cases x with
  | none =>
    cases y with
    | none => simp [SimRes]
    | some q => simp [SimRes] at hp
  | some p =>
    cases y with
    | none => simp [SimRes] at hp
    | some q =>
      obtain ⟨r, a1⟩ := p
      obtain ⟨r', b1⟩ := q
      simp only [SimRes] at hp
      obtain ⟨rfl, s1⟩ := hp
      exact ⟨rfl, ((wake_background_waiter_woken be₁ a1).sim_trans
        (woken_sim a1 b1 s1)).sim_trans (wake_background_waiter_woken be₂ b1).sim_symm⟩

theorem restore_saved_sets_sim (orfds owfds oefds : SELECT_TYPE) (a b : State)
    (hs : Sim a b) :
    Sim (restore_saved_sets orfds owfds oefds a) (restore_saved_sets orfds owfds oefds b) := by
  obtain ⟨h1, h2, h3, h4, h5, h6, h7, h8, h9, h10⟩ := hs
  simp [restore_saved_sets, Sim, h1, h2, h3, h4, h5, h6, h8, h9, h10]

theorem clear_sets_sim (a b : State) (hs : Sim a b) :
    Sim (clear_sets a) (clear_sets b) := by
  obtain ⟨h1, h2, h3, h4, h5, h6, h7, h8, h9, h10⟩ := hs
  simp [clear_sets, Sim, h1, h2, h3, h4, h5, h6, h8, h9, h10]

theorem detect_input_pending_sets (env : Env) (s : State) :
    (detect_input_pending env s).2.rfds = s.rfds ∧
    (detect_input_pending env s).2.wfds = s.wfds ∧
    (detect_input_pending env s).2.efds = s.efds := by
  simp [detect_input_pending, State.log]

theorem sys_select_sim (env : Env) (hb : build_blind env) (be₁ be₂ : Backend)
    (fuel : Nat) (nfds : Int) (timeout : Option EMACS_TIME) (a b : State)
    (hs : Sim a b) :
    SimRes (sys_select env be₁ fuel nfds timeout a)
      (sys_select env be₂ fuel nfds timeout b) := by
  have hq : window_channel_requested nfds a = window_channel_requested nfds b := by
    simp only [window_channel_requested, hs.1, hs.2.1, hs.2.2.2.2.2.2.1]
  have h7 := hs.2.2.2.2.2.2.1
  have h8 := hs.2.2.2.2.2.2.2.1
  have h9 := hs.2.2.2.2.2.2.2.2.1
  have hs1 : Sim
      { a with rfds := some (FD_CLR 0 (b.rfds.getD FD_ZERO)), wfds := b.wfds, efds := b.efds }
      { b with rfds := some (FD_CLR 0 (b.rfds.getD FD_ZERO)) } := by
    obtain ⟨h1, h2, h3, h4, h5, h6, -, -, -, h10⟩ := hs
    simp [Sim, h1, h2, h3, h4, h5, h6, h10]
  simp only [sys_select, hq, h7, h8, h9]
  obtain ⟨a1, ha1⟩ : ∃ a1 : State, a1 =
      { a with rfds := some (FD_CLR 0 (b.rfds.getD FD_ZERO)), wfds := b.wfds, efds := b.efds } :=
    ⟨_, rfl⟩
  rw [← ha1] at hs1 ⊢
  clear ha1
  generalize ({ b with rfds := some (FD_CLR 0 (b.rfds.getD FD_ZERO)) } : State) = b1 at hs1 ⊢
  generalize ((trim_nfds (FD_SET 0 (FD_CLR 0 (b.rfds.getD FD_ZERO))) b.wfds b.efds
    nfds.toNat : Nat) : Int) = n
  generalize FD_CLR 0 (b.rfds.getD FD_ZERO) = orfds
  generalize b.wfds.getD FD_ZERO = owfds
  generalize b.efds.getD FD_ZERO = oefds
  split_ifs with h1 h2
  · obtain ⟨e, s'⟩ := select_sim env hb nfds timeout a b hs
    exact SimRes.of_some e s'
  · exact select_and_poll_event_sim env hb fuel n timeout a1 b1 hs1
  · have hp := select_and_poll_event_sim env hb fuel n (some ⟨0, 0⟩) a1 b1 hs1
    generalize select_and_poll_event env fuel n (some ⟨0, 0⟩) a1 = x at hp ⊢
    generalize select_and_poll_event env fuel n (some ⟨0, 0⟩) b1 = y at hp ⊢
    cases x with
    | none =>
      cases y with
      | none => simp [SimRes]
      | some q => simp [SimRes] at hp
    | some p =>
      cases y with
      | none => simp [SimRes] at hp
      | some q =>
        obtain ⟨r, a2⟩ := p
        obtain ⟨r', b2⟩ := q
        simp only [SimRes] at hp
        obtain ⟨rfl, s2⟩ := hp
        simp only
        by_cases h3 : r ≠ 0 ∨ timeoutval_of timeout = 0
        · simp only [h3, if_true]
          exact ⟨rfl, s2⟩
        · simp only [h3, if_false]
          have s3 := restore_saved_sets_sim orfds owfds oefds a2 b2 s2
          obtain ⟨e4, s4⟩ := detect_input_pending_sim env hb _ _ s3
          obtain ⟨k1, k2, k3⟩ := detect_input_pending_sets env
            (restore_saved_sets orfds owfds oefds a2)
          have hh := hand_off_sim env hb be₁ be₂ fuel n orfds owfds oefds
            (timeoutval_of timeout) _ _ s4
            (by rw [k1]; rfl)
            (by rw [k2]; cases h : a2.wfds <;> simp [restore_saved_sets, h])
            (by rw [k3]; cases h : a2.efds <;> simp [restore_saved_sets, h])
          rw [e4]
          have hfin : ∀ (u v : Option (Bool × State)), SimRes u v →
              SimRes
                (match u with
                | none => none
                | some (timedout_p, s5) =>
                  if (!timedout_p) = true then final_poll env fuel n s5
                  else some (0, clear_sets s5))
                (match v with
                | none => none
                | some (timedout_p, s5) =>
                  if (!timedout_p) = true then final_poll env fuel n s5
                  else some (0, clear_sets s5)) := by
            intro u v huv
            cases u with
            | none =>
              cases v with
              | none => simp [SimRes]
              | some q => simp [SimRes] at huv
            | some p =>
              cases v with
              | none => simp [SimRes] at huv
              | some q =>
                obtain ⟨t, a5⟩ := p
                obtain ⟨t', b5⟩ := q
                simp only [SimRes] at huv
                obtain ⟨rfl, s5⟩ := huv
                simp only
                split_ifs
                · exact final_poll_sim env hb fuel n a5 b5 s5
                · exact ⟨rfl, clear_sets_sim a5 b5 s5⟩
          apply hfin
          split_ifs
          · exact hh
          · exact ⟨rfl, s4⟩

theorem scripted_common_blind (sel : SelectRes) (dip : Nat → Bool)
    (run : Nat → EventTimeout → EventTimeout × Bool) (peek : Nat → Bool) :
    build_blind (scripted_common sel dip run peek) := by
  intro h h' hc
  simp [scripted_common, hc]

theorem mem_common {e : Event} {h : List Event} (he : common_call e = true) :
    e ∈ h ↔ e ∈ common h := by
  simp [common, List.mem_filter, he]

theorem common_event_run_gcd :
    sys_select env_common_event Backend.gcd 3 4 (some ⟨0, 100⟩) caller_mixed
      = some event_outcome := by
  decide

theorem common_event_run_pthread :
    sys_select env_common_event Backend.pthread 3 4 (some ⟨0, 100⟩) caller_mixed
      = some pthread_event_outcome := by
  decide

/-- Claim C19.  Let the answers of `select`, `mac_run_loop_run_once` (with
the wake flag it reports), `mac_peek_next_event` and `detect_input_pending`
not depend on the build, and let two states differ only in what belongs to
one build (for instance, let them be the same state).  Then the Grand
Central Dispatch build and the Pthreads build of `sys_select` need the same
fuel, and when they return they return the same value, the same `errno`,
the same descriptor sets and the same wake flag, after the same calls of the
collaborators with the same answers, the same wake of the background waiter
and the same background `select` request. -/
theorem sys_select_backend_equivalence (env : Env) (fuel : Nat) (nfds : Int)
    (timeout : Option EMACS_TIME) (a b : State)
    (hb : build_blind env) (hs : Sim a b) :
    (sys_select env Backend.gcd fuel nfds timeout a = none ↔
      sys_select env Backend.pthread fuel nfds timeout b = none) ∧
    ∀ g p, sys_select env Backend.gcd fuel nfds timeout a = some g →
      sys_select env Backend.pthread fuel nfds timeout b = some p →
      g.1 = p.1 ∧ g.2.errno = p.2.errno ∧
      g.2.rfds = p.2.rfds ∧ g.2.wfds = p.2.wfds ∧ g.2.efds = p.2.efds ∧
      g.2.wokeup_from_run_loop_run_once_p = p.2.wokeup_from_run_loop_run_once_p ∧
      common g.2.trace = common p.2.trace ∧
      ∀ req, Event.background_select req ∈ g.2.trace ↔
        Event.background_select req ∈ p.2.trace := by
  have h := sys_select_sim env hb Backend.gcd Backend.pthread fuel nfds timeout a b hs
  generalize sys_select env Backend.gcd fuel nfds timeout a = x at h ⊢
  generalize sys_select env Backend.pthread fuel nfds timeout b = y at h ⊢
  cases x with
  | none =>
    cases y with
    | none => simp
    | some q => simp [SimRes] at h
  | some g =>
    cases y with
    | none => simp [SimRes] at h
    | some p =>
      simp only [SimRes] at h
      obtain ⟨e, -, -, -, -, h5, h6, h7, h8, h9, h10⟩ := h
      refine ⟨by simp, fun g' p' hg hp => ?_⟩
      simp only [Option.some.injEq] at hg hp
      subst hg hp
      refine ⟨e, h6, h7, h8, h9, h5, h10, fun req => ?_⟩
      rw [mem_common (h := g.2.trace) (e := Event.background_select req) rfl,
        mem_common (h := p.2.trace) (e := Event.background_select req) rfl, h10]

/-- Witness of C19: the wait on `caller_mixed` that a queued event ends, in
both builds. -/
theorem sys_select_backend_equivalence_witness :
    event_outcome.1 = pthread_event_outcome.1 ∧
    event_outcome.2.errno = pthread_event_outcome.2.errno ∧
    event_outcome.2.rfds = pthread_event_outcome.2.rfds ∧
    event_outcome.2.wfds = pthread_event_outcome.2.wfds ∧
    event_outcome.2.efds = pthread_event_outcome.2.efds ∧
    event_outcome.2.wokeup_from_run_loop_run_once_p =
      pthread_event_outcome.2.wokeup_from_run_loop_run_once_p ∧
    common event_outcome.2.trace = common pthread_event_outcome.2.trace ∧
    ∀ req, Event.background_select req ∈ event_outcome.2.trace ↔
      Event.background_select req ∈ pthread_event_outcome.2.trace :=
  (sys_select_backend_equivalence env_common_event 3 4 (some ⟨0, 100⟩) caller_mixed
    caller_mixed (scripted_common_blind _ _ _ _) (Sim.sim_refl _)).2
    event_outcome pthread_event_outcome common_event_run_gcd common_event_run_pthread

/-! ### Draining a descriptor (C13) -/

theorem Posix.SameStatics.statics_refl (w : Posix.World) : Posix.SameStatics w w := by
  simp [Posix.SameStatics]

theorem Posix.SameStatics.statics_trans {w w1 w2 : Posix.World}
    (h1 : Posix.SameStatics w w1) (h2 : Posix.SameStatics w1 w2) :
    Posix.SameStatics w w2 := by
  simp only [Posix.SameStatics] at *
  simp [h1, h2]

theorem Posix.read_spec (host : Posix.Host) (fd nbyte : Nat) (w : Posix.World)
    (hn : 0 < nbyte) :
    (Posix.read host fd nbyte w).2.calls = w.calls ++
      [Posix.Call.read fd nbyte (Posix.read host fd nbyte w).1
        (Posix.read host fd nbyte w).2.errno] ∧
    Posix.SameStatics w (Posix.read host fd nbyte w).2 ∧
    (Posix.read host fd nbyte w).2.wokeup_from_run_loop_run_once_p
      = w.wokeup_from_run_loop_run_once_p ∧
    (∀ fd', fd' ≠ fd → (Posix.read host fd nbyte w).2.queued fd' = w.queued fd') ∧
    (((Posix.read host fd nbyte w).1 = -1 ∧ (Posix.read host fd nbyte w).2.errno = EINTR ∧
        (Posix.read host fd nbyte w).2.queued fd = w.queued fd ∧
        host.read w.calls fd nbyte = Posix.ReadChoice.interrupted) ∨
      ((Posix.read host fd nbyte w).1 = 0 ∧ w.queued fd = 0 ∧
        (Posix.read host fd nbyte w).2.queued fd = 0) ∨
      ((Posix.read host fd nbyte w).1 = -1 ∧
        (Posix.read host fd nbyte w).2.errno = Posix.EAGAIN ∧ w.queued fd = 0 ∧
        (Posix.read host fd nbyte w).2.queued fd = 0) ∨
      (0 < (Posix.read host fd nbyte w).1 ∧ (Posix.read host fd nbyte w).1 ≤ nbyte ∧
        ((Posix.read host fd nbyte w).2.queued fd : Int) + (Posix.read host fd nbyte w).1
          = w.queued fd)) := by
  unfold Posix.read
  cases hc : host.read w.calls fd nbyte with
  | interrupted => simp [Posix.SameStatics]
  | transfer short eof =>
    by_cases hq : w.queued fd = 0
    · cases eof <;> simp [hq, Posix.SameStatics, Posix.World.log]
    · simp only [hq, if_false]
      refine ⟨by simp, by simp [Posix.SameStatics], by simp, ?_, ?_⟩
      · intro fd' hne
        simp [Function.update, hne]
      · right; right; right
        simp only [Function.update_same]
        have h1 : 1 ≤ min nbyte (w.queued fd) := by
          have := Nat.pos_of_ne_zero hq
          exact Nat.le_min.2 ⟨hn, this⟩
        have h2 : min nbyte (w.queued fd) ≤ nbyte := Nat.min_le_left _ _
        have h3 : min nbyte (w.queued fd) ≤ w.queued fd := Nat.min_le_right _ _
        have h4 : min short (min nbyte (w.queued fd) - 1) ≤ min nbyte (w.queued fd) - 1 :=
          Nat.min_le_right _ _
        generalize min nbyte (w.queued fd) = most at h1 h2 h3 h4
        generalize min short (most - 1) = cut at h4
        refine ⟨?_, ?_, ?_⟩ <;> omega

theorem Posix.read_all_spec (host : Posix.Host) (m fd : Nat)
    (hcalm : Posix.reads_calm host m) :
    ∀ (fuel : Nat) (w : Posix.World), (m - w.calls.length) + w.queued fd < fuel →
      ∃ r w' cs e,
        Posix.read_all_from_nonblocking_fd host fuel fd w = some (r, w') ∧
        r ≤ 0 ∧ w'.queued fd = 0 ∧
        w'.calls = w.calls ++ cs ++ [Posix.Call.read fd 64 r e] ∧
        Posix.read_done r e ∧
        (∀ c ∈ cs, ∃ r' e', c = Posix.Call.read fd 64 r' e' ∧ r' ≤ 64 ∧
          Posix.read_again r' e') ∧
        Posix.SameStatics w w' ∧
        w'.wokeup_from_run_loop_run_once_p = w.wokeup_from_run_loop_run_once_p ∧
        ∀ fd', fd' ≠ fd → w'.queued fd' = w.queued fd' := by
  intro fuel
  induction fuel with
  | zero => intro w h; omega
  | succ fuel ih =>
    intro w hfuel
    obtain ⟨hcalls, hst, hflag, hothers, hcases⟩ := Posix.read_spec host fd 64 w (by decide)
    simp only [Posix.read_all_from_nonblocking_fd]
    generalize Posix.read host fd 64 w = a at hcalls hst hflag hothers hcases
    obtain ⟨rtnval, w1⟩ := a
    simp only at hcalls hst hflag hothers hcases ⊢
    have hlen : w1.calls.length = w.calls.length + 1 := by rw [hcalls]; simp
    have again : (m - w1.calls.length) + w1.queued fd < fuel →
        Posix.read_again rtnval w1.errno → rtnval ≤ 64 →
        ∃ r w' cs e,
          Posix.read_all_from_nonblocking_fd host fuel fd w1 = some (r, w') ∧
          r ≤ 0 ∧ w'.queued fd = 0 ∧
          w'.calls = w.calls ++ cs ++ [Posix.Call.read fd 64 r e] ∧
          Posix.read_done r e ∧
          (∀ c ∈ cs, ∃ r' e', c = Posix.Call.read fd 64 r' e' ∧ r' ≤ 64 ∧
            Posix.read_again r' e') ∧
          Posix.SameStatics w w' ∧
          w'.wokeup_from_run_loop_run_once_p = w.wokeup_from_run_loop_run_once_p ∧
          ∀ fd', fd' ≠ fd → w'.queued fd' = w.queued fd' := by
      intro hm hag hle
      obtain ⟨r, w', cs, e, k1, k2, k3, k4, k5, k6, k7, k8, k9⟩ := ih w1 hm
      refine ⟨r, w', Posix.Call.read fd 64 rtnval w1.errno :: cs, e, k1, k2, k3, ?_, k5, ?_,
        hst.statics_trans k7, k8.trans hflag, fun fd' hne => (k9 fd' hne).trans (hothers fd' hne)⟩
      · rw [k4, hcalls]; simp
      · intro c hc
        rcases List.mem_cons.1 hc with rfl | hc
        · exact ⟨rtnval, w1.errno, rfl, hle, hag⟩
        · exact k6 c hc
    rcases hcases with ⟨h1, h2, h3, h4⟩ | ⟨h1, h2, h3⟩ | ⟨h1, h2, h3, h4⟩ | ⟨h1, h2, h3⟩
    · -- interrupted by a signal
      have hlt : w.calls.length < m := by
        by_contra hge
        exact hcalm w.calls fd 64 (by omega) h4
      have hcond : rtnval > 0 ∨ (rtnval < 0 ∧ w1.errno = EINTR) :=
        Or.inr ⟨by omega, h2⟩
      rw [if_pos hcond]
      exact again (by omega) hcond (by omega)
    · -- end of file
      have hcond : ¬ (rtnval > 0 ∨ (rtnval < 0 ∧ w1.errno = EINTR)) := by
        rintro (h | ⟨h, -⟩) <;> omega
      rw [if_neg hcond]
      exact ⟨rtnval, w1, [], w1.errno, rfl, by omega, h3, by rw [hcalls]; simp,
        Or.inl h1, by simp, hst, hflag, hothers⟩
    · -- nothing queued
      have hne : w1.errno ≠ EINTR := by rw [h2]; decide
      have hcond : ¬ (rtnval > 0 ∨ (rtnval < 0 ∧ w1.errno = EINTR)) := by
        rintro (h | ⟨-, h⟩)
        · omega
        · exact hne h
      rw [if_neg hcond]
      exact ⟨rtnval, w1, [], w1.errno, rfl, by omega, h4, by rw [hcalls]; simp,
        Or.inr ⟨by omega, hne⟩, by simp, hst, hflag, hothers⟩
    · -- some bytes were read
      have hcond : rtnval > 0 ∨ (rtnval < 0 ∧ w1.errno = EINTR) := Or.inl h1
      rw [if_pos hcond]
      exact again (by omega) hcond h2

/-- Claim C13.  Let `n` bytes be queued on the non-blocking descriptor `fd`
(any `n`), and let the host stop interrupting reads after some number `m` of
calls.  With enough fuel `read_all_from_nonblocking_fd (fd)` returns.  Every
`read` it makes asks for 64 bytes on `fd`; after every `read` but the last
it read again because that `read` returned some bytes (at most 64) or failed
with `EINTR`; the last `read` returned 0 or failed with another `errno`, and
its result, which is never positive, is the result of the function.  No byte
is left queued on `fd`, and nothing else changes: the statics, the wake flag
and the bytes queued on other descriptors. -/
theorem read_all_from_nonblocking_fd_drains (host : Posix.Host) (m fuel fd : Nat)
    (w : Posix.World) (hcalm : Posix.reads_calm host m)
    (hfuel : (m - w.calls.length) + w.queued fd < fuel) :
    ∃ r w' cs e,
      Posix.read_all_from_nonblocking_fd host fuel fd w = some (r, w') ∧
      r ≤ 0 ∧ w'.queued fd = 0 ∧
      w'.calls = w.calls ++ cs ++ [Posix.Call.read fd 64 r e] ∧
      Posix.read_done r e ∧
      (∀ c ∈ cs, ∃ r' e', c = Posix.Call.read fd 64 r' e' ∧ r' ≤ 64 ∧
        Posix.read_again r' e') ∧
      Posix.SameStatics w w' ∧
      w'.wokeup_from_run_loop_run_once_p = w.wokeup_from_run_loop_run_once_p ∧
      ∀ fd', fd' ≠ fd → w'.queued fd' = w.queued fd' :=
  Posix.read_all_spec host m fd hcalm fuel w hfuel

theorem Posix.host_busy_calm : Posix.reads_calm Posix.host_busy 2 := by
  intro h fd n hl
  have : h.length ≠ 1 := by omega
  simp [Posix.host_busy, this]

/-- Witness of C13: 130 bytes are queued on descriptor 10, the second `read`
is interrupted and the third is short. -/
theorem read_all_from_nonblocking_fd_drains_witness :
    (∃ r w' cs e,
      Posix.read_all_from_nonblocking_fd Posix.host_busy 133 10 (Posix.world_queued 130)
        = some (r, w') ∧
      r ≤ 0 ∧ w'.queued 10 = 0 ∧
      w'.calls = (Posix.world_queued 130).calls ++ cs ++ [Posix.Call.read 10 64 r e] ∧
      Posix.read_done r e ∧
      (∀ c ∈ cs, ∃ r' e', c = Posix.Call.read 10 64 r' e' ∧ r' ≤ 64 ∧
        Posix.read_again r' e') ∧
      Posix.SameStatics (Posix.world_queued 130) w' ∧
      w'.wokeup_from_run_loop_run_once_p =
        (Posix.world_queued 130).wokeup_from_run_loop_run_once_p ∧
      ∀ fd', fd' ≠ 10 → w'.queued fd' = (Posix.world_queued 130).queued fd') ∧
    (Posix.read_all_from_nonblocking_fd Posix.host_busy 133 10
        (Posix.world_queued 130)).map (fun x => (x.1, x.2.calls, x.2.queued 10))
      = some (-1, Posix.drain_calls, 0) :=
  ⟨read_all_from_nonblocking_fd_drains Posix.host_busy 2 133 10 (Posix.world_queued 130)
    Posix.host_busy_calm (by decide), by decide⟩

/-! ### The wake from a signal handler (C15) -/

theorem Posix.write_spec (host : Posix.Host) (fd : Nat) (w : Posix.World) :
    (Posix.write host fd 1 w).2.calls = w.calls ++
      [Posix.Call.write fd 1 (Posix.write host fd 1 w).1 (Posix.write host fd 1 w).2.errno] ∧
    Posix.SameStatics w (Posix.write host fd 1 w).2 ∧
    (Posix.write host fd 1 w).2.wokeup_from_run_loop_run_once_p
      = w.wokeup_from_run_loop_run_once_p ∧
    ((∃ e, host.write w.calls fd 1 = Posix.WriteChoice.fail e ∧
        (Posix.write host fd 1 w).1 = -1 ∧ (Posix.write host fd 1 w).2.errno = e ∧
        (Posix.write host fd 1 w).2.queued = w.queued) ∨
      (host.write w.calls fd 1 = Posix.WriteChoice.nothing ∧
        (Posix.write host fd 1 w).1 = 0 ∧ (Posix.write host fd 1 w).2.queued = w.queued) ∨
      (host.write w.calls fd 1 = Posix.WriteChoice.accept ∧
        (Posix.write host fd 1 w).1 = 1 ∧
        (Posix.write host fd 1 w).2.queued =
          Function.update w.queued (w.peer fd) (w.queued (w.peer fd) + 1))) := by
  unfold Posix.write
  cases hc : host.write w.calls fd 1 <;> simp [Posix.SameStatics, Posix.World.log]

theorem Posix.write_one_byte_nonzero (host : Posix.Host) (fd : Nat) :
    ∀ (fuel : Nat) (w : Posix.World) (r : Int) (w' : Posix.World),
      Posix.write_one_byte_to_fd host fuel fd w = some (r, w') → r ≠ 0 := by
  intro fuel
  induction fuel with
  | zero => intro w r w' h; simp [Posix.write_one_byte_to_fd] at h
  | succ fuel ih =>
    intro w r w' h
    simp only [Posix.write_one_byte_to_fd] at h
    split_ifs at h with hc
    · exact ih _ _ _ h
    · simp only [Option.some.injEq, Prod.mk.injEq] at h
      obtain ⟨rfl, -⟩ := h
      exact fun h0 => hc (Or.inl h0)

theorem Posix.write_one_byte_spec (host : Posix.Host) (m fd : Nat)
    (hset : Posix.writes_settle host m) :
    ∀ (fuel : Nat) (w : Posix.World), m - w.calls.length < fuel →
      ∃ r w' cs e,
        Posix.write_one_byte_to_fd host fuel fd w = some (r, w') ∧
        w'.calls = w.calls ++ cs ++ [Posix.Call.write fd 1 r e] ∧
        Posix.write_done r e ∧
        (∀ c ∈ cs, ∃ r' e', c = Posix.Call.write fd 1 r' e' ∧ Posix.write_again r' e') ∧
        Posix.SameStatics w w' ∧
        w'.wokeup_from_run_loop_run_once_p = w.wokeup_from_run_loop_run_once_p ∧
        (w'.queued = w.queued ∨
          w'.queued = Function.update w.queued (w.peer fd) (w.queued (w.peer fd) + 1)) := by
  intro fuel
  induction fuel with
  | zero => intro w h; omega
  | succ fuel ih =>
    intro w hfuel
    obtain ⟨hcalls, hst, hflag, hcases⟩ := Posix.write_spec host fd w
    simp only [Posix.write_one_byte_to_fd]
    generalize Posix.write host fd 1 w = a at hcalls hst hflag hcases
    obtain ⟨rtnval, w1⟩ := a
    simp only at hcalls hst hflag hcases ⊢
    have hlen : w1.calls.length = w.calls.length + 1 := by rw [hcalls]; simp
    have again : w.calls.length < m → w1.queued = w.queued →
        Posix.write_again rtnval w1.errno →
        ∃ r w' cs e,
          Posix.write_one_byte_to_fd host fuel fd w1 = some (r, w') ∧
          w'.calls = w.calls ++ cs ++ [Posix.Call.write fd 1 r e] ∧
          Posix.write_done r e ∧
          (∀ c ∈ cs, ∃ r' e', c = Posix.Call.write fd 1 r' e' ∧ Posix.write_again r' e') ∧
          Posix.SameStatics w w' ∧
          w'.wokeup_from_run_loop_run_once_p = w.wokeup_from_run_loop_run_once_p ∧
          (w'.queued = w.queued ∨
            w'.queued = Function.update w.queued (w.peer fd) (w.queued (w.peer fd) + 1)) := by
      intro hlt hq hag
      obtain ⟨r, w', cs, e, k1, k2, k3, k4, k5, k6, k7⟩ := ih w1 (by omega)
      refine ⟨r, w', Posix.Call.write fd 1 rtnval w1.errno :: cs, e, k1, ?_, k3, ?_,
        hst.statics_trans k5, k6.trans hflag, ?_⟩
      · rw [k2, hcalls]; simp
      · intro c hc
        rcases List.mem_cons.1 hc with rfl | hc
        · exact ⟨rtnval, w1.errno, rfl, hag⟩
        · exact k4 c hc
      · rw [hq, hst.2.2.2.2.2] at k7
        exact k7
    have settled := hset w.calls fd 1
    rcases hcases with ⟨e, h1, h2, h3, h4⟩ | ⟨h1, h2, h3⟩ | ⟨h1, h2, h3⟩
    · by_cases he : e = EINTR
      · have hlt : w.calls.length < m := by
          by_contra hge
          rcases settled (by omega) with h | ⟨e', he', h⟩
          · rw [h1] at h; cases h
          · rw [h1] at h
            simp only [Posix.WriteChoice.fail.injEq] at h
            exact he' (h ▸ he)
        have hcond : rtnval = 0 ∨ (rtnval < 0 ∧ w1.errno = EINTR) :=
          Or.inr ⟨by omega, h3.trans he⟩
        rw [if_pos hcond]
        exact again hlt h4 hcond
      · have hne : w1.errno ≠ EINTR := by rw [h3]; exact he
        have hcond : ¬ (rtnval = 0 ∨ (rtnval < 0 ∧ w1.errno = EINTR)) := by
          rintro (h | ⟨-, h⟩)
          · omega
          · exact hne h
        rw [if_neg hcond]
        exact ⟨rtnval, w1, [], w1.errno, rfl, by rw [hcalls]; simp,
          Or.inr ⟨by omega, hne⟩, by simp, hst, hflag, Or.inl h4⟩
    · have hlt : w.calls.length < m := by
        by_contra hge
        rcases settled (by omega) with h | ⟨e', -, h⟩
        · rw [h1] at h; cases h
        · rw [h1] at h; cases h
      have hcond : rtnval = 0 ∨ (rtnval < 0 ∧ w1.errno = EINTR) := Or.inl h2
      rw [if_pos hcond]
      exact again hlt h3 hcond
    · have hcond : ¬ (rtnval = 0 ∨ (rtnval < 0 ∧ w1.errno = EINTR)) := by
        rintro (h | ⟨h, -⟩) <;> omega
      rw [if_neg hcond]
      exact ⟨rtnval, w1, [], w1.errno, rfl, by rw [hcalls]; simp,
        Or.inl (by omega), by simp, hst, hflag, Or.inr h3⟩

theorem Posix.host_busy_settles : Posix.writes_settle Posix.host_busy 2 := by
  intro h fd n hl
  have h0 : h ≠ [] := by rintro rfl; simp at hl
  have h1 : h.length ≠ 1 := by omega
  simp [Posix.host_busy, h0, h1]

/-- Claim C15.  Let the host, after some number `m` of calls, accept every
`write` or fail it with an `errno` other than `EINTR`.  With enough fuel
`mac_wakeup_from_run_loop_run_once ()` returns, and all it does is a
sequence of `write` calls of one byte on `wakeup_fds[1]`: after every `write`
but the last it wrote again because that `write` returned 0 or failed with
`EINTR`, and the last `write` returned a positive count or failed with
another `errno`.  It leaves the statics as they were (`wakeup_fds`,
`select_sem.value`, `select_run_loop`, `select_args`) and the wake flag
`wokeup_from_run_loop_run_once_p` too; of the sockets it changes at most the
bytes queued at the other end of `wakeup_fds[1]`, by one.  And whenever
`write_one_byte_to_fd` returns, on any host, its result is not 0. -/
theorem mac_wakeup_from_run_loop_run_once_bare (host : Posix.Host) (m fuel : Nat)
    (w : Posix.World) (hset : Posix.writes_settle host m)
    (hfuel : m - w.calls.length < fuel) :
    (∃ w' r cs e,
      Posix.mac_wakeup_from_run_loop_run_once host fuel w = some w' ∧
      w'.calls = w.calls ++ cs ++ [Posix.Call.write w.wakeup_fds1 1 r e] ∧
      Posix.write_done r e ∧
      (∀ c ∈ cs, ∃ r' e', c = Posix.Call.write w.wakeup_fds1 1 r' e' ∧
        Posix.write_again r' e') ∧
      Posix.SameStatics w w' ∧
      w'.wokeup_from_run_loop_run_once_p = w.wokeup_from_run_loop_run_once_p ∧
      (w'.queued = w.queued ∨
        w'.queued = Function.update w.queued (w.peer w.wakeup_fds1)
          (w.queued (w.peer w.wakeup_fds1) + 1))) ∧
    ∀ (host' : Posix.Host) (fuel' fd : Nat) (w₀ : Posix.World) (r : Int)
      (w₁ : Posix.World),
      Posix.write_one_byte_to_fd host' fuel' fd w₀ = some (r, w₁) → r ≠ 0 := by
  refine ⟨?_, fun host' fuel' fd w₀ r w₁ h =>
    Posix.write_one_byte_nonzero host' fd fuel' w₀ r w₁ h⟩
  obtain ⟨r, w', cs, e, k1, k2, k3, k4, k5, k6, k7⟩ :=
    Posix.write_one_byte_spec host m w.wakeup_fds1 hset fuel w hfuel
  exact ⟨w', r, cs, e, by simp [Posix.mac_wakeup_from_run_loop_run_once, k1],
    k2, k3, k4, k5, k6, k7⟩

/-- Witness of C15: the first `write` is interrupted and the second answers
0. -/
theorem mac_wakeup_from_run_loop_run_once_bare_witness :
    ((∃ w' r cs e,
      Posix.mac_wakeup_from_run_loop_run_once Posix.host_busy 3 (Posix.world_queued 0)
        = some w' ∧
      w'.calls = (Posix.world_queued 0).calls ++ cs ++
        [Posix.Call.write (Posix.world_queued 0).wakeup_fds1 1 r e] ∧
      Posix.write_done r e ∧
      (∀ c ∈ cs, ∃ r' e', c = Posix.Call.write (Posix.world_queued 0).wakeup_fds1 1 r' e' ∧
        Posix.write_again r' e') ∧
      Posix.SameStatics (Posix.world_queued 0) w' ∧
      w'.wokeup_from_run_loop_run_once_p =
        (Posix.world_queued 0).wokeup_from_run_loop_run_once_p ∧
      (w'.queued = (Posix.world_queued 0).queued ∨
        w'.queued = Function.update (Posix.world_queued 0).queued
          ((Posix.world_queued 0).peer (Posix.world_queued 0).wakeup_fds1)
          ((Posix.world_queued 0).queued
            ((Posix.world_queued 0).peer (Posix.world_queued 0).wakeup_fds1) + 1))) ∧
    ∀ (host' : Posix.Host) (fuel' fd : Nat) (w₀ : Posix.World) (r : Int)
      (w₁ : Posix.World),
      Posix.write_one_byte_to_fd host' fuel' fd w₀ = some (r, w₁) → r ≠ 0) ∧
    (Posix.mac_wakeup_from_run_loop_run_once Posix.host_busy 3
        (Posix.world_queued 0)).map (fun x => (x.calls, x.queued 10, x.queued 11))
      = some (Posix.wakeup_calls, 1, 0) :=
  ⟨mac_wakeup_from_run_loop_run_once_bare Posix.host_busy 2 3 (Posix.world_queued 0)
    Posix.host_busy_settles (by decide), by decide⟩

/-! ### Wakes before a wait (C14) -/

theorem Posix.wakeups_spec (host : Posix.Host) (m fuel : Nat)
    (hset : Posix.writes_settle host m) (hfuel : m < fuel) :
    ∀ (k : Nat) (w : Posix.World),
      ∃ wk, Posix.wakeups host fuel k w = some wk ∧
        Posix.SameStatics w wk ∧
        wk.wokeup_from_run_loop_run_once_p = w.wokeup_from_run_loop_run_once_p ∧
        (∀ fd, fd ≠ w.peer w.wakeup_fds1 → wk.queued fd = w.queued fd) ∧
        wk.queued (w.peer w.wakeup_fds1) ≤ w.queued (w.peer w.wakeup_fds1) + k := by
  intro k
  induction k with
  | zero =>
    intro w
    exact ⟨w, rfl, Posix.SameStatics.statics_refl w, rfl, fun _ _ => rfl, by omega⟩
  | succ k ih =>
    intro w
    obtain ⟨r, w1, cs, e, k1, -, -, -, k5, k6, k7⟩ :=
      Posix.write_one_byte_spec host m w.wakeup_fds1 hset fuel w (by omega)
    obtain ⟨wk, j1, j2, j3, j4, j5⟩ := ih w1
    have hfd : w1.wakeup_fds1 = w.wakeup_fds1 := k5.2.1
    have hpeer : w1.peer = w.peer := k5.2.2.2.2.2
    rw [hfd, hpeer] at j4 j5
    refine ⟨wk, by simp [Posix.wakeups, Posix.mac_wakeup_from_run_loop_run_once, k1, j1],
      k5.statics_trans j2, j3.trans k6, ?_, ?_⟩
    · intro fd hne
      rw [j4 fd hne]
      rcases k7 with h | h
      · rw [h]
      · rw [h]; simp [Function.update, hne]
    · rcases k7 with h | h
      · rw [h] at j5; omega
      · rw [h] at j5; simp only [Function.update_same] at j5; omega

theorem Posix.wakeup_callback_spec (host : Posix.Host) (m fuel : Nat) (w : Posix.World)
    (hcalm : Posix.reads_calm host m)
    (hfuel : (m - w.calls.length) + w.queued w.wakeup_fds0 < fuel) :
    ∃ w', Posix.wakeup_callback host fuel w = some w' ∧
      Posix.SameStatics w w' ∧ w'.wokeup_from_run_loop_run_once_p = 1 ∧
      w'.queued = Function.update w.queued w.wakeup_fds0 0 := by
  obtain ⟨r, w1, cs, e, k1, -, k3, -, -, -, k7, -, k9⟩ :=
    Posix.read_all_spec host m w.wakeup_fds0 hcalm fuel w hfuel
  refine ⟨{ w1 with wokeup_from_run_loop_run_once_p := 1 },
    by simp [Posix.wakeup_callback, k1], ?_, rfl, ?_⟩
  · simpa [Posix.SameStatics] using k7
  · funext fd
    by_cases h : fd = w.wakeup_fds0
    · subst h; simp [k3]
    · simp [Function.update, h, k9 fd h]

theorem Posix.update_zero_congr {q q' : Nat → Nat} {fd : Nat}
    (h : ∀ fd', fd' ≠ fd → q' fd' = q fd') :
    Function.update q' fd 0 = Function.update q fd 0 := by
  funext x
  by_cases hx : x = fd
  · subst hx; simp
  · simp [Function.update, hx, h x hx]

/-- Claim C14.  Let `wakeup_fds[1]` be the other end of `wakeup_fds[0]`, and
let the host stop interrupting reads and retrying writes after some number
of calls.  For every `k ≥ 1`, with enough fuel, `k` calls of
`mac_wakeup_from_run_loop_run_once` followed by one run of the wake handler,
and one such call followed by one run of the wake handler, all return and
leave the same state: `wokeup_from_run_loop_run_once_p` is 1, no byte is
queued on `wakeup_fds[0]`, and the other statics and sockets are as they were
before the calls.  No wake is pending then: the wake handler is not called
again until `mac_wakeup_from_run_loop_run_once` is. -/
theorem wakeups_coalesce (host : Posix.Host) (m fuel k : Nat) (w : Posix.World)
    (hcalm : Posix.reads_calm host m) (hset : Posix.writes_settle host m)
    (hpair : w.peer w.wakeup_fds1 = w.wakeup_fds0) (hk : 1 ≤ k)
    (hfuel : m + w.queued w.wakeup_fds0 + k < fuel) :
    ∃ wk w' w₁ w₁',
      Posix.wakeups host fuel k w = some wk ∧
      Posix.wakeup_callback host fuel wk = some w' ∧
      Posix.wakeups host fuel 1 w = some w₁ ∧
      Posix.wakeup_callback host fuel w₁ = some w₁' ∧
      w'.wokeup_from_run_loop_run_once_p = 1 ∧ w'.queued w'.wakeup_fds0 = 0 ∧
      Posix.SameState w' w₁' ∧ Posix.SameStatics w w' ∧
      w'.queued = Function.update w.queued w.wakeup_fds0 0 ∧
      ¬ Posix.wake_pending w' := by
  have key : ∀ j, j ≤ k → ∃ wj w',
      Posix.wakeups host fuel j w = some wj ∧
      Posix.wakeup_callback host fuel wj = some w' ∧
      Posix.SameStatics w w' ∧ w'.wokeup_from_run_loop_run_once_p = 1 ∧
      w'.queued = Function.update w.queued w.wakeup_fds0 0 := by
    intro j hj
    obtain ⟨wj, j1, j2, -, j4, j5⟩ := Posix.wakeups_spec host m fuel hset (by omega) j w
    rw [hpair] at j4 j5
    have hfd : wj.wakeup_fds0 = w.wakeup_fds0 := j2.1
    obtain ⟨w', c1, c2, c3, c4⟩ := Posix.wakeup_callback_spec host m fuel wj hcalm
      (by rw [hfd]; omega)
    refine ⟨wj, w', j1, c1, j2.statics_trans c2, c3, ?_⟩
    rw [c4, hfd]
    exact Posix.update_zero_congr j4
  obtain ⟨wk, w', a1, a2, a3, a4, a5⟩ := key k (le_refl k)
  obtain ⟨w₁, w₁', b1, b2, b3, b4, b5⟩ := key 1 hk
  have hq : w'.queued w'.wakeup_fds0 = 0 := by rw [a5, a3.1]; simp
  refine ⟨wk, w', w₁, w₁', a1, a2, b1, b2, a4, hq, ?_, a3, a5, ?_⟩
  · obtain ⟨x1, x2, x3, x4, x5, x6⟩ := a3
    obtain ⟨y1, y2, y3, y4, y5, y6⟩ := b3
    exact ⟨x1.trans y1.symm, x2.trans y2.symm, a4.trans b4.symm, x3.trans y3.symm,
      x4.trans y4.symm, x5.trans y5.symm, a5.trans b5.symm, x6.trans y6.symm⟩
  · simp [Posix.wake_pending, hq]

/-- Witness of C14: three calls on an empty wake channel, the first `write`
interrupted and the second answering 0.  Three bytes are queued before the
wake handler runs and none after it. -/
theorem wakeups_coalesce_witness :
    (∃ wk w' w₁ w₁',
      Posix.wakeups Posix.host_busy 6 3 (Posix.world_queued 0) = some wk ∧
      Posix.wakeup_callback Posix.host_busy 6 wk = some w' ∧
      Posix.wakeups Posix.host_busy 6 1 (Posix.world_queued 0) = some w₁ ∧
      Posix.wakeup_callback Posix.host_busy 6 w₁ = some w₁' ∧
      w'.wokeup_from_run_loop_run_once_p = 1 ∧ w'.queued w'.wakeup_fds0 = 0 ∧
      Posix.SameState w' w₁' ∧ Posix.SameStatics (Posix.world_queued 0) w' ∧
      w'.queued = Function.update (Posix.world_queued 0).queued
        (Posix.world_queued 0).wakeup_fds0 0 ∧
      ¬ Posix.wake_pending w') ∧
    (Posix.wakeups Posix.host_busy 6 3 (Posix.world_queued 0)).map
        (fun x => (x.queued 10, x.wokeup_from_run_loop_run_once_p)) = some (3, 0) ∧
    ((Posix.wakeups Posix.host_busy 6 3 (Posix.world_queued 0)).bind
        (Posix.wakeup_callback Posix.host_busy 6)).map
        (fun x => (x.queued 10, x.wokeup_from_run_loop_run_once_p)) = some (0, 1) :=
  ⟨wakeups_coalesce Posix.host_busy 2 6 3 (Posix.world_queued 0) Posix.host_busy_calm
    Posix.host_busy_settles (by decide) (by decide) (by decide), by decide, by decide⟩

/-! ### The status of `init_wakeup_fds` (C16) -/

theorem Posix.set_nonblocking_spec (host : Posix.Host) (fd : Nat) (w : Posix.World) :
    ∃ flags,
      (Posix.set_nonblocking host fd w).2.calls = w.calls ++
        [Posix.Call.fcntl_getfl fd flags,
          Posix.Call.fcntl_setfl fd (Int.lor flags Posix.O_NONBLOCK)
            (Posix.set_nonblocking host fd w).1] ∧
      (Posix.set_nonblocking host fd w).2.wakeup_fds0 = w.wakeup_fds0 ∧
      (Posix.set_nonblocking host fd w).2.wakeup_fds1 = w.wakeup_fds1 := by
  refine ⟨host.fcntl_getfl w.calls fd, ?_, rfl, rfl⟩
  simp [Posix.set_nonblocking, Posix.World.log]

theorem Posix.create_wake_source_spec (host : Posix.Host) (be : Backend)
    (w : Posix.World) :
    ∃ cs, (Posix.create_wake_source host be w).2.calls = w.calls ++ cs ∧
      ((Posix.create_wake_source host be w).2.wakeup_fds0 = w.wakeup_fds0 ∧
        (Posix.create_wake_source host be w).2.wakeup_fds1 = w.wakeup_fds1) ∧
      ((Posix.create_wake_source host be w).1 ≠ 0 ↔ ∃ c ∈ cs, Posix.failed_step c) ∧
      ((Posix.create_wake_source host be w).1 = 0 →
        cs = Posix.wake_source_calls be w.wakeup_fds0) ∧
      (∀ r, Posix.Call.pthread_create r ∉ cs) := by
  cases be with
  | gcd =>
    simp only [Posix.create_wake_source]
    cases h1 : host.dispatch_source_create w.calls with
    | false =>
      exact ⟨[Posix.Call.dispatch_source_create w.wakeup_fds0 false],
        by simp [Posix.World.log], ⟨rfl, rfl⟩, by simp [Posix.failed_step], by simp, by simp⟩
    | true =>
      cases h2 : host.dispatch_queue_create
          ((w.log (Posix.Call.dispatch_source_create w.wakeup_fds0 true)).log
            Posix.Call.dispatch_source_set_event_handler |>.log Posix.Call.dispatch_resume).calls with
      | false =>
        exact ⟨[Posix.Call.dispatch_source_create w.wakeup_fds0 true,
          Posix.Call.dispatch_source_set_event_handler, Posix.Call.dispatch_resume,
          Posix.Call.dispatch_queue_create false],
          by simp [Posix.World.log, h2], ⟨rfl, rfl⟩, by simp [Posix.failed_step, h2],
          by simp [h2], by simp⟩
      | true =>
        exact ⟨[Posix.Call.dispatch_source_create w.wakeup_fds0 true,
          Posix.Call.dispatch_source_set_event_handler, Posix.Call.dispatch_resume,
          Posix.Call.dispatch_queue_create true],
          by simp [Posix.World.log, h2], ⟨rfl, rfl⟩, by simp [Posix.failed_step, h2],
          by simp [h2, Posix.wake_source_calls], by simp⟩
  | pthread =>
    simp only [Posix.create_wake_source]
    cases h1 : host.CFSocketCreateWithNative w.calls with
    | false =>
      exact ⟨[Posix.Call.CFSocketCreateWithNative w.wakeup_fds0 false],
        by simp [Posix.World.log], ⟨rfl, rfl⟩, by simp [Posix.failed_step], by simp, by simp⟩
    | true =>
      cases h2 : host.CFSocketCreateRunLoopSource
          (w.log (Posix.Call.CFSocketCreateWithNative w.wakeup_fds0 true)).calls with
      | false =>
        exact ⟨[Posix.Call.CFSocketCreateWithNative w.wakeup_fds0 true,
          Posix.Call.CFSocketCreateRunLoopSource false],
          by simp [Posix.World.log, h2], ⟨rfl, rfl⟩, by simp [Posix.failed_step, h2],
          by simp [h2], by simp⟩
      | true =>
        exact ⟨[Posix.Call.CFSocketCreateWithNative w.wakeup_fds0 true,
          Posix.Call.CFSocketCreateRunLoopSource true, Posix.Call.CFRunLoopAddSource],
          by simp [Posix.World.log, h2], ⟨rfl, rfl⟩, by simp [Posix.failed_step, h2],
          by simp [h2, Posix.wake_source_calls], by simp⟩

theorem Posix.init_wakeup_fds_spec (host : Posix.Host) (be : Backend) (w : Posix.World) :
    ∃ cs, (Posix.init_wakeup_fds host be w).2.calls = w.calls ++ cs ∧
      ((Posix.init_wakeup_fds host be w).1 ≠ 0 ↔ ∃ c ∈ cs, Posix.failed_step c) ∧
      ((Posix.init_wakeup_fds host be w).1 = 0 →
        ∃ r f₀ g₀ f₁ g₁, 0 ≤ r ∧ 0 ≤ g₀ ∧ 0 ≤ g₁ ∧
          cs = [Posix.Call.socketpair r,
            Posix.Call.fcntl_getfl (Posix.init_wakeup_fds host be w).2.wakeup_fds0 f₀,
            Posix.Call.fcntl_setfl (Posix.init_wakeup_fds host be w).2.wakeup_fds0
              (Int.lor f₀ Posix.O_NONBLOCK) g₀,
            Posix.Call.fcntl_getfl (Posix.init_wakeup_fds host be w).2.wakeup_fds1 f₁,
            Posix.Call.fcntl_setfl (Posix.init_wakeup_fds host be w).2.wakeup_fds1
              (Int.lor f₁ Posix.O_NONBLOCK) g₁]
            ++ Posix.wake_source_calls be (Posix.init_wakeup_fds host be w).2.wakeup_fds0) ∧
      (∀ r, Posix.Call.pthread_create r ∉ cs) := by
  unfold Posix.init_wakeup_fds
  generalize host.socketpair w.calls = sp
  obtain ⟨r, fd0, fd1⟩ := sp
  simp only
  by_cases hr : r < 0
  · simp only [hr, if_true]
    exact ⟨[Posix.Call.socketpair r], by simp [Posix.World.log],
      by simp [Posix.failed_step, hr]; omega, fun h => by omega, by simp⟩
  · simp only [hr, if_false]
    obtain ⟨w2, hw2, hc2, hf2, hg2⟩ : ∃ w2 : Posix.World,
        w2 = { w.log (Posix.Call.socketpair r) with
          wakeup_fds0 := fd0, wakeup_fds1 := fd1
          queued := Function.update (Function.update
            (w.log (Posix.Call.socketpair r)).queued fd0 0) fd1 0
          peer := Function.update (Function.update
            (w.log (Posix.Call.socketpair r)).peer fd0 fd1) fd1 fd0 } ∧
        w2.calls = w.calls ++ [Posix.Call.socketpair r] ∧
        w2.wakeup_fds0 = fd0 ∧ w2.wakeup_fds1 = fd1 :=
      ⟨_, rfl, by simp [Posix.World.log], rfl, rfl⟩
    rw [← hw2]
    clear hw2
    obtain ⟨f₀, a1, a2, a3⟩ := Posix.set_nonblocking_spec host fd0 w2
    generalize Posix.set_nonblocking host fd0 w2 = x at a1 a2 a3 ⊢
    obtain ⟨g₀, w3⟩ := x
    simp only at a1 a2 a3 ⊢
    by_cases h0 : g₀ < 0
    · simp only [h0, if_true]
      refine ⟨[Posix.Call.socketpair r, Posix.Call.fcntl_getfl fd0 f₀,
        Posix.Call.fcntl_setfl fd0 (Int.lor f₀ Posix.O_NONBLOCK) g₀],
        by rw [a1, hc2]; simp, ?_, fun h => by omega, by simp⟩
      simp [Posix.failed_step, h0, hr]
      omega
    · simp only [h0, if_false]
      obtain ⟨f₁, b1, b2, b3⟩ := Posix.set_nonblocking_spec host w3.wakeup_fds1 w3
      generalize Posix.set_nonblocking host w3.wakeup_fds1 w3 = y at b1 b2 b3 ⊢
      obtain ⟨g₁, w4⟩ := y
      simp only at b1 b2 b3 ⊢
      by_cases h1 : g₁ < 0
      · simp only [h1, if_true]
        refine ⟨[Posix.Call.socketpair r, Posix.Call.fcntl_getfl fd0 f₀,
          Posix.Call.fcntl_setfl fd0 (Int.lor f₀ Posix.O_NONBLOCK) g₀,
          Posix.Call.fcntl_getfl w3.wakeup_fds1 f₁,
          Posix.Call.fcntl_setfl w3.wakeup_fds1 (Int.lor f₁ Posix.O_NONBLOCK) g₁],
          by rw [b1, a1, hc2]; simp, ?_, fun h => by omega, by simp⟩
        simp [Posix.failed_step, h0, h1, hr]
        omega
      · simp only [h1, if_false]
        obtain ⟨cs, c1, ⟨c2, c2'⟩, c3, c4, c5⟩ := Posix.create_wake_source_spec host be w4
        refine ⟨[Posix.Call.socketpair r, Posix.Call.fcntl_getfl fd0 f₀,
          Posix.Call.fcntl_setfl fd0 (Int.lor f₀ Posix.O_NONBLOCK) g₀,
          Posix.Call.fcntl_getfl w3.wakeup_fds1 f₁,
          Posix.Call.fcntl_setfl w3.wakeup_fds1 (Int.lor f₁ Posix.O_NONBLOCK) g₁] ++ cs,
          by rw [c1, b1, a1, hc2]; simp, ?_, ?_, ?_⟩
        · rw [c3]
          simp [Posix.failed_step, h0, h1, hr]
        · intro hz
          refine ⟨r, f₀, g₀, f₁, g₁, by omega, by omega, by omega, ?_⟩
          rw [c4 hz, c2, c2', b2, b3, a2, a3, hf2]
        · intro r' hm
          rcases List.mem_append.1 hm with h | h
          · simp at h
          · exact c5 r' h

/-- Claim C16.  `init_wakeup_fds` returns a non-zero status exactly when one
of its steps fails: `socketpair` or `fcntl (F_SETFL)` on either descriptor
answers a negative result, or the creation of the wake source (dispatch
source; `CFSocket` or its run-loop source) or of the dispatch queue answers
`NULL`.  When it returns 0 it has made every step and none has failed: the
socket pair, `O_NONBLOCK` on both ends, and the wake source of the build. -/
theorem init_wakeup_fds_status (host : Posix.Host) (be : Backend) (w : Posix.World) :
    ∃ cs, (Posix.init_wakeup_fds host be w).2.calls = w.calls ++ cs ∧
      ((Posix.init_wakeup_fds host be w).1 ≠ 0 ↔ ∃ c ∈ cs, Posix.failed_step c) ∧
      ((Posix.init_wakeup_fds host be w).1 = 0 →
        ∃ r f₀ g₀ f₁ g₁, 0 ≤ r ∧ 0 ≤ g₀ ∧ 0 ≤ g₁ ∧
          cs = [Posix.Call.socketpair r,
            Posix.Call.fcntl_getfl (Posix.init_wakeup_fds host be w).2.wakeup_fds0 f₀,
            Posix.Call.fcntl_setfl (Posix.init_wakeup_fds host be w).2.wakeup_fds0
              (Int.lor f₀ Posix.O_NONBLOCK) g₀,
            Posix.Call.fcntl_getfl (Posix.init_wakeup_fds host be w).2.wakeup_fds1 f₁,
            Posix.Call.fcntl_setfl (Posix.init_wakeup_fds host be w).2.wakeup_fds1
              (Int.lor f₁ Posix.O_NONBLOCK) g₁]
            ++ Posix.wake_source_calls be (Posix.init_wakeup_fds host be w).2.wakeup_fds0) := by
  obtain ⟨cs, h1, h2, h3, -⟩ := Posix.init_wakeup_fds_spec host be w
  exact ⟨cs, h1, h2, h3⟩

/-! ### The launch of the secondary thread (C17) -/

theorem Posix.init_wakeup_fds_pthread_create (host : Posix.Host) (be : Backend)
    (w : Posix.World) (f : List Posix.Call → Int) :
    Posix.init_wakeup_fds { host with pthread_create := f } be w =
      Posix.init_wakeup_fds host be w := by
  cases be <;> rfl

/-- Claim C17, as amended.  With the Pthreads build, `init_wakeup_fds` does
not create the background waiter thread: it makes no `pthread_create` call
and what it returns does not depend on what `pthread_create` would answer.
The thread is launched by `select_thread_launch` when `sys_select` starts
the background waiter while `select_run_loop` is `NULL` (and not when it is
set), right before `select_sem_wait`; and `select_thread_launch` calls
`pthread_create` once and returns nothing. -/
theorem init_wakeup_fds_without_thread (host : Posix.Host) (w : Posix.World)
    (f : List Posix.Call → Int) (nfds : Int) (orfds owfds oefds : SELECT_TYPE)
    (s : State) :
    Posix.init_wakeup_fds { host with pthread_create := f } Backend.pthread w =
      Posix.init_wakeup_fds host Backend.pthread w ∧
    (∃ cs, (Posix.init_wakeup_fds host Backend.pthread w).2.calls = w.calls ++ cs ∧
      ∀ r, Posix.Call.pthread_create r ∉ cs) ∧
    (∃ req, (start_background_waiter Backend.pthread nfds orfds owfds oefds s).trace
        = s.trace ++ ((if s.select_run_loop then [] else [Event.select_thread_launch]) ++
          [Event.select_sem_wait, Event.read_all_from_nonblocking_fd s.wakeup_fds1,
            Event.background_select req])) ∧
    (Posix.select_thread_launch host w).calls =
      w.calls ++ [Posix.Call.pthread_create (host.pthread_create w.calls)] := by
  refine ⟨Posix.init_wakeup_fds_pthread_create host Backend.pthread w f, ?_, ?_, ?_⟩
  · obtain ⟨cs, h1, -, -, h4⟩ := Posix.init_wakeup_fds_spec host Backend.pthread w
    exact ⟨cs, h1, h4⟩
  · by_cases hl : s.select_run_loop = true <;>
      simp [start_background_waiter, hl, select_thread_launch, select_sem_wait,
        read_all_from_nonblocking_fd, select_fire, select_perform, State.log]
  · by_cases h : host.pthread_create w.calls = 0 <;>
      simp [Posix.select_thread_launch, Posix.select_thread_main, Posix.select_sem_signal,
        Posix.World.log, h]

/-- Claim C17 fails as stated.  On a host where every step of
`init_wakeup_fds` succeeds and `pthread_create` fails, `init_wakeup_fds` of
the Pthreads build returns 0 without having called `pthread_create`.  The
thread launch that follows, in `sys_select`, makes the failing
`pthread_create` call, leaves `select_run_loop` `NULL` and the semaphore at
0, and the `select_sem_wait` after it does not return. -/
theorem init_wakeup_fds_thread_failure_unreported :
    (Posix.init_wakeup_fds Posix.host_no_thread Backend.pthread Posix.world_boot).1 = 0 ∧
    (Posix.init_wakeup_fds Posix.host_no_thread Backend.pthread Posix.world_boot).2.calls
      = Posix.init_calls ∧
    (∀ r, Posix.Call.pthread_create r ∉ Posix.init_calls) ∧
    Posix.host_no_thread.pthread_create Posix.init_calls ≠ 0 ∧
    (Posix.select_thread_launch Posix.host_no_thread
      (Posix.init_wakeup_fds Posix.host_no_thread Backend.pthread Posix.world_boot).2).calls
      = Posix.init_calls ++ [Posix.Call.pthread_create Posix.EAGAIN] ∧
    (Posix.select_thread_launch Posix.host_no_thread
      (Posix.init_wakeup_fds Posix.host_no_thread Backend.pthread
        Posix.world_boot).2).select_run_loop = false ∧
    (Posix.select_thread_launch Posix.host_no_thread
      (Posix.init_wakeup_fds Posix.host_no_thread Backend.pthread
        Posix.world_boot).2).select_sem_value = 0 ∧
    (Posix.select_sem_wait (Posix.select_thread_launch Posix.host_no_thread
      (Posix.init_wakeup_fds Posix.host_no_thread Backend.pthread
        Posix.world_boot).2)).isNone = true := by
  refine ⟨by decide, by decide, ?_, by decide, by decide, by decide, by decide, by decide⟩
  intro r
  simp [Posix.init_calls]

/-! ### Four-character codes (C20) -/

theorem decode_big_endian (host : ByteOrder) (b0 b1 b2 b3 : Nat)
    (h0 : b0 < 256) (h1 : b1 < 256) (h2 : b2 < 256) (h3 : b3 < 256) :
    EndianU32_BtoN host (load_UInt32 host b0 b1 b2 b3) = big_endian_value b0 b1 b2 b3 := by
  cases host
  · rfl
  · simp only [EndianU32_BtoN, load_UInt32, swap_UInt32, big_endian_value]
    omega

theorem encode_big_endian (host : ByteOrder) (c : Nat) :
    store_UInt32 host (EndianU32_NtoB host c) = big_endian_bytes c := by
  cases host
  · rfl
  · simp only [EndianU32_NtoB, store_UInt32, swap_UInt32, big_endian_bytes,
      List.cons.injEq, and_true]
    have h0 : c % 256 < 256 := Nat.mod_lt _ (by decide)
    have h1 : c / 2 ^ 8 % 256 < 256 := Nat.mod_lt _ (by decide)
    have h2 : c / 2 ^ 16 % 256 < 256 := Nat.mod_lt _ (by decide)
    have h3 : c / 2 ^ 24 % 256 < 256 := Nat.mod_lt _ (by decide)
    generalize c % 256 = a0 at h0 ⊢
    generalize c / 2 ^ 8 % 256 = a1 at h1 ⊢
    generalize c / 2 ^ 16 % 256 = a2 at h2 ⊢
    generalize c / 2 ^ 24 % 256 = a3 at h3 ⊢
    refine ⟨?_, ?_, ?_, ?_⟩ <;> omega

theorem big_endian_bytes_value (b0 b1 b2 b3 : Nat)
    (h0 : b0 < 256) (h1 : b1 < 256) (h2 : b2 < 256) (h3 : b3 < 256) :
    big_endian_value b0 b1 b2 b3 < 2 ^ 32 ∧
      big_endian_bytes (big_endian_value b0 b1 b2 b3) = [b0, b1, b2, b3] := by
  simp only [big_endian_value, big_endian_bytes, List.cons.injEq, and_true]
  refine ⟨?_, ?_, ?_, ?_, ?_⟩ <;> omega

theorem big_endian_value_bytes (c : Nat) (hc : c < 2 ^ 32) :
    big_endian_value (c / 2 ^ 24 % 256) (c / 2 ^ 16 % 256) (c / 2 ^ 8 % 256) (c % 256) = c := by
  simp only [big_endian_value]
  omega

/-- Claim C20.  On a host of either byte order: for every Lisp string `s` of
exactly four bytes, unibyte or multibyte, and every default `d`,
`mac_get_code_from_arg (s, d)` is a 32-bit code and
`mac_get_object_from_code` of it is the unibyte string with the bytes of `s`;
for every 32-bit code `c`, `mac_get_object_from_code (c)` is the unibyte
string of the four bytes of the big-endian encoding of `c`, and
`mac_get_code_from_arg` of it is `c`; and for `nil`,
`mac_get_code_from_arg` returns the default. -/
theorem mac_get_code_round_trip (host : ByteOrder) (d c : Nat) (data : List Nat)
    (mb : Bool) (hlen : data.length = 4) (hbytes : ∀ b ∈ data, b < 256)
    (hc : c < 2 ^ 32) :
    (∃ code, mac_get_code_from_arg host (Lisp_Object.string data mb) d = Except.ok code ∧
      code < 2 ^ 32 ∧
      mac_get_object_from_code host code = Lisp_Object.string data false) ∧
    mac_get_object_from_code host c = Lisp_Object.string (big_endian_bytes c) false ∧
    mac_get_code_from_arg host (mac_get_object_from_code host c) d = Except.ok c ∧
    mac_get_code_from_arg host Lisp_Object.nil d = Except.ok d := by
  have hobj : ∀ x, x < 2 ^ 32 →
      mac_get_object_from_code host x = Lisp_Object.string (big_endian_bytes x) false := by
    intro x hx
    simp only [mac_get_object_from_code, Nat.mod_eq_of_lt hx, encode_big_endian]
  refine ⟨?_, hobj c hc, ?_, rfl⟩
  · obtain ⟨b0, b1, b2, b3, rfl⟩ : ∃ b0 b1 b2 b3, data = [b0, b1, b2, b3] := by
      match data, hlen with
      | [b0, b1, b2, b3], _ => exact ⟨b0, b1, b2, b3, rfl⟩
    have h0 := hbytes b0 (by simp)
    have h1 := hbytes b1 (by simp)
    have h2 := hbytes b2 (by simp)
    have h3 := hbytes b3 (by simp)
    obtain ⟨k1, k2⟩ := big_endian_bytes_value b0 b1 b2 b3 h0 h1 h2 h3
    refine ⟨big_endian_value b0 b1 b2 b3, ?_, k1, ?_⟩
    · simp [mac_get_code_from_arg, decode_big_endian host b0 b1 b2 b3 h0 h1 h2 h3]
    · rw [hobj _ k1, k2]
  · rw [hobj c hc]
    have h0 : c / 2 ^ 24 % 256 < 256 := Nat.mod_lt _ (by decide)
    have h1 : c / 2 ^ 16 % 256 < 256 := Nat.mod_lt _ (by decide)
    have h2 : c / 2 ^ 8 % 256 < 256 := Nat.mod_lt _ (by decide)
    have h3 : c % 256 < 256 := Nat.mod_lt _ (by decide)
    simp only [mac_get_code_from_arg, big_endian_bytes, List.length_cons, List.length_nil,
      ne_eq, not_true, if_false, List.getD_cons_zero, List.getD_cons_succ]
    rw [decode_big_endian host _ _ _ _ h0 h1 h2 h3, big_endian_value_bytes c hc]

/-- Witness of C20: the code `TEXT` (the bytes 84, 69, 88, 84) on a
little-endian host, from a multibyte string. -/
theorem mac_get_code_round_trip_witness :
    ((∃ code, mac_get_code_from_arg ByteOrder.little
          (Lisp_Object.string [84, 69, 88, 84] true) 7 = Except.ok code ∧
        code < 2 ^ 32 ∧
        mac_get_object_from_code ByteOrder.little code
          = Lisp_Object.string [84, 69, 88, 84] false) ∧
      mac_get_object_from_code ByteOrder.little 1413830740
        = Lisp_Object.string (big_endian_bytes 1413830740) false ∧
      mac_get_code_from_arg ByteOrder.little
        (mac_get_object_from_code ByteOrder.little 1413830740) 7 = Except.ok 1413830740 ∧
      mac_get_code_from_arg ByteOrder.little Lisp_Object.nil 7 = Except.ok 7) ∧
    mac_get_code_from_arg ByteOrder.little (Lisp_Object.string [84, 69, 88, 84] true) 7
      = Except.ok 1413830740 ∧
    big_endian_bytes 1413830740 = [84, 69, 88, 84] ∧
    mac_get_code_from_arg ByteOrder.big (Lisp_Object.string [84, 69, 88] false) 7
      = Except.error (Signal.error "Wrong argument: need string of length 4 for code") :=
  ⟨mac_get_code_round_trip ByteOrder.little 7 1413830740 [84, 69, 88, 84] true rfl
    (by decide) (by decide), rfl, by decide, rfl⟩

/-! ### Time slicing (C23) -/

theorem first_split {α : Type} {P : α → Prop} {p1 q1 pre post : List α} {x e : α}
    (h : p1 ++ x :: q1 = pre ++ e :: post) (hp : ∀ y ∈ p1, ¬ P y) (he : P e) :
    (pre = p1 ∧ e = x ∧ post = q1) ∨
      ∃ pre', pre = p1 ++ x :: pre' ∧ q1 = pre' ++ e :: post := by
  induction p1 generalizing pre with
  | nil =>
    cases pre with
    | nil => simp at h; exact Or.inl ⟨rfl, h.1.symm, h.2.symm⟩
    | cons b pre => simp at h; exact Or.inr ⟨pre, by simp [h.1], h.2⟩
  | cons a p1 ih =>
    cases pre with
    | nil =>
      simp at h
      exact absurd he (h.1 ▸ hp a (by simp))
    | cons b pre =>
      simp at h
      rcases ih h.2 (fun y hy => hp y (by simp [hy])) with ⟨h1, h2, h3⟩ | ⟨pre', h1, h2⟩
      · exact Or.inl ⟨by rw [h.1, h1], h2, h3⟩
      · exact Or.inr ⟨pre', by rw [h.1, h1]; simp, h2⟩

theorem wake_events_no_call (fd0 : Nat) (w : Bool) :
    ∀ e ∈ wake_events fd0 w, ¬ run_loop_call e := by
  cases w <;> simp [wake_events, run_loop_call]

/-- A history in which every call of `mac_run_loop_run_once` lies in the
part `sl` is sliced as `sl` is. -/
theorem Sliced.frame {mixed : Bool} {fd0 : Nat} {t t' : EventTimeout}
    {A sl B : List Event} (h : Sliced mixed fd0 t sl t')
    (hA : ∀ e ∈ A, ¬ run_loop_call e) (hB : ∀ e ∈ B, ¬ run_loop_call e) :
    Sliced mixed fd0 t (A ++ sl ++ B) t' := by
  obtain ⟨h1, h2, h3⟩ := h
  have hc : ∀ a r w, run_loop_call (Event.mac_run_loop_run_once a r w) := by
    intro a r w; simp [run_loop_call]
  refine ⟨?_, ?_, ?_⟩
  · intro pre a r w post he hpre
    obtain ⟨pre', post', e1, e2, e3⟩ := split_mid he (fun hm => hA _ hm (hc a r w))
      (fun hm => hB _ hm (hc a r w))
    exact h1 pre' a r w post' e1 (fun e hm => hpre e (by rw [e2]; simp [hm]))
  · intro pre a r w mid a2 r2 w2 post he hmid
    obtain ⟨pre', post', e1, e2, e3⟩ := split_mid he (fun hm => hA _ hm (hc a r w))
      (fun hm => hB _ hm (hc a r w))
    obtain ⟨post'', e4, e5⟩ := split_right e3.symm (fun hm => hB _ hm (hc a2 r2 w2))
    rw [e5] at e1
    exact h2 pre' a r w mid a2 r2 w2 post'' e1 hmid
  · intro pre a r w post he hpost
    obtain ⟨pre', post', e1, e2, e3⟩ := split_mid he (fun hm => hA _ hm (hc a r w))
      (fun hm => hB _ hm (hc a r w))
    obtain ⟨g1, g2⟩ := h3 pre' a r w post' e1
      (fun e hm => hpost e (by rw [e3]; simp [hm]))
    refine ⟨g1, fun hr => ?_⟩
    rcases g2 hr with g | ⟨p, g⟩ | ⟨p, g⟩
    · exact Or.inl g
    · exact Or.inr (Or.inl ⟨p ++ B, by rw [e3, g]; simp⟩)
    · exact Or.inr (Or.inr ⟨p ++ B, by rw [e3, g]; simp⟩)

/-- A history without a call of `mac_run_loop_run_once` is sliced, whatever
the times. -/
theorem Sliced.of_no_call {mixed : Bool} {fd0 : Nat} {t t' : EventTimeout}
    {ext : List Event} (h : ∀ e ∈ ext, ¬ run_loop_call e) :
    Sliced mixed fd0 t ext t' := by
  refine ⟨?_, ?_, ?_⟩
  · intro pre a r w post he
    exact absurd (by simp [run_loop_call])
      (h (Event.mac_run_loop_run_once a r w) (by rw [he]; simp))
  · intro pre a r w mid a2 r2 w2 post he
    exact absurd (by simp [run_loop_call])
      (h (Event.mac_run_loop_run_once a r w) (by rw [he]; simp))
  · intro pre a r w post he
    exact absurd (by simp [run_loop_call])
      (h (Event.mac_run_loop_run_once a r w) (by rw [he]; simp))

theorem WaitTrace.wait_head {fd0 : Nat} {t t' : EventTimeout} {sl : List Event}
    (h : WaitTrace fd0 t sl t') :
    ∃ r w post, sl = wake_events fd0 w ++ Event.mac_run_loop_run_once t r w :: post := by
  cases h with
  | timeout _ w => exact ⟨0, w, [], rfl⟩
  | woke _ _ hr => exact ⟨t', true, [], rfl⟩
  | event _ _ hr => exact ⟨t', false, _, rfl⟩
  | pending _ _ hr => exact ⟨t', false, _, rfl⟩
  | again _ r rest _ hr hrest =>
    exact ⟨r, false, [Event.mac_peek_next_event false, Event.detect_input_pending false]
      ++ rest, by simp [wake_events]⟩

/-- One slice that ends a time-slicing loop: the events of the wake handler,
the call, and checks `tail` among which there is no further call. -/
theorem Sliced.last_slice (mixed : Bool) (fd0 : Nat) (t r : EventTimeout) (w : Bool)
    (tail : List Event) (htail : ∀ e ∈ tail, ¬ run_loop_call e)
    (hstop : r ≠ 0 → slice_stop mixed w tail) :
    Sliced mixed fd0 t (wake_events fd0 w ++ Event.mac_run_loop_run_once t r w :: tail) r := by
  have hc : ∀ a r w, run_loop_call (Event.mac_run_loop_run_once a r w) := by
    intro a r w; simp [run_loop_call]
  refine ⟨?_, ?_, ?_⟩
  · intro pre a r1 w1 post he hpre
    rcases first_split he (wake_events_no_call fd0 w) (hc a r1 w1) with
      ⟨-, h2, -⟩ | ⟨pre', h1, -⟩
    · simp at h2; exact h2.1
    · exact absurd (hc t r w) (hpre _ (by rw [h1]; simp))
  · intro pre a r1 w1 mid a2 r2 w2 post he hmid
    rcases first_split he (wake_events_no_call fd0 w) (hc a r1 w1) with
      ⟨-, -, h3⟩ | ⟨pre', -, h2⟩
    · exact absurd (hc a2 r2 w2) (htail _ (by rw [← h3]; simp))
    · exact absurd (hc a r1 w1) (htail _ (by rw [h2]; simp))
  · intro pre a r1 w1 post he hpost
    rcases first_split he (wake_events_no_call fd0 w) (hc a r1 w1) with
      ⟨-, h2, h3⟩ | ⟨pre', -, h2⟩
    · simp at h2
      obtain ⟨-, h4, h5⟩ := h2
      subst h4 h5 h3
      exact ⟨rfl, hstop⟩
    · exact absurd (hc a r1 w1) (htail _ (by rw [h2]; simp))

/-- One slice after which a time-slicing loop goes on, followed by the
events `rest` of the later slices. -/
theorem Sliced.next_slice (mixed : Bool) (fd0 : Nat) (t r t' : EventTimeout) (w : Bool)
    (rest : List Event) (hr : r ≠ 0) (hw : mixed = true → w = false)
    (hhead : ∃ r2 w2 post,
      rest = wake_events fd0 w2 ++ Event.mac_run_loop_run_once r r2 w2 :: post)
    (hrest : Sliced mixed fd0 r rest t') :
    Sliced mixed fd0 t (wake_events fd0 w ++ Event.mac_run_loop_run_once t r w ::
      ([Event.mac_peek_next_event false, Event.detect_input_pending false] ++ rest)) t' := by
  have hc : ∀ a r w, run_loop_call (Event.mac_run_loop_run_once a r w) := by
    intro a r w; simp [run_loop_call]
  obtain ⟨g1, g2, g3⟩ := hrest
  obtain ⟨r0, w0, post0, hrest⟩ := hhead
  have hchecks : ∀ (w2 : Bool), ∀ e ∈ [Event.mac_peek_next_event false,
      Event.detect_input_pending false] ++ wake_events fd0 w2, ¬ run_loop_call e := by
    intro w2 e he
    rcases List.mem_append.1 he with he | he
    · revert he; simp only [List.mem_cons, List.mem_singleton, List.not_mem_nil, or_false]
      rintro (rfl | rfl) <;> simp [run_loop_call]
    · exact wake_events_no_call fd0 w2 e he
  refine ⟨?_, ?_, ?_⟩
  · intro pre a r1 w1 post he hpre
    rcases first_split he (wake_events_no_call fd0 w) (hc a r1 w1) with
      ⟨-, h2, -⟩ | ⟨pre', h1, -⟩
    · simp at h2; exact h2.1
    · exact absurd (hc t r w) (hpre _ (by rw [h1]; simp))
  · intro pre a r1 w1 mid a2 r2 w2 post he hmid
    rcases first_split he (wake_events_no_call fd0 w) (hc a r1 w1) with
      ⟨-, h2, h3⟩ | ⟨pre', -, h2⟩
    · simp at h2
      obtain ⟨-, h4, h5⟩ := h2
      subst h4 h5
      have h6 : ([Event.mac_peek_next_event false, Event.detect_input_pending false]
          ++ wake_events fd0 w0) ++ Event.mac_run_loop_run_once r1 r0 w0 :: post0
          = mid ++ Event.mac_run_loop_run_once a2 r2 w2 :: post := by
        rw [h3, hrest]; simp
      rcases first_split h6 (hchecks w0) (hc a2 r2 w2) with ⟨k1, k2, -⟩ | ⟨pre', k1, -⟩
      · simp at k2
        obtain ⟨k3, -, k5⟩ := k2
        subst k3 k5
        exact ⟨rfl, hr, hw, k1⟩
      · exact absurd (hc r1 r0 w0) (hmid _ (by rw [k1]; simp))
    · have h7 : [Event.mac_peek_next_event false, Event.detect_input_pending false] ++ rest
          = pre' ++ Event.mac_run_loop_run_once a r1 w1 ::
            (mid ++ Event.mac_run_loop_run_once a2 r2 w2 :: post) := h2
      obtain ⟨pre'', -, h8⟩ := split_left h7 (by simp)
      exact g2 pre'' a r1 w1 mid a2 r2 w2 post h8 hmid
  · intro pre a r1 w1 post he hpost
    rcases first_split he (wake_events_no_call fd0 w) (hc a r1 w1) with
      ⟨-, -, h3⟩ | ⟨pre', -, h2⟩
    · exact absurd (hc r r0 w0) (hpost _ (by rw [h3, hrest]; simp))
    · have h7 : [Event.mac_peek_next_event false, Event.detect_input_pending false] ++ rest
          = pre' ++ Event.mac_run_loop_run_once a r1 w1 :: post := h2
      obtain ⟨pre'', -, h8⟩ := split_left h7 (by simp)
      exact g3 pre'' a r1 w1 post h8 hpost

theorem PollTrace.poll_sliced {fd0 : Nat} {t t' : EventTimeout} {sl : List Event}
    (h : PollTrace fd0 t sl t') : Sliced false fd0 t sl t' := by
  induction h with
  | timeout t w =>
    exact Sliced.last_slice false fd0 t 0 w [] (by simp) (by simp)
  | event t r w hr =>
    exact Sliced.last_slice false fd0 t r w [Event.mac_peek_next_event true]
      (by simp [run_loop_call]) (fun _ => Or.inr (Or.inl ⟨[], rfl⟩))
  | pending t r w hr =>
    exact Sliced.last_slice false fd0 t r w
      [Event.mac_peek_next_event false, Event.detect_input_pending true]
      (by simp [run_loop_call]) (fun _ => Or.inr (Or.inr ⟨[], rfl⟩))
  | again t r w rest t' hr hrest ih =>
    have h := Sliced.next_slice false fd0 t r t' w rest hr (by simp) hrest.poll_head ih
    simpa using h

theorem WaitTrace.wait_sliced {fd0 : Nat} {t t' : EventTimeout} {sl : List Event}
    (h : WaitTrace fd0 t sl t') : Sliced true fd0 t sl t' := by
  induction h with
  | timeout t w =>
    exact Sliced.last_slice true fd0 t 0 w [] (by simp) (by simp)
  | woke t r hr =>
    exact Sliced.last_slice true fd0 t r true [] (by simp) (fun _ => Or.inl ⟨rfl, rfl⟩)
  | event t r hr =>
    have h := Sliced.last_slice true fd0 t r false [Event.mac_peek_next_event true]
      (by simp [run_loop_call]) (fun _ => Or.inr (Or.inl ⟨[], rfl⟩))
    simpa [wake_events] using h
  | pending t r hr =>
    have h := Sliced.last_slice true fd0 t r false
      [Event.mac_peek_next_event false, Event.detect_input_pending true]
      (by simp [run_loop_call]) (fun _ => Or.inr (Or.inr ⟨[], rfl⟩))
    simpa [wake_events] using h
  | again t r rest t' hr hrest ih =>
    have h := Sliced.next_slice true fd0 t r t' false rest hr (by simp) hrest.wait_head ih
    simpa [wake_events] using h

/-- A time-slicing loop calls `mac_run_loop_run_once` at least once. -/
theorem Sliced.has_call_of_head {fd0 : Nat} {t : EventTimeout} {sl : List Event}
    (h : ∃ r w post, sl = wake_events fd0 w ++ Event.mac_run_loop_run_once t r w :: post) :
    ∃ e ∈ sl, run_loop_call e := by
  obtain ⟨r, w, post, rfl⟩ := h
  exact ⟨Event.mac_run_loop_run_once t r w, by simp, by simp [run_loop_call]⟩

theorem poll_round (env : Env) (nfds : Int) (tmo : Option EMACS_TIME) (s : State) :
    (detect_input_pending env s).2.trace =
      s.trace ++ [Event.detect_input_pending (detect_input_pending env s).1] ∧
    (detect_input_pending env s).2.wakeup_fds0 = s.wakeup_fds0 ∧
    (select env nfds tmo (detect_input_pending env s).2).2.wakeup_fds0 = s.wakeup_fds0 ∧
    ∃ req res, (select env nfds tmo (detect_input_pending env s).2).2.trace =
      s.trace ++ [Event.detect_input_pending (detect_input_pending env s).1,
        Event.select req res] := by
  refine ⟨by simp [detect_input_pending, State.log], by simp [detect_input_pending, State.log],
    by simp [detect_input_pending, State.log, select],
    ⟨nfds, s.rfds, s.wfds, s.efds, tmo⟩,
    env.select (s.trace ++ [Event.detect_input_pending (env.detect_input_pending s.trace)])
      ⟨nfds, s.rfds, s.wfds, s.efds, tmo⟩, ?_⟩
  simp [detect_input_pending, State.log, select]

/-- Once `timeoutval` is zero the loop of `select_and_poll_event` only polls:
it keeps the timed-out mark and makes no call of `mac_run_loop_run_once`. -/
theorem spin_no_call (env : Env) (nfds : Int) (timeout : Option EMACS_TIME)
    (o : SavedSets) :
    ∀ (fuel : Nat) (l : PollLocals) (s0 : State) (l' : PollLocals) (s' : State),
      select_and_poll_event_loop env nfds timeout o fuel l s0 = some (l', s') →
      l.timeoutval = 0 → l.timedout_p = true →
      l'.timedout_p = true ∧
        ∃ ext, s'.trace = s0.trace ++ ext ∧ ∀ e ∈ ext, ¬ run_loop_call e := by
  intro fuel
  induction fuel with
  | zero => intro l s0 l' s' h; simp [select_and_poll_event_loop] at h
  | succ fuel ih =>
    intro l s0 l' s' h htv htp
    simp only [select_and_poll_event_loop] at h
    obtain ⟨d1, -, -, req, res, d2⟩ := poll_round env nfds (some ⟨0, 0⟩) s0
    generalize detect_input_pending env s0 = a at h d1 d2
    obtain ⟨dip, s1⟩ := a
    generalize select env nfds (some ⟨0, 0⟩) s1 = b at h d2
    obtain ⟨r, s2⟩ := b
    simp only at h d1 d2
    by_cases hd : dip = true
    · simp only [hd, if_true, Option.some.injEq, Prod.mk.injEq] at h
      obtain ⟨rfl, rfl⟩ := h
      exact ⟨htp, _, d1, by simp [run_loop_call]⟩
    · simp only [hd, Bool.false_eq_true, if_false] at h
      by_cases hr : r = 0
      · simp only [hr, ne_eq, not_true_eq_false, if_false, htv, if_true] at h
        by_cases hn : timeout.isNone = true
        · simp only [hn, Bool.true_and, if_true] at h
          obtain ⟨k1, ext, k2, k3⟩ := ih _ _ _ _ h rfl rfl
          refine ⟨k1, [Event.detect_input_pending dip, Event.select req res] ++ ext, ?_, ?_⟩
          · rw [k2]
            simp only [restore_sets, d2, List.append_assoc]
          · intro e he
            rcases List.mem_append.1 he with he | he
            · revert he
              simp only [List.mem_cons, List.mem_singleton, List.not_mem_nil, or_false]
              rintro (rfl | rfl) <;> simp [run_loop_call]
            · exact k3 e he
        · simp only [hn, Bool.false_and, Bool.false_eq_true, if_false,
            Option.some.injEq, Prod.mk.injEq] at h
          obtain ⟨rfl, rfl⟩ := h
          exact ⟨rfl, _, d2, by simp [run_loop_call]⟩
      · simp only [ne_eq, hr, not_false_eq_true, if_true, Option.some.injEq,
          Prod.mk.injEq] at h
        obtain ⟨rfl, rfl⟩ := h
        exact ⟨htp, _, d2, by simp [run_loop_call]⟩

/-- The loop of `select_and_poll_event`, entered as `select_and_poll_event`
enters it: the calls of `mac_run_loop_run_once` are chained from the
caller's timeout, and when there was one the loop leaves `timedout_p` set
exactly when the last one returned zero. -/
theorem select_and_poll_event_loop_sliced (env : Env) (nfds : Int)
    (timeout : Option EMACS_TIME) (o : SavedSets) (fuel : Nat) (s : State)
    (l' : PollLocals) (s' : State)
    (h : select_and_poll_event_loop env nfds timeout o fuel
      ⟨false, 0, timeoutval_of timeout⟩ s = some (l', s')) :
    ∃ ext t', s'.trace = s.trace ++ ext ∧
      Sliced false s.wakeup_fds0 (timeoutval_of timeout) ext t' ∧
      ((∃ e ∈ ext, run_loop_call e) → (l'.timedout_p = true ↔ t' = 0)) := by
  cases fuel with
  | zero => simp [select_and_poll_event_loop] at h
  | succ fuel =>
    simp only [select_and_poll_event_loop] at h
    obtain ⟨d1, -, d3, req, res, d2⟩ := poll_round env nfds (some ⟨0, 0⟩) s
    generalize detect_input_pending env s = a at h d1 d2 d3
    obtain ⟨dip, s1⟩ := a
    generalize select env nfds (some ⟨0, 0⟩) s1 = b at h d2 d3
    obtain ⟨r, s2⟩ := b
    simp only at h d1 d2 d3
    have hround : ∀ e ∈ [Event.detect_input_pending dip, Event.select req res],
        ¬ run_loop_call e := by
      intro e he
      revert he
      simp only [List.mem_cons, List.mem_singleton, List.not_mem_nil, or_false]
      rintro (rfl | rfl) <;> simp [run_loop_call]
    have hnone : ∀ (ext : List Event), (∀ e ∈ ext, ¬ run_loop_call e) →
        s'.trace = s.trace ++ ext →
        ∃ ext t', s'.trace = s.trace ++ ext ∧
          Sliced false s.wakeup_fds0 (timeoutval_of timeout) ext t' ∧
          ((∃ e ∈ ext, run_loop_call e) → (l'.timedout_p = true ↔ t' = 0)) := by
      intro ext hno he
      refine ⟨ext, 0, he, Sliced.of_no_call hno, ?_⟩
      rintro ⟨e, he1, he2⟩
      exact absurd he2 (hno e he1)
    by_cases hd : dip = true
    · simp only [hd, if_true, Option.some.injEq, Prod.mk.injEq] at h
      obtain ⟨rfl, rfl⟩ := h
      exact hnone _ (by simp [run_loop_call]) d1
    · simp only [hd, Bool.false_eq_true, if_false] at h
      by_cases hr : r = 0
      · simp only [hr, ne_eq, not_true_eq_false, if_false] at h
        by_cases htv : timeoutval_of timeout = 0
        · simp only [htv, if_true] at h
          cases timeout with
          | none => simp [timeoutval_of, kEventDurationForever] at htv
          | some t =>
            simp only [Option.isNone_some, Bool.false_and, Bool.false_eq_true,
              if_false, Option.some.injEq, Prod.mk.injEq] at h
            obtain ⟨rfl, rfl⟩ := h
            exact hnone _ hround d2
        · simp only [htv, if_false] at h
          cases hsl : poll_slices env fuel (timeoutval_of timeout) s2 with
          | none => simp [hsl] at h
          | some p =>
            obtain ⟨tv1, s3⟩ := p
            obtain ⟨-, sl, g2, g3⟩ := poll_slices_trace env _ _ _ _ _ hsl
            rw [d3] at g3
            simp only [hsl] at h
            have hcall : ∃ e ∈ sl, run_loop_call e := Sliced.has_call_of_head g3.poll_head
            by_cases hspin : (timeout.isNone && decide (tv1 = 0)) = true
            · have h0 : tv1 = 0 := by simpa using (Bool.and_eq_true_iff.1 hspin).2
              subst h0
              simp only [if_true] at h
              rw [if_pos (by simpa using hspin)] at h
              obtain ⟨k1, rest, k2, k3⟩ := spin_no_call env nfds timeout o _ _ _ _ _ h rfl rfl
              refine ⟨[Event.detect_input_pending dip, Event.select req res] ++ sl ++ rest,
                0, ?_, g3.poll_sliced.frame hround k3, fun _ => ?_⟩
              · rw [k2]
                simp only [restore_sets, g2, d2, List.append_assoc]
              · simp [k1]
            · have hl : (timeout.isNone &&
                  (if tv1 = 0 then true else false)) = false := by
                cases hq : timeout.isNone <;> by_cases h0 : tv1 = 0 <;>
                  simp [hq, h0] at hspin ⊢
              rw [if_neg (by simpa using hl)] at h
              simp only [Option.some.injEq, Prod.mk.injEq] at h
              obtain ⟨rfl, rfl⟩ := h
              refine ⟨[Event.detect_input_pending dip, Event.select req res] ++ sl ++ [],
                tv1, ?_, g3.poll_sliced.frame hround (by simp), fun _ => ?_⟩
              · simp only [g2, d2, List.append_assoc, List.append_nil]
              · by_cases h0 : tv1 = 0 <;> simp [h0]
      · simp only [ne_eq, hr, not_false_eq_true, if_true, Option.some.injEq,
          Prod.mk.injEq] at h
        obtain ⟨rfl, rfl⟩ := h
        exact hnone _ hround d2

/-- The hand-off of `sys_select`: the calls of `mac_run_loop_run_once` are
chained from `timeoutval`, there is at least one, and `timedout_p` is set
exactly when the last one returned zero. -/
theorem hand_off_sliced (env : Env) (be : Backend) (fuel : Nat) (nfds : Int)
    (orfds owfds oefds : SELECT_TYPE) (tv : EventTimeout) (s : State)
    (timedout_p : Bool) (s' : State)
    (h : hand_off env be fuel nfds orfds owfds oefds tv s = some (timedout_p, s')) :
    ∃ ext t', s'.trace = s.trace ++ ext ∧ Sliced true s.wakeup_fds0 tv ext t' ∧
      (∃ e ∈ ext, run_loop_call e) ∧ (timedout_p = true ↔ t' = 0) := by
  simp only [hand_off] at h
  have hstart : ∃ evs, (start_background_waiter be nfds orfds owfds oefds s).trace
        = s.trace ++ evs ∧ (∀ e ∈ evs, ¬ run_loop_call e) ∧
      (start_background_waiter be nfds orfds owfds oefds s).wokeup_from_run_loop_run_once_p
        = 0 ∧
      (start_background_waiter be nfds orfds owfds oefds s).wakeup_fds0 = s.wakeup_fds0 := by
    cases be with
    | gcd =>
      exact ⟨_, by simp [start_background_waiter, State.log]; rfl,
        by simp [run_loop_call], by simp [start_background_waiter, State.log],
        by simp [start_background_waiter, State.log]⟩
    | pthread =>
      by_cases hl : s.select_run_loop = true
      · exact ⟨_, by simp [start_background_waiter, State.log, select_fire, select_perform,
            select_sem_wait, read_all_from_nonblocking_fd, hl]; rfl,
          by simp [run_loop_call],
          by simp [start_background_waiter, State.log, select_fire, select_perform,
            select_sem_wait, read_all_from_nonblocking_fd, hl],
          by simp [start_background_waiter, State.log, select_fire, select_perform,
            select_sem_wait, read_all_from_nonblocking_fd, hl]⟩
      · exact ⟨_, by simp [start_background_waiter, State.log, select_fire, select_perform,
            select_sem_wait, read_all_from_nonblocking_fd, select_thread_launch, hl]; rfl,
          by simp [run_loop_call],
          by simp [start_background_waiter, State.log, select_fire, select_perform,
            select_sem_wait, read_all_from_nonblocking_fd, select_thread_launch, hl],
          by simp [start_background_waiter, State.log, select_fire, select_perform,
            select_sem_wait, read_all_from_nonblocking_fd, select_thread_launch, hl]⟩
  obtain ⟨evs, a1, a2, a3, a4⟩ := hstart
  cases hw : wait_slices env fuel tv (start_background_waiter be nfds orfds owfds oefds s) with
  | none => simp [hw] at h
  | some p =>
    obtain ⟨tv1, s1⟩ := p
    simp only [hw, Option.some.injEq, Prod.mk.injEq] at h
    obtain ⟨rfl, rfl⟩ := h
    obtain ⟨-, sl, g2, g3⟩ := wait_slices_trace env _ _ _ _ _ hw a3
    rw [a4] at g3
    obtain ⟨b1, -⟩ := wake_background_waiter_spec be s1
    have hstop : ∀ e ∈ stop_events be s1.wakeup_fds0 s1.wakeup_fds1, ¬ run_loop_call e := by
      cases be <;> simp [stop_events, run_loop_call]
    refine ⟨evs ++ sl ++ stop_events be s1.wakeup_fds0 s1.wakeup_fds1, tv1, ?_,
      g3.wait_sliced.frame a2 hstop, ?_, by simp⟩
    · rw [b1, g2, a1]; simp only [List.append_assoc]
    · obtain ⟨e, he1, he2⟩ := Sliced.has_call_of_head g3.wait_head
      exact ⟨e, by simp [he1], he2⟩

/-- A call of `select_and_poll_event`: its calls of `mac_run_loop_run_once`
are chained from the caller's timeout. -/
theorem select_and_poll_event_sliced (env : Env) (fuel : Nat) (nfds : Int)
    (timeout : Option EMACS_TIME) (s : State) (out : Int × State)
    (h : select_and_poll_event env fuel nfds timeout s = some out) :
    ∃ ext t', out.2.trace = s.trace ++ ext ∧
      Sliced false s.wakeup_fds0 (timeoutval_of timeout) ext t' := by
  unfold select_and_poll_event at h
  simp only at h
  split at h
  · simp at h
  · rename_i l' s' hl
    simp only [Option.some.injEq] at h
    obtain ⟨ext, t', g1, g2, -⟩ := select_and_poll_event_loop_sliced env nfds timeout _ fuel _
      l' s' hl
    rcases select_and_poll_event_return_spec env l' s' with
      ⟨-, k⟩ | ⟨-, -, k⟩ | ⟨-, -, -, -, -, d, k⟩
    · rw [k] at h
      subst h
      exact ⟨ext, t', g1, g2⟩
    · rw [k] at h
      subst h
      exact ⟨ext, t', g1, g2⟩
    · subst h
      refine ⟨[] ++ ext ++ [Event.detect_input_pending d], t', ?_,
        g2.frame (by simp) (by simp [run_loop_call])⟩
      rw [k, g1]
      simp

/-- A whole call of `sys_select` that asks for the window event channel:
all its calls of `mac_run_loop_run_once` are chained from the caller's
timeout, in the loop of `sys_select` when a real descriptor is asked for and
in the loop of `select_and_poll_event` otherwise. -/
theorem sys_select_sliced (env : Env) (be : Backend) (fuel : Nat) (nfds : Int)
    (timeout : Option EMACS_TIME) (s : State) (out : Int × State)
    (hreq : window_channel_requested nfds s = true)
    (h : sys_select env be fuel nfds timeout s = some out) :
    ∃ ext t', out.2.trace = s.trace ++ ext ∧
      Sliced (decide (trimmed_nfds nfds s ≠ 1)) s.wakeup_fds0 (timeoutval_of timeout)
        ext t' := by
  have hfin : ∀ {fin : List Event} {o : Int × State}, FinalPoll s fin o →
      ∀ e ∈ fin, ¬ run_loop_call e := by
    intro fin o hf
    cases hf <;> simp [run_loop_call]
  have hzero : ∀ {p : List Event} {o : Int × State},
      PollRun s.wakeup_fds0 s (some ⟨0, 0⟩) p o → ∀ e ∈ p, ¬ run_loop_call e := by
    intro p o hp
    rcases hp.zero_cases with ⟨d, rfl, -⟩ | ⟨req, res, rfl, -⟩ | ⟨req, res, rfl, -⟩ <;>
      simp [run_loop_call]
  have hstart : ∀ (b : Bool) (req : SelectReq),
      ∀ e ∈ start_events be b s.wakeup_fds1 req, ¬ run_loop_call e := by
    intro b req
    cases be <;> cases b <;> simp [start_events, run_loop_call]
  have hstop : ∀ e ∈ stop_events be s.wakeup_fds0 s.wakeup_fds1, ¬ run_loop_call e := by
    cases be <;> simp [stop_events, run_loop_call]
  by_cases hn : trimmed_nfds nfds s = 1
  · rw [sys_select_pure env be fuel nfds timeout s hreq hn] at h
    have hm : decide (trimmed_nfds nfds s ≠ 1) = false := by simp [hn]
    rw [hm]
    exact select_and_poll_event_sliced env fuel 1 timeout
      { s with rfds := some (FD_CLR 0 (s.rfds.getD FD_ZERO)) } out h
  · obtain ⟨r0, s2, ext, -, -, -, g1, g2⟩ :=
      sys_select_mixed_run env be fuel nfds timeout s out hreq hn h
    have hm : decide (trimmed_nfds nfds s ≠ 1) = true := by simp [hn]
    rw [hm]
    have hhead : ∀ (req : SelectReq) (res : SelectRes) (d : Bool),
        ∀ e ∈ [Event.detect_input_pending false, Event.select req res,
          Event.detect_input_pending d], ¬ run_loop_call e := by
      intro req res d e he
      revert he
      simp only [List.mem_cons, List.mem_singleton, List.not_mem_nil, or_false]
      rintro (rfl | rfl | rfl) <;> simp [run_loop_call]
    cases g2 with
    | early p _ hp _ _ => exact ⟨_, 0, g1, Sliced.of_no_call (hzero hp)⟩
    | pending req res fin _ _ _ _ _ hf =>
      refine ⟨_, 0, g1, Sliced.of_no_call ?_⟩
      intro e he
      rcases List.mem_append.1 he with he | he
      · exact hhead req res true e he
      · exact hfin hf e he
    | timed_out req res b sl _ _ _ _ _ hw _ _ _ _ =>
      refine ⟨_, 0, g1, ?_⟩
      refine hw.wait_sliced.frame ?_ hstop
      intro e he
      rcases List.mem_append.1 he with he | he
      · exact hhead req res false e he
      · exact hstart b _ e he
    | interrupted req res b sl t' fin _ _ _ _ _ hw _ hf =>
      refine ⟨_, t', g1, ?_⟩
      have h1 := hw.wait_sliced.frame
        (A := [Event.detect_input_pending false, Event.select req res,
          Event.detect_input_pending false]
          ++ start_events be b s.wakeup_fds1
              (background_request s.wakeup_fds1 (trimmed_nfds nfds s)
                (FD_CLR 0 (s.rfds.getD FD_ZERO)) s.wfds s.efds))
        (B := stop_events be s.wakeup_fds0 s.wakeup_fds1 ++ fin) ?_ ?_
      · simpa only [List.append_assoc] using h1
      · intro e he
        rcases List.mem_append.1 he with he | he
        · exact hhead req res false e he
        · exact hstart b _ e he
      · intro e he
        rcases List.mem_append.1 he with he | he
        · exact hstop e he
        · exact hfin hf e he

/-- C23: time slicing recomputes the remaining timeout.  In the loop of
`select_and_poll_event`, in the loop of the hand-off of `sys_select`, and
over a whole call of `sys_select`, the first call of `mac_run_loop_run_once`
receives the caller's timeout converted to a duration and every later call
receives the value the call before it returned; another call is made only
after a slice that returned a non-zero remaining time, with no foreign event
queued and `detect_input_pending` false (and, in the loop of `sys_select`,
with the wake flag clear); after the last slice the loop has stopped for one
of these reasons, and `timedout_p` is set exactly when the last returned
remaining time is zero. -/
theorem time_slicing_recomputes_timeout (env : Env) (be : Backend) (fuel : Nat)
    (nfds : Int) (timeout : Option EMACS_TIME) (s : State) :
    (∀ (o : SavedSets) (l' : PollLocals) (s' : State),
      select_and_poll_event_loop env nfds timeout o fuel
        ⟨false, 0, timeoutval_of timeout⟩ s = some (l', s') →
      ∃ ext t', s'.trace = s.trace ++ ext ∧
        Sliced false s.wakeup_fds0 (timeoutval_of timeout) ext t' ∧
        ((∃ e ∈ ext, run_loop_call e) → (l'.timedout_p = true ↔ t' = 0))) ∧
    (∀ (orfds owfds oefds : SELECT_TYPE) (timedout_p : Bool) (s' : State),
      hand_off env be fuel nfds orfds owfds oefds (timeoutval_of timeout) s
        = some (timedout_p, s') →
      ∃ ext t', s'.trace = s.trace ++ ext ∧
        Sliced true s.wakeup_fds0 (timeoutval_of timeout) ext t' ∧
        (∃ e ∈ ext, run_loop_call e) ∧ (timedout_p = true ↔ t' = 0)) ∧
    (∀ (out : Int × State), window_channel_requested nfds s = true →
      sys_select env be fuel nfds timeout s = some out →
      ∃ ext t', out.2.trace = s.trace ++ ext ∧
        Sliced (decide (trimmed_nfds nfds s ≠ 1)) s.wakeup_fds0 (timeoutval_of timeout)
          ext t') :=
  ⟨fun o l' s' h => select_and_poll_event_loop_sliced env nfds timeout o fuel s l' s' h,
    fun orfds owfds oefds timedout_p s' h =>
      hand_off_sliced env be fuel nfds orfds owfds oefds _ s timedout_p s' h,
    fun out hreq h => sys_select_sliced env be fuel nfds timeout s out hreq h⟩

/-! ### Cdr chains (C24) -/

theorem Plist.nthcdr_succ (h : Plist.Heap) (n : Nat) (x : Plist.Lisp_Object) :
    Plist.nthcdr h (n + 1) x = Plist.XCDR h (Plist.nthcdr h n x) := by
  simp [Plist.nthcdr, Function.iterate_succ_apply']

theorem Plist.nthcdr_add (h : Plist.Heap) (m n : Nat) (x : Plist.Lisp_Object) :
    Plist.nthcdr h (m + n) x = Plist.nthcdr h m (Plist.nthcdr h n x) := by
  simp [Plist.nthcdr, Function.iterate_add_apply]

theorem Plist.nthcdr_periodic (h : Plist.Heap) (x : Plist.Lisp_Object) (p l : Nat)
    (hpq : Plist.nthcdr h p x = Plist.nthcdr h (p + l) x) :
    ∀ k, p ≤ k → Plist.nthcdr h (k + l) x = Plist.nthcdr h k x := by
  intro k hk
  obtain ⟨d, rfl⟩ := Nat.exists_eq_add_of_le hk
  rw [show p + d + l = d + (p + l) by omega, Plist.nthcdr_add, ← hpq, ← Plist.nthcdr_add]
  congr 1
  omega

theorem Plist.nthcdr_periodic_mul (h : Plist.Heap) (x : Plist.Lisp_Object) (p l : Nat)
    (hpq : Plist.nthcdr h p x = Plist.nthcdr h (p + l) x) :
    ∀ c k, p ≤ k → Plist.nthcdr h (k + l * c) x = Plist.nthcdr h k x := by
  intro c
  induction c with
  | zero => intro k _; simp
  | succ c ih =>
    intro k hk
    rw [show k + l * (c + 1) = (k + l * c) + l by ring,
      Plist.nthcdr_periodic h x p l hpq _ (by omega)]
    exact ih k hk

/-- A cdr chain that comes back to a cell it has passed, over conses only,
is circular. -/
theorem Plist.circular_of_repeat (h : Plist.Heap) (x : Plist.Lisp_Object) (p l : Nat)
    (hl : 0 < l) (hpq : Plist.nthcdr h p x = Plist.nthcdr h (p + l) x)
    (hc : ∀ k < p + l, Plist.CONSP (Plist.nthcdr h k x) = true) :
    Plist.circular h x := by
  intro n
  induction n using Nat.strong_induction_on with
  | _ n ih =>
    by_cases hn : n < p + l
    · exact hc n hn
    · have h1 := Plist.nthcdr_periodic h x p l hpq (n - l) (by omega)
      rw [show n - l + l = n by omega] at h1
      rw [h1]
      exact ih (n - l) (by omega)

theorem Plist.chain_of_unique (h : Plist.Heap) (x : Plist.Lisp_Object) (m n : Nat)
    (hm : Plist.chain_of h x m) (hn : Plist.chain_of h x n) : m = n := by
  rcases Nat.lt_trichotomy m n with hlt | heq | hgt
  · have := hn.1 m hlt
    rw [hm.2] at this
    exact absurd this (by simp)
  · exact heq
  · have := hm.1 n hgt
    rw [hn.2] at this
    exact absurd this (by simp)

theorem Plist.not_circular_of_chain (h : Plist.Heap) (x : Plist.Lisp_Object) (n : Nat)
    (hn : Plist.chain_of h x n) : ¬ Plist.circular h x := by
  intro hc
  have := hc n
  rw [hn.2] at this
  exact absurd this (by simp)

/-- Whatever the loop of `cdr_chain_length` returns is right: `-1` on a
circular chain only, and otherwise the number of cons cells of the chain. -/
theorem Plist.cdr_chain_length_loop_sound (h : Plist.Heap) (x : Plist.Lisp_Object) :
    ∀ (fuel i : Nat) (r : Int),
      (∀ k < 2 * i, Plist.CONSP (Plist.nthcdr h k x) = true) →
      Plist.cdr_chain_length_loop h fuel (Plist.nthcdr h (2 * i) x) (Plist.nthcdr h i x)
        ((2 * i : Nat) : Int) = some r →
      (r = -1 ∧ Plist.circular h x) ∨ ∃ n : Nat, r = (n : Int) ∧ Plist.chain_of h x n := by
  intro fuel
  induction fuel with
  | zero => intro i r _ hr; simp [Plist.cdr_chain_length_loop] at hr
  | succ fuel ih =>
    intro i r hc hr
    simp only [Plist.cdr_chain_length_loop] at hr
    by_cases h0 : Plist.CONSP (Plist.nthcdr h (2 * i) x) = true
    · simp only [h0, if_true] at hr
      rw [← Plist.nthcdr_succ] at hr
      by_cases h1 : Plist.CONSP (Plist.nthcdr h (2 * i + 1) x) = true
      · simp only [h1, Bool.not_true, Bool.false_eq_true, if_false] at hr
        rw [← Plist.nthcdr_succ, ← Plist.nthcdr_succ] at hr
        have hc2 : ∀ k < 2 * (i + 1), Plist.CONSP (Plist.nthcdr h k x) = true := by
          intro k hk
          by_cases hk1 : k < 2 * i
          · exact hc k hk1
          · have : k = 2 * i ∨ k = 2 * i + 1 := by omega
            rcases this with rfl | rfl
            · exact h0
            · exact h1
        by_cases hm : Plist.nthcdr h (2 * i + 1 + 1) x = Plist.nthcdr h (i + 1) x
        · simp only [hm, if_true, Option.some.injEq] at hr
          refine Or.inl ⟨hr.symm, ?_⟩
          refine Plist.circular_of_repeat h x (i + 1) (i + 1) (by omega) ?_ ?_
          · rw [← hm]; congr 1; omega
          · intro k hk
            exact hc2 k (by omega)
        · simp only [hm, if_false] at hr
          have e1 : ((2 * i : Nat) : Int) + 1 + 1 = ((2 * (i + 1) : Nat) : Int) := by
            push_cast; ring
          rw [e1, show 2 * i + 1 + 1 = 2 * (i + 1) by ring] at hr
          exact ih (i + 1) r hc2 hr
      · simp only [h1, Bool.not_false, if_true, Option.some.injEq] at hr
        refine Or.inr ⟨2 * i + 1, ?_, ?_, by simpa using h1⟩
        · rw [← hr]; push_cast; ring
        · intro k hk
          by_cases hk1 : k < 2 * i
          · exact hc k hk1
          · have : k = 2 * i := by omega
            rw [this]; exact h0
    · simp only [h0, Bool.false_eq_true, if_false, Option.some.injEq] at hr
      exact Or.inr ⟨2 * i, hr.symm, hc, by simpa using h0⟩

/-- The loop of `cdr_chain_length` returns when the chain ends within reach
of the fuel, or when the hare meets the tortoise within reach of the fuel. -/
theorem Plist.cdr_chain_length_loop_total (h : Plist.Heap) (x : Plist.Lisp_Object) :
    ∀ (fuel i : Nat),
      (∀ k < 2 * i, Plist.CONSP (Plist.nthcdr h k x) = true) →
      ((∃ n, Plist.chain_of h x n ∧ n < 2 * (fuel + i)) ∨
        (∃ j, i < j ∧ j < i + fuel ∧ Plist.nthcdr h (2 * j) x = Plist.nthcdr h j x)) →
      ∃ r, Plist.cdr_chain_length_loop h fuel (Plist.nthcdr h (2 * i) x)
        (Plist.nthcdr h i x) ((2 * i : Nat) : Int) = some r := by
  intro fuel
  induction fuel with
  | zero =>
    intro i hc hreach
    rcases hreach with ⟨n, hn, hlt⟩ | ⟨j, h1, h2, -⟩
    · have := hc n (by omega)
      rw [hn.2] at this
      exact absurd this (by simp)
    · omega
  | succ fuel ih =>
    intro i hc hreach
    simp only [Plist.cdr_chain_length_loop]
    by_cases h0 : Plist.CONSP (Plist.nthcdr h (2 * i) x) = true
    · simp only [h0, if_true]
      rw [← Plist.nthcdr_succ]
      by_cases h1 : Plist.CONSP (Plist.nthcdr h (2 * i + 1) x) = true
      · simp only [h1, Bool.not_true, Bool.false_eq_true, if_false]
        rw [← Plist.nthcdr_succ, ← Plist.nthcdr_succ]
        by_cases hm : Plist.nthcdr h (2 * i + 1 + 1) x = Plist.nthcdr h (i + 1) x
        · exact ⟨-1, by simp [hm]⟩
        · simp only [hm, if_false]
          have hc2 : ∀ k < 2 * (i + 1), Plist.CONSP (Plist.nthcdr h k x) = true := by
            intro k hk
            by_cases hk1 : k < 2 * i
            · exact hc k hk1
            · have : k = 2 * i ∨ k = 2 * i + 1 := by omega
              rcases this with rfl | rfl
              · exact h0
              · exact h1
          have e1 : ((2 * i : Nat) : Int) + 1 + 1 = ((2 * (i + 1) : Nat) : Int) := by
            push_cast; ring
          rw [e1, show 2 * i + 1 + 1 = 2 * (i + 1) by ring]
          refine ih (i + 1) hc2 ?_
          rcases hreach with ⟨n, hn, hlt⟩ | ⟨j, j1, j2, j3⟩
          · exact Or.inl ⟨n, hn, by omega⟩
          · refine Or.inr ⟨j, ?_, by omega, j3⟩
            rcases Nat.lt_or_ge (i + 1) j with hlt | hge
            · exact hlt
            · have : j = i + 1 := by omega
              subst this
              exact absurd (by rw [← j3]; congr 1) hm
      · exact ⟨((2 * i : Nat) : Int) + 1, by simp [h1]⟩
    · exact ⟨((2 * i : Nat) : Int), by simp [h0]⟩

theorem Plist.valid_of_cdr_cons (h : Plist.Heap) (y : Plist.Lisp_Object)
    (hy : Plist.CONSP (Plist.XCDR h y) = true) :
    ∃ a, y = Plist.Lisp_Object.cons a ∧ a < h.conses.length := by
  cases y with
  | cons a =>
    refine ⟨a, rfl, ?_⟩
    by_contra hlt
    have : h.conses.getD a (Plist.Qnil, Plist.Qnil) = (Plist.Qnil, Plist.Qnil) :=
      List.getD_eq_default _ _ (by omega)
    simp only [Plist.XCDR] at hy
    rw [this] at hy
    simp [Plist.Qnil, Plist.CONSP] at hy
  | _ => simp [Plist.XCDR, Plist.Qnil, Plist.CONSP] at hy

/-- In a heap of `N` cons cells a cdr chain ends within `N + 1` steps, or it
is circular and the hare meets the tortoise within `N` rounds. -/
theorem Plist.chain_or_meet (h : Plist.Heap) (x : Plist.Lisp_Object) :
    (∃ n, n ≤ h.conses.length + 1 ∧ Plist.chain_of h x n) ∨
    (Plist.circular h x ∧ ∃ j, 0 < j ∧ j ≤ h.conses.length ∧
      Plist.nthcdr h (2 * j) x = Plist.nthcdr h j x) := by
  by_cases hall : ∀ k, k ≤ h.conses.length + 1 → Plist.CONSP (Plist.nthcdr h k x) = true
  · right
    have hvalid : ∀ k, k ≤ h.conses.length →
        ∃ a, Plist.nthcdr h k x = Plist.Lisp_Object.cons a ∧ a < h.conses.length := by
      intro k hk
      apply Plist.valid_of_cdr_cons
      rw [← Plist.nthcdr_succ]
      exact hall (k + 1) (by omega)
    have hmap : ∀ k ∈ Finset.range (h.conses.length + 1),
        Plist.addr (Plist.nthcdr h k x) ∈ Finset.range h.conses.length := by
      intro k hk
      obtain ⟨a, ha, hlt⟩ := hvalid k (by simpa [Nat.lt_succ_iff] using hk)
      simpa [ha, Plist.addr] using hlt
    obtain ⟨p0, hp0, q0, hq0, hne, heq⟩ :=
      Finset.exists_ne_map_eq_of_card_lt_of_maps_to (by simp) hmap
    have key : ∀ p q, p < q → q ≤ h.conses.length →
        Plist.addr (Plist.nthcdr h p x) = Plist.addr (Plist.nthcdr h q x) →
        Plist.circular h x ∧ ∃ j, 0 < j ∧ j ≤ h.conses.length ∧
          Plist.nthcdr h (2 * j) x = Plist.nthcdr h j x := by
      intro p q hpq hq he
      obtain ⟨a, ha, -⟩ := hvalid p (by omega)
      obtain ⟨b, hb, -⟩ := hvalid q hq
      have hab : a = b := by simpa [ha, hb, Plist.addr] using he
      have hrep : Plist.nthcdr h p x = Plist.nthcdr h (p + (q - p)) x := by
        rw [show p + (q - p) = q by omega, ha, hb, hab]
      have hl : 0 < q - p := by omega
      refine ⟨Plist.circular_of_repeat h x p (q - p) hl hrep ?_, ?_⟩
      · intro k hk
        exact hall k (by omega)
      · refine ⟨(q - p) * (p / (q - p) + 1), Nat.mul_pos hl (Nat.succ_pos _), ?_, ?_⟩
        · have : (q - p) * (p / (q - p)) ≤ p := Nat.mul_div_le p (q - p)
          rw [Nat.mul_add, Nat.mul_one]
          omega
        · have hge : p ≤ (q - p) * (p / (q - p) + 1) :=
            Nat.le_of_lt (Nat.lt_mul_div_succ p hl)
          rw [two_mul]
          exact Plist.nthcdr_periodic_mul h x p (q - p) hrep (p / (q - p) + 1) _ hge
    rcases Nat.lt_or_gt_of_ne hne with hlt | hgt
    · exact key p0 q0 hlt (by simpa [Nat.lt_succ_iff] using hq0) heq
    · exact key q0 p0 hgt (by simpa [Nat.lt_succ_iff] using hp0) heq.symm
  · left
    simp only [not_forall] at hall
    obtain ⟨k, hk, hnot⟩ := hall
    have hex : ∃ n, Plist.CONSP (Plist.nthcdr h n x) = false := ⟨k, by simpa using hnot⟩
    refine ⟨Nat.find hex, ?_, ?_, Nat.find_spec hex⟩
    · exact le_trans (Nat.find_min' hex (by simpa using hnot)) hk
    · intro j hj
      have := Nat.find_min hex hj
      simpa using this

/-- Whatever `cdr_chain_length` returns is right. -/
theorem Plist.cdr_chain_length_sound (h : Plist.Heap) (fuel : Nat) (list : Plist.Lisp_Object)
    (r : Int) (hr : Plist.cdr_chain_length h fuel list = some r) :
    (r = -1 ∧ Plist.circular h list) ∨
      ∃ n : Nat, r = (n : Int) ∧ Plist.chain_of h list n := by
  have := Plist.cdr_chain_length_loop_sound h list fuel 0 r (by simp)
  simp only [Nat.mul_zero, Nat.cast_zero] at this
  exact this hr

/-- With fuel beyond the number of cons cells of the heap,
`cdr_chain_length` returns. -/
theorem Plist.cdr_chain_length_total (h : Plist.Heap) (fuel : Nat) (list : Plist.Lisp_Object)
    (hfuel : h.conses.length + 2 ≤ fuel) :
    ∃ r, Plist.cdr_chain_length h fuel list = some r := by
  have := Plist.cdr_chain_length_loop_total h list fuel 0 (by simp)
  simp only [Nat.mul_zero, Nat.cast_zero] at this
  apply this
  rcases Plist.chain_or_meet h list with ⟨n, hn, hch⟩ | ⟨-, j, j1, j2, j3⟩
  · exact Or.inl ⟨n, hch, by omega⟩
  · exact Or.inr ⟨j, j1, by omega, j3⟩

/-- C24: `cdr_chain_length` is correct and total.  With fuel beyond the
number of cons cells of the heap it returns, for every Lisp object and every
heap; it returns `-1` when the cdr chain of the object is circular and `n`
when the chain has `n` cons cells before an object that is not a cons (so 0
for an object that is not a cons), and one of the two is the case. -/
theorem cdr_chain_length_correct (h : Plist.Heap) (list : Plist.Lisp_Object) (fuel : Nat)
    (hfuel : h.conses.length + 2 ≤ fuel) :
    ∃ r, Plist.cdr_chain_length h fuel list = some r ∧
      (Plist.circular h list → r = -1) ∧
      (∀ n, Plist.chain_of h list n → r = (n : Int)) ∧
      (Plist.CONSP list = false → r = 0) ∧
      (Plist.circular h list ∨ ∃ n, Plist.chain_of h list n) := by
  obtain ⟨r, hr⟩ := Plist.cdr_chain_length_total h fuel list hfuel
  have hs := Plist.cdr_chain_length_sound h fuel list r hr
  have hn : ∀ n, Plist.chain_of h list n → r = (n : Int) := by
    intro n hn
    rcases hs with ⟨-, hc⟩ | ⟨m, hm, hch⟩
    · exact absurd hc (Plist.not_circular_of_chain h list n hn)
    · rw [hm, Plist.chain_of_unique h list m n hch hn]
  refine ⟨r, hr, ?_, hn, ?_, ?_⟩
  · intro hc
    rcases hs with ⟨h1, -⟩ | ⟨n, -, hch⟩
    · exact h1
    · exact absurd hc (Plist.not_circular_of_chain h list n hch)
  · intro h0
    have := hn 0 ⟨by simp, by simpa [Plist.nthcdr] using h0⟩
    simpa using this
  · rcases hs with ⟨-, hc⟩ | ⟨n, -, hch⟩
    · exact Or.inl hc
    · exact Or.inr ⟨n, hch⟩

theorem cdr_chain_length_correct_witness :
    ∃ r, Plist.cdr_chain_length Plist.heap_lists 7 (Plist.Lisp_Object.cons 2) = some r ∧
      (Plist.circular Plist.heap_lists (Plist.Lisp_Object.cons 2) → r = -1) ∧
      (∀ n, Plist.chain_of Plist.heap_lists (Plist.Lisp_Object.cons 2) n → r = (n : Int)) ∧
      (Plist.CONSP (Plist.Lisp_Object.cons 2) = false → r = 0) ∧
      (Plist.circular Plist.heap_lists (Plist.Lisp_Object.cons 2) ∨
        ∃ n, Plist.chain_of Plist.heap_lists (Plist.Lisp_Object.cons 2) n) :=
  cdr_chain_length_correct Plist.heap_lists (Plist.Lisp_Object.cons 2) 7 (by decide)

/-- On the example heap: the proper list of two cells has length 2, the
circular list gives `-1`, the dotted pair has length 1 and an integer has
length 0. -/
theorem Plist.cdr_chain_length_examples :
    Plist.cdr_chain_length Plist.heap_lists 7 (Plist.Lisp_Object.cons 2) = some 2 ∧
    Plist.cdr_chain_length Plist.heap_lists 7 (Plist.Lisp_Object.cons 0) = some (-1) ∧
    Plist.cdr_chain_length Plist.heap_lists 7 (Plist.Lisp_Object.cons 4) = some 1 ∧
    Plist.cdr_chain_length Plist.heap_lists 7 (Plist.Lisp_Object.integer 6) = some 0 := by
  refine ⟨?_, ?_, ?_, ?_⟩ <;> decide

/-! ### Reading a resource file -/

theorem Xrm.char_at_nil : Xrm.char_at [] 0 = some 0 := by
  simp [Xrm.char_at]

theorem Xrm.char_at_cons (c : Nat) (p : List Nat) : Xrm.char_at (c :: p) 0 = some c := by
  simp [Xrm.char_at]

theorem Xrm.advance_nil : Xrm.advance [] 1 = none := by
  simp [Xrm.advance]

theorem Xrm.advance_cons (c : Nat) (p : List Nat) : Xrm.advance (c :: p) 1 = some p := by
  simp [Xrm.advance]

theorem Xrm.skip_white_space_sound :
    ∀ (fuel : Nat) (p p' : List Nat), Xrm.skip_white_space fuel p = some p' →
      ∃ ws, p = ws ++ p' ∧ (∀ c ∈ ws, c = 32 ∨ c = 9) ∧
        (∀ c rest, p' = c :: rest → ¬ (c = 32 ∨ c = 9)) := by
  intro fuel
  induction fuel with
  | zero => intro p p' h; simp [Xrm.skip_white_space] at h
  | succ fuel ih =>
    intro p p' h
    cases p with
    | nil =>
      simp [Xrm.skip_white_space, Xrm.char_at_nil] at h
      subst h
      exact ⟨[], rfl, by simp, by simp⟩
    | cons c p =>
      simp only [Xrm.skip_white_space, Xrm.char_at_cons, Xrm.advance_cons] at h
      by_cases hc : c = 32 ∨ c = 9
      · simp only [hc, if_true] at h
        obtain ⟨ws, h1, h2, h3⟩ := ih p p' h
        refine ⟨c :: ws, by rw [h1]; rfl, ?_, h3⟩
        intro x hx
        rcases List.mem_cons.1 hx with rfl | hx
        · exact hc
        · exact h2 x hx
      · simp only [hc, if_false, Option.some.injEq] at h
        subst h
        refine ⟨[], rfl, by simp, ?_⟩
        intro x rest hx
        simp only [List.cons.injEq] at hx
        rw [← hx.1]
        exact hc

theorem Xrm.skip_white_space_total :
    ∀ (fuel : Nat) (p : List Nat), p.length < fuel →
      ∃ p', Xrm.skip_white_space fuel p = some p' := by
  intro fuel
  induction fuel with
  | zero => intro p h; omega
  | succ fuel ih =>
    intro p h
    cases p with
    | nil => exact ⟨[], by simp [Xrm.skip_white_space, Xrm.char_at_nil]⟩
    | cons c p =>
      simp only [Xrm.skip_white_space, Xrm.char_at_cons, Xrm.advance_cons]
      by_cases hc : c = 32 ∨ c = 9
      · simp only [hc, if_true]
        exact ih p (by simpa using h)
      · exact ⟨c :: p, by simp [hc]⟩

theorem Xrm.skip_line_sound :
    ∀ (fuel : Nat) (p p' : List Nat), Xrm.skip_line fuel p = some p' → p' <:+ p := by
  intro fuel
  induction fuel with
  | zero => intro p p' h; simp [Xrm.skip_line] at h
  | succ fuel ih =>
    intro p p' h
    cases p with
    | nil =>
      simp [Xrm.skip_line, Xrm.char_at_nil] at h
      subst h
      exact List.suffix_refl _
    | cons c p =>
      simp only [Xrm.skip_line, Xrm.char_at_cons, Xrm.advance_cons] at h
      by_cases hc : c = 0
      · simp only [hc, ne_eq, not_true_eq_false, if_false, Option.some.injEq] at h
        rw [← h, hc]
      · simp only [ne_eq, hc, not_false_eq_true, if_true] at h
        by_cases hn : c = 10
        · simp only [hn, if_true, Option.some.injEq] at h
          subst h
          exact List.suffix_cons _ _
        · simp only [hn, if_false] at h
          exact (ih p p' h).trans (List.suffix_cons _ _)

theorem Xrm.skip_line_total :
    ∀ (fuel : Nat) (p : List Nat), p.length < fuel →
      ∃ p', Xrm.skip_line fuel p = some p' := by
  intro fuel
  induction fuel with
  | zero => intro p h; omega
  | succ fuel ih =>
    intro p h
    cases p with
    | nil => exact ⟨[], by simp [Xrm.skip_line, Xrm.char_at_nil]⟩
    | cons c p =>
      simp only [Xrm.skip_line, Xrm.char_at_cons, Xrm.advance_cons]
      by_cases hc : c = 0
      · exact ⟨c :: p, by simp [hc]⟩
      · simp only [ne_eq, hc, not_false_eq_true, if_true]
        by_cases hn : c = 10
        · exact ⟨p, by simp [hn]⟩
        · simp only [hn, if_false]
          exact ih p (by simpa using h)

/-- What `parse_comment` and `parse_include_file` do, `mark` being `'!'` or
`'#'`: on a line that starts with `mark` they consume at least that
character and answer true, otherwise they consume nothing and answer
false. -/
theorem Xrm.parse_comment_sound (fuel : Nat) (p : List Nat) (b : Bool) (p' : List Nat)
    (h : Xrm.parse_comment fuel p = some (b, p')) :
    (b = true ∧ p' <:+ p ∧ p'.length < p.length) ∨ (b = false ∧ p' = p) := by
  cases p with
  | nil =>
    simp [Xrm.parse_comment, Xrm.char_at_nil] at h
    exact Or.inr ⟨h.1, h.2⟩
  | cons c p =>
    simp only [Xrm.parse_comment, Xrm.char_at_cons, Xrm.advance_cons] at h
    by_cases hc : c = 33
    · simp only [hc, if_true] at h
      cases hs : Xrm.skip_line fuel p with
      | none => simp [hs] at h
      | some p2 =>
        simp only [hs, Option.some.injEq, Prod.mk.injEq] at h
        obtain ⟨rfl, rfl⟩ := h
        have := Xrm.skip_line_sound fuel p p2 hs
        exact Or.inl ⟨rfl, this.trans (List.suffix_cons _ _),
          Nat.lt_succ_of_le this.length_le⟩
    · simp only [hc, if_false, Option.some.injEq, Prod.mk.injEq] at h
      exact Or.inr ⟨h.1.symm, h.2.symm⟩

theorem Xrm.parse_comment_total (fuel : Nat) (p : List Nat) (hf : p.length < fuel) :
    ∃ r, Xrm.parse_comment fuel p = some r := by
  cases p with
  | nil => exact ⟨(false, []), by simp [Xrm.parse_comment, Xrm.char_at_nil]⟩
  | cons c p =>
    simp only [Xrm.parse_comment, Xrm.char_at_cons, Xrm.advance_cons]
    by_cases hc : c = 33
    · obtain ⟨p2, hs⟩ := Xrm.skip_line_total fuel p (by simp at hf; omega)
      exact ⟨(true, p2), by simp [hc, hs]⟩
    · exact ⟨(false, c :: p), by simp [hc]⟩

theorem Xrm.parse_include_file_sound (fuel : Nat) (p : List Nat) (b : Bool) (p' : List Nat)
    (h : Xrm.parse_include_file fuel p = some (b, p')) :
    (b = true ∧ p' <:+ p ∧ p'.length < p.length) ∨ (b = false ∧ p' = p) := by
  cases p with
  | nil =>
    simp [Xrm.parse_include_file, Xrm.char_at_nil] at h
    exact Or.inr ⟨h.1, h.2⟩
  | cons c p =>
    simp only [Xrm.parse_include_file, Xrm.char_at_cons, Xrm.advance_cons] at h
    by_cases hc : c = 35
    · simp only [hc, if_true] at h
      cases hs : Xrm.skip_line fuel p with
      | none => simp [hs] at h
      | some p2 =>
        simp only [hs, Option.some.injEq, Prod.mk.injEq] at h
        obtain ⟨rfl, rfl⟩ := h
        have := Xrm.skip_line_sound fuel p p2 hs
        exact Or.inl ⟨rfl, this.trans (List.suffix_cons _ _),
          Nat.lt_succ_of_le this.length_le⟩
    · simp only [hc, if_false, Option.some.injEq, Prod.mk.injEq] at h
      exact Or.inr ⟨h.1.symm, h.2.symm⟩

theorem Xrm.parse_include_file_total (fuel : Nat) (p : List Nat) (hf : p.length < fuel) :
    ∃ r, Xrm.parse_include_file fuel p = some r := by
  cases p with
  | nil => exact ⟨(false, []), by simp [Xrm.parse_include_file, Xrm.char_at_nil]⟩
  | cons c p =>
    simp only [Xrm.parse_include_file, Xrm.char_at_cons, Xrm.advance_cons]
    by_cases hc : c = 35
    · obtain ⟨p2, hs⟩ := Xrm.skip_line_total fuel p (by simp at hf; omega)
      exact ⟨(true, p2), by simp [hc, hs]⟩
    · exact ⟨(false, c :: p), by simp [hc]⟩

theorem Xrm.parse_binding_loop_sound :
    ∀ (fuel : Nat) (p : List Nat) (binding b : Nat) (p' : List Nat),
      Xrm.parse_binding_loop fuel p binding = some (b, p') →
      ∃ run, p = run ++ p' ∧ Xrm.binding_run run ∧ Xrm.no_binding_ahead p' ∧
        b = (if 42 ∈ run then 42 else binding) := by
  intro fuel
  induction fuel with
  | zero => intro p binding b p' h; simp [Xrm.parse_binding_loop] at h
  | succ fuel ih =>
    intro p binding b p' h
    cases p with
    | nil =>
      simp [Xrm.parse_binding_loop, Xrm.char_at_nil] at h
      obtain ⟨rfl, rfl⟩ := h
      exact ⟨[], rfl, by simp [Xrm.binding_run], by simp [Xrm.no_binding_ahead], by simp⟩
    | cons c p =>
      simp only [Xrm.parse_binding_loop, Xrm.char_at_cons, Xrm.advance_cons] at h
      by_cases hc : c = 46 ∨ c = 42
      · simp only [hc, if_true] at h
        obtain ⟨run, h1, h2, h3, h4⟩ := ih p _ b p' h
        refine ⟨c :: run, by rw [h1]; rfl, ?_, h3, ?_⟩
        · intro x hx
          rcases List.mem_cons.1 hx with rfl | hx
          · exact hc
          · exact h2 x hx
        · rw [h4]
          by_cases h42 : c = 42
          · simp [h42]
          · have : (42 ∈ c :: run) ↔ 42 ∈ run := by
              simp [List.mem_cons, Ne.symm h42]
            simp [h42, this]
      · simp only [hc, if_false, Option.some.injEq, Prod.mk.injEq] at h
        obtain ⟨rfl, rfl⟩ := h
        refine ⟨[], rfl, by simp [Xrm.binding_run], ?_, by simp⟩
        intro x rest hx
        simp only [List.cons.injEq] at hx
        rw [← hx.1]
        exact hc

theorem Xrm.parse_binding_loop_total :
    ∀ (fuel : Nat) (p : List Nat) (binding : Nat), p.length < fuel →
      ∃ r, Xrm.parse_binding_loop fuel p binding = some r := by
  intro fuel
  induction fuel with
  | zero => intro p binding h; omega
  | succ fuel ih =>
    intro p binding h
    cases p with
    | nil => exact ⟨(binding, []), by simp [Xrm.parse_binding_loop, Xrm.char_at_nil]⟩
    | cons c p =>
      simp only [Xrm.parse_binding_loop, Xrm.char_at_cons, Xrm.advance_cons]
      by_cases hc : c = 46 ∨ c = 42
      · simp only [hc, if_true]
        exact ih p _ (by simpa using h)
      · exact ⟨(binding, c :: p), by simp [hc]⟩

/-- `parse_binding` consumes the longest run of binding characters; it
answers 0 when the run is empty, `'*'` when the run holds a `'*'`, and
`'.'` otherwise. -/
theorem Xrm.parse_binding_sound (fuel : Nat) (p : List Nat) (b : Nat) (p' : List Nat)
    (h : Xrm.parse_binding fuel p = some (b, p')) :
    ∃ run, p = run ++ p' ∧ Xrm.binding_run run ∧ Xrm.no_binding_ahead p' ∧
      ((run = [] ∧ b = 0) ∨ (run ≠ [] ∧ b = (if 42 ∈ run then 42 else 46))) := by
  cases p with
  | nil =>
    simp [Xrm.parse_binding, Xrm.char_at_nil] at h
    obtain ⟨rfl, rfl⟩ := h
    exact ⟨[], rfl, by simp [Xrm.binding_run], by simp [Xrm.no_binding_ahead],
      Or.inl ⟨rfl, rfl⟩⟩
  | cons c p =>
    simp only [Xrm.parse_binding, Xrm.char_at_cons, Xrm.advance_cons] at h
    by_cases hc : c = 46 ∨ c = 42
    · simp only [hc, if_true] at h
      obtain ⟨run, h1, h2, h3, h4⟩ := Xrm.parse_binding_loop_sound fuel p c b p' h
      refine ⟨c :: run, by rw [h1]; rfl, ?_, h3, Or.inr ⟨by simp, ?_⟩⟩
      · intro x hx
        rcases List.mem_cons.1 hx with rfl | hx
        · exact hc
        · exact h2 x hx
      · rw [h4]
        rcases hc with rfl | rfl
        · have : (42 ∈ 46 :: run) ↔ 42 ∈ run := by simp [List.mem_cons]
          simp [this]
        · simp
    · simp only [hc, if_false, Option.some.injEq, Prod.mk.injEq] at h
      obtain ⟨rfl, rfl⟩ := h
      refine ⟨[], rfl, by simp [Xrm.binding_run], ?_, Or.inl ⟨rfl, rfl⟩⟩
      intro x rest hx
      simp only [List.cons.injEq] at hx
      rw [← hx.1]
      exact hc

theorem Xrm.parse_binding_total (fuel : Nat) (p : List Nat) (hf : p.length < fuel) :
    ∃ r, Xrm.parse_binding fuel p = some r := by
  cases p with
  | nil => exact ⟨(0, []), by simp [Xrm.parse_binding, Xrm.char_at_nil]⟩
  | cons c p =>
    simp only [Xrm.parse_binding, Xrm.char_at_cons, Xrm.advance_cons]
    by_cases hc : c = 46 ∨ c = 42
    · simp only [hc, if_true]
      exact Xrm.parse_binding_loop_total fuel p c (by simp at hf; omega)
    · exact ⟨(0, c :: p), by simp [hc]⟩

theorem Xrm.parse_component_loop_sound :
    ∀ (fuel : Nat) (p p' : List Nat), Xrm.parse_component_loop fuel p = some p' →
      ∃ s, p = s ++ p' ∧ (∀ c ∈ s, Xrm.name_char c = true) ∧
        (∀ c rest, p' = c :: rest → Xrm.name_char c = false) := by
  intro fuel
  induction fuel with
  | zero => intro p p' h; simp [Xrm.parse_component_loop] at h
  | succ fuel ih =>
    intro p p' h
    cases p with
    | nil =>
      simp [Xrm.parse_component_loop, Xrm.char_at_nil, Xrm.name_char, Xrm.isalnum] at h
      subst h
      exact ⟨[], rfl, by simp, by simp⟩
    | cons c p =>
      simp only [Xrm.parse_component_loop, Xrm.char_at_cons, Xrm.advance_cons] at h
      by_cases hc : Xrm.name_char c = true
      · simp only [hc, if_true] at h
        obtain ⟨s, h1, h2, h3⟩ := ih p p' h
        refine ⟨c :: s, by rw [h1]; rfl, ?_, h3⟩
        intro x hx
        rcases List.mem_cons.1 hx with rfl | hx
        · exact hc
        · exact h2 x hx
      · simp only [hc, Bool.false_eq_true, if_false, Option.some.injEq] at h
        subst h
        refine ⟨[], rfl, by simp, ?_⟩
        intro x rest hx
        simp only [List.cons.injEq] at hx
        rw [← hx.1]
        simpa using hc

theorem Xrm.parse_component_loop_total :
    ∀ (fuel : Nat) (p : List Nat), p.length < fuel →
      ∃ p', Xrm.parse_component_loop fuel p = some p' := by
  intro fuel
  induction fuel with
  | zero => intro p h; omega
  | succ fuel ih =>
    intro p h
    cases p with
    | nil =>
      exact ⟨[], by simp [Xrm.parse_component_loop, Xrm.char_at_nil, Xrm.name_char,
        Xrm.isalnum]⟩
    | cons c p =>
      simp only [Xrm.parse_component_loop, Xrm.char_at_cons, Xrm.advance_cons]
      by_cases hc : Xrm.name_char c = true
      · simp only [hc, if_true]
        exact ih p (by simpa using h)
      · exact ⟨c :: p, by simp [hc]⟩

/-- `parse_component` answers `SINGLE_COMPONENT` after consuming a `'?'`,
the string of the longest run of name characters after consuming it when it
is not empty, and `nil` without consuming anything otherwise. -/
theorem Xrm.parse_component_sound (fuel : Nat) (p : List Nat) (comp : Xrm.Lisp_Object)
    (p' : List Nat) (h : Xrm.parse_component fuel p = some (comp, p')) :
    (comp = Xrm.SINGLE_COMPONENT ∧ p = 63 :: p') ∨
    (∃ s, comp = Xrm.Lisp_Object.string s ∧ Xrm.component_name s ∧ p = s ++ p' ∧
      (∀ c rest, p' = c :: rest → Xrm.name_char c = false)) ∨
    (comp = Xrm.Qnil ∧ p' = p) := by
  cases p with
  | nil =>
    simp [Xrm.parse_component, Xrm.char_at_nil, Xrm.name_char, Xrm.isalnum] at h
    exact Or.inr (Or.inr ⟨h.1.symm, h.2⟩)
  | cons c p =>
    simp only [Xrm.parse_component, Xrm.char_at_cons, Xrm.advance_cons] at h
    by_cases hq : c = 63
    · simp only [hq, if_true, Option.some.injEq, Prod.mk.injEq] at h
      obtain ⟨rfl, rfl⟩ := h
      exact Or.inl ⟨rfl, by rw [hq]⟩
    · simp only [hq, if_false] at h
      by_cases hc : Xrm.name_char c = true
      · simp only [hc, if_true] at h
        cases hl : Xrm.parse_component_loop fuel p with
        | none => simp [hl] at h
        | some p2 =>
          simp only [hl, Option.some.injEq, Prod.mk.injEq] at h
          obtain ⟨rfl, rfl⟩ := h
          obtain ⟨s, h1, h2, h3⟩ := Xrm.parse_component_loop_sound fuel p p2 hl
          refine Or.inr (Or.inl ⟨c :: s, ?_, ⟨by simp, ?_⟩, by rw [h1]; rfl, h3⟩)
          · simp only [Xrm.make_unibyte_string, h1]
            congr 1
            have : (c :: (s ++ p2)).length - p2.length = (c :: s).length := by
              simp; omega
            rw [this]
            exact @List.take_left' _ (c :: s) p2 _ rfl
          · intro x hx
            rcases List.mem_cons.1 hx with rfl | hx
            · exact hc
            · exact h2 x hx
      · simp only [hc, Bool.false_eq_true, if_false, Option.some.injEq,
          Prod.mk.injEq] at h
        exact Or.inr (Or.inr ⟨h.1.symm, h.2.symm⟩)

theorem Xrm.parse_component_total (fuel : Nat) (p : List Nat) (hf : p.length < fuel) :
    ∃ r, Xrm.parse_component fuel p = some r := by
  cases p with
  | nil =>
    exact ⟨(Xrm.Qnil, []), by simp [Xrm.parse_component, Xrm.char_at_nil, Xrm.name_char,
      Xrm.isalnum]⟩
  | cons c p =>
    simp only [Xrm.parse_component, Xrm.char_at_cons, Xrm.advance_cons]
    by_cases hq : c = 63
    · exact ⟨(Xrm.SINGLE_COMPONENT, p), by simp [hq]⟩
    · simp only [hq, if_false]
      by_cases hc : Xrm.name_char c = true
      · obtain ⟨p2, hl⟩ := Xrm.parse_component_loop_total fuel p (by simp at hf; omega)
        exact ⟨(Xrm.make_unibyte_string (c :: p) ((c :: p).length - p2.length), p2),
          by simp [hc, hl]⟩
      · exact ⟨(Xrm.Qnil, c :: p), by simp [hc]⟩

/-! ### Resource names (C25) -/

theorem Xrm.Fnreverse_loop_list_of (a : List Xrm.Lisp_Object) :
    ∀ b, Xrm.Fnreverse_loop (Xrm.list_of a) (Xrm.list_of b) = Xrm.list_of (a.reverse ++ b) := by
  induction a with
  | nil => intro b; simp [Xrm.list_of, Xrm.Fnreverse_loop, Xrm.Qnil]
  | cons x a ih =>
    intro b
    simp only [Xrm.list_of, Xrm.Fcons, Xrm.Fnreverse_loop]
    have := ih (x :: b)
    simp only [Xrm.list_of, Xrm.Fcons] at this
    rw [this]
    simp

theorem Xrm.Fnreverse_list_of (a : List Xrm.Lisp_Object) :
    Xrm.Fnreverse (Xrm.list_of a) = Xrm.list_of a.reverse := by
  have := Xrm.Fnreverse_loop_list_of a []
  simpa [Xrm.Fnreverse, Xrm.list_of] using this

theorem Xrm.list_of_ne_nil (x : Xrm.Lisp_Object) (l : List Xrm.Lisp_Object) :
    Xrm.list_of (x :: l) ≠ Xrm.Qnil := by
  simp [Xrm.list_of, Xrm.Fcons, Xrm.Qnil]

theorem Xrm.quarks_of_append (a b : List (List Nat × Xrm.Lisp_Object)) :
    Xrm.quarks_of (a ++ b) = Xrm.quarks_of a ++ Xrm.quarks_of b := by
  induction a with
  | nil => simp [Xrm.quarks_of]
  | cons it a ih => simp [Xrm.quarks_of, ih]

theorem Xrm.component_of_parse (fuel : Nat) (p : List Nat) (comp : Xrm.Lisp_Object)
    (p' : List Nat) (h : Xrm.parse_component fuel p = some (comp, p'))
    (hn : Xrm.NILP comp = false) :
    Xrm.component comp ∧ p = Xrm.component_text comp ++ p' := by
  rcases Xrm.parse_component_sound fuel p comp p' h with
    ⟨h1, h2⟩ | ⟨s, h1, h2, h3, -⟩ | ⟨h1, -⟩
  · refine ⟨Or.inl h1, ?_⟩
    rw [h1, h2]
    rfl
  · refine ⟨Or.inr ⟨s, h1, h2⟩, ?_⟩
    rw [h1, h3]
    rfl
  · rw [h1] at hn
    simp [Xrm.NILP] at hn

/-- The loop of `parse_resource_name`, entered with the reversed list of the
quarks `R` in `result`: it answers `nil`, or the list of `R` in order
followed by the quarks of the items it consumed, each of which starts with a
run of binding characters that is not empty; the last component, which is
`component` when no item was consumed, is not `SINGLE_COMPONENT`. -/
theorem Xrm.parse_resource_name_loop_sound (fuel : Nat) :
    ∀ (n : Nat) (p : List Nat) (result component res : Xrm.Lisp_Object) (p' : List Nat)
      (R : List Xrm.Lisp_Object),
      Xrm.parse_resource_name_loop fuel n p result component = some (res, p') →
      result = Xrm.list_of R →
      res = Xrm.Qnil ∨
      ∃ items, p = Xrm.text_of items ++ p' ∧
        (∀ it ∈ items, Xrm.binding_run it.1 ∧ it.1 ≠ [] ∧ Xrm.component it.2) ∧
        res = Xrm.list_of (R.reverse ++ Xrm.quarks_of items) ∧
        ∃ last, (component :: items.map (fun it => it.2)).getLast? = some last ∧
          last ≠ Xrm.SINGLE_COMPONENT := by
  intro n
  induction n with
  | zero => intro p result component res p' R h; simp [Xrm.parse_resource_name_loop] at h
  | succ n ih =>
    intro p result component res p' R h hR
    simp only [Xrm.parse_resource_name_loop] at h
    cases hb : Xrm.parse_binding fuel p with
    | none => simp [hb] at h
    | some bp =>
      obtain ⟨binding, p1⟩ := bp
      simp only [hb] at h
      obtain ⟨run, b1, b2, -, b4⟩ := Xrm.parse_binding_sound fuel p binding p1 hb
      by_cases h0 : binding = 0
      · simp only [h0, ne_eq, not_true_eq_false, if_false] at h
        by_cases hs : component = Xrm.SINGLE_COMPONENT
        · simp only [hs, if_true, Option.some.injEq, Prod.mk.injEq] at h
          exact Or.inl h.1.symm
        · simp only [hs, if_false, Option.some.injEq, Prod.mk.injEq] at h
          obtain ⟨rfl, rfl⟩ := h
          have hrun : run = [] := by
            rcases b4 with ⟨h1, -⟩ | ⟨-, h2⟩
            · exact h1
            · rw [h0] at h2
              by_cases h42 : 42 ∈ run <;> simp [h42] at h2
          refine Or.inr ⟨[], by rw [b1, hrun]; rfl, by simp, ?_, component, by simp, hs⟩
          rw [hR, Xrm.Fnreverse_list_of]
          simp [Xrm.quarks_of]
      · simp only [ne_eq, h0, not_false_eq_true, if_true] at h
        cases hc : Xrm.parse_component fuel p1 with
        | none => simp [hc] at h
        | some cp =>
          obtain ⟨component1, p2⟩ := cp
          simp only [hc] at h
          by_cases hn : Xrm.NILP component1 = true
          · simp only [hn, if_true, Option.some.injEq, Prod.mk.injEq] at h
            exact Or.inl h.1.symm
          · have hn' : Xrm.NILP component1 = false := by simpa using hn
            simp only [hn', Bool.false_eq_true, if_false] at h
            obtain ⟨c1, c2⟩ := Xrm.component_of_parse fuel p1 component1 p2 hc hn'
            have hrun : run ≠ [] ∧ binding = (if 42 ∈ run then 42 else 46) := by
              rcases b4 with ⟨-, h2⟩ | h2
              · exact absurd h2 h0
              · exact h2
            have hR1 : Xrm.Fcons component1
                (if binding = 42 then Xrm.Fcons Xrm.LOOSE_BINDING result else result)
                = Xrm.list_of (component1 ::
                  ((if 42 ∈ run then [Xrm.LOOSE_BINDING] else []) ++ R)) := by
              rw [hrun.2, hR]
              by_cases h42 : 42 ∈ run <;> simp [h42, Xrm.list_of]
            rcases ih p2 _ component1 res p' _ h hR1 with h1 | ⟨items, i1, i2, i3, last, i4, i5⟩
            · exact Or.inl h1
            · refine Or.inr ⟨(run, component1) :: items, ?_, ?_, ?_, last, ?_, i5⟩
              · rw [b1, c2, i1]
                simp [Xrm.text_of]
              · intro it hit
                rcases List.mem_cons.1 hit with rfl | hit
                · exact ⟨b2, hrun.1, c1⟩
                · exact i2 it hit
              · rw [i3]
                congr 1
                by_cases h42 : 42 ∈ run <;> simp [h42, Xrm.quarks_of]
              · simpa using i4

/-- `parse_resource_name` answers `nil`, or the list of the quarks of the
items it consumed. -/
theorem Xrm.parse_resource_name_sound (fuel : Nat) (p : List Nat) (res : Xrm.Lisp_Object)
    (p' : List Nat) (h : Xrm.parse_resource_name fuel p = some (res, p')) :
    res = Xrm.Qnil ∨
    ∃ items, items ≠ [] ∧ p = Xrm.text_of items ++ p' ∧
      (∀ it ∈ items, Xrm.binding_run it.1 ∧ Xrm.component it.2) ∧
      (∀ it ∈ items.tail, it.1 ≠ []) ∧
      res = Xrm.list_of (Xrm.quarks_of items) ∧
      ∃ last, (items.map (fun it => it.2)).getLast? = some last ∧
        last ≠ Xrm.SINGLE_COMPONENT := by
  simp only [Xrm.parse_resource_name] at h
  cases hb : Xrm.parse_binding fuel p with
  | none => simp [hb] at h
  | some bp =>
    obtain ⟨binding, p1⟩ := bp
    simp only [hb] at h
    obtain ⟨run, b1, b2, -, b4⟩ := Xrm.parse_binding_sound fuel p binding p1 hb
    cases hc : Xrm.parse_component fuel p1 with
    | none => simp [hc] at h
    | some cp =>
      obtain ⟨component, p2⟩ := cp
      simp only [hc] at h
      by_cases hn : Xrm.NILP component = true
      · simp only [hn, if_true, Option.some.injEq, Prod.mk.injEq] at h
        exact Or.inl h.1.symm
      · have hn' : Xrm.NILP component = false := by simpa using hn
        simp only [hn', Bool.false_eq_true, if_false] at h
        obtain ⟨c1, c2⟩ := Xrm.component_of_parse fuel p1 component p2 hc hn'
        have hbind : (binding = 42) ↔ 42 ∈ run := by
          rcases b4 with ⟨h1, h2⟩ | ⟨-, h2⟩
          · simp [h1, h2]
          · rw [h2]
            by_cases h42 : 42 ∈ run <;> simp [h42]
        have hR1 : Xrm.Fcons component
            (if binding = 42 then Xrm.Fcons Xrm.LOOSE_BINDING Xrm.Qnil else Xrm.Qnil)
            = Xrm.list_of (component :: (if 42 ∈ run then [Xrm.LOOSE_BINDING] else [])) := by
          by_cases h42 : 42 ∈ run
          · simp [h42, hbind.2 h42, Xrm.list_of]
          · have : ¬ binding = 42 := fun hh => h42 (hbind.1 hh)
            simp [h42, this, Xrm.list_of]
        rcases Xrm.parse_resource_name_loop_sound fuel fuel p2 _ component res p' _ h hR1 with
          h1 | ⟨items, i1, i2, i3, last, i4, i5⟩
        · exact Or.inl h1
        · refine Or.inr ⟨(run, component) :: items, by simp, ?_, ?_, ?_, ?_, last, ?_, i5⟩
          · rw [b1, c2, i1]
            simp [Xrm.text_of]
          · intro it hit
            rcases List.mem_cons.1 hit with rfl | hit
            · exact ⟨b2, c1⟩
            · exact ⟨(i2 it hit).1, (i2 it hit).2.2⟩
          · intro it hit
            exact (i2 it (by simpa using hit)).2.1
          · rw [i3]
            congr 1
            by_cases h42 : 42 ∈ run <;> simp [h42, Xrm.quarks_of]
          · simpa using i4

theorem Xrm.component_ne_loose (x : Xrm.Lisp_Object) (h : Xrm.component x) :
    x ≠ Xrm.LOOSE_BINDING := by
  rcases h with rfl | ⟨s, rfl, -⟩ <;>
    simp [Xrm.SINGLE_COMPONENT, Xrm.LOOSE_BINDING, Xrm.Qquote, Xrm.Qlambda]

theorem Xrm.quarks_of_getLast (items : List (List Nat × Xrm.Lisp_Object)) :
    (Xrm.quarks_of items).getLast? = (items.map (fun it => it.2)).getLast? := by
  induction items with
  | nil => simp [Xrm.quarks_of]
  | cons it rest ih =>
    cases rest with
    | nil => by_cases h42 : 42 ∈ it.1 <;> simp [Xrm.quarks_of, h42]
    | cons it2 rest =>
      have hne : Xrm.quarks_of (it2 :: rest) ≠ [] := by
        by_cases h42 : 42 ∈ it2.1 <;> simp [Xrm.quarks_of, h42]
      have h1 : (Xrm.quarks_of (it :: it2 :: rest)).getLast?
          = (Xrm.quarks_of (it2 :: rest)).getLast? := by
        show (((if 42 ∈ it.1 then [Xrm.LOOSE_BINDING] else []) ++ [it.2]) ++
          Xrm.quarks_of (it2 :: rest)).getLast? = _
        rw [List.getLast?_append_of_ne_nil _ hne]
      rw [h1, ih]
      simp

theorem Xrm.quarks_of_chain (items : List (List Nat × Xrm.Lisp_Object))
    (h : ∀ it ∈ items, Xrm.component it.2) :
    List.Chain' (fun a b => ¬ (a = Xrm.LOOSE_BINDING ∧ b = Xrm.LOOSE_BINDING))
      (Xrm.quarks_of items) := by
  induction items with
  | nil => simp [Xrm.quarks_of]
  | cons it rest ih =>
    have hc : it.2 ≠ Xrm.LOOSE_BINDING := Xrm.component_ne_loose _ (h it (by simp))
    have ih' := ih (fun it' hit => h it' (by simp [hit]))
    have h2 : List.Chain' (fun a b => ¬ (a = Xrm.LOOSE_BINDING ∧ b = Xrm.LOOSE_BINDING))
        (it.2 :: Xrm.quarks_of rest) := by
      rw [List.chain'_cons']
      exact ⟨fun y _ hy => hc hy.1, ih'⟩
    by_cases h42 : 42 ∈ it.1
    · simp only [Xrm.quarks_of, h42, if_true, List.singleton_append, List.cons_append,
        List.nil_append]
      rw [List.chain'_cons']
      refine ⟨?_, h2⟩
      intro y hy hyy
      simp only [List.head?_cons, Option.mem_def, Option.some.injEq] at hy
      exact hc (hy ▸ hyy.2)
    · simpa [Xrm.quarks_of, h42] using h2

/-- C25: resource names parse to well-formed quark lists.  Whenever
`parse_resource_name` returns a result that is not `nil`, the result is the
Lisp list of quarks that are not empty; every quark is `LOOSE_BINDING`,
`SINGLE_COMPONENT` or the string of a component name; the last quark is a
string; no two `LOOSE_BINDING` are adjacent; and the quarks are those of the
items of the text consumed, an item being a run of binding characters (empty
for the first item only) and a component, where a run yields one
`LOOSE_BINDING` when it holds a `'*'` and no quark otherwise. -/
theorem parse_resource_name_well_formed (fuel : Nat) (p : List Nat)
    (result : Xrm.Lisp_Object) (p' : List Nat)
    (h : Xrm.parse_resource_name fuel p = some (result, p'))
    (hne : result ≠ Xrm.Qnil) :
    ∃ (items : List (List Nat × Xrm.Lisp_Object)) (quarks : List Xrm.Lisp_Object),
      result = Xrm.list_of quarks ∧ quarks ≠ [] ∧
      (∀ q ∈ quarks, q = Xrm.LOOSE_BINDING ∨ q = Xrm.SINGLE_COMPONENT ∨
        ∃ s, q = Xrm.Lisp_Object.string s ∧ Xrm.component_name s) ∧
      (∃ s, quarks.getLast? = some (Xrm.Lisp_Object.string s)) ∧
      List.Chain' (fun a b => ¬ (a = Xrm.LOOSE_BINDING ∧ b = Xrm.LOOSE_BINDING)) quarks ∧
      quarks = Xrm.quarks_of items ∧
      p = Xrm.text_of items ++ p' ∧
      (∀ it ∈ items, Xrm.binding_run it.1 ∧ Xrm.component it.2) ∧
      (∀ it ∈ items.tail, it.1 ≠ []) := by
  rcases Xrm.parse_resource_name_sound fuel p result p' h with
    h0 | ⟨items, i0, i1, i2, i3, i4, last, i5, i6⟩
  · exact absurd h0 hne
  · refine ⟨items, Xrm.quarks_of items, i4, ?_, ?_, ?_, ?_, rfl, i1, i2, i3⟩
    · cases items with
      | nil => exact absurd rfl i0
      | cons it rest => by_cases h42 : 42 ∈ it.1 <;> simp [Xrm.quarks_of, h42]
    · have hq : ∀ (l : List (List Nat × Xrm.Lisp_Object)),
          (∀ it ∈ l, Xrm.component it.2) →
          ∀ q ∈ Xrm.quarks_of l, q = Xrm.LOOSE_BINDING ∨ q = Xrm.SINGLE_COMPONENT ∨
            ∃ s, q = Xrm.Lisp_Object.string s ∧ Xrm.component_name s := by
        intro l
        induction l with
        | nil => intro _ q hq; simp [Xrm.quarks_of] at hq
        | cons it rest ih =>
          intro hl q hq
          simp only [Xrm.quarks_of, List.mem_append, List.mem_singleton] at hq
          rcases hq with (hq | hq) | hq
          · by_cases h42 : 42 ∈ it.1
            · simp only [h42, if_true, List.mem_singleton] at hq
              exact Or.inl hq
            · simp [h42] at hq
          · rw [hq]
            exact Or.inr (hl it (by simp))
          · exact ih (fun it' hit => hl it' (by simp [hit])) q hq
      exact hq items (fun it hit => (i2 it hit).2)
    · rw [Xrm.quarks_of_getLast, i5]
      have hlast : last ∈ items.map (fun it => it.2) := List.mem_of_getLast?_eq_some i5
      obtain ⟨it, hit, rfl⟩ := List.mem_map.1 hlast
      rcases (i2 it hit).2 with hs | ⟨s, hs, -⟩
      · exact absurd hs i6
      · exact ⟨s, by rw [hs]⟩
    · exact Xrm.quarks_of_chain items (fun it hit => (i2 it hit).2)

/-- The resource name `"Emacs*font"` yields `("Emacs" LOOSE_BINDING "font")`. -/
theorem Xrm.parse_resource_name_emacs_font :
    Xrm.parse_resource_name 11 Xrm.emacs_font =
      some (Xrm.list_of [Xrm.Lisp_Object.string [69, 109, 97, 99, 115], Xrm.LOOSE_BINDING,
        Xrm.Lisp_Object.string [102, 111, 110, 116]], []) := by
  decide

theorem parse_resource_name_well_formed_witness :
    Xrm.parse_resource_name 11 Xrm.emacs_font =
      some (Xrm.list_of [Xrm.Lisp_Object.string [69, 109, 97, 99, 115], Xrm.LOOSE_BINDING,
        Xrm.Lisp_Object.string [102, 111, 110, 116]], []) ∧
    ∃ (items : List (List Nat × Xrm.Lisp_Object)) (quarks : List Xrm.Lisp_Object),
      Xrm.list_of [Xrm.Lisp_Object.string [69, 109, 97, 99, 115], Xrm.LOOSE_BINDING,
        Xrm.Lisp_Object.string [102, 111, 110, 116]] = Xrm.list_of quarks ∧ quarks ≠ [] ∧
      (∀ q ∈ quarks, q = Xrm.LOOSE_BINDING ∨ q = Xrm.SINGLE_COMPONENT ∨
        ∃ s, q = Xrm.Lisp_Object.string s ∧ Xrm.component_name s) ∧
      (∃ s, quarks.getLast? = some (Xrm.Lisp_Object.string s)) ∧
      List.Chain' (fun a b => ¬ (a = Xrm.LOOSE_BINDING ∧ b = Xrm.LOOSE_BINDING)) quarks ∧
      quarks = Xrm.quarks_of items ∧
      Xrm.emacs_font = Xrm.text_of items ++ [] ∧
      (∀ it ∈ items, Xrm.binding_run it.1 ∧ Xrm.component it.2) ∧
      (∀ it ∈ items.tail, it.1 ≠ []) :=
  ⟨by decide,
    parse_resource_name_well_formed 11 Xrm.emacs_font _ [] (by decide) (by decide)⟩

/-! ### Resource values (C29) -/

theorem Xrm.decode_segment_newline (rest : List Nat) :
    Xrm.decode_segment (10 :: rest) = ([], false, rest) := by
  rcases rest with _ | ⟨a, _ | ⟨b, _ | ⟨c', r⟩⟩⟩ <;>
    simp [Xrm.decode_segment]

theorem Xrm.decode_segment_plain (c : Nat) (rest : List Nat) (h1 : c ≠ 10) (h2 : c ≠ 92) :
    Xrm.decode_segment (c :: rest) = Xrm.decoded c (Xrm.decode_segment rest) := by
  rcases rest with _ | ⟨a, _ | ⟨b, _ | ⟨c', r⟩⟩⟩ <;>
    simp [Xrm.decode_segment.eq_2, Xrm.decode_segment.eq_3, Xrm.decode_segment.eq_4,
      Xrm.decode_segment.eq_5, h1, h2]

theorem Xrm.decode_segment_backslash_end :
    Xrm.decode_segment [92] = ([], false, []) := by
  simp [Xrm.decode_segment]

theorem Xrm.decode_segment_continue (rest : List Nat) :
    Xrm.decode_segment (92 :: 10 :: rest) = ([], true, rest) := by
  rcases rest with _ | ⟨a, _ | ⟨b, r⟩⟩ <;>
    simp [Xrm.decode_segment]

theorem Xrm.decode_segment_n (rest : List Nat) :
    Xrm.decode_segment (92 :: 110 :: rest) = Xrm.decoded 10 (Xrm.decode_segment rest) := by
  rcases rest with _ | ⟨a, _ | ⟨b, r⟩⟩
  · simp [Xrm.decode_segment.eq_5]
  · simp [Xrm.decode_segment.eq_4]
  · have h := Xrm.decode_segment.eq_3 92 110 a b r
    simp only [show ¬ (92 : Nat) = 10 by decide, show ¬ (110 : Nat) = 10 by decide,
      if_false, if_true] at h
    exact h

theorem Xrm.decode_segment_octal (x y z : Nat) (rest : List Nat) (h1 : x ≠ 10)
    (h2 : x ≠ 110) (hx : Xrm.octal_digit x = true) (hy : Xrm.octal_digit y = true)
    (hz : Xrm.octal_digit z = true) :
    Xrm.decode_segment (92 :: x :: y :: z :: rest) =
      Xrm.decoded (((x - 48) * 64 + (y - 48) * 8 + (z - 48)) % 256)
        (Xrm.decode_segment rest) := by
  have h := Xrm.decode_segment.eq_3 92 x y z rest
  simp only [show ¬ (92 : Nat) = 10 by decide, h1, h2, hx, hy, hz, Bool.and_self,
    if_false, if_true] at h
  exact h

theorem Xrm.decode_segment_escape (x : Nat) (rest : List Nat) (h1 : x ≠ 10)
    (h2 : x ≠ 110) (h3 : ¬ Xrm.octal_ahead x rest) :
    Xrm.decode_segment (92 :: x :: rest) = Xrm.decoded x (Xrm.decode_segment rest) := by
  rcases rest with _ | ⟨y, _ | ⟨z, rest2⟩⟩
  · simp [Xrm.decode_segment.eq_5, h1, h2]
  · simp [Xrm.decode_segment.eq_4, h1, h2]
  · have : ¬ ((Xrm.octal_digit x && Xrm.octal_digit y && Xrm.octal_digit z) = true) := by
      intro h
      simp only [Bool.and_eq_true] at h
      exact h3 ⟨y, z, rest2, rfl, h.1.1, h.1.2, h.2⟩
    have h := Xrm.decode_segment.eq_3 92 x y z rest2
    simp only [show ¬ (92 : Nat) = 10 by decide, h1, h2, this, if_false, if_true] at h
    exact h

theorem Xrm.decode_value_newline (rest : List Nat) :
    Xrm.decode_value (10 :: rest) = ([], rest) := by
  rcases rest with _ | ⟨a, _ | ⟨b, _ | ⟨c', r⟩⟩⟩ <;>
    simp [Xrm.decode_value]

theorem Xrm.decode_value_plain (c : Nat) (rest : List Nat) (h1 : c ≠ 10) (h2 : c ≠ 92) :
    Xrm.decode_value (c :: rest) =
      (c :: (Xrm.decode_value rest).1, (Xrm.decode_value rest).2) := by
  rcases rest with _ | ⟨a, _ | ⟨b, _ | ⟨c', r⟩⟩⟩ <;>
    simp [Xrm.decode_value.eq_2, Xrm.decode_value.eq_3, Xrm.decode_value.eq_4,
      Xrm.decode_value.eq_5, h1, h2]

theorem Xrm.decode_value_backslash_end : Xrm.decode_value [92] = ([], []) := by
  simp [Xrm.decode_value]

theorem Xrm.decode_value_continue (rest : List Nat) :
    Xrm.decode_value (92 :: 10 :: rest) = Xrm.decode_value rest := by
  rcases rest with _ | ⟨a, _ | ⟨b, r⟩⟩
  · simp [Xrm.decode_value.eq_5]
  · simp [Xrm.decode_value.eq_4]
  · have h := Xrm.decode_value.eq_3 92 10 a b r
    simp only [show ¬ (92 : Nat) = 10 by decide, if_false, if_true] at h
    exact h

theorem Xrm.decode_value_n (rest : List Nat) :
    Xrm.decode_value (92 :: 110 :: rest) =
      (10 :: (Xrm.decode_value rest).1, (Xrm.decode_value rest).2) := by
  rcases rest with _ | ⟨a, _ | ⟨b, r⟩⟩
  · simp [Xrm.decode_value.eq_5]
  · simp [Xrm.decode_value.eq_4]
  · have h := Xrm.decode_value.eq_3 92 110 a b r
    simp only [show ¬ (92 : Nat) = 10 by decide, show ¬ (110 : Nat) = 10 by decide,
      if_false, if_true] at h
    exact h

theorem Xrm.decode_value_octal (x y z : Nat) (rest : List Nat) (h1 : x ≠ 10)
    (h2 : x ≠ 110) (hx : Xrm.octal_digit x = true) (hy : Xrm.octal_digit y = true)
    (hz : Xrm.octal_digit z = true) :
    Xrm.decode_value (92 :: x :: y :: z :: rest) =
      ((((x - 48) * 64 + (y - 48) * 8 + (z - 48)) % 256) :: (Xrm.decode_value rest).1,
        (Xrm.decode_value rest).2) := by
  have h := Xrm.decode_value.eq_3 92 x y z rest
  simp only [show ¬ (92 : Nat) = 10 by decide, h1, h2, hx, hy, hz, Bool.and_self,
    if_false, if_true] at h
  exact h

theorem Xrm.decode_value_escape (x : Nat) (rest : List Nat) (h1 : x ≠ 10)
    (h2 : x ≠ 110) (h3 : ¬ Xrm.octal_ahead x rest) :
    Xrm.decode_value (92 :: x :: rest) =
      (x :: (Xrm.decode_value rest).1, (Xrm.decode_value rest).2) := by
  rcases rest with _ | ⟨y, _ | ⟨z, rest2⟩⟩
  · simp [Xrm.decode_value.eq_5, h1, h2]
  · simp [Xrm.decode_value.eq_4, h1, h2]
  · have : ¬ ((Xrm.octal_digit x && Xrm.octal_digit y && Xrm.octal_digit z) = true) := by
      intro h
      simp only [Bool.and_eq_true] at h
      exact h3 ⟨y, z, rest2, rfl, h.1.1, h.1.2, h.2⟩
    have h := Xrm.decode_value.eq_3 92 x y z rest2
    simp only [show ¬ (92 : Nat) = 10 by decide, h1, h2, this, if_false, if_true] at h
    exact h

/-- The shapes of a text at which a value is decoded. -/
theorem Xrm.value_cases (p : List Nat) :
    p = [] ∨ (∃ rest, p = 10 :: rest) ∨ p = [92] ∨ (∃ rest, p = 92 :: 10 :: rest) ∨
    (∃ rest, p = 92 :: 110 :: rest) ∨
    (∃ x y z rest, p = 92 :: x :: y :: z :: rest ∧ x ≠ 10 ∧ x ≠ 110 ∧
      Xrm.octal_digit x = true ∧ Xrm.octal_digit y = true ∧ Xrm.octal_digit z = true) ∨
    (∃ x rest, p = 92 :: x :: rest ∧ x ≠ 10 ∧ x ≠ 110 ∧ ¬ Xrm.octal_ahead x rest) ∨
    (∃ c rest, p = c :: rest ∧ c ≠ 10 ∧ c ≠ 92) := by
  rcases p with _ | ⟨c, rest⟩
  · exact Or.inl rfl
  · by_cases h10 : c = 10
    · exact Or.inr (Or.inl ⟨rest, by rw [h10]⟩)
    · by_cases h92 : c = 92
      · subst h92
        rcases rest with _ | ⟨x, rest1⟩
        · exact Or.inr (Or.inr (Or.inl rfl))
        · by_cases hx10 : x = 10
          · exact Or.inr (Or.inr (Or.inr (Or.inl ⟨rest1, by rw [hx10]⟩)))
          · by_cases hxn : x = 110
            · exact Or.inr (Or.inr (Or.inr (Or.inr (Or.inl ⟨rest1, by rw [hxn]⟩))))
            · by_cases ho : Xrm.octal_ahead x rest1
              · obtain ⟨y, z, rest2, rfl, o1, o2, o3⟩ := ho
                exact Or.inr (Or.inr (Or.inr (Or.inr (Or.inr (Or.inl
                  ⟨x, y, z, rest2, rfl, hx10, hxn, o1, o2, o3⟩)))))
              · exact Or.inr (Or.inr (Or.inr (Or.inr (Or.inr (Or.inr (Or.inl
                  ⟨x, rest1, rfl, hx10, hxn, ho⟩))))))
      · exact Or.inr (Or.inr (Or.inr (Or.inr (Or.inr (Or.inr (Or.inr
          ⟨c, rest, rfl, h10, h92⟩))))))

theorem Xrm.octal_digit_ne (x : Nat) (h : Xrm.octal_digit x = true) :
    x ≠ 0 ∧ x ≠ 10 ∧ x ≠ 92 := by
  simp only [Xrm.octal_digit, Bool.and_eq_true, decide_eq_true_eq] at h
  omega

/-- The test of an octal escape reads no byte past the NUL, and finds an
escape exactly when three octal digits lie ahead. -/
theorem Xrm.octal_escape_spec (x : Nat) (rest : List Nat) (hc : Xrm.c_string rest) :
    (Xrm.octal_ahead x rest ∧ ∃ y z rest2, rest = y :: z :: rest2 ∧
      Xrm.octal_escape (x :: rest) x =
        some (some (((x - 48) * 64 + (y - 48) * 8 + (z - 48)) % 256))) ∨
    (¬ Xrm.octal_ahead x rest ∧ Xrm.octal_escape (x :: rest) x = some none) := by
  by_cases hx : Xrm.octal_digit x = true
  · rcases rest with _ | ⟨y, rest1⟩
    · right
      refine ⟨fun ⟨_, _, _, h, _⟩ => by simp at h, ?_⟩
      simp [Xrm.octal_escape, hx, Xrm.char_at, Xrm.octal_digit]
    · by_cases hy : Xrm.octal_digit y = true
      · rcases rest1 with _ | ⟨z, rest2⟩
        · right
          refine ⟨fun ⟨_, _, _, h, _⟩ => by simp at h, ?_⟩
          simp [Xrm.octal_escape, hx, hy, Xrm.char_at, Xrm.octal_digit]
        · by_cases hz : Xrm.octal_digit z = true
          · left
            exact ⟨⟨y, z, rest2, rfl, hx, hy, hz⟩, y, z, rest2, rfl,
              by simp [Xrm.octal_escape, hx, hy, hz, Xrm.char_at]⟩
          · right
            refine ⟨?_, by simp [Xrm.octal_escape, hx, hy, hz, Xrm.char_at]⟩
            rintro ⟨y', z', r', h, -, -, h3⟩
            simp only [List.cons.injEq] at h
            rw [← h.2.1] at h3
            exact hz h3
      · right
        refine ⟨?_, by simp [Xrm.octal_escape, hx, hy, Xrm.char_at]⟩
        rintro ⟨y', z', r', h, -, h2, -⟩
        simp only [List.cons.injEq] at h
        rw [← h.1] at h2
        exact hy h2
  · right
    exact ⟨fun ⟨_, _, _, _, h, _⟩ => hx h, by simp [Xrm.octal_escape, hx]⟩

theorem Xrm.line_length_cons (c : Nat) (rest : List Nat) (h : c ≠ 10) :
    Xrm.line_length (c :: rest) = Xrm.line_length rest + 1 := by
  simp [Xrm.line_length, h]

theorem Xrm.c_string_tail {c : Nat} {rest : List Nat} (h : Xrm.c_string (c :: rest)) :
    c ≠ 0 ∧ Xrm.c_string rest :=
  ⟨h c (by simp), fun x hx => h x (by simp [hx])⟩

/-- The inner loop of `parse_value`, on a buffer with room for what is left
of the physical line, writes the decoding of the segment after what the
buffer holds: it reads no byte past the NUL and writes no byte past the end
of the buffer. -/
theorem Xrm.parse_value_line_spec (buf_len : Nat) :
    ∀ (fuel : Nat) (p q : List Nat), Xrm.c_string p → p.length < fuel →
      q.length + Xrm.line_length p ≤ buf_len →
      Xrm.parse_value_line buf_len fuel p q =
        some (q ++ (Xrm.decode_segment p).1, (Xrm.decode_segment p).2.1,
          (Xrm.decode_segment p).2.2) := by
  intro fuel
  induction fuel with
  | zero => intro p q _ h; omega
  | succ fuel ih =>
    intro p q hc hf hb
    rcases Xrm.value_cases p with rfl | ⟨rest, rfl⟩ | rfl | ⟨rest, rfl⟩ | ⟨rest, rfl⟩ |
      ⟨x, y, z, rest, rfl, x1, x2, ox, oy, oz⟩ | ⟨x, rest, rfl, x1, x2, ho⟩ |
      ⟨c, rest, rfl, c1, c2⟩
    · simp [Xrm.parse_value_line, Xrm.char_at_nil, Xrm.decode_segment]
    · simp [Xrm.parse_value_line, Xrm.char_at_cons, Xrm.advance_cons,
        Xrm.decode_segment_newline]
    · simp [Xrm.parse_value_line, Xrm.char_at_cons, Xrm.advance_cons, Xrm.char_at_nil,
        Xrm.decode_segment_backslash_end]
    · simp [Xrm.parse_value_line, Xrm.char_at_cons, Xrm.advance_cons,
        Xrm.decode_segment_continue]
    · have hc2 : Xrm.c_string rest := (Xrm.c_string_tail (Xrm.c_string_tail hc).2).2
      have hl : Xrm.line_length (92 :: 110 :: rest) = Xrm.line_length rest + 2 := by
        simp [Xrm.line_length]
      have hs : Xrm.store buf_len q 10 = some (q ++ [10]) := by
        simp only [Xrm.store]; rw [if_pos (by omega)]
      have := ih rest (q ++ [10]) hc2 (by simp at hf; omega) (by simp; omega)
      simp [Xrm.parse_value_line, Xrm.char_at_cons, Xrm.advance_cons, hs, this,
        Xrm.decode_segment_n, Xrm.decoded]
    · have hc2 : Xrm.c_string rest :=
        (Xrm.c_string_tail (Xrm.c_string_tail (Xrm.c_string_tail
          (Xrm.c_string_tail hc).2).2).2).2
      have hx0 := (Xrm.octal_digit_ne x ox)
      have hy0 := (Xrm.octal_digit_ne y oy)
      have hz0 := (Xrm.octal_digit_ne z oz)
      have hl : Xrm.line_length (92 :: x :: y :: z :: rest) = Xrm.line_length rest + 4 := by
        simp [Xrm.line_length, hx0.2.1, hy0.2.1, hz0.2.1]
      have hs : Xrm.store buf_len q (((x - 48) * 64 + (y - 48) * 8 + (z - 48)) % 256)
          = some (q ++ [((x - 48) * 64 + (y - 48) * 8 + (z - 48)) % 256]) := by
        simp only [Xrm.store]; rw [if_pos (by omega)]
      have he : Xrm.octal_escape (x :: y :: z :: rest) x =
          some (some (((x - 48) * 64 + (y - 48) * 8 + (z - 48)) % 256)) := by
        simp [Xrm.octal_escape, ox, oy, oz, Xrm.char_at]
      have ha : Xrm.advance (x :: y :: z :: rest) 3 = some rest := by
        simp [Xrm.advance]
      have := ih rest (q ++ [((x - 48) * 64 + (y - 48) * 8 + (z - 48)) % 256]) hc2
        (by simp at hf; omega) (by simp; omega)
      simp [Xrm.parse_value_line, Xrm.char_at_cons, Xrm.advance_cons, hs, this, he, ha,
        hx0.1, x1, x2, Xrm.decode_segment_octal x y z rest x1 x2 ox oy oz, Xrm.decoded]
    · have hc1 := Xrm.c_string_tail (Xrm.c_string_tail hc).2
      have hl : Xrm.line_length (92 :: x :: rest) = Xrm.line_length rest + 2 := by
        simp [Xrm.line_length, x1]
      have hs : Xrm.store buf_len q x = some (q ++ [x]) := by
        simp only [Xrm.store]; rw [if_pos (by omega)]
      have he : Xrm.octal_escape (x :: rest) x = some none := by
        rcases Xrm.octal_escape_spec x rest hc1.2 with ⟨h1, -⟩ | ⟨-, h2⟩
        · exact absurd h1 ho
        · exact h2
      have := ih rest (q ++ [x]) hc1.2 (by simp at hf; omega) (by simp; omega)
      simp [Xrm.parse_value_line, Xrm.char_at_cons, Xrm.advance_cons, hs, this, he,
        hc1.1, x1, x2, Xrm.decode_segment_escape x rest x1 x2 ho, Xrm.decoded]
    · have hc1 := Xrm.c_string_tail hc
      have hl := Xrm.line_length_cons c rest c1
      have hs : Xrm.store buf_len q c = some (q ++ [c]) := by
        simp only [Xrm.store]; rw [if_pos (by omega)]
      have := ih rest (q ++ [c]) hc1.2 (by simp at hf; omega) (by simp; omega)
      simp [Xrm.parse_value_line, Xrm.char_at_cons, Xrm.advance_cons, hs, this,
        hc1.1, c1, c2, Xrm.decode_segment_plain c rest c1 c2, Xrm.decoded]

/-- A segment decodes to no more bytes than its physical line has, and what
is left after it is a part of the text that is shorter unless the text is
empty. -/
theorem Xrm.decode_segment_bounds :
    ∀ (n : Nat) (p : List Nat), p.length ≤ n →
      (Xrm.decode_segment p).1.length ≤ Xrm.line_length p ∧
      (Xrm.decode_segment p).2.2 <:+ p ∧
      (p ≠ [] → (Xrm.decode_segment p).2.2.length < p.length) := by
  intro n
  induction n with
  | zero =>
    intro p hp
    have : p = [] := List.length_eq_zero.1 (by omega)
    subst this
    simp [Xrm.decode_segment, Xrm.line_length]
  | succ n ih =>
    intro p hp
    rcases Xrm.value_cases p with rfl | ⟨rest, rfl⟩ | rfl | ⟨rest, rfl⟩ | ⟨rest, rfl⟩ |
      ⟨x, y, z, rest, rfl, x1, x2, ox, oy, oz⟩ | ⟨x, rest, rfl, x1, x2, ho⟩ |
      ⟨c, rest, rfl, c1, c2⟩
    · simp [Xrm.decode_segment, Xrm.line_length]
    · simp [Xrm.decode_segment_newline, Xrm.line_length]
    · simp [Xrm.decode_segment_backslash_end, Xrm.line_length]
    · rw [Xrm.decode_segment_continue]
      refine ⟨by simp, ?_, by simp; omega⟩
      exact (List.suffix_cons _ _).trans (List.suffix_cons _ _)
    · rw [Xrm.decode_segment_n]
      obtain ⟨h1, h2, h3⟩ := ih rest (by simp at hp; omega)
      have h4 := h2.length_le
      refine ⟨?_, ?_, ?_⟩
      · simp [Xrm.decoded, Xrm.line_length]; omega
      · exact h2.trans ((List.suffix_cons _ _).trans (List.suffix_cons _ _))
      · intro _; simp [Xrm.decoded]; omega
    · rw [Xrm.decode_segment_octal x y z rest x1 x2 ox oy oz]
      obtain ⟨h1, h2, h3⟩ := ih rest (by simp at hp; omega)
      have h4 := h2.length_le
      have hx0 := (Xrm.octal_digit_ne x ox)
      have hy0 := (Xrm.octal_digit_ne y oy)
      have hz0 := (Xrm.octal_digit_ne z oz)
      refine ⟨?_, ?_, ?_⟩
      · simp [Xrm.decoded, Xrm.line_length, hx0.2.1, hy0.2.1, hz0.2.1]; omega
      · exact h2.trans ((List.suffix_cons _ _).trans ((List.suffix_cons _ _).trans
          ((List.suffix_cons _ _).trans (List.suffix_cons _ _))))
      · intro _; simp [Xrm.decoded]; omega
    · rw [Xrm.decode_segment_escape x rest x1 x2 ho]
      obtain ⟨h1, h2, h3⟩ := ih rest (by simp at hp; omega)
      have h4 := h2.length_le
      refine ⟨?_, ?_, ?_⟩
      · simp [Xrm.decoded, Xrm.line_length, x1]; omega
      · exact h2.trans ((List.suffix_cons _ _).trans (List.suffix_cons _ _))
      · intro _; simp [Xrm.decoded]; omega
    · rw [Xrm.decode_segment_plain c rest c1 c2]
      obtain ⟨h1, h2, h3⟩ := ih rest (by simp at hp; omega)
      have h4 := h2.length_le
      refine ⟨?_, ?_, ?_⟩
      · simp [Xrm.decoded, Xrm.line_length, c1]; omega
      · exact h2.trans (List.suffix_cons _ _)
      · intro _; simp [Xrm.decoded]; omega

/-- The value of a logical line is the concatenation, in the order of the
text, of the decoded segments: that of the first physical line, followed by
the value of what follows when the segment ends with a backslash-newline. -/
theorem Xrm.decode_value_segments :
    ∀ (n : Nat) (p : List Nat), p.length ≤ n →
      Xrm.decode_value p =
        if (Xrm.decode_segment p).2.1 = true then
          ((Xrm.decode_segment p).1 ++ (Xrm.decode_value (Xrm.decode_segment p).2.2).1,
            (Xrm.decode_value (Xrm.decode_segment p).2.2).2)
        else ((Xrm.decode_segment p).1, (Xrm.decode_segment p).2.2) := by
  intro n
  induction n with
  | zero =>
    intro p hp
    have : p = [] := List.length_eq_zero.1 (by omega)
    subst this
    simp [Xrm.decode_segment, Xrm.decode_value]
  | succ n ih =>
    intro p hp
    rcases Xrm.value_cases p with rfl | ⟨rest, rfl⟩ | rfl | ⟨rest, rfl⟩ | ⟨rest, rfl⟩ |
      ⟨x, y, z, rest, rfl, x1, x2, ox, oy, oz⟩ | ⟨x, rest, rfl, x1, x2, ho⟩ |
      ⟨c, rest, rfl, c1, c2⟩
    · simp [Xrm.decode_segment, Xrm.decode_value]
    · simp [Xrm.decode_segment_newline, Xrm.decode_value_newline]
    · simp [Xrm.decode_segment_backslash_end, Xrm.decode_value_backslash_end]
    · simp [Xrm.decode_segment_continue, Xrm.decode_value_continue]
    · rw [Xrm.decode_segment_n, Xrm.decode_value_n, ih rest (by simp at hp; omega)]
      by_cases hk : (Xrm.decode_segment rest).2.1 = true <;> simp [Xrm.decoded, hk]
    · rw [Xrm.decode_segment_octal x y z rest x1 x2 ox oy oz,
        Xrm.decode_value_octal x y z rest x1 x2 ox oy oz, ih rest (by simp at hp; omega)]
      by_cases hk : (Xrm.decode_segment rest).2.1 = true <;> simp [Xrm.decoded, hk]
    · rw [Xrm.decode_segment_escape x rest x1 x2 ho, Xrm.decode_value_escape x rest x1 x2 ho,
        ih rest (by simp at hp; omega)]
      by_cases hk : (Xrm.decode_segment rest).2.1 = true <;> simp [Xrm.decoded, hk]
    · rw [Xrm.decode_segment_plain c rest c1 c2, Xrm.decode_value_plain c rest c1 c2,
        ih rest (by simp at hp; omega)]
      by_cases hk : (Xrm.decode_segment rest).2.1 = true <;> simp [Xrm.decoded, hk]

theorem Xrm.concat_append (a b : List (List Nat)) :
    Xrm.concat (a ++ b) = Xrm.concat a ++ Xrm.concat b := by
  induction a with
  | nil => simp [Xrm.concat]
  | cons s a ih => simp [Xrm.concat, ih]

theorem Xrm.c_string_suffix {p p' : List Nat} (h : Xrm.c_string p) (hs : p' <:+ p) :
    Xrm.c_string p' :=
  fun c hc => h c (hs.subset hc)

/-- The outer loop of `parse_value`: it puts the decoded segments of the
logical line on `seq`, the newest first, and adds their lengths to
`total_len`. -/
theorem Xrm.parse_value_loop_spec (fuel : Nat) :
    ∀ (n : Nat) (p : List Nat) (buf_len : Nat) (seq : List (List Nat)) (total_len : Nat),
      Xrm.c_string p → p.length < fuel → p.length < n → Xrm.line_length p ≤ buf_len →
      ∃ segs, segs ≠ [] ∧
        Xrm.parse_value_loop fuel n p buf_len seq total_len =
          some (segs.reverse ++ seq, total_len + (Xrm.concat segs).length,
            (Xrm.decode_value p).2) ∧
        Xrm.concat segs = (Xrm.decode_value p).1 := by
  intro n
  induction n with
  | zero => intro p buf_len seq total_len _ _ h; omega
  | succ n ih =>
    intro p buf_len seq total_len hc hf hn hb
    have hline := Xrm.parse_value_line_spec buf_len fuel p [] hc hf (by simpa using hb)
    obtain ⟨-, b2, b3⟩ := Xrm.decode_segment_bounds p.length p (le_refl _)
    have hv := Xrm.decode_value_segments p.length p (le_refl _)
    simp only [Xrm.parse_value_loop, hline, List.nil_append]
    by_cases hk : (Xrm.decode_segment p).2.1 = true
    · simp only [hk, if_true] at hv ⊢
      have hne : p ≠ [] := by
        rintro rfl
        simp [Xrm.decode_segment] at hk
      have hlt := b3 hne
      obtain ⟨segs, s1, s2, s3⟩ := ih (Xrm.decode_segment p).2.2
        (if Xrm.line_length (Xrm.decode_segment p).2.2 > buf_len
          then Xrm.line_length (Xrm.decode_segment p).2.2 else buf_len)
        ((Xrm.decode_segment p).1 :: seq) (total_len + (Xrm.decode_segment p).1.length)
        (Xrm.c_string_suffix hc b2) (by omega) (by omega) (by split_ifs <;> omega)
      refine ⟨(Xrm.decode_segment p).1 :: segs, by simp, ?_, ?_⟩
      · rw [s2, hv]
        simp [Xrm.concat]
        omega
      · rw [hv]
        simp [Xrm.concat, s3]
    · simp only [hk, if_false] at hv ⊢
      refine ⟨[(Xrm.decode_segment p).1], by simp, ?_, ?_⟩
      · rw [hv]
        simp [Xrm.concat]
      · rw [hv]
        simp [Xrm.concat]

theorem Xrm.memcpy_replicate (q : Nat) (s acc : List Nat) (h : s.length ≤ q) :
    Xrm.memcpy (List.replicate q 0 ++ acc) (q - s.length) s =
      List.replicate (q - s.length) 0 ++ (s ++ acc) := by
  simp only [Xrm.memcpy]
  have h1 : List.take (q - s.length) (List.replicate q 0 ++ acc)
      = List.replicate (q - s.length) 0 := by
    rw [List.take_append_of_le_length (by simp), List.take_replicate]
    congr 1
    omega
  have h2 : List.drop (q - s.length + s.length) (List.replicate q 0 ++ acc) = acc := by
    rw [show q - s.length + s.length = q by omega]
    exact List.drop_left' (by simp)
  rw [h1, h2]
  simp

/-- The loop that joins the segments writes them in the order of the text,
from the end of the buffer to its start. -/
theorem Xrm.parse_value_join_spec :
    ∀ (seq : List (List Nat)) (q : Nat) (acc : List Nat),
      q = (Xrm.concat seq).length →
      Xrm.parse_value_join seq q (List.replicate q 0 ++ acc) =
        some (Xrm.concat seq.reverse ++ acc) := by
  intro seq
  induction seq with
  | nil =>
    intro q acc hq
    simp only [Xrm.concat, List.length_nil] at hq
    subst hq
    simp [Xrm.parse_value_join, Xrm.concat]
  | cons s seq ih =>
    intro q acc hq
    simp only [Xrm.concat, List.length_append] at hq
    have hle : s.length ≤ q := by omega
    simp only [Xrm.parse_value_join, hle, if_true]
    rw [Xrm.memcpy_replicate q s acc hle, ih (q - s.length) (s ++ acc) (by omega)]
    simp [Xrm.concat_append, Xrm.concat]

/-- `parse_value` returns the string of the decoded value and leaves the
pointer after the value. -/
theorem Xrm.parse_value_spec (fuel : Nat) (p : List Nat) (hc : Xrm.c_string p)
    (hf : p.length < fuel) :
    Xrm.parse_value fuel p =
      some (Xrm.Lisp_Object.string (Xrm.decode_value p).1, (Xrm.decode_value p).2) := by
  obtain ⟨segs, s1, s2, s3⟩ := Xrm.parse_value_loop_spec fuel fuel p (Xrm.line_length p) [] 0
    hc hf hf (le_refl _)
  simp only [Xrm.parse_value, s2, List.append_nil, Nat.zero_add]
  by_cases hh : ((segs.reverse).headD []).length = (Xrm.concat segs).length
  · simp only [hh, if_true, Xrm.make_string]
    have hlast : ∃ init last, segs = init ++ [last] :=
      ⟨segs.dropLast, segs.getLast s1, (List.dropLast_append_getLast s1).symm⟩
    obtain ⟨init, last, rfl⟩ := hlast
    simp only [List.reverse_append, List.reverse_singleton, List.singleton_append,
      List.headD_cons, Xrm.concat_append, Xrm.concat, List.append_nil,
      List.length_append] at hh ⊢
    have h0 : Xrm.concat init = [] := List.length_eq_zero.1 (by omega)
    rw [← s3, Xrm.concat_append, h0]
    simp [Xrm.concat]
  · simp only [hh, if_false]
    have hj := Xrm.parse_value_join_spec segs.reverse (Xrm.concat segs).length []
      (by
        have : ∀ l : List (List Nat), (Xrm.concat l.reverse).length = (Xrm.concat l).length := by
          intro l
          induction l with
          | nil => simp
          | cons s l ih =>
            simp [Xrm.concat_append, Xrm.concat, ih]
            omega
        exact (this segs).symm)
    simp only [List.append_nil, List.reverse_reverse] at hj
    rw [hj]
    simp [Xrm.make_string, s3]

/-- C29: value decoding.  For a NUL-terminated input and fuel beyond its
length, `parse_value` returns the string of the decoded value of the logical
line and leaves the pointer after it.  The decoded value obeys the rules of
the claim: it stops at the NUL, stops after an unescaped newline, drops a
backslash before the NUL, goes on with the next physical line after a
backslash-newline, and decodes backslash-`n` to a newline, a backslash
before three octal digits `abc` to the byte `(64a + 8b + c) mod 256`, a
backslash before another character to that character, and another
character to itself.  It is the concatenation in input order of the decoded
segments, a segment has at most as many bytes as its physical line, and the
inner loop of `parse_value` on a buffer of the length of the physical line
yields the segment. -/
theorem parse_value_decodes (fuel : Nat) (p : List Nat) (hc : Xrm.c_string p)
    (hf : p.length < fuel) :
    Xrm.parse_value fuel p =
      some (Xrm.Lisp_Object.string (Xrm.decode_value p).1, (Xrm.decode_value p).2) ∧
    (Xrm.decode_value [] = ([], []) ∧
      (∀ rest, Xrm.decode_value (10 :: rest) = ([], rest)) ∧
      Xrm.decode_value [92] = ([], []) ∧
      (∀ rest, Xrm.decode_value (92 :: 10 :: rest) = Xrm.decode_value rest) ∧
      (∀ rest, Xrm.decode_value (92 :: 110 :: rest) =
        (10 :: (Xrm.decode_value rest).1, (Xrm.decode_value rest).2)) ∧
      (∀ x y z rest, x ≠ 10 → x ≠ 110 → Xrm.octal_digit x = true →
        Xrm.octal_digit y = true → Xrm.octal_digit z = true →
        Xrm.decode_value (92 :: x :: y :: z :: rest) =
          ((((x - 48) * 64 + (y - 48) * 8 + (z - 48)) % 256) :: (Xrm.decode_value rest).1,
            (Xrm.decode_value rest).2)) ∧
      (∀ x rest, x ≠ 10 → x ≠ 110 → ¬ Xrm.octal_ahead x rest →
        Xrm.decode_value (92 :: x :: rest) =
          (x :: (Xrm.decode_value rest).1, (Xrm.decode_value rest).2)) ∧
      (∀ c rest, c ≠ 10 → c ≠ 92 →
        Xrm.decode_value (c :: rest) =
          (c :: (Xrm.decode_value rest).1, (Xrm.decode_value rest).2))) ∧
    (∀ p', Xrm.decode_value p' =
      if (Xrm.decode_segment p').2.1 = true then
        ((Xrm.decode_segment p').1 ++ (Xrm.decode_value (Xrm.decode_segment p').2.2).1,
          (Xrm.decode_value (Xrm.decode_segment p').2.2).2)
      else ((Xrm.decode_segment p').1, (Xrm.decode_segment p').2.2)) ∧
    (∀ p', (Xrm.decode_segment p').1.length ≤ Xrm.line_length p') ∧
    (∀ p', Xrm.c_string p' → p'.length < fuel →
      Xrm.parse_value_line (Xrm.line_length p') fuel p' [] =
        some ((Xrm.decode_segment p').1, (Xrm.decode_segment p').2.1,
          (Xrm.decode_segment p').2.2)) := by
  refine ⟨Xrm.parse_value_spec fuel p hc hf,
    ⟨by simp [Xrm.decode_value], Xrm.decode_value_newline, Xrm.decode_value_backslash_end,
      Xrm.decode_value_continue, Xrm.decode_value_n, Xrm.decode_value_octal,
      Xrm.decode_value_escape, Xrm.decode_value_plain⟩,
    fun p' => Xrm.decode_value_segments p'.length p' (le_refl _),
    fun p' => (Xrm.decode_segment_bounds p'.length p' (le_refl _)).1, ?_⟩
  intro p' hc' hf'
  have := Xrm.parse_value_line_spec (Xrm.line_length p') fuel p' [] hc' hf' (by simp)
  simpa using this

theorem parse_value_decodes_witness :
    Xrm.parse_value 20 Xrm.value_text =
      some (Xrm.Lisp_Object.string [102, 105, 120, 101, 100, 10, 92], [110, 101, 120, 116]) ∧
    Xrm.decode_value Xrm.value_text = ([102, 105, 120, 101, 100, 10, 92], [110, 101, 120, 116]) ∧
    Xrm.decode_segment Xrm.value_text =
      ([102, 105], true, [120, 92, 49, 52, 53, 100, 92, 110, 92, 92, 10, 110, 101, 120, 116]) ∧
    Xrm.parse_value 20 Xrm.value_text =
      some (Xrm.Lisp_Object.string (Xrm.decode_value Xrm.value_text).1,
        (Xrm.decode_value Xrm.value_text).2) :=
  ⟨by decide, by decide, by decide,
    (parse_value_decodes 20 Xrm.value_text (by simp [Xrm.c_string, Xrm.value_text])
      (by decide)).1⟩

/-! ### Termination of the merge (C27) -/

theorem Xrm.parse_binding_suffix (fuel : Nat) (p : List Nat) (b : Nat) (p' : List Nat)
    (h : Xrm.parse_binding fuel p = some (b, p')) :
    p' <:+ p ∧ (b ≠ 0 → p'.length < p.length) := by
  obtain ⟨run, h1, -, -, h4⟩ := Xrm.parse_binding_sound fuel p b p' h
  refine ⟨⟨run, h1.symm⟩, fun hb => ?_⟩
  rcases h4 with ⟨-, h0⟩ | ⟨hne, -⟩
  · exact absurd h0 hb
  · rw [h1]
    have : 0 < run.length := List.length_pos.2 hne
    simp
    omega

theorem Xrm.parse_component_suffix (fuel : Nat) (p : List Nat) (comp : Xrm.Lisp_Object)
    (p' : List Nat) (h : Xrm.parse_component fuel p = some (comp, p')) :
    p' <:+ p ∧ (Xrm.NILP comp = false → p'.length < p.length) := by
  rcases Xrm.parse_component_sound fuel p comp p' h with
    ⟨-, h2⟩ | ⟨s, -, h2, h3, -⟩ | ⟨h1, h2⟩
  · rw [h2]
    exact ⟨List.suffix_cons _ _, fun _ => by simp⟩
  · refine ⟨⟨s, h3.symm⟩, fun _ => ?_⟩
    rw [h3]
    have : 0 < s.length := List.length_pos.2 h2.1
    simp
    omega
  · rw [h2]
    refine ⟨List.suffix_refl _, fun hn => ?_⟩
    rw [h1] at hn
    simp [Xrm.NILP] at hn

theorem Xrm.parse_resource_name_loop_suffix (fuel : Nat) :
    ∀ (n : Nat) (p : List Nat) (result component res : Xrm.Lisp_Object) (p' : List Nat),
      Xrm.parse_resource_name_loop fuel n p result component = some (res, p') →
      p' <:+ p := by
  intro n
  induction n with
  | zero => intro p result component res p' h; simp [Xrm.parse_resource_name_loop] at h
  | succ n ih =>
    intro p result component res p' h
    simp only [Xrm.parse_resource_name_loop] at h
    cases hb : Xrm.parse_binding fuel p with
    | none => simp [hb] at h
    | some bp =>
      obtain ⟨binding, p1⟩ := bp
      simp only [hb] at h
      have b1 := (Xrm.parse_binding_suffix fuel p binding p1 hb).1
      by_cases h0 : binding = 0
      · simp only [h0, ne_eq, not_true_eq_false, if_false] at h
        by_cases hs : component = Xrm.SINGLE_COMPONENT
        · simp only [hs, if_true, Option.some.injEq, Prod.mk.injEq] at h
          rw [← h.2]; exact b1
        · simp only [hs, if_false, Option.some.injEq, Prod.mk.injEq] at h
          rw [← h.2]; exact b1
      · simp only [ne_eq, h0, not_false_eq_true, if_true] at h
        cases hc : Xrm.parse_component fuel p1 with
        | none => simp [hc] at h
        | some cp =>
          obtain ⟨component1, p2⟩ := cp
          simp only [hc] at h
          have c1 := (Xrm.parse_component_suffix fuel p1 component1 p2 hc).1
          by_cases hn : Xrm.NILP component1 = true
          · simp only [hn, if_true, Option.some.injEq, Prod.mk.injEq] at h
            rw [← h.2]; exact c1.trans b1
          · have hn' : Xrm.NILP component1 = false := by simpa using hn
            simp only [hn', Bool.false_eq_true, if_false] at h
            exact (ih p2 _ _ res p' h).trans (c1.trans b1)

theorem Xrm.parse_resource_name_loop_total (fuel : Nat) :
    ∀ (n : Nat) (p : List Nat) (result component : Xrm.Lisp_Object),
      p.length < fuel → p.length < n →
      ∃ r, Xrm.parse_resource_name_loop fuel n p result component = some r := by
  intro n
  induction n with
  | zero => intro p result component _ h; omega
  | succ n ih =>
    intro p result component hf hn
    simp only [Xrm.parse_resource_name_loop]
    obtain ⟨⟨binding, p1⟩, hb⟩ := Xrm.parse_binding_total fuel p hf
    obtain ⟨b1, b2⟩ := Xrm.parse_binding_suffix fuel p binding p1 hb
    simp only [hb]
    by_cases h0 : binding = 0
    · by_cases hs : component = Xrm.SINGLE_COMPONENT
      · exact ⟨(Xrm.Qnil, p1), by simp [h0, hs]⟩
      · exact ⟨(Xrm.Fnreverse result, p1), by simp [h0, hs]⟩
    · simp only [ne_eq, h0, not_false_eq_true, if_true]
      have hlt := b2 h0
      obtain ⟨⟨component1, p2⟩, hc⟩ := Xrm.parse_component_total fuel p1 (by omega)
      have c1 := (Xrm.parse_component_suffix fuel p1 component1 p2 hc).1.length_le
      simp only [hc]
      by_cases hnil : Xrm.NILP component1 = true
      · exact ⟨(Xrm.Qnil, p2), by simp [hnil]⟩
      · have hn' : Xrm.NILP component1 = false := by simpa using hnil
        simp only [hn', Bool.false_eq_true, if_false]
        exact ih p2 _ _ (by omega) (by omega)

/-- `parse_resource_name` returns, and leaves the pointer within the
text. -/
theorem Xrm.parse_resource_name_total (fuel : Nat) (p : List Nat) (hf : p.length < fuel) :
    ∃ res p', Xrm.parse_resource_name fuel p = some (res, p') ∧ p' <:+ p ∧
      (Xrm.NILP res = false → p'.length < p.length) := by
  simp only [Xrm.parse_resource_name]
  obtain ⟨⟨binding, p1⟩, hb⟩ := Xrm.parse_binding_total fuel p hf
  have b1 := (Xrm.parse_binding_suffix fuel p binding p1 hb).1
  have b2 := b1.length_le
  obtain ⟨⟨component, p2⟩, hc⟩ := Xrm.parse_component_total fuel p1 (by omega)
  obtain ⟨c1, c2⟩ := Xrm.parse_component_suffix fuel p1 component p2 hc
  have c3 := c1.length_le
  simp only [hb, hc]
  by_cases hnil : Xrm.NILP component = true
  · exact ⟨Xrm.Qnil, p2, by simp [hnil], c1.trans b1, fun h => by simp [Xrm.NILP] at h⟩
  · have hn' : Xrm.NILP component = false := by simpa using hnil
    simp only [hn', Bool.false_eq_true, if_false]
    obtain ⟨⟨res, p'⟩, hl⟩ := Xrm.parse_resource_name_loop_total fuel fuel p2
      (Xrm.Fcons component
        (if binding = 42 then Xrm.Fcons Xrm.LOOSE_BINDING Xrm.Qnil else Xrm.Qnil))
      component (by omega) (by omega)
    have l1 := Xrm.parse_resource_name_loop_suffix fuel fuel p2 _ _ res p' hl
    have l2 := l1.length_le
    have := c2 hn'
    exact ⟨res, p', hl, l1.trans (c1.trans b1), fun _ => by omega⟩

/-- The decoding of a value leaves a part of the text, which is shorter
unless the text is empty. -/
theorem Xrm.decode_value_bounds :
    ∀ (n : Nat) (p : List Nat), p.length ≤ n →
      (Xrm.decode_value p).2 <:+ p ∧
      (p ≠ [] → (Xrm.decode_value p).2.length < p.length) := by
  intro n
  induction n with
  | zero =>
    intro p hp
    have : p = [] := List.length_eq_zero.1 (by omega)
    subst this
    simp [Xrm.decode_value]
  | succ n ih =>
    intro p hp
    by_cases hne : p = []
    · subst hne
      simp [Xrm.decode_value]
    · obtain ⟨-, b2, b3⟩ := Xrm.decode_segment_bounds p.length p (le_refl _)
      have hlt := b3 hne
      rw [Xrm.decode_value_segments p.length p (le_refl _)]
      by_cases hk : (Xrm.decode_segment p).2.1 = true
      · simp only [hk, if_true]
        obtain ⟨i1, -⟩ := ih (Xrm.decode_segment p).2.2 (by omega)
        have := i1.length_le
        exact ⟨i1.trans b2, fun _ => by omega⟩
      · simp only [hk, if_false]
        exact ⟨b2, fun _ => hlt⟩

theorem Xrm.parse_resource_line_cleanup_total (fuel : Nat) (p : List Nat)
    (hc : Xrm.c_string p) (hf : p.length < fuel) :
    ∃ p', Xrm.parse_resource_line_cleanup fuel p = some (Xrm.Qnil, p') ∧ p' <:+ p ∧
      (p ≠ [] → p'.length < p.length) := by
  obtain ⟨h1, h2⟩ := Xrm.decode_value_bounds p.length p (le_refl _)
  exact ⟨(Xrm.decode_value p).2,
    by simp [Xrm.parse_resource_line_cleanup, Xrm.parse_value_spec fuel p hc hf], h1, h2⟩

/-- On a remainder that is not empty, `parse_resource_line` returns and
leaves a shorter part of the remainder: it advances the pointer by at least
one character, and neither reads nor moves it past the NUL. -/
theorem Xrm.parse_resource_line_total (fuel : Nat) (p : List Nat) (hc : Xrm.c_string p)
    (hf : p.length < fuel) (hne : p ≠ []) :
    ∃ r p', Xrm.parse_resource_line fuel p = some (r, p') ∧ p' <:+ p ∧
      p'.length < p.length := by
  simp only [Xrm.parse_resource_line]
  obtain ⟨⟨b, p1⟩, h1⟩ := Xrm.parse_comment_total fuel p hf
  simp only [h1]
  rcases Xrm.parse_comment_sound fuel p b p1 h1 with ⟨rfl, s1, s2⟩ | ⟨rfl, rfl⟩
  · exact ⟨Xrm.Qnil, p1, rfl, s1, s2⟩
  · obtain ⟨⟨b, p2⟩, h2⟩ := Xrm.parse_include_file_total fuel p1 hf
    simp only [h2]
    rcases Xrm.parse_include_file_sound fuel p1 b p2 h2 with ⟨rfl, s1, s2⟩ | ⟨rfl, rfl⟩
    · exact ⟨Xrm.Qnil, p2, rfl, s1, s2⟩
    · obtain ⟨p3, h3⟩ := Xrm.skip_white_space_total fuel p2 hf
      obtain ⟨ws, w1, -, -⟩ := Xrm.skip_white_space_sound fuel p2 p3 h3
      have s3 : p3 <:+ p2 := ⟨ws, w1.symm⟩
      have l3 := s3.length_le
      simp only [h3]
      obtain ⟨quarks, p4, h4, s4, n4⟩ := Xrm.parse_resource_name_total fuel p3 (by omega)
      have l4 := s4.length_le
      simp only [h4]
      by_cases hq : Xrm.NILP quarks = true
      · simp only [hq, if_true]
        obtain ⟨p', c1, c2, c3⟩ := Xrm.parse_resource_line_cleanup_total fuel p4
          (Xrm.c_string_suffix hc (s4.trans s3)) (by omega)
        refine ⟨Xrm.Qnil, p', c1, c2.trans (s4.trans s3), ?_⟩
        have l5 := c2.length_le
        by_cases h4e : p4 = []
        · subst h4e
          have e1 : p'.length = 0 := by simpa using l5
          have e2 : 0 < p2.length := List.length_pos.2 hne
          omega
        · have := c3 h4e
          omega
      · have hq' : Xrm.NILP quarks = false := by simpa using hq
        simp only [hq', Bool.false_eq_true, if_false]
        have n4' := n4 hq'
        obtain ⟨p5, h5⟩ := Xrm.skip_white_space_total fuel p4 (by omega)
        obtain ⟨ws5, w5, -, -⟩ := Xrm.skip_white_space_sound fuel p4 p5 h5
        have s5 : p5 <:+ p4 := ⟨ws5, w5.symm⟩
        have l5 := s5.length_le
        simp only [h5]
        rcases p5 with _ | ⟨c, p6⟩
        · simp only [Xrm.char_at_nil]
          obtain ⟨p', c1, c2, -⟩ := Xrm.parse_resource_line_cleanup_total fuel []
            (by simp [Xrm.c_string]) (by omega)
          have l6 := c2.length_le
          refine ⟨Xrm.Qnil, p', by simpa using c1, c2.trans (s5.trans (s4.trans s3)), ?_⟩
          have e1 : p'.length = 0 := by simpa using l6
          omega
        · simp only [Xrm.char_at_cons]
          by_cases hcolon : c = 58
          · simp only [hcolon, ne_eq, not_true_eq_false, if_false, Xrm.advance_cons]
            simp only [List.length_cons] at l5
            have s6 : p6 <:+ p4 := (List.suffix_cons _ _).trans s5
            obtain ⟨p7, h7⟩ := Xrm.skip_white_space_total fuel p6 (by omega)
            obtain ⟨ws7, w7, -, -⟩ := Xrm.skip_white_space_sound fuel p6 p7 h7
            have s7 : p7 <:+ p6 := ⟨ws7, w7.symm⟩
            have l7 := s7.length_le
            simp only [h7]
            have hc7 : Xrm.c_string p7 :=
              Xrm.c_string_suffix hc (s7.trans (s6.trans (s4.trans s3)))
            obtain ⟨v1, -⟩ := Xrm.decode_value_bounds p7.length p7 (le_refl _)
            have l8 := v1.length_le
            refine ⟨Xrm.Fcons quarks (Xrm.Lisp_Object.string (Xrm.decode_value p7).1),
              (Xrm.decode_value p7).2,
              by simp [Xrm.parse_value_spec fuel p7 hc7 (by omega)],
              v1.trans (s7.trans (s6.trans (s4.trans s3))), by omega⟩
          · simp only [ne_eq, hcolon, not_false_eq_true, if_true]
            obtain ⟨p', c1, c2, -⟩ := Xrm.parse_resource_line_cleanup_total fuel (c :: p6)
              (Xrm.c_string_suffix hc (s5.trans (s4.trans s3))) (by omega)
            have l6 := c2.length_le
            simp only [List.length_cons] at l6 l5
            exact ⟨Xrm.Qnil, p', c1, c2.trans (s5.trans (s4.trans s3)), by omega⟩

theorem Xrm.xrm_merge_string_database_loop_total (fuel : Nat) :
    ∀ (n : Nat) (database : Xrm.Table) (data : List Nat),
      Xrm.c_string data → data.length < fuel → data.length < n →
      ∃ database', Xrm.xrm_merge_string_database_loop fuel n database data
        = some database' := by
  intro n
  induction n with
  | zero => intro database data _ _ h; omega
  | succ n ih =>
    intro database data hc hf hn
    rcases data with _ | ⟨c, rest⟩
    · exact ⟨database, by simp [Xrm.xrm_merge_string_database_loop, Xrm.char_at_nil]⟩
    · have hc0 := (Xrm.c_string_tail hc).1
      obtain ⟨r, p', h1, h2, h3⟩ := Xrm.parse_resource_line_total fuel (c :: rest) hc hf
        (by simp)
      simp only [Xrm.xrm_merge_string_database_loop, Xrm.char_at_cons, ne_eq, hc0,
        not_false_eq_true, if_true, h1]
      have hc' := Xrm.c_string_suffix hc h2
      by_cases hnil : Xrm.NILP r = true
      · simp only [hnil, Bool.not_true, Bool.false_eq_true, if_false]
        exact ih _ p' hc' (by omega) (by omega)
      · have hn' : Xrm.NILP r = false := by simpa using hnil
        simp only [hn', Bool.not_false, if_true]
        exact ih _ p' hc' (by omega) (by omega)

/-- C27: merging a resource string terminates without over-reading.  For
a NUL-terminated input and fuel beyond its length, `xrm_merge_string_database`
returns; and on every remainder of the input that is not empty,
`parse_resource_line` returns and leaves a part of the remainder that is
shorter by at least one character, so it neither reads nor moves the pointer
past the terminating NUL. -/
theorem xrm_merge_string_database_terminates (fuel : Nat) (database : Xrm.Table)
    (data : List Nat) (hc : Xrm.c_string data) (hf : data.length < fuel) :
    (∃ database', Xrm.xrm_merge_string_database fuel database data = some database') ∧
    (∀ p, p <:+ data → p ≠ [] →
      ∃ r p', Xrm.parse_resource_line fuel p = some (r, p') ∧ p' <:+ p ∧
        p'.length < p.length) := by
  refine ⟨Xrm.xrm_merge_string_database_loop_total fuel fuel database data hc hf hf, ?_⟩
  intro p hp hne
  have := hp.length_le
  exact Xrm.parse_resource_line_total fuel p (Xrm.c_string_suffix hc hp) (by omega) hne

theorem xrm_merge_string_database_terminates_witness :
    Xrm.xrm_merge_string_database 19 Xrm.xrm_create_database Xrm.malformed_text =
      some [(Xrm.Lisp_Object.integer 2, Xrm.Lisp_Object.string [122]),
        (Xrm.Lisp_Object.cons (Xrm.Lisp_Object.integer 0) (Xrm.Lisp_Object.string [99]),
          Xrm.Lisp_Object.integer 2),
        (Xrm.Lisp_Object.integer 1, Xrm.Lisp_Object.string [49, 50]),
        (Xrm.Lisp_Object.cons (Xrm.Lisp_Object.integer 0) (Xrm.Lisp_Object.string [98]),
          Xrm.Lisp_Object.integer 1),
        (Xrm.Lisp_Object.integer (-1), Xrm.Qnil),
        (Xrm.Lisp_Object.integer 0, Xrm.Lisp_Object.integer 2)] ∧
    Xrm.parse_resource_line 19 Xrm.malformed_text
      = some (Xrm.Qnil, Xrm.malformed_text.drop 3) ∧
    Xrm.parse_resource_line 19 (Xrm.malformed_text.drop 3)
      = some (Xrm.Qnil, Xrm.malformed_text.drop 8) ∧
    Xrm.parse_resource_line 19 (Xrm.malformed_text.drop 14)
      = some (Xrm.Fcons (Xrm.list_of [Xrm.Lisp_Object.string [99]])
          (Xrm.Lisp_Object.string [122]), []) ∧
    ((∃ database', Xrm.xrm_merge_string_database 19 Xrm.xrm_create_database
        Xrm.malformed_text = some database') ∧
      (∀ p, p <:+ Xrm.malformed_text → p ≠ [] →
        ∃ r p', Xrm.parse_resource_line 19 p = some (r, p') ∧ p' <:+ p ∧
          p'.length < p.length)) :=
  ⟨by decide, by decide, by decide, by decide,
    xrm_merge_string_database_terminates 19 Xrm.xrm_create_database Xrm.malformed_text
      (by simp [Xrm.c_string, Xrm.malformed_text]) (by decide)⟩

/-! ### The resource database as a trie (C22) -/

theorem Xrm.hash_lookup_set_value (key value : Xrm.Lisp_Object) :
    ∀ (t : Xrm.Table) (k : Xrm.Lisp_Object),
      Xrm.hash_lookup (Xrm.set_value key value t) k =
        if k = key then (Xrm.hash_lookup t key).map (fun _ => value)
        else Xrm.hash_lookup t k := by
  intro t
  induction t with
  | nil => intro k; simp [Xrm.set_value, Xrm.hash_lookup]
  | cons e rest ih =>
    intro k
    obtain ⟨k0, v0⟩ := e
    by_cases h0 : key = k0
    · subst h0
      by_cases hk : k = key
      · subst hk
        simp [Xrm.set_value, Xrm.hash_lookup]
      · simp [Xrm.set_value, Xrm.hash_lookup, hk]
    · by_cases hk : k = key
      · subst hk
        simp [Xrm.set_value, Xrm.hash_lookup, h0, ih]
      · by_cases hk0 : k = k0
        · subst hk0
          simp [Xrm.set_value, Xrm.hash_lookup, h0, hk]
        · simp [Xrm.set_value, Xrm.hash_lookup, h0, hk, hk0, ih]

theorem Xrm.hash_lookup_Fputhash (key value : Xrm.Lisp_Object) (t : Xrm.Table)
    (k : Xrm.Lisp_Object) :
    Xrm.hash_lookup (Xrm.Fputhash key value t) k =
      if k = key then some value else Xrm.hash_lookup t k := by
  unfold Xrm.Fputhash
  cases h : Xrm.hash_lookup t key with
  | none => simp [Xrm.hash_put, Xrm.hash_lookup]
  | some v =>
    simp only [Xrm.hash_lookup_set_value, h, Option.map_some']

theorem Xrm.hash_lookup_hash_put (key value : Xrm.Lisp_Object) (t : Xrm.Table)
    (k : Xrm.Lisp_Object) :
    Xrm.hash_lookup (Xrm.hash_put t key value) k =
      if k = key then some value else Xrm.hash_lookup t k := by
  simp [Xrm.hash_put, Xrm.hash_lookup]

theorem Xrm.Fgethash_Fputhash (key value : Xrm.Lisp_Object) (t : Xrm.Table)
    (k dflt : Xrm.Lisp_Object) :
    Xrm.Fgethash k (Xrm.Fputhash key value t) dflt =
      if k = key then value else Xrm.Fgethash k t dflt := by
  simp only [Xrm.Fgethash, Xrm.hash_lookup_Fputhash]
  by_cases hk : k = key <;> simp [hk]

theorem Xrm.walk_mono (h h' : Xrm.Table)
    (hm : ∀ k v, Xrm.hash_lookup h k = some v → Xrm.hash_lookup h' k = some v) :
    ∀ (labels : List Xrm.Lisp_Object) (node dest : Xrm.Lisp_Object),
      Xrm.walk h node labels = some dest → Xrm.walk h' node labels = some dest := by
  intro labels
  induction labels with
  | nil => intro node dest hw; simpa [Xrm.walk] using hw
  | cons l labels ih =>
    intro node dest hw
    simp only [Xrm.walk] at hw ⊢
    cases hl : Xrm.hash_lookup h (Xrm.Fcons node l) with
    | none => simp [hl] at hw
    | some d =>
      simp only [hl] at hw
      simp only [hm _ _ hl]
      exact ih d dest hw

/-- Along edges that are in order the numbers of the nodes grow. -/
theorem Xrm.walk_ge (h : Xrm.Table) (m : Int) (he : Xrm.edges_ok h m) :
    ∀ (labels : List Xrm.Lisp_Object) (s c : Int),
      Xrm.walk h (Xrm.Lisp_Object.integer s) labels = some (Xrm.Lisp_Object.integer c) →
      s ≤ c ∧ (labels ≠ [] → s < c) := by
  intro labels
  induction labels with
  | nil =>
    intro s c hw
    simp only [Xrm.walk, Option.some.injEq, Xrm.Lisp_Object.integer.injEq] at hw
    exact ⟨by omega, fun hne => absurd rfl hne⟩
  | cons l labels ih =>
    intro s c hw
    simp only [Xrm.walk] at hw
    cases hl : Xrm.hash_lookup h (Xrm.Fcons (Xrm.Lisp_Object.integer s) l) with
    | none => simp [hl] at hw
    | some d =>
      simp only [hl] at hw
      obtain ⟨a', b', e1, e2, e3, e4, e5⟩ := he _ _ _ hl
      simp only [Xrm.Lisp_Object.integer.injEq] at e1
      subst e2
      have := (ih b' c hw).1
      exact ⟨by omega, fun _ => by omega⟩

/-- The loop of `xrm_q_put_resource` on the list of the labels `qs`, entered
at node `a` of a table whose edges are in order: the table keeps its
entries and the values of its keys that are not edges, its edges are still
in order, and the labels lead from node `a` to the node that the loop ends
at, which is not node 0 when there is a label. -/
theorem Xrm.xrm_q_put_resource_loop_spec :
    ∀ (qs : List Xrm.Lisp_Object) (h : Xrm.Table) (m a : Int),
      Xrm.edges_ok h m → 0 ≤ a → a ≤ m →
      ∃ (h' : Xrm.Table) (m' c : Int),
        Xrm.xrm_q_put_resource_loop h m (Xrm.Lisp_Object.integer a) (Xrm.list_of qs)
          = (h', m', Xrm.Lisp_Object.integer c) ∧
        Xrm.edges_ok h' m' ∧ m ≤ m' ∧ 0 ≤ c ∧ c ≤ m' ∧ (qs ≠ [] → 1 ≤ c) ∧
        (∀ k v, Xrm.hash_lookup h k = some v → Xrm.hash_lookup h' k = some v) ∧
        (∀ k, Xrm.CONSP k = false → Xrm.hash_lookup h' k = Xrm.hash_lookup h k) ∧
        Xrm.walk h' (Xrm.Lisp_Object.integer a) qs = some (Xrm.Lisp_Object.integer c) := by
  intro qs
  induction qs with
  | nil =>
    intro h m a he h0 ha
    exact ⟨h, m, a, by simp [Xrm.list_of, Xrm.xrm_q_put_resource_loop, Xrm.Qnil], he,
      le_refl _, h0, ha, by simp, fun _ _ hk => hk, fun _ _ => rfl, by simp [Xrm.walk]⟩
  | cons q qs ih =>
    intro h m a he h0 ha
    simp only [Xrm.list_of, Xrm.Fcons, Xrm.xrm_q_put_resource_loop]
    cases hl : Xrm.hash_lookup h (Xrm.Lisp_Object.cons (Xrm.Lisp_Object.integer a) q) with
    | none =>
      simp only []
      have he1 : Xrm.edges_ok
          (Xrm.hash_put h (Xrm.Lisp_Object.cons (Xrm.Lisp_Object.integer a) q)
            (Xrm.Lisp_Object.integer (m + 1))) (m + 1) := by
        intro n l v hv
        rw [Xrm.hash_lookup_hash_put] at hv
        by_cases hk : Xrm.Lisp_Object.cons n l
            = Xrm.Lisp_Object.cons (Xrm.Lisp_Object.integer a) q
        · simp only [hk, if_true, Option.some.injEq] at hv
          simp only [Xrm.Lisp_Object.cons.injEq] at hk
          exact ⟨a, m + 1, hk.1, hv.symm, h0, by omega, le_refl _⟩
        · simp only [hk, if_false] at hv
          obtain ⟨a', b', e1, e2, e3, e4, e5⟩ := he n l v hv
          exact ⟨a', b', e1, e2, e3, e4, by omega⟩
      obtain ⟨h', m', c, i1, i2, i3, i4, i5, -, i7, i8, i9⟩ :=
        ih _ (m + 1) (m + 1) he1 (by omega) (le_refl _)
      refine ⟨h', m', c, i1, i2, by omega, i4, i5, fun _ => ?_, ?_, ?_, ?_⟩
      · have := (Xrm.walk_ge h' m' i2 qs (m + 1) c i9).1
        omega
      · intro k v hk
        apply i7
        rw [Xrm.hash_lookup_hash_put]
        by_cases hkk : k = Xrm.Lisp_Object.cons (Xrm.Lisp_Object.integer a) q
        · rw [hkk, hl] at hk
          simp at hk
        · simp [hkk, hk]
      · intro k hk
        rw [i8 k hk, Xrm.hash_lookup_hash_put]
        have : k ≠ Xrm.Lisp_Object.cons (Xrm.Lisp_Object.integer a) q := by
          rintro rfl
          simp [Xrm.CONSP] at hk
        simp [this]
      · simp only [Xrm.walk, Xrm.Fcons]
        have : Xrm.hash_lookup h' (Xrm.Lisp_Object.cons (Xrm.Lisp_Object.integer a) q)
            = some (Xrm.Lisp_Object.integer (m + 1)) := by
          apply i7
          simp [Xrm.hash_lookup_hash_put]
        simp only [this]
        exact i9
    | some v =>
      simp only []
      obtain ⟨a', b', e1, e2, e3, e4, e5⟩ := he _ _ _ hl
      subst e2
      simp only [Xrm.Lisp_Object.integer.injEq] at e1
      subst e1
      obtain ⟨h', m', c, i1, i2, i3, i4, i5, -, i7, i8, i9⟩ :=
        ih h m b' he (by omega) e5
      refine ⟨h', m', c, i1, i2, i3, i4, i5, fun _ => ?_, i7, i8, ?_⟩
      · have := (Xrm.walk_ge h' m' i2 qs b' c i9).1
        omega
      · simp only [Xrm.walk, Xrm.Fcons]
        simp only [i7 _ _ hl]
        exact i9

theorem Xrm.elements_list_of (l : List Xrm.Lisp_Object) :
    Xrm.elements (Xrm.list_of l) = l := by
  induction l with
  | nil => simp [Xrm.list_of, Xrm.elements, Xrm.Qnil]
  | cons x l ih => simp [Xrm.list_of, Xrm.Fcons, Xrm.elements, ih]

/-- The loop of `xrm_q_put_resource` looks at the cars of the cells of
`quarks` only. -/
theorem Xrm.xrm_q_put_resource_loop_elements :
    ∀ (quarks : Xrm.Lisp_Object) (h : Xrm.Table) (m : Int) (node : Xrm.Lisp_Object),
      Xrm.xrm_q_put_resource_loop h m node quarks =
        Xrm.xrm_q_put_resource_loop h m node (Xrm.list_of (Xrm.elements quarks)) := by
  intro quarks
  induction quarks with
  | cons a d _ ihd =>
    intro h m node
    simp only [Xrm.elements, Xrm.list_of, Xrm.Fcons, Xrm.xrm_q_put_resource_loop]
    cases Xrm.hash_lookup h (Xrm.Lisp_Object.cons node a) with
    | none => exact ihd _ _ _
    | some v => exact ihd _ _ _
  | symbol n => intro h m node; simp [Xrm.elements, Xrm.list_of, Xrm.xrm_q_put_resource_loop, Xrm.Qnil]
  | integer n => intro h m node; simp [Xrm.elements, Xrm.list_of, Xrm.xrm_q_put_resource_loop, Xrm.Qnil]
  | string s => intro h m node; simp [Xrm.elements, Xrm.list_of, Xrm.xrm_q_put_resource_loop, Xrm.Qnil]
  | hash_table i => intro h m node; simp [Xrm.elements, Xrm.list_of, Xrm.xrm_q_put_resource_loop, Xrm.Qnil]

theorem Xrm.walk_congr (h h' : Xrm.Table)
    (hm : ∀ n l, Xrm.hash_lookup h' (Xrm.Lisp_Object.cons n l)
      = Xrm.hash_lookup h (Xrm.Lisp_Object.cons n l)) :
    ∀ (labels : List Xrm.Lisp_Object) (node : Xrm.Lisp_Object),
      Xrm.walk h' node labels = Xrm.walk h node labels := by
  intro labels
  induction labels with
  | nil => intro node; simp [Xrm.walk]
  | cons l labels ih =>
    intro node
    simp only [Xrm.walk, Xrm.Fcons, hm]
    cases Xrm.hash_lookup h (Xrm.Lisp_Object.cons node l) with
    | none => rfl
    | some d => exact ih d

/-- What `xrm_q_put_resource` does to a trie: the result is a trie, the
quarks lead from node 0 to a node, and when there is a quark that node is
not node 0 and holds the value. -/
theorem Xrm.xrm_q_put_resource_spec (db : Xrm.Table) (quarks value : Xrm.Lisp_Object)
    (hdb : Xrm.trie db) :
    Xrm.trie (Xrm.xrm_q_put_resource db quarks value) ∧
    ∃ c : Int, 0 ≤ c ∧
      Xrm.walk (Xrm.xrm_q_put_resource db quarks value) (Xrm.Lisp_Object.integer 0)
        (Xrm.elements quarks) = some (Xrm.Lisp_Object.integer c) ∧
      (Xrm.elements quarks ≠ [] → 1 ≤ c ∧
        Xrm.hash_lookup (Xrm.xrm_q_put_resource db quarks value) (Xrm.Lisp_Object.integer c)
          = some value) := by
  obtain ⟨m, hm, hm0, he⟩ := hdb
  obtain ⟨h', m', c, i1, i2, i3, i4, i5, i6, i7, i8, i9⟩ :=
    Xrm.xrm_q_put_resource_loop_spec (Xrm.elements quarks) db m 0 he (le_refl _) hm0
  have hx : Xrm.XINT (Xrm.Fgethash Xrm.HASHKEY_MAX_NID db Xrm.Qnil) = m := by
    simp [Xrm.Fgethash, hm, Xrm.XINT]
  have hput : Xrm.xrm_q_put_resource db quarks value =
      Xrm.Fputhash Xrm.HASHKEY_QUERY_CACHE Xrm.Qnil
        (Xrm.Fputhash Xrm.HASHKEY_MAX_NID (Xrm.Lisp_Object.integer m')
          (Xrm.Fputhash (Xrm.Lisp_Object.integer c) value h')) := by
    simp only [Xrm.xrm_q_put_resource, hx]
    rw [Xrm.xrm_q_put_resource_loop_elements, i1]
  have hcons : ∀ n l, Xrm.hash_lookup (Xrm.xrm_q_put_resource db quarks value)
      (Xrm.Lisp_Object.cons n l) = Xrm.hash_lookup h' (Xrm.Lisp_Object.cons n l) := by
    intro n l
    rw [hput]
    simp [Xrm.hash_lookup_Fputhash, Xrm.HASHKEY_QUERY_CACHE, Xrm.HASHKEY_MAX_NID]
  refine ⟨⟨m', ?_, by omega, ?_⟩, c, i4, ?_, ?_⟩
  · rw [hput]
    simp [Xrm.hash_lookup_Fputhash, Xrm.HASHKEY_QUERY_CACHE, Xrm.HASHKEY_MAX_NID]
  · intro n l v hv
    rw [hcons] at hv
    exact i2 n l v hv
  · rw [Xrm.walk_congr _ _ hcons]
    exact i9
  · intro hne
    have hc := i6 hne
    refine ⟨hc, ?_⟩
    rw [hput]
    have h1 : Xrm.Lisp_Object.integer c ≠ Xrm.HASHKEY_QUERY_CACHE := by
      simp only [Xrm.HASHKEY_QUERY_CACHE, ne_eq, Xrm.Lisp_Object.integer.injEq]
      omega
    have h2 : Xrm.Lisp_Object.integer c ≠ Xrm.HASHKEY_MAX_NID := by
      simp only [Xrm.HASHKEY_MAX_NID, ne_eq, Xrm.Lisp_Object.integer.injEq]
      omega
    simp [Xrm.hash_lookup_Fputhash, h1, h2]

theorem Xrm.trie_create : Xrm.trie Xrm.xrm_create_database := by
  refine ⟨0, by decide, le_refl _, ?_⟩
  intro n l v hv
  simp [Xrm.xrm_create_database, Xrm.hash_lookup_Fputhash, Xrm.HASHKEY_QUERY_CACHE,
    Xrm.HASHKEY_MAX_NID, Xrm.hash_lookup] at hv

theorem Xrm.trie_cache (db : Xrm.Table) (c : Xrm.Lisp_Object) (hdb : Xrm.trie db) :
    Xrm.trie (Xrm.Fputhash Xrm.HASHKEY_QUERY_CACHE c db) := by
  obtain ⟨m, hm, hm0, he⟩ := hdb
  refine ⟨m, ?_, hm0, ?_⟩
  · rw [Xrm.hash_lookup_Fputhash]
    simp [Xrm.HASHKEY_QUERY_CACHE, Xrm.HASHKEY_MAX_NID] at hm ⊢
    exact hm
  · intro n l v hv
    rw [Xrm.hash_lookup_Fputhash] at hv
    simp only [Xrm.HASHKEY_QUERY_CACHE, reduceCtorEq, if_false] at hv
    exact he n l v hv

/-- The contents that a resource database can have are those of a trie. -/
theorem Xrm.Reachable.is_trie {db : Xrm.Table} (h : Xrm.Reachable db) : Xrm.trie db := by
  induction h with
  | create => exact Xrm.trie_create
  | put db quarks value _ ih => exact (Xrm.xrm_q_put_resource_spec db quarks value ih).1
  | cache db c _ ih => exact Xrm.trie_cache db c ih

theorem Xrm.XCAR_cons (a d : Xrm.Lisp_Object) : Xrm.XCAR (Xrm.Lisp_Object.cons a d) = a :=
  rfl

theorem Xrm.XCDR_cons (a d : Xrm.Lisp_Object) : Xrm.XCDR (Xrm.Lisp_Object.cons a d) = d :=
  rfl

/-- A lookup whose name leads along edges of the table to a node with a
value that is not `nil` returns that value, whatever the class and whatever
else the table holds. -/
theorem Xrm.xrm_q_get_resource_1_along (db : Xrm.Table) (v : Xrm.Lisp_Object)
    (hv : v ≠ Xrm.Qnil) :
    ∀ (qs : List Xrm.Lisp_Object) (fuel : Nat) (node dest quark_class : Xrm.Lisp_Object),
      Xrm.walk db node qs = some dest → Xrm.hash_lookup db dest = some v →
      qs.length < fuel →
      Xrm.xrm_q_get_resource_1 db fuel node (Xrm.list_of qs) quark_class = some v := by
  intro qs
  induction qs with
  | nil =>
    intro fuel node dest quark_class hw hd hf
    simp only [Xrm.walk, Option.some.injEq] at hw
    subst hw
    obtain ⟨fuel, rfl⟩ : ∃ k, fuel = k + 1 := ⟨fuel - 1, by simp at hf; omega⟩
    simp [Xrm.xrm_q_get_resource_1, Xrm.list_of, Xrm.Qnil, Xrm.CONSP, Xrm.Fgethash, hd]
  | cons q qs ih =>
    intro fuel node dest quark_class hw hd hf
    obtain ⟨fuel, rfl⟩ : ∃ k, fuel = k + 1 := ⟨fuel - 1, by simp at hf; omega⟩
    simp only [Xrm.walk] at hw
    cases hl : Xrm.hash_lookup db (Xrm.Fcons node q) with
    | none => simp [hl] at hw
    | some d =>
      simp only [hl] at hw
      have hrec := ih fuel d dest (Xrm.XCDR quark_class) hw hd (by simp at hf; omega)
      have hnil : Xrm.NILP v = false := by simpa [Xrm.NILP] using hv
      simp only [Xrm.Fcons] at hl
      simp only [Xrm.xrm_q_get_resource_1, Xrm.list_of, Xrm.Fcons, Xrm.CONSP, Bool.not_true,
        Bool.false_eq_true, if_false, Xrm.xrm_q_get_resource_tight, Xrm.XCAR_cons,
        Xrm.XCDR_cons, hl, hrec, hnil, Bool.not_false, if_true]

theorem Xrm.db_loose_reachable : Xrm.Reachable Xrm.db_loose :=
  Xrm.Reachable.put _ _ _ (Xrm.Reachable.put _ _ _ Xrm.Reachable.create)

/-- C22: put then get.  For every resource database (the contents of a new
database after any calls of `xrm_q_put_resource`, with or without a query
cache), every list `qs` of strings that is not empty, every value `v` that is
not `nil` and every class list `cs`, the lookup of `qs` and `cs` after
`xrm_q_put_resource (db, qs, v)` returns `v`, given fuel beyond the length
of `qs`; and after a second put of `v2` with the same `qs` it returns
`v2`. -/
theorem xrm_put_then_get (db : Xrm.Table) (hdb : Xrm.Reachable db)
    (qs cs : List (List Nat)) (v : Xrm.Lisp_Object) (hqs : qs ≠ []) (hv : v ≠ Xrm.Qnil)
    (fuel : Nat) (hf : qs.length < fuel) :
    Xrm.xrm_q_get_resource (Xrm.xrm_q_put_resource db (Xrm.strings qs) v) fuel
      (Xrm.strings qs) (Xrm.strings cs) = some v ∧
    ∀ v2, v2 ≠ Xrm.Qnil →
      Xrm.xrm_q_get_resource
        (Xrm.xrm_q_put_resource (Xrm.xrm_q_put_resource db (Xrm.strings qs) v)
          (Xrm.strings qs) v2) fuel (Xrm.strings qs) (Xrm.strings cs) = some v2 := by
  have key : ∀ (d : Xrm.Table) (w : Xrm.Lisp_Object), Xrm.Reachable d → w ≠ Xrm.Qnil →
      Xrm.xrm_q_get_resource (Xrm.xrm_q_put_resource d (Xrm.strings qs) w) fuel
        (Xrm.strings qs) (Xrm.strings cs) = some w := by
    intro d w hd hw
    obtain ⟨-, c, -, h2, h3⟩ := Xrm.xrm_q_put_resource_spec d (Xrm.strings qs) w hd.is_trie
    have he : Xrm.elements (Xrm.strings qs) = qs.map Xrm.Lisp_Object.string :=
      Xrm.elements_list_of _
    rw [he] at h2 h3
    have hne : qs.map Xrm.Lisp_Object.string ≠ [] := by simpa using hqs
    exact Xrm.xrm_q_get_resource_1_along _ w hw (qs.map Xrm.Lisp_Object.string) fuel _ _ _
      h2 (h3 hne).2 (by simpa using hf)
  exact ⟨key db v hdb hv, fun v2 hv2 => key _ v2 (Xrm.Reachable.put _ _ _ hdb) hv2⟩

theorem xrm_put_then_get_witness :
    (Xrm.xrm_q_get_resource
        (Xrm.xrm_q_put_resource Xrm.db_loose (Xrm.strings [[97], [98]])
          (Xrm.Lisp_Object.string [118])) 3
        (Xrm.strings [[97], [98]]) (Xrm.strings [[65], [66]])
        = some (Xrm.Lisp_Object.string [118]) ∧
      ∀ v2, v2 ≠ Xrm.Qnil →
        Xrm.xrm_q_get_resource
          (Xrm.xrm_q_put_resource
            (Xrm.xrm_q_put_resource Xrm.db_loose (Xrm.strings [[97], [98]])
              (Xrm.Lisp_Object.string [118]))
            (Xrm.strings [[97], [98]]) v2) 3
          (Xrm.strings [[97], [98]]) (Xrm.strings [[65], [66]]) = some v2) ∧
    Xrm.xrm_q_get_resource Xrm.db_loose 3 (Xrm.strings [[97], [98]])
      (Xrm.strings [[65], [66]]) = some (Xrm.Lisp_Object.string [113]) :=
  ⟨xrm_put_then_get Xrm.db_loose Xrm.db_loose_reachable [[97], [98]] [[65], [66]]
      (Xrm.Lisp_Object.string [118]) (by decide) (by decide) 3 (by decide),
    by decide⟩

/-! ### The query cache (C28) -/

/-- The key of the query cache tells the name and the class. -/
theorem Xrm.cache_key_injective :
    ∀ (n1 n2 c1 c2 : List Nat), Xrm.c_string n1 → Xrm.c_string n2 →
      n1 ++ [0] ++ c1 = n2 ++ [0] ++ c2 → n1 = n2 ∧ c1 = c2 := by
  intro n1
  induction n1 with
  | nil =>
    intro n2 c1 c2 _ h2 h
    cases n2 with
    | nil => simpa using h
    | cons x n2 =>
      simp only [List.nil_append, List.singleton_append, List.cons_append,
        List.cons.injEq] at h
      exact absurd h.1.symm (h2 x (by simp))
  | cons x n1 ih =>
    intro n2 c1 c2 h1 h2 h
    cases n2 with
    | nil =>
      simp only [List.nil_append, List.singleton_append, List.cons_append,
        List.cons.injEq] at h
      exact absurd h.1 (h1 x (by simp))
    | cons y n2 =>
      simp only [List.cons_append, List.cons.injEq] at h
      obtain ⟨e1, e2⟩ := ih n2 c1 c2 (fun c hc => h1 c (by simp [hc]))
        (fun c hc => h2 c (by simp [hc])) (by simpa using h.2)
      exact ⟨by rw [h.1, e1], e2⟩

/-- A lookup in a trie does not read the value of `HASHKEY_QUERY_CACHE`. -/
theorem Xrm.xrm_q_get_resource_1_cache (db : Xrm.Table) (c : Xrm.Lisp_Object) (m : Int)
    (he : Xrm.edges_ok db m) :
    ∀ (fuel : Nat) (a : Int) (quark_name quark_class : Xrm.Lisp_Object), 0 ≤ a →
      Xrm.xrm_q_get_resource_1 (Xrm.Fputhash Xrm.HASHKEY_QUERY_CACHE c db) fuel
        (Xrm.Lisp_Object.integer a) quark_name quark_class =
      Xrm.xrm_q_get_resource_1 db fuel (Xrm.Lisp_Object.integer a) quark_name
        quark_class := by
  have hcons : ∀ n l, Xrm.hash_lookup (Xrm.Fputhash Xrm.HASHKEY_QUERY_CACHE c db)
      (Xrm.Fcons n l) = Xrm.hash_lookup db (Xrm.Fcons n l) := by
    intro n l
    simp [Xrm.hash_lookup_Fputhash, Xrm.HASHKEY_QUERY_CACHE, Xrm.Fcons]
  intro fuel
  induction fuel with
  | zero => intro a qn qc _; simp [Xrm.xrm_q_get_resource_1]
  | succ fuel ih =>
    intro a qn qc ha
    have htight : ∀ (labels : List Xrm.Lisp_Object),
        Xrm.xrm_q_get_resource_tight (Xrm.Fputhash Xrm.HASHKEY_QUERY_CACHE c db)
          (Xrm.xrm_q_get_resource_1 (Xrm.Fputhash Xrm.HASHKEY_QUERY_CACHE c db) fuel)
          (Xrm.Lisp_Object.integer a) qn qc labels =
        Xrm.xrm_q_get_resource_tight db (Xrm.xrm_q_get_resource_1 db fuel)
          (Xrm.Lisp_Object.integer a) qn qc labels := by
      intro labels
      induction labels with
      | nil => simp [Xrm.xrm_q_get_resource_tight]
      | cons l labels ihl =>
        simp only [Xrm.xrm_q_get_resource_tight, hcons]
        cases hl : Xrm.hash_lookup db (Xrm.Fcons (Xrm.Lisp_Object.integer a) l) with
        | none => exact ihl
        | some d =>
          obtain ⟨a', b', e1, e2, e3, e4, e5⟩ := he _ _ _ hl
          subst e2
          simp only [ih b' _ _ (by omega), ihl]
    simp only [Xrm.xrm_q_get_resource_1, htight, hcons]
    have hg : Xrm.Fgethash (Xrm.Lisp_Object.integer a)
        (Xrm.Fputhash Xrm.HASHKEY_QUERY_CACHE c db) Xrm.Qnil
        = Xrm.Fgethash (Xrm.Lisp_Object.integer a) db Xrm.Qnil := by
      rw [Xrm.Fgethash_Fputhash]
      have : Xrm.Lisp_Object.integer a ≠ Xrm.HASHKEY_QUERY_CACHE := by
        simp only [Xrm.HASHKEY_QUERY_CACHE, ne_eq, Xrm.Lisp_Object.integer.injEq]
        omega
      simp [this]
    rw [hg]
    cases hl : Xrm.hash_lookup db (Xrm.Fcons (Xrm.Lisp_Object.integer a)
        Xrm.LOOSE_BINDING) with
    | none => rfl
    | some d =>
      obtain ⟨a', b', e1, e2, e3, e4, e5⟩ := he _ _ _ hl
      subst e2
      simp only [ih b' _ _ (by omega), ih a _ _ ha]

theorem Xrm.uncached_lookup_cache (fuel : Nat) (db : Xrm.Table) (c : Xrm.Lisp_Object)
    (hdb : Xrm.trie db) (name cls : List Nat) :
    Xrm.uncached_lookup fuel (Xrm.Fputhash Xrm.HASHKEY_QUERY_CACHE c db) name cls =
      Xrm.uncached_lookup fuel db name cls := by
  obtain ⟨m, -, -, he⟩ := hdb
  simp only [Xrm.uncached_lookup, Xrm.xrm_get_resource_query, Xrm.xrm_q_get_resource,
    Xrm.xrm_q_get_resource_1_cache db c m he fuel 0 _ _ (le_refl _)]

theorem Xrm.Fgethash_cache_put (db : Xrm.Table) (quarks value : Xrm.Lisp_Object) :
    Xrm.Fgethash Xrm.HASHKEY_QUERY_CACHE (Xrm.xrm_q_put_resource db quarks value) Xrm.Qnil
      = Xrm.Qnil := by
  simp only [Xrm.xrm_q_put_resource]
  rw [Xrm.Fgethash_Fputhash]
  simp

/-- Merging a string keeps a trie a trie, and either leaves the database as
it is or leaves it without a query cache. -/
theorem Xrm.xrm_merge_string_database_loop_cache (fuel : Nat) :
    ∀ (n : Nat) (db : Xrm.Table) (data : List Nat) (db' : Xrm.Table), Xrm.trie db →
      Xrm.xrm_merge_string_database_loop fuel n db data = some db' →
      Xrm.trie db' ∧
        (db' = db ∨ Xrm.Fgethash Xrm.HASHKEY_QUERY_CACHE db' Xrm.Qnil = Xrm.Qnil) := by
  intro n
  induction n with
  | zero => intro db data db' _ h; simp [Xrm.xrm_merge_string_database_loop] at h
  | succ n ih =>
    intro db data db' hdb h
    simp only [Xrm.xrm_merge_string_database_loop] at h
    cases hc : Xrm.char_at data 0 with
    | none => simp [hc] at h
    | some c =>
      simp only [hc] at h
      by_cases h0 : c = 0
      · simp only [h0, ne_eq, not_true_eq_false, if_false, Option.some.injEq] at h
        subst h
        exact ⟨hdb, Or.inl rfl⟩
      · simp only [ne_eq, h0, not_false_eq_true, if_true] at h
        cases hp : Xrm.parse_resource_line fuel data with
        | none => simp [hp] at h
        | some r =>
          obtain ⟨qv, data1⟩ := r
          simp only [hp] at h
          by_cases hnil : Xrm.NILP qv = true
          · simp only [hnil, Bool.not_true, Bool.false_eq_true, if_false] at h
            exact ih db data1 db' hdb h
          · have hn' : Xrm.NILP qv = false := by simpa using hnil
            simp only [hn', Bool.not_false, if_true] at h
            obtain ⟨i1, i2⟩ := ih _ data1 db'
              (Xrm.xrm_q_put_resource_spec db _ _ hdb).1 h
            refine ⟨i1, Or.inr ?_⟩
            rcases i2 with rfl | i2
            · exact Xrm.Fgethash_cache_put _ _ _
            · exact i2

theorem Xrm.xrm_get_resource_query_cache (fuel : Nat) (db : Xrm.Table)
    (c : Xrm.Lisp_Object) (hdb : Xrm.trie db) (name cls : List Nat) :
    Xrm.xrm_get_resource_query fuel (Xrm.Fputhash Xrm.HASHKEY_QUERY_CACHE c db) name cls =
      Xrm.xrm_get_resource_query fuel db name cls := by
  obtain ⟨m, -, -, he⟩ := hdb
  simp only [Xrm.xrm_get_resource_query, Xrm.xrm_q_get_resource,
    Xrm.xrm_q_get_resource_1_cache db c m he fuel 0 _ _ (le_refl _)]

/-- A call of `xrm_get_resource` with no query cache in the database: it
makes one, looks the name up, and records the value when there is one. -/
theorem Xrm.xrm_get_resource_fresh (fuel : Nat) (st : Xrm.Store) (name cls : List Nat)
    (hdb : Xrm.trie st.database)
    (hnil : Xrm.Fgethash Xrm.HASHKEY_QUERY_CACHE st.database Xrm.Qnil = Xrm.Qnil) :
    Xrm.xrm_get_resource fuel st name cls =
      match Xrm.xrm_get_resource_query fuel st.database name cls with
      | none => none
      | some none => some (Xrm.Qnil,
          { database := Xrm.Fputhash Xrm.HASHKEY_QUERY_CACHE
              (Xrm.Lisp_Object.hash_table st.tables.length) st.database
            tables := st.tables ++ [[]] })
      | some (some tmp) => some (tmp,
          { database := Xrm.Fputhash Xrm.HASHKEY_QUERY_CACHE
              (Xrm.Lisp_Object.hash_table st.tables.length) st.database
            tables := st.tables ++
              [[(Xrm.Lisp_Object.string (name ++ [0] ++ cls), tmp)]] }) := by
  have e1 : (st.tables ++ [([] : Xrm.Table)]).getD st.tables.length [] = [] := by
    simp [List.getD]
  have e2 : ∀ x : Xrm.Table, (st.tables ++ [([] : Xrm.Table)]).set st.tables.length x
      = st.tables ++ [x] := by
    intro x
    rw [List.set_append_right _ _ (le_refl _)]
    simp
  simp only [Xrm.xrm_get_resource, hnil, Xrm.NILP, decide_True, if_true,
    List.length_append, List.length_singleton, Nat.lt_succ_self, e1, Xrm.hash_lookup,
    Xrm.xrm_get_resource_query_cache fuel st.database _ hdb, e2, Xrm.hash_put]

/-- A call of `xrm_get_resource` with a query cache in the database. -/
theorem Xrm.xrm_get_resource_cached (fuel : Nat) (st : Xrm.Store) (name cls : List Nat)
    (id : Nat)
    (hid : Xrm.Fgethash Xrm.HASHKEY_QUERY_CACHE st.database Xrm.Qnil
      = Xrm.Lisp_Object.hash_table id)
    (hlt : id < st.tables.length) :
    Xrm.xrm_get_resource fuel st name cls =
      match Xrm.hash_lookup (st.tables.getD id [])
          (Xrm.Lisp_Object.string (name ++ [0] ++ cls)) with
      | some value => some (value, st)
      | none =>
        match Xrm.xrm_get_resource_query fuel st.database name cls with
        | none => none
        | some none => some (Xrm.Qnil, st)
        | some (some tmp) => some (tmp,
            { database := st.database
              tables := List.set st.tables id (Xrm.hash_put (st.tables.getD id [])
                (Xrm.Lisp_Object.string (name ++ [0] ++ cls)) tmp) }) := by
  have hn : Xrm.NILP (Xrm.Lisp_Object.hash_table id) = false := by
    simp [Xrm.NILP, Xrm.Qnil]
  simp only [Xrm.xrm_get_resource, hid, hn, Bool.false_eq_true, if_false, hlt, if_true]

/-- One call of `xrm_get_resource` in a state whose query cache is right
returns what the lookup without the cache gives, and leaves a state whose
query cache is right. -/
theorem Xrm.xrm_get_resource_spec (fuel : Nat) (st : Xrm.Store) (name cls : List Nat)
    (hok : Xrm.cache_ok fuel st) (hname : Xrm.c_string name) :
    (Xrm.xrm_get_resource fuel st name cls).map Prod.fst
        = Xrm.uncached_lookup fuel st.database name cls ∧
      ∀ r st', Xrm.xrm_get_resource fuel st name cls = some (r, st') →
        Xrm.cache_ok fuel st' ∧
        ∀ n c, Xrm.uncached_lookup fuel st'.database n c
          = Xrm.uncached_lookup fuel st.database n c := by
  obtain ⟨hdb, hc⟩ := hok
  rcases hc with hnil | ⟨id, hid, hlt, hent⟩
  · rw [Xrm.xrm_get_resource_fresh fuel st name cls hdb hnil]
    have hget : Xrm.Fgethash Xrm.HASHKEY_QUERY_CACHE
        (Xrm.Fputhash Xrm.HASHKEY_QUERY_CACHE
          (Xrm.Lisp_Object.hash_table st.tables.length) st.database) Xrm.Qnil
        = Xrm.Lisp_Object.hash_table st.tables.length := by
      rw [Xrm.Fgethash_Fputhash]; simp
    cases hq : Xrm.xrm_get_resource_query fuel st.database name cls with
    | none =>
      refine ⟨by simp [Xrm.uncached_lookup, hq], ?_⟩
      intro r st' h
      simp at h
    | some o =>
      cases o with
      | none =>
        refine ⟨by simp [Xrm.uncached_lookup, hq], ?_⟩
        intro r st' h
        simp only [Option.some.injEq, Prod.mk.injEq] at h
        obtain ⟨-, rfl⟩ := h
        refine ⟨⟨Xrm.trie_cache _ _ hdb, Or.inr ⟨st.tables.length, hget, by simp, ?_⟩⟩,
          fun n c => Xrm.uncached_lookup_cache fuel _ _ hdb n c⟩
        intro key value hl
        simp [List.getD, Xrm.hash_lookup] at hl
      | some tmp =>
        refine ⟨by simp [Xrm.uncached_lookup, hq], ?_⟩
        intro r st' h
        simp only [Option.some.injEq, Prod.mk.injEq] at h
        obtain ⟨-, rfl⟩ := h
        refine ⟨⟨Xrm.trie_cache _ _ hdb, Or.inr ⟨st.tables.length, hget, by simp, ?_⟩⟩,
          fun n c => Xrm.uncached_lookup_cache fuel _ _ hdb n c⟩
        intro key value hl
        have e : (st.tables ++ [[(Xrm.Lisp_Object.string (name ++ [0] ++ cls), tmp)]]).getD
            st.tables.length ([] : Xrm.Table)
            = [(Xrm.Lisp_Object.string (name ++ [0] ++ cls), tmp)] := by
          simp [List.getD]
        simp only [e, Xrm.hash_lookup] at hl
        by_cases hk : key = Xrm.Lisp_Object.string (name ++ [0] ++ cls)
        · simp only [hk, if_true, Option.some.injEq] at hl
          refine ⟨name, cls, hname, hk, ?_⟩
          rw [Xrm.uncached_lookup_cache fuel _ _ hdb]
          simp [Xrm.uncached_lookup, hq, hl]
        · simp only [hk, if_false, Xrm.hash_lookup] at hl
          exact absurd hl (by simp)
  · rw [Xrm.xrm_get_resource_cached fuel st name cls id hid hlt]
    cases hl : Xrm.hash_lookup (st.tables.getD id [])
        (Xrm.Lisp_Object.string (name ++ [0] ++ cls)) with
    | some value =>
      obtain ⟨n', c', hn', hk, hv⟩ := hent _ _ hl
      simp only [Xrm.Lisp_Object.string.injEq] at hk
      obtain ⟨e1, e2⟩ := Xrm.cache_key_injective name n' cls c' hname hn' hk
      subst e1; subst e2
      refine ⟨by simp [hv], ?_⟩
      intro r st' h
      simp only [Option.some.injEq, Prod.mk.injEq] at h
      obtain ⟨-, rfl⟩ := h
      exact ⟨⟨hdb, Or.inr ⟨id, hid, hlt, hent⟩⟩, fun _ _ => rfl⟩
    | none =>
      cases hq : Xrm.xrm_get_resource_query fuel st.database name cls with
      | none =>
        refine ⟨by simp [Xrm.uncached_lookup, hq], ?_⟩
        intro r st' h
        simp at h
      | some o =>
        cases o with
        | none =>
          refine ⟨by simp [Xrm.uncached_lookup, hq], ?_⟩
          intro r st' h
          simp only [Option.some.injEq, Prod.mk.injEq] at h
          obtain ⟨-, rfl⟩ := h
          exact ⟨⟨hdb, Or.inr ⟨id, hid, hlt, hent⟩⟩, fun _ _ => rfl⟩
        | some tmp =>
          refine ⟨by simp [Xrm.uncached_lookup, hq], ?_⟩
          intro r st' h
          simp only [Option.some.injEq, Prod.mk.injEq] at h
          obtain ⟨-, rfl⟩ := h
          refine ⟨⟨hdb, Or.inr ⟨id, hid, by simpa using hlt, ?_⟩⟩, fun _ _ => rfl⟩
          intro key value hl'
          have e : (List.set st.tables id (Xrm.hash_put (st.tables.getD id [])
              (Xrm.Lisp_Object.string (name ++ [0] ++ cls)) tmp)).getD id ([] : Xrm.Table)
              = Xrm.hash_put (st.tables.getD id [])
                (Xrm.Lisp_Object.string (name ++ [0] ++ cls)) tmp := by
            simp [List.getD, List.getElem?_set, hlt]
          simp only [e, Xrm.hash_lookup_hash_put] at hl'
          by_cases hk : key = Xrm.Lisp_Object.string (name ++ [0] ++ cls)
          · simp only [hk, if_true, Option.some.injEq] at hl'
            refine ⟨name, cls, hname, hk, ?_⟩
            simp [Xrm.uncached_lookup, hq, hl']
          · simp only [hk, if_false] at hl'
            exact hent key value hl'

/-- The query cache is right in every state that the calls lead to. -/
theorem Xrm.Running.cache_ok {fuel : Nat} {st : Xrm.Store} (h : Xrm.Running fuel st) :
    Xrm.cache_ok fuel st := by
  induction h with
  | create tables =>
    exact ⟨Xrm.trie_create, Or.inl (by
      simp [Xrm.xrm_create_database, Xrm.Fgethash_Fputhash])⟩
  | put st quarks value _ ih =>
    exact ⟨(Xrm.xrm_q_put_resource_spec _ quarks value ih.1).1,
      Or.inl (Xrm.Fgethash_cache_put _ _ _)⟩
  | merge st data db' _ hm ih =>
    obtain ⟨i1, i2⟩ := Xrm.xrm_merge_string_database_loop_cache fuel fuel _ data db' ih.1 hm
    rcases i2 with rfl | i2
    · exact ih
    · exact ⟨i1, Or.inl i2⟩
  | get st name cls r st' _ hn _ hg ih =>
    exact ((Xrm.xrm_get_resource_spec fuel st name cls ih hn).2 r st' hg).1

theorem Xrm.text_of_length (items : List (List Nat × Xrm.Lisp_Object))
    (h : ∀ it ∈ items, Xrm.component it.2) :
    items.length ≤ (Xrm.text_of items).length := by
  induction items with
  | nil => simp
  | cons it items ih =>
    have h1 := ih (fun x hx => h x (by simp [hx]))
    have h2 : 1 ≤ (Xrm.component_text it.2).length := by
      rcases h it (by simp) with e | ⟨s, e, hs⟩
      · rw [e]; simp [Xrm.SINGLE_COMPONENT, Xrm.Qquote, Xrm.component_text]
      · rw [e]
        simp only [Xrm.component_text]
        have := hs.1
        cases s with
        | nil => exact absurd rfl this
        | cons c s => simp
    simp only [Xrm.text_of, List.length_append, List.length_cons]
    omega

theorem Xrm.quarks_of_length (items : List (List Nat × Xrm.Lisp_Object)) :
    (Xrm.quarks_of items).length ≤ 2 * items.length := by
  induction items with
  | nil => simp [Xrm.quarks_of]
  | cons it items ih =>
    simp only [Xrm.quarks_of, List.length_append, List.length_cons, List.length_nil]
    split <;> simp <;> omega

/-- The quarks of a name are at most twice as many as its characters. -/
theorem Xrm.parse_resource_name_length (fuel : Nat) (p : List Nat) (res : Xrm.Lisp_Object)
    (p' : List Nat) (h : Xrm.parse_resource_name fuel p = some (res, p')) :
    (Xrm.elements res).length ≤ 2 * p.length := by
  rcases Xrm.parse_resource_name_sound fuel p res p' h with e | ⟨items, -, hp, hit, -, hr, -⟩
  · rw [e]; simp [Xrm.elements, Xrm.Qnil]
  · rw [hr, Xrm.elements_list_of]
    have h1 := Xrm.quarks_of_length items
    have h2 := Xrm.text_of_length items (fun it hi => (hit it hi).2)
    have h3 : (Xrm.text_of items).length ≤ p.length := by rw [hp]; simp
    omega

/-- A lookup in a trie returns, given fuel beyond the length of the name
plus the number of nodes after the node it starts from. -/
theorem Xrm.xrm_q_get_resource_1_total (db : Xrm.Table) (m : Int)
    (he : Xrm.edges_ok db m) :
    ∀ (fuel : Nat) (a : Int) (quark_name quark_class : Xrm.Lisp_Object), 0 ≤ a → a ≤ m →
      (Xrm.elements quark_name).length + (m - a).toNat < fuel →
      ∃ r, Xrm.xrm_q_get_resource_1 db fuel (Xrm.Lisp_Object.integer a) quark_name
        quark_class = some r := by
  intro fuel
  induction fuel with
  | zero => intro a qn qc _ _ h; omega
  | succ fuel ih =>
    intro a qn qc ha hm hf
    cases qn with
    | cons x d =>
      simp only [Xrm.elements, List.length_cons] at hf
      have htight : ∀ (labels : List Xrm.Lisp_Object), ∃ o,
          Xrm.xrm_q_get_resource_tight db (Xrm.xrm_q_get_resource_1 db fuel)
            (Xrm.Lisp_Object.integer a) (Xrm.Lisp_Object.cons x d) qc labels = some o := by
        intro labels
        induction labels with
        | nil => exact ⟨none, by simp [Xrm.xrm_q_get_resource_tight]⟩
        | cons l labels ihl =>
          simp only [Xrm.xrm_q_get_resource_tight]
          cases hl : Xrm.hash_lookup db (Xrm.Fcons (Xrm.Lisp_Object.integer a) l) with
          | none => exact ihl
          | some dest =>
            obtain ⟨a', b', e1, e2, e3, e4, e5⟩ := he _ _ _ hl
            subst e2
            simp only [Xrm.Lisp_Object.integer.injEq] at e1
            subst e1
            obtain ⟨r, hr⟩ := ih b' d (Xrm.XCDR qc) (by omega) e5 (by omega)
            simp only [Xrm.XCDR_cons, hr]
            by_cases hn : Xrm.NILP r = true
            · simp only [hn, Bool.not_true, Bool.false_eq_true, if_false]
              exact ihl
            · exact ⟨some r, by simp [hn]⟩
      obtain ⟨o, ho⟩ := htight [Xrm.XCAR (Xrm.Lisp_Object.cons x d), Xrm.XCAR qc,
        Xrm.SINGLE_COMPONENT]
      simp only [Xrm.xrm_q_get_resource_1, Xrm.CONSP, Bool.not_true, Bool.false_eq_true,
        if_false, ho]
      cases o with
      | some v => exact ⟨v, rfl⟩
      | none =>
        simp only
        cases hl : Xrm.hash_lookup db (Xrm.Fcons (Xrm.Lisp_Object.integer a)
            Xrm.LOOSE_BINDING) with
        | none => exact ⟨Xrm.Qnil, rfl⟩
        | some dest =>
          obtain ⟨a', b', e1, e2, e3, e4, e5⟩ := he _ _ _ hl
          subst e2
          simp only [Xrm.Lisp_Object.integer.injEq] at e1
          subst e1
          obtain ⟨r, hr⟩ := ih b' (Xrm.Lisp_Object.cons x d) qc (by omega) e5
            (by simp only [Xrm.elements, List.length_cons]; omega)
          simp only [hr]
          by_cases hn : Xrm.NILP r = true
          · simp only [hn, Bool.not_true, Bool.false_eq_true, if_false, Xrm.XCDR_cons]
            exact ih a d (Xrm.XCDR qc) ha hm (by omega)
          · exact ⟨r, by simp [hn]⟩
    | symbol n =>
      exact ⟨Xrm.Fgethash (Xrm.Lisp_Object.integer a) db Xrm.Qnil,
        by simp [Xrm.xrm_q_get_resource_1, Xrm.CONSP]⟩
    | integer n =>
      exact ⟨Xrm.Fgethash (Xrm.Lisp_Object.integer a) db Xrm.Qnil,
        by simp [Xrm.xrm_q_get_resource_1, Xrm.CONSP]⟩
    | string s =>
      exact ⟨Xrm.Fgethash (Xrm.Lisp_Object.integer a) db Xrm.Qnil,
        by simp [Xrm.xrm_q_get_resource_1, Xrm.CONSP]⟩
    | hash_table i =>
      exact ⟨Xrm.Fgethash (Xrm.Lisp_Object.integer a) db Xrm.Qnil,
        by simp [Xrm.xrm_q_get_resource_1, Xrm.CONSP]⟩

/-- The lookup without the cache returns, given fuel beyond the length of
the class and beyond twice the length of the name plus the number of
nodes. -/
theorem Xrm.uncached_lookup_total (fuel : Nat) (db : Xrm.Table) (hdb : Xrm.trie db)
    (name cls : List Nat) (hc : cls.length < fuel)
    (hf : 2 * name.length + Xrm.max_nid db < fuel) :
    ∃ r, Xrm.uncached_lookup fuel db name cls = some r := by
  obtain ⟨m, hm, hm0, he⟩ := hdb
  have hmax : Xrm.max_nid db = m.toNat := by
    simp [Xrm.max_nid, Xrm.Fgethash, hm, Xrm.XINT]
  obtain ⟨qn, n1, hn, -, -⟩ := Xrm.parse_resource_name_total fuel name (by omega)
  obtain ⟨qc, c1, hcl, -, -⟩ := Xrm.parse_resource_name_total fuel cls hc
  have hlen := Xrm.parse_resource_name_length fuel name qn n1 hn
  obtain ⟨r, hr⟩ := Xrm.xrm_q_get_resource_1_total db m he fuel 0 qn qc (le_refl _) hm0
    (by simp only [sub_zero]; omega)
  have hch : ∀ p : List Nat, ∃ c, Xrm.char_at p 0 = some c := by
    intro p
    cases p with
    | nil => exact ⟨0, Xrm.char_at_nil⟩
    | cons c p => exact ⟨c, Xrm.char_at_cons c p⟩
  obtain ⟨x1, hx1⟩ := hch n1
  obtain ⟨x2, hx2⟩ := hch c1
  simp only [Xrm.uncached_lookup, Xrm.xrm_get_resource_query, hn, hx1, hcl, hx2,
    Xrm.xrm_q_get_resource, hr]
  by_cases h1 : x1 = 0
  · simp only [h1, ne_eq, not_true_eq_false, if_false]
    cases Xrm.count_strings qn with
    | none => exact ⟨_, rfl⟩
    | some nn =>
      simp only
      by_cases h2 : x2 = 0
      · simp only [h2, ne_eq, not_true_eq_false, if_false]
        cases Xrm.count_strings qc with
        | none => exact ⟨_, rfl⟩
        | some nc =>
          simp only
          by_cases h3 : nn = nc
          · simp only [h3, ne_eq, not_true_eq_false, if_false]
            exact ⟨_, rfl⟩
          · simp only [ne_eq, h3, not_false_eq_true, if_true]
            exact ⟨_, rfl⟩
      · simp only [ne_eq, h2, not_false_eq_true, if_true]
        exact ⟨_, rfl⟩
  · simp only [ne_eq, h1, not_false_eq_true, if_true]
    exact ⟨_, rfl⟩

theorem Xrm.st_cached_running : Xrm.Running 17 Xrm.st_cached :=
  Xrm.Running.get ⟨Xrm.db_loose, []⟩ [120, 46, 102, 111, 110, 116]
    [88, 46, 70, 111, 110, 116] (Xrm.Lisp_Object.string [102, 105, 120, 101, 100]) _
    (Xrm.Running.put _ (Xrm.list_of [Xrm.SINGLE_COMPONENT, Xrm.Lisp_Object.string [98]])
      (Xrm.Lisp_Object.string [113])
      (Xrm.Running.put _
        (Xrm.list_of [Xrm.LOOSE_BINDING, Xrm.Lisp_Object.string [102, 111, 110, 116]])
        (Xrm.Lisp_Object.string [102, 105, 120, 101, 100]) (Xrm.Running.create [])))
    (by simp [Xrm.c_string]) (by simp [Xrm.c_string]) (by rfl)

/-- C28: the query cache is transparent.  In every state that a new
database reaches by any interleaving of `xrm_q_put_resource`,
`xrm_merge_string_database` and `xrm_get_resource` calls, for every name
and class, `xrm_get_resource` returns what the lookup without the cache
(parse the name and the class, then `xrm_q_get_resource`) gives on the
contents of the database at that moment; this holds also right after a
further put or merge, so no result cached before a put is returned after
it; and with fuel beyond the length of the class and beyond twice the
length of the name plus the number of nodes the call returns. -/
theorem xrm_get_resource_cache_transparent (fuel : Nat) (st : Xrm.Store)
    (hst : Xrm.Running fuel st) (name cls : List Nat) (hname : Xrm.c_string name)
    (hcls : Xrm.c_string cls) :
    (Xrm.xrm_get_resource fuel st name cls).map Prod.fst
        = Xrm.uncached_lookup fuel st.database name cls ∧
    (∀ quarks value,
      (Xrm.xrm_get_resource fuel
          { st with database := Xrm.xrm_q_put_resource st.database quarks value }
          name cls).map Prod.fst
        = Xrm.uncached_lookup fuel (Xrm.xrm_q_put_resource st.database quarks value)
            name cls) ∧
    (∀ data database',
      Xrm.xrm_merge_string_database fuel st.database data = some database' →
      (Xrm.xrm_get_resource fuel { st with database := database' } name cls).map Prod.fst
        = Xrm.uncached_lookup fuel database' name cls) ∧
    (cls.length < fuel → 2 * name.length + Xrm.max_nid st.database < fuel →
      ∃ r st', Xrm.xrm_get_resource fuel st name cls = some (r, st') ∧
        Xrm.uncached_lookup fuel st.database name cls = some r ∧
        Xrm.Running fuel st' ∧
        ∀ n c, Xrm.uncached_lookup fuel st'.database n c
          = Xrm.uncached_lookup fuel st.database n c) := by
  have h1 := Xrm.xrm_get_resource_spec fuel st name cls hst.cache_ok hname
  refine ⟨h1.1, ?_, ?_, ?_⟩
  · intro quarks value
    exact (Xrm.xrm_get_resource_spec fuel _ name cls
      (Xrm.Running.put st quarks value hst).cache_ok hname).1
  · intro data database' hm
    exact (Xrm.xrm_get_resource_spec fuel _ name cls
      (Xrm.Running.merge st data database' hst hm).cache_ok hname).1
  · intro hc hf
    obtain ⟨r, hr⟩ := Xrm.uncached_lookup_total fuel st.database hst.cache_ok.1 name cls hc hf
    have h2 := h1.1
    rw [hr] at h2
    cases hg : Xrm.xrm_get_resource fuel st name cls with
    | none => simp [hg] at h2
    | some p =>
      obtain ⟨r', st'⟩ := p
      simp only [hg, Option.map_some', Option.some.injEq] at h2
      subst h2
      exact ⟨r', st', rfl, hr, Xrm.Running.get st name cls r' st' hst hname hcls hg,
        (h1.2 r' st' hg).2⟩

theorem xrm_get_resource_cache_transparent_witness :
    ((Xrm.xrm_get_resource 17 Xrm.st_cached [120, 46, 102, 111, 110, 116]
        [88, 46, 70, 111, 110, 116]).map Prod.fst
      = Xrm.uncached_lookup 17 Xrm.st_cached.database [120, 46, 102, 111, 110, 116]
          [88, 46, 70, 111, 110, 116]) ∧
    Xrm.uncached_lookup 17 Xrm.st_cached.database [120, 46, 102, 111, 110, 116]
      [88, 46, 70, 111, 110, 116] = some (Xrm.Lisp_Object.string [102, 105, 120, 101, 100]) ∧
    Xrm.uncached_lookup 17
      (Xrm.xrm_q_put_resource Xrm.st_cached.database
        (Xrm.strings [[120], [102, 111, 110, 116]]) (Xrm.Lisp_Object.string [57]))
      [120, 46, 102, 111, 110, 116] [88, 46, 70, 111, 110, 116]
      = some (Xrm.Lisp_Object.string [57]) ∧
    (Xrm.xrm_get_resource 17
      { database :=
          Xrm.xrm_q_put_resource Xrm.st_cached.database
            (Xrm.strings [[120], [102, 111, 110, 116]]) (Xrm.Lisp_Object.string [57])
        tables := Xrm.st_cached.tables }
      [120, 46, 102, 111, 110, 116] [88, 46, 70, 111, 110, 116]).map Prod.fst
      = some (Xrm.Lisp_Object.string [57]) :=
  ⟨(xrm_get_resource_cache_transparent 17 Xrm.st_cached Xrm.st_cached_running
      [120, 46, 102, 111, 110, 116] [88, 46, 70, 111, 110, 116]
      (by simp [Xrm.c_string]) (by simp [Xrm.c_string])).1,
    by decide, by decide, by decide⟩

/-! ### What a lookup returns (C26) -/

/-- After a put, the value of a node other than the root is the value that
was put or the one it had. -/
theorem Xrm.xrm_q_put_resource_values (db : Xrm.Table) (quarks value : Xrm.Lisp_Object)
    (hdb : Xrm.trie db) (k : Int) (hk : 1 ≤ k)
    (w : Xrm.Lisp_Object)
    (hw : Xrm.hash_lookup (Xrm.xrm_q_put_resource db quarks value) (Xrm.Lisp_Object.integer k)
      = some w) :
    w = value ∨ Xrm.hash_lookup db (Xrm.Lisp_Object.integer k) = some w := by
  obtain ⟨m, hm, hm0, he⟩ := hdb
  obtain ⟨h', m', c, i1, i2, i3, i4, i5, i6, i7, i8, i9⟩ :=
    Xrm.xrm_q_put_resource_loop_spec (Xrm.elements quarks) db m 0 he (le_refl _) hm0
  have hx : Xrm.XINT (Xrm.Fgethash Xrm.HASHKEY_MAX_NID db Xrm.Qnil) = m := by
    simp [Xrm.Fgethash, hm, Xrm.XINT]
  have hput : Xrm.xrm_q_put_resource db quarks value =
      Xrm.Fputhash Xrm.HASHKEY_QUERY_CACHE Xrm.Qnil
        (Xrm.Fputhash Xrm.HASHKEY_MAX_NID (Xrm.Lisp_Object.integer m')
          (Xrm.Fputhash (Xrm.Lisp_Object.integer c) value h')) := by
    simp only [Xrm.xrm_q_put_resource, hx]
    rw [Xrm.xrm_q_put_resource_loop_elements, i1]
  rw [hput] at hw
  have h1 : Xrm.Lisp_Object.integer k ≠ Xrm.HASHKEY_QUERY_CACHE := by
    simp only [Xrm.HASHKEY_QUERY_CACHE, ne_eq, Xrm.Lisp_Object.integer.injEq]
    omega
  have h2 : Xrm.Lisp_Object.integer k ≠ Xrm.HASHKEY_MAX_NID := by
    simp only [Xrm.HASHKEY_MAX_NID, ne_eq, Xrm.Lisp_Object.integer.injEq]
    omega
  simp only [Xrm.hash_lookup_Fputhash, h1, h2, if_false] at hw
  by_cases hkc : Xrm.Lisp_Object.integer k = Xrm.Lisp_Object.integer c
  · simp only [hkc, if_true, Option.some.injEq] at hw
    exact Or.inl hw.symm
  · simp only [hkc, if_false] at hw
    rw [i8 _ (by simp [Xrm.CONSP])] at hw
    exact Or.inr hw

/-- In a database made by puts, the value of a node other than the root
is one of the values that were put. -/
theorem Xrm.Built.node_values {db : Xrm.Table} {values : List Xrm.Lisp_Object}
    (h : Xrm.Built db values) :
    Xrm.trie db ∧ ∀ (k : Int) (w : Xrm.Lisp_Object), 1 ≤ k →
      Xrm.hash_lookup db (Xrm.Lisp_Object.integer k) = some w → w ∈ values := by
  induction h with
  | create =>
    refine ⟨Xrm.trie_create, ?_⟩
    intro k w hk hw
    have h1 : Xrm.Lisp_Object.integer k ≠ Xrm.Lisp_Object.integer (-1) := by
      simp only [ne_eq, Xrm.Lisp_Object.integer.injEq]; omega
    have h2 : Xrm.Lisp_Object.integer k ≠ Xrm.Lisp_Object.integer 0 := by
      simp only [ne_eq, Xrm.Lisp_Object.integer.injEq]; omega
    simp [Xrm.xrm_create_database, Xrm.hash_lookup_Fputhash, Xrm.HASHKEY_QUERY_CACHE,
      Xrm.HASHKEY_MAX_NID, Xrm.hash_lookup, h1, h2] at hw
  | put db values quarks value _ _ ih =>
    refine ⟨(Xrm.xrm_q_put_resource_spec db quarks value ih.1).1, ?_⟩
    intro k w hk hw
    rcases Xrm.xrm_q_put_resource_values db quarks value ih.1 k hk w hw with e | e
    · simp [e]
    · exact List.mem_cons_of_mem _ (ih.2 k w hk e)

/-- A lookup that starts at a node other than the root returns `nil` or
the value of such a node. -/
theorem Xrm.xrm_q_get_resource_1_inner (db : Xrm.Table) (m : Int)
    (he : Xrm.edges_ok db m) (P : Xrm.Lisp_Object → Prop) (hnil : P Xrm.Qnil)
    (hP : ∀ (k : Int) (w : Xrm.Lisp_Object), 1 ≤ k →
      Xrm.hash_lookup db (Xrm.Lisp_Object.integer k) = some w → P w) :
    ∀ (fuel : Nat) (a : Int) (quark_name quark_class r : Xrm.Lisp_Object), 1 ≤ a →
      Xrm.xrm_q_get_resource_1 db fuel (Xrm.Lisp_Object.integer a) quark_name quark_class
        = some r → P r := by
  intro fuel
  induction fuel with
  | zero => intro a qn qc r _ h; simp [Xrm.xrm_q_get_resource_1] at h
  | succ fuel ih =>
    intro a qn qc r ha h
    simp only [Xrm.xrm_q_get_resource_1] at h
    by_cases hc : Xrm.CONSP qn = true
    · simp only [hc, Bool.not_true, Bool.false_eq_true, if_false] at h
      have htight : ∀ (labels : List Xrm.Lisp_Object) (v : Xrm.Lisp_Object),
          Xrm.xrm_q_get_resource_tight db (Xrm.xrm_q_get_resource_1 db fuel)
            (Xrm.Lisp_Object.integer a) qn qc labels = some (some v) → P v := by
        intro labels
        induction labels with
        | nil => intro v hv; simp [Xrm.xrm_q_get_resource_tight] at hv
        | cons l labels ihl =>
          intro v hv
          simp only [Xrm.xrm_q_get_resource_tight] at hv
          cases hl : Xrm.hash_lookup db (Xrm.Fcons (Xrm.Lisp_Object.integer a) l) with
          | none =>
            simp only [hl] at hv
            exact ihl v hv
          | some dest =>
            obtain ⟨a', b', e1, e2, e3, e4, e5⟩ := he _ _ _ hl
            subst e2
            simp only [hl] at hv
            cases hg : Xrm.xrm_q_get_resource_1 db fuel (Xrm.Lisp_Object.integer b')
                (Xrm.XCDR qn) (Xrm.XCDR qc) with
            | none => simp [hg] at hv
            | some value =>
              simp only [hg] at hv
              by_cases hn : Xrm.NILP value = true
              · simp only [hn, Bool.not_true, Bool.false_eq_true, if_false] at hv
                exact ihl v hv
              · simp only [hn, Bool.not_false, if_true, Option.some.injEq] at hv
                subst hv
                exact ih b' _ _ _ (by omega) hg
      cases ht : Xrm.xrm_q_get_resource_tight db (Xrm.xrm_q_get_resource_1 db fuel)
          (Xrm.Lisp_Object.integer a) qn qc
          [Xrm.XCAR qn, Xrm.XCAR qc, Xrm.SINGLE_COMPONENT] with
      | none => simp [ht] at h
      | some o =>
        cases o with
        | some v =>
          simp only [ht, Option.some.injEq] at h
          subst h
          exact htight _ _ ht
        | none =>
          simp only [ht] at h
          cases hl : Xrm.hash_lookup db (Xrm.Fcons (Xrm.Lisp_Object.integer a)
              Xrm.LOOSE_BINDING) with
          | none =>
            simp only [hl, Option.some.injEq] at h
            subst h
            exact hnil
          | some dest =>
            obtain ⟨a', b', e1, e2, e3, e4, e5⟩ := he _ _ _ hl
            subst e2
            simp only [hl] at h
            cases hg : Xrm.xrm_q_get_resource_1 db fuel (Xrm.Lisp_Object.integer b') qn qc with
            | none => simp [hg] at h
            | some value =>
              simp only [hg] at h
              by_cases hn : Xrm.NILP value = true
              · simp only [hn, Bool.not_true, Bool.false_eq_true, if_false] at h
                exact ih a _ _ _ ha h
              · simp only [hn, Bool.not_false, if_true, Option.some.injEq] at h
                subst h
                exact ih b' _ _ _ (by omega) hg
    · simp only [hc, Bool.not_false, if_true, Option.some.injEq] at h
      subst h
      simp only [Xrm.Fgethash]
      cases hl : Xrm.hash_lookup db (Xrm.Lisp_Object.integer a) with
      | none => exact hnil
      | some w => exact hP a w ha hl

theorem Xrm.xrm_q_get_resource_tight_inner (db : Xrm.Table) (m : Int)
    (he : Xrm.edges_ok db m) (P : Xrm.Lisp_Object → Prop)
    (get : Xrm.Lisp_Object → Xrm.Lisp_Object → Xrm.Lisp_Object → Option Xrm.Lisp_Object)
    (hget : ∀ (b : Int) (qn qc r : Xrm.Lisp_Object), 1 ≤ b →
      get (Xrm.Lisp_Object.integer b) qn qc = some r → P r)
    (a : Int) (ha : 0 ≤ a) (qn qc : Xrm.Lisp_Object) :
    ∀ (labels : List Xrm.Lisp_Object) (v : Xrm.Lisp_Object),
      Xrm.xrm_q_get_resource_tight db get (Xrm.Lisp_Object.integer a) qn qc labels
        = some (some v) → P v := by
  intro labels
  induction labels with
  | nil => intro v hv; simp [Xrm.xrm_q_get_resource_tight] at hv
  | cons l labels ihl =>
    intro v hv
    simp only [Xrm.xrm_q_get_resource_tight] at hv
    cases hl : Xrm.hash_lookup db (Xrm.Fcons (Xrm.Lisp_Object.integer a) l) with
    | none =>
      simp only [hl] at hv
      exact ihl v hv
    | some dest =>
      obtain ⟨a', b', e1, e2, e3, e4, e5⟩ := he _ _ _ hl
      subst e2
      simp only [Xrm.Lisp_Object.integer.injEq] at e1
      subst e1
      simp only [hl] at hv
      cases hg : get (Xrm.Lisp_Object.integer b') (Xrm.XCDR qn) (Xrm.XCDR qc) with
      | none => simp [hg] at hv
      | some value =>
        simp only [hg] at hv
        by_cases hn : Xrm.NILP value = true
        · simp only [hn, Bool.not_true, Bool.false_eq_true, if_false] at hv
          exact ihl v hv
        · simp only [hn, Bool.not_false, if_true, Option.some.injEq] at hv
          subst hv
          exact hget b' _ _ _ (by omega) hg

/-- A lookup that starts at the root returns `nil`, the value of a node
other than the root, or the value of the key 0, which is that of
`HASHKEY_MAX_NID`; and not the last when the root has no loose binding and
the name is not empty. -/
theorem Xrm.xrm_q_get_resource_1_root (db : Xrm.Table) (m : Int)
    (he : Xrm.edges_ok db m) (P : Xrm.Lisp_Object → Prop) (hnil : P Xrm.Qnil)
    (hP : ∀ (k : Int) (w : Xrm.Lisp_Object), 1 ≤ k →
      Xrm.hash_lookup db (Xrm.Lisp_Object.integer k) = some w → P w) :
    ∀ (fuel : Nat) (quark_name quark_class r : Xrm.Lisp_Object),
      Xrm.xrm_q_get_resource_1 db fuel (Xrm.Lisp_Object.integer 0) quark_name quark_class
        = some r →
      (P r ∨ r = Xrm.Fgethash Xrm.HASHKEY_MAX_NID db Xrm.Qnil) ∧
      (Xrm.hash_lookup db (Xrm.Fcons (Xrm.Lisp_Object.integer 0) Xrm.LOOSE_BINDING) = none →
        Xrm.CONSP quark_name = true → P r) := by
  intro fuel
  induction fuel with
  | zero => intro qn qc r h; simp [Xrm.xrm_q_get_resource_1] at h
  | succ fuel ih =>
    intro qn qc r h
    have hin := Xrm.xrm_q_get_resource_1_inner db m he P hnil hP fuel
    simp only [Xrm.xrm_q_get_resource_1] at h
    by_cases hc : Xrm.CONSP qn = true
    · simp only [hc, Bool.not_true, Bool.false_eq_true, if_false] at h
      have htight := Xrm.xrm_q_get_resource_tight_inner db m he P
        (Xrm.xrm_q_get_resource_1 db fuel) (fun b qn qc r hb hg => hin b qn qc r hb hg)
        0 (le_refl _) qn qc
      cases ht : Xrm.xrm_q_get_resource_tight db (Xrm.xrm_q_get_resource_1 db fuel)
          (Xrm.Lisp_Object.integer 0) qn qc
          [Xrm.XCAR qn, Xrm.XCAR qc, Xrm.SINGLE_COMPONENT] with
      | none => simp [ht] at h
      | some o =>
        cases o with
        | some v =>
          simp only [ht, Option.some.injEq] at h
          subst h
          exact ⟨Or.inl (htight _ _ ht), fun _ _ => htight _ _ ht⟩
        | none =>
          simp only [ht] at h
          cases hl : Xrm.hash_lookup db (Xrm.Fcons (Xrm.Lisp_Object.integer 0)
              Xrm.LOOSE_BINDING) with
          | none =>
            simp only [hl, Option.some.injEq] at h
            subst h
            exact ⟨Or.inl hnil, fun _ _ => hnil⟩
          | some dest =>
            obtain ⟨a', b', e1, e2, e3, e4, e5⟩ := he _ _ _ hl
            subst e2
            simp only [Xrm.Lisp_Object.integer.injEq] at e1
            subst e1
            simp only [hl] at h
            refine ⟨?_, fun hno _ => by simp at hno⟩
            cases hg : Xrm.xrm_q_get_resource_1 db fuel (Xrm.Lisp_Object.integer b') qn qc with
            | none => simp [hg] at h
            | some value =>
              simp only [hg] at h
              by_cases hn : Xrm.NILP value = true
              · simp only [hn, Bool.not_true, Bool.false_eq_true, if_false] at h
                exact (ih _ _ _ h).1
              · simp only [hn, Bool.not_false, if_true, Option.some.injEq] at h
                subst h
                exact Or.inl (hin b' _ _ _ (by omega) hg)
    · simp only [hc, Bool.not_false, if_true, Option.some.injEq] at h
      subst h
      exact ⟨Or.inr rfl, fun _ hc' => absurd hc' hc⟩

/-- What a lookup can return in a database made from a new one by puts
with quark lists that are not empty: `nil`, a value that was put, or the
maximum node id; and not the last when the root has no loose binding and
the name is not empty. -/
theorem Xrm.xrm_q_get_resource_stored_or_max_nid (db : Xrm.Table)
    (values : List Xrm.Lisp_Object) (hb : Xrm.Built db values) (fuel : Nat)
    (quark_name quark_class r : Xrm.Lisp_Object)
    (h : Xrm.xrm_q_get_resource db fuel quark_name quark_class = some r) :
    (r = Xrm.Qnil ∨ r ∈ values ∨ r = Xrm.Fgethash Xrm.HASHKEY_MAX_NID db Xrm.Qnil) ∧
    (Xrm.hash_lookup db (Xrm.Fcons (Xrm.Lisp_Object.integer 0) Xrm.LOOSE_BINDING) = none →
      Xrm.CONSP quark_name = true → r = Xrm.Qnil ∨ r ∈ values) := by
  obtain ⟨⟨m, -, -, he⟩, hv⟩ := hb.node_values
  have := Xrm.xrm_q_get_resource_1_root db m he (fun r => r = Xrm.Qnil ∨ r ∈ values)
    (Or.inl rfl) (fun k w hk hw => Or.inr (hv k w hk hw)) fuel quark_name quark_class r h
  refine ⟨?_, this.2⟩
  rcases this.1 with (h1 | h1) | h1
  · exact Or.inl h1
  · exact Or.inr (Or.inl h1)
  · exact Or.inr (Or.inr h1)

/-- Claim C26 fails on the code.  After one `xrm_q_put_resource` of the
value `"fixed"` for the quarks `(LOOSE_BINDING "font")` on a new database,
which is also what `xrm_merge_string_database` makes of the line
`*font: fixed`, the lookup of the name `("x")` with the class `("X")`
returns the integer 2: this is the value of `HASHKEY_MAX_NID`, the maximum
node id, and neither `nil` nor the value `"fixed"` that was put.  The
lookup skips the only component along the loose binding of the root and
then reads the value of the root node, whose id 0 is also the key
`HASHKEY_MAX_NID`.  `xrm_get_resource` returns the same for the strings
`"x"` and `"X"`, and for `"emacs.x"` and `"Emacs.X"`. -/
theorem xrm_q_get_resource_returns_max_nid :
    Xrm.xrm_q_get_resource Xrm.db_star_font 3 (Xrm.strings [[120]]) (Xrm.strings [[88]])
      = some (Xrm.Lisp_Object.integer 2) ∧
    Xrm.Fgethash Xrm.HASHKEY_MAX_NID Xrm.db_star_font Xrm.Qnil = Xrm.Lisp_Object.integer 2 ∧
    Xrm.Lisp_Object.integer 2 ≠ Xrm.Qnil ∧
    Xrm.Lisp_Object.integer 2 ≠ Xrm.Lisp_Object.string [102, 105, 120, 101, 100] ∧
    Xrm.xrm_merge_string_database 14 Xrm.xrm_create_database Xrm.star_font_line
      = some Xrm.db_star_font ∧
    (Xrm.xrm_get_resource 3 ⟨Xrm.db_star_font, []⟩ [120] [88]).map Prod.fst
      = some (Xrm.Lisp_Object.integer 2) ∧
    (Xrm.xrm_get_resource 8 ⟨Xrm.db_star_font, []⟩ [101, 109, 97, 99, 115, 46, 120]
      [69, 109, 97, 99, 115, 46, 88]).map Prod.fst = some (Xrm.Lisp_Object.integer 2) := by
  decide

/-! ### Circular property lists (C21) -/

theorem Plist.WellFormed.of_element {h : Plist.Heap} {x y : Plist.Lisp_Object}
    (hx : Plist.WellFormed h x) (hxy : Plist.element h x y) : Plist.WellFormed h y := by
  cases hx with
  | intro _ h1 _ => exact h1 y hxy

theorem Plist.WellFormed.of_nested {h : Plist.Heap} {x y : Plist.Lisp_Object}
    (hx : Plist.WellFormed h x) (hxy : Relation.ReflTransGen (Plist.element h) x y) :
    Plist.WellFormed h y := by
  induction hxy with
  | refl => exact hx
  | tail _ hbc ih => exact ih.of_element hbc

theorem Plist.WellFormed.no_cycle {h : Plist.Heap} {x : Plist.Lisp_Object}
    (hx : Plist.WellFormed h x) : ¬ Relation.TransGen (Plist.element h) x x := by
  induction hx with
  | intro obj _ _ ih =>
    intro hc
    obtain ⟨y, hy, hyx⟩ := Relation.TransGen.head'_iff.mp hc
    exact ih y hy (Relation.TransGen.tail' hyx hy)

/-- A well-formed object is not circular. -/
theorem Plist.WellFormed.not_circular {h : Plist.Heap} {obj : Plist.Lisp_Object}
    (hobj : Plist.WellFormed h obj) : ¬ Plist.Circular h obj := by
  rintro ⟨x, hx, hc | hc⟩
  · exact (hobj.of_nested hx).no_cycle hc
  · cases hobj.of_nested hx with
    | intro _ _ h2 => exact h2 hc

theorem Plist.nthcdr_of_not_consp (h : Plist.Heap) (x : Plist.Lisp_Object)
    (hx : Plist.CONSP x = false) : ∀ k, Plist.CONSP (Plist.nthcdr h k x) = false := by
  intro k
  induction k with
  | zero => simpa [Plist.nthcdr] using hx
  | succ k ih =>
    rw [Plist.nthcdr_succ]
    cases hk : Plist.nthcdr h k x with
    | cons a => rw [hk] at ih; simp [Plist.CONSP] at ih
    | _ => simp [Plist.XCDR, Plist.Qnil, Plist.CONSP]

/-- An object whose tag is neither `array` nor `dictionary` is
well-formed. -/
theorem Plist.WellFormed.of_tag (h : Plist.Heap) (obj : Plist.Lisp_Object)
    (h1 : Plist.XCAR h obj ≠ Plist.Qarray) (h2 : Plist.XCAR h obj ≠ Plist.Qdictionary) :
    Plist.WellFormed h obj := by
  refine Plist.WellFormed.intro obj ?_ (fun hc => h2 hc.1)
  intro y hy
  cases hy with
  | array _ e _ _ => exact absurd e h1
  | alist k e _ => exact absurd e h2
  | hash slot e _ _ _ => exact absurd e h2

theorem Plist.nthcdr_succ_cdr (h : Plist.Heap) (k : Nat) (x : Plist.Lisp_Object) :
    Plist.nthcdr h (k + 1) x = Plist.nthcdr h k (Plist.XCDR h x) := by
  rw [Plist.nthcdr_add]
  simp [Plist.nthcdr]

/-- When the loop over a vector gives an array, every element was
converted. -/
theorem Plist.array_loop_sound
    (create : Plist.Lisp_Object → Plist.Conv → Option (Option Plist.CFPropertyList × Plist.Conv))
    (P : Plist.Lisp_Object → Prop)
    (hP : ∀ x s v s', create x s = some (some v, s') → P x) :
    ∀ (xs : List Plist.Lisp_Object) (array : List Plist.CFPropertyList) (s : Plist.Conv)
      (r : List Plist.CFPropertyList) (s' : Plist.Conv),
      Plist.array_loop create xs array s = some (some r, s') → ∀ y ∈ xs, P y := by
  intro xs
  induction xs with
  | nil => intro _ _ _ _ _ y hy; simp at hy
  | cons x rest ih =>
    intro array s r s' hr y hy
    simp only [Plist.array_loop] at hr
    cases hc : create x s with
    | none => simp [hc] at hr
    | some p =>
      obtain ⟨v, s1⟩ := p
      cases v with
      | none => simp [hc] at hr
      | some value =>
        simp only [hc] at hr
        rcases List.mem_cons.mp hy with rfl | hy
        · exact hP _ _ _ _ hc
        · exact ih _ _ _ _ hr y hy

/-- When the loop over an alist gives a dictionary, the cdr of the car of
every cell was converted. -/
theorem Plist.alist_loop_sound (h : Plist.Heap) (host : Nat → Bool)
    (create : Plist.Lisp_Object → Plist.Conv → Option (Option Plist.CFPropertyList × Plist.Conv))
    (P : Plist.Lisp_Object → Prop)
    (hP : ∀ x s v s', create x s = some (some v, s') → P x) :
    ∀ (steps : Nat) (data : Plist.Lisp_Object)
      (dictionary : List (List Nat × Plist.CFPropertyList)) (s : Plist.Conv)
      (r : List (List Nat × Plist.CFPropertyList)) (s' : Plist.Conv),
      Plist.alist_loop h host create steps data dictionary s = some (some r, s') →
      ∀ k, Plist.CONSP (Plist.nthcdr h k data) = true →
        P (Plist.XCDR h (Plist.XCAR h (Plist.nthcdr h k data))) := by
  intro steps
  induction steps with
  | zero => intro _ _ _ _ _ hr; simp [Plist.alist_loop] at hr
  | succ steps ih =>
    intro data dictionary s r s' hr k hk
    simp only [Plist.alist_loop] at hr
    by_cases hd : Plist.CONSP data = true
    · simp only [hd, if_true] at hr
      by_cases hkey : (Plist.CONSP (Plist.XCAR h data) &&
          Plist.STRINGP (Plist.XCAR h (Plist.XCAR h data))) = true
      · simp only [hkey, if_true] at hr
        by_cases hcr : (Plist.cf_create host s).1 = true
        · simp only [hcr, if_true] at hr
          cases hc : create (Plist.XCDR h (Plist.XCAR h data)) (Plist.cf_create host s).2 with
          | none => simp [hc] at hr
          | some p =>
            obtain ⟨v, s1⟩ := p
            cases v with
            | none => simp [hc] at hr
            | some value =>
              simp only [hc] at hr
              cases k with
              | zero => exact hP _ _ _ _ hc
              | succ k =>
                rw [Plist.nthcdr_succ_cdr] at hk ⊢
                exact ih _ _ _ _ _ hr k hk
        · simp [hcr] at hr
      · simp [hkey] at hr
    · have hd' : Plist.CONSP data = false := by simpa using hd
      rw [Plist.nthcdr_of_not_consp h data hd' k] at hk
      exact absurd hk (by simp)

/-- When the loop over a hash table gives a dictionary, the value of
every slot in use was converted. -/
theorem Plist.hash_loop_sound (host : Nat → Bool)
    (create : Plist.Lisp_Object → Plist.Conv → Option (Option Plist.CFPropertyList × Plist.Conv))
    (P : Plist.Lisp_Object → Prop)
    (hP : ∀ x s v s', create x s = some (some v, s') → P x) :
    ∀ (sl : List Plist.Slot) (dictionary : List (List Nat × Plist.CFPropertyList))
      (s : Plist.Conv) (r : List (List Nat × Plist.CFPropertyList)) (s' : Plist.Conv),
      Plist.hash_loop host create sl dictionary s = some (some r, s') →
      ∀ slot ∈ sl, Plist.NILP slot.hash = false → P slot.value := by
  intro sl
  induction sl with
  | nil => intro _ _ _ _ _ slot hs; simp at hs
  | cons slot0 rest ih =>
    intro dictionary s r s' hr slot hs hlive
    simp only [Plist.hash_loop] at hr
    by_cases h0 : Plist.NILP slot0.hash = true
    · simp only [h0, Bool.not_true, Bool.false_eq_true, if_false] at hr
      rcases List.mem_cons.mp hs with rfl | hs
      · rw [h0] at hlive; exact absurd hlive (by simp)
      · exact ih _ _ _ _ hr slot hs hlive
    · have h0' : Plist.NILP slot0.hash = false := by simpa using h0
      simp only [h0', Bool.not_false, if_true] at hr
      by_cases hkey : Plist.STRINGP slot0.key = true
      · simp only [hkey, if_true] at hr
        by_cases hcr : (Plist.cf_create host s).1 = true
        · simp only [hcr, if_true] at hr
          cases hc : create slot0.value (Plist.cf_create host s).2 with
          | none => simp [hc] at hr
          | some p =>
            obtain ⟨v, s1⟩ := p
            cases v with
            | none => simp [hc] at hr
            | some value =>
              simp only [hc] at hr
              rcases List.mem_cons.mp hs with rfl | hs
              · exact hP _ _ _ _ hc
              · exact ih _ _ _ _ hr slot hs hlive
        · simp [hcr] at hr
      · simp [hkey] at hr

/-- When the recursive cases give a property list, the object is
well-formed, if the objects that the recursive call converts are. -/
theorem Plist.recursive_cases_sound (h : Plist.Heap) (host : Nat → Bool) (steps : Nat)
    (create : Plist.Lisp_Object → Plist.Conv → Option (Option Plist.CFPropertyList × Plist.Conv))
    (hP : ∀ x s v s', create x s = some (some v, s') → Plist.WellFormed h x)
    (obj : Plist.Lisp_Object) (s1 : Plist.Conv) (v : Plist.CFPropertyList) (s' : Plist.Conv)
    (hr : Plist.recursive_cases h host steps create obj s1 = some (some v, s')) :
    Plist.WellFormed h obj := by
  simp only [Plist.recursive_cases] at hr
  by_cases ha : Plist.XCAR h obj = Plist.Qarray
  · simp only [ha, if_true] at hr
    by_cases hv : Plist.VECTORP (Plist.XCDR h obj) = true
    · simp only [hv, if_true] at hr
      by_cases hcr : (Plist.cf_create host s1).1 = true
      · simp only [hcr, if_true] at hr
        cases hl : Plist.array_loop create (Plist.contents h (Plist.XCDR h obj)) []
            (Plist.cf_create host s1).2 with
        | none => simp [hl] at hr
        | some p =>
          obtain ⟨arr, s2⟩ := p
          cases arr with
          | none => simp [hl] at hr
          | some arr =>
            have hall := Plist.array_loop_sound create (Plist.WellFormed h) hP _ _ _ _ _ hl
            refine Plist.WellFormed.intro obj ?_ ?_
            · intro y hy
              cases hy with
              | array _ _ _ hm => exact hall y hm
              | alist k e _ => rw [ha] at e; exact absurd e (by decide)
              | hash slot e _ _ _ => rw [ha] at e; exact absurd e (by decide)
            · intro hc
              have := hc.1
              rw [ha] at this
              exact absurd this (by decide)
      · simp [hcr] at hr
    · simp [hv] at hr
  · simp only [ha, if_false] at hr
    by_cases hd : Plist.XCAR h obj = Plist.Qdictionary
    · simp only [hd, if_true] at hr
      by_cases hal : (Plist.CONSP (Plist.XCDR h obj) || Plist.NILP (Plist.XCDR h obj)) = true
      · simp only [hal, if_true] at hr
        cases hlen : Plist.cdr_chain_length h steps (Plist.XCDR h obj) with
        | none => simp [hlen] at hr
        | some size =>
          simp only [hlen] at hr
          by_cases hsz : size ≥ 0
          · simp only [hsz, if_true] at hr
            by_cases hcr : (Plist.cf_create host s1).1 = true
            · simp only [hcr, if_true] at hr
              cases hl : Plist.alist_loop h host create steps (Plist.XCDR h obj) []
                  (Plist.cf_create host s1).2 with
              | none => simp [hl] at hr
              | some p =>
                obtain ⟨d, s2⟩ := p
                cases d with
                | none => simp [hl] at hr
                | some d =>
                  have hall := Plist.alist_loop_sound h host create (Plist.WellFormed h) hP
                    _ _ _ _ _ _ hl
                  refine Plist.WellFormed.intro obj ?_ ?_
                  · intro y hy
                    cases hy with
                    | array _ e _ _ => exact absurd e ha
                    | alist k _ hk => exact hall k hk
                    | hash slot _ ht _ _ =>
                      cases hx : Plist.XCDR h obj with
                      | hash_table a =>
                        rw [hx] at hal
                        simp [Plist.CONSP, Plist.NILP, Plist.Qnil] at hal
                      | _ => rw [hx] at ht; simp [Plist.HASH_TABLE_P] at ht
                  · intro hc
                    rcases Plist.cdr_chain_length_sound h steps _ size hlen with
                      ⟨e, -⟩ | ⟨n, -, hn⟩
                    · omega
                    · exact Plist.not_circular_of_chain h _ n hn hc.2
            · simp [hcr] at hr
          · simp [hsz] at hr
      · simp only [hal, Bool.false_eq_true, if_false] at hr
        by_cases ht : Plist.HASH_TABLE_P (Plist.XCDR h obj) = true
        · simp only [ht, if_true] at hr
          by_cases hcr : (Plist.cf_create host s1).1 = true
          · simp only [hcr, if_true] at hr
            cases hl : Plist.hash_loop host create (Plist.slots h (Plist.XCDR h obj)) []
                (Plist.cf_create host s1).2 with
            | none => simp [hl] at hr
            | some p =>
              obtain ⟨d, s2⟩ := p
              cases d with
              | none => simp [hl] at hr
              | some d =>
                have hall := Plist.hash_loop_sound host create (Plist.WellFormed h) hP
                  _ _ _ _ _ hl
                have hnc : Plist.CONSP (Plist.XCDR h obj) = false := by
                  cases hx : Plist.XCDR h obj with
                  | cons a => rw [hx] at ht; simp [Plist.HASH_TABLE_P] at ht
                  | _ => rfl
                refine Plist.WellFormed.intro obj ?_ ?_
                · intro y hy
                  cases hy with
                  | array _ e _ _ => exact absurd e ha
                  | alist k _ hk =>
                    rw [Plist.nthcdr_of_not_consp h _ hnc k] at hk
                    exact absurd hk (by simp)
                  | hash slot _ _ hm hlive => exact hall slot hm hlive
                · intro hc
                  have := hc.2 0
                  simp only [Plist.nthcdr, Function.iterate_zero, id_eq] at this
                  rw [hnc] at this
                  exact absurd this (by simp)
          · simp [hcr] at hr
        · simp [ht] at hr
    · simp [hd] at hr

/-- When `cfproperty_list_create_with_lisp_1` returns a property list, the
object is well-formed. -/
theorem Plist.cfproperty_list_create_with_lisp_1_sound (h : Plist.Heap)
    (XHASH : Plist.Lisp_Object → Nat) (host : Nat → Bool) (steps : Nat) :
    ∀ (fuel : Nat) (obj : Plist.Lisp_Object) (s : Plist.Conv) (v : Plist.CFPropertyList)
      (s' : Plist.Conv),
      Plist.cfproperty_list_create_with_lisp_1 h XHASH host steps fuel obj s
        = some (some v, s') → Plist.WellFormed h obj := by
  intro fuel
  induction fuel with
  | zero => intro obj s v s' hr; simp [Plist.cfproperty_list_create_with_lisp_1] at hr
  | succ fuel ih =>
    intro obj s v s' hr
    simp only [Plist.cfproperty_list_create_with_lisp_1] at hr
    by_cases hc : Plist.CONSP obj = true
    · simp only [hc, Bool.not_true, Bool.false_eq_true, if_false] at hr
      by_cases h1 : Plist.XCAR h obj = Plist.Qstring
      · exact Plist.WellFormed.of_tag h obj (by rw [h1]; decide) (by rw [h1]; decide)
      by_cases h2 : Plist.XCAR h obj = Plist.Qnumber
      · exact Plist.WellFormed.of_tag h obj (by rw [h2]; decide) (by rw [h2]; decide)
      by_cases h3 : Plist.XCAR h obj = Plist.Qboolean
      · exact Plist.WellFormed.of_tag h obj (by rw [h3]; decide) (by rw [h3]; decide)
      by_cases h4 : Plist.XCAR h obj = Plist.Qdate
      · exact Plist.WellFormed.of_tag h obj (by rw [h4]; decide) (by rw [h4]; decide)
      by_cases h5 : Plist.XCAR h obj = Plist.Qdata
      · exact Plist.WellFormed.of_tag h obj (by rw [h5]; decide) (by rw [h5]; decide)
      simp only [h1, h2, h3, h4, h5, if_false] at hr
      by_cases hf : Plist.deref s.ancestors (Plist.bstree_find XHASH s.ancestors obj)
          = Plist.bstree_node.NULL
      · simp only [hf, if_true] at hr
        cases hrec : Plist.recursive_cases h host steps
            (Plist.cfproperty_list_create_with_lisp_1 h XHASH host steps fuel) obj
            { ancestors :=
                Plist.assign s.ancestors (Plist.bstree_find XHASH s.ancestors obj)
                  (Plist.bstree_node.node obj Plist.bstree_node.NULL Plist.bstree_node.NULL)
              created := s.created } with
        | none => simp [hrec] at hr
        | some p =>
          obtain ⟨res, s3⟩ := p
          simp only [hrec, Option.some.injEq, Prod.mk.injEq] at hr
          obtain ⟨e, -⟩ := hr
          subst e
          exact Plist.recursive_cases_sound h host steps _ ih obj _ v s3 hrec
      · simp [hf] at hr
    · simp [hc] at hr

/-- When `cfproperty_list_create_with_lisp` returns a property list, the
object is not circular. -/
theorem Plist.cfproperty_list_create_with_lisp_sound (h : Plist.Heap)
    (XHASH : Plist.Lisp_Object → Nat) (host : Nat → Bool) (fuel : Nat)
    (obj : Plist.Lisp_Object) (v : Plist.CFPropertyList)
    (hr : Plist.cfproperty_list_create_with_lisp h XHASH host fuel obj = some (some v)) :
    ¬ Plist.Circular h obj := by
  simp only [Plist.cfproperty_list_create_with_lisp] at hr
  cases hc : Plist.cfproperty_list_create_with_lisp_1 h XHASH host fuel fuel obj
      ⟨Plist.bstree_node.NULL, 0⟩ with
  | none => simp [hc] at hr
  | some p =>
    obtain ⟨res, s'⟩ := p
    simp only [hc, Option.some.injEq] at hr
    subst hr
    exact (Plist.cfproperty_list_create_with_lisp_1_sound h XHASH host fuel fuel obj _ v s'
      hc).not_circular

theorem Plist.assign_assign : ∀ (t : Plist.bstree_node) (way : List Bool)
    (x y : Plist.bstree_node),
    Plist.assign (Plist.assign t way x) way y = Plist.assign t way y := by
  intro t way
  induction way generalizing t with
  | nil => intro x y; simp [Plist.assign]
  | cons b way ih =>
    intro x y
    cases t with
    | NULL => simp [Plist.assign]
    | node o l r =>
      cases b with
      | false => simp [Plist.assign, ih]
      | true => simp [Plist.assign, ih]

theorem Plist.assign_deref : ∀ (t : Plist.bstree_node) (way : List Bool),
    Plist.assign t way (Plist.deref t way) = t := by
  intro t way
  induction way generalizing t with
  | nil => simp [Plist.assign, Plist.deref]
  | cons b way ih =>
    cases t with
    | NULL => simp [Plist.assign]
    | node o l r =>
      cases b with
      | false => simp [Plist.assign, Plist.deref, ih]
      | true => simp [Plist.assign, Plist.deref, ih]

/-- Taking the node out again gives the tree back. -/
theorem Plist.assign_restore (t : Plist.bstree_node) (way : List Bool)
    (x : Plist.bstree_node) (hd : Plist.deref t way = Plist.bstree_node.NULL) :
    Plist.assign (Plist.assign t way x) way Plist.bstree_node.NULL = t := by
  rw [Plist.assign_assign, ← hd, Plist.assign_deref]

/-- Putting an object where `bstree_find` points to, when there is `NULL`,
keeps a search tree a search tree and adds the object to it. -/
theorem Plist.bstree_insert (XHASH : Plist.Lisp_Object → Nat) (obj : Plist.Lisp_Object) :
    ∀ (t : Plist.bstree_node), Plist.ordered XHASH t →
      Plist.deref t (Plist.bstree_find XHASH t obj) = Plist.bstree_node.NULL →
      Plist.ordered XHASH (Plist.assign t (Plist.bstree_find XHASH t obj)
        (Plist.bstree_node.node obj Plist.bstree_node.NULL Plist.bstree_node.NULL)) ∧
      (∀ o, o ∈ Plist.objs (Plist.assign t (Plist.bstree_find XHASH t obj)
        (Plist.bstree_node.node obj Plist.bstree_node.NULL Plist.bstree_node.NULL)) ↔
          o = obj ∨ o ∈ Plist.objs t) ∧
      (Plist.objs (Plist.assign t (Plist.bstree_find XHASH t obj)
        (Plist.bstree_node.node obj Plist.bstree_node.NULL Plist.bstree_node.NULL))).length
        = (Plist.objs t).length + 1 := by
  intro t
  induction t with
  | NULL =>
    intro _ _
    simp [Plist.bstree_find, Plist.assign, Plist.ordered, Plist.objs]
  | node o l r ihl ihr =>
    intro hord hd
    obtain ⟨ol, or_, hl, hr⟩ := hord
    by_cases h1 : XHASH obj < XHASH o
    · simp only [Plist.bstree_find, h1, if_true, Plist.deref] at hd ⊢
      obtain ⟨i1, i2, i3⟩ := ihl ol hd
      simp only [Plist.assign, Plist.ordered, Plist.objs, List.mem_append, List.mem_cons,
        List.length_append, List.length_cons, i3]
      refine ⟨⟨i1, or_, ?_, hr⟩, ?_, by omega⟩
      · intro x hx
        rcases (i2 x).mp hx with rfl | hx
        · exact h1
        · exact hl x hx
      · intro x
        rw [i2 x]
        tauto
    · by_cases h2 : XHASH obj > XHASH o
      · simp only [Plist.bstree_find, h1, h2, if_true, if_false, Plist.deref] at hd ⊢
        obtain ⟨i1, i2, i3⟩ := ihr or_ hd
        simp only [Plist.assign, Plist.ordered, Plist.objs, List.mem_append, List.mem_cons,
          List.length_append, List.length_cons, i3]
        refine ⟨⟨ol, i1, hl, ?_⟩, ?_, by omega⟩
        · intro x hx
          rcases (i2 x).mp hx with rfl | hx
          · exact h2
          · exact hr x hx
        · intro x
          rw [i2 x]
          tauto
      · simp [Plist.bstree_find, h1, h2, Plist.deref] at hd

theorem Plist.objs_nodup (XHASH : Plist.Lisp_Object → Nat) :
    ∀ (t : Plist.bstree_node), Plist.ordered XHASH t → (Plist.objs t).Nodup := by
  intro t
  induction t with
  | NULL => intro _; simp [Plist.objs]
  | node o l r ihl ihr =>
    intro hord
    obtain ⟨ol, or_, hl, hr⟩ := hord
    simp only [Plist.objs]
    rw [List.nodup_append]
    refine ⟨ihl ol, ?_, ?_⟩
    · rw [List.nodup_cons]
      refine ⟨?_, ihr or_⟩
      intro hm
      exact absurd (hr o hm) (lt_irrefl _)
    · intro x hx1 hx2
      rcases List.mem_cons.mp hx2 with rfl | hx2
      · exact absurd (hl x hx1) (lt_irrefl _)
      · exact absurd (lt_trans (hl x hx1) (hr x hx2)) (lt_irrefl _)

/-- A search tree of cons cells of the heap has no more objects than the
heap has cons cells. -/
theorem Plist.objs_length_le (XHASH : Plist.Lisp_Object → Nat) (N : Nat)
    (t : Plist.bstree_node) (hord : Plist.ordered XHASH t)
    (hv : ∀ o ∈ Plist.objs t, ∃ a, o = Plist.Lisp_Object.cons a ∧ a < N) :
    (Plist.objs t).length ≤ N := by
  have hnd := Plist.objs_nodup XHASH t hord
  have hnd2 : ((Plist.objs t).map Plist.addr).Nodup := by
    rw [List.nodup_map_iff_inj_on hnd]
    intro x hx y hy hxy
    obtain ⟨a, rfl, -⟩ := hv x hx
    obtain ⟨b, rfl, -⟩ := hv y hy
    simp only [Plist.addr] at hxy
    rw [hxy]
  have hsub : ((Plist.objs t).map Plist.addr).toFinset ⊆ Finset.range N := by
    intro a ha
    simp only [List.mem_toFinset, List.mem_map] at ha
    obtain ⟨o, ho, rfl⟩ := ha
    obtain ⟨b, rfl, hb⟩ := hv o ho
    simpa [Plist.addr] using hb
  have := Finset.card_le_card hsub
  rw [List.toFinset_card_of_nodup hnd2, Finset.card_range, List.length_map] at this
  exact this

theorem Plist.array_loop_total
    (create : Plist.Lisp_Object → Plist.Conv → Option (Option Plist.CFPropertyList × Plist.Conv))
    (t : Plist.bstree_node)
    (hT : ∀ x s, s.ancestors = t → ∃ r s', create x s = some (r, s') ∧ s'.ancestors = t) :
    ∀ (xs : List Plist.Lisp_Object) (array : List Plist.CFPropertyList) (s : Plist.Conv),
      s.ancestors = t →
      ∃ r s', Plist.array_loop create xs array s = some (r, s') ∧ s'.ancestors = t := by
  intro xs
  induction xs with
  | nil => intro array s hs; exact ⟨some array, s, rfl, hs⟩
  | cons x rest ih =>
    intro array s hs
    obtain ⟨r, s1, hc, hs1⟩ := hT x s hs
    simp only [Plist.array_loop, hc]
    cases r with
    | none => exact ⟨none, s1, rfl, hs1⟩
    | some value => exact ih _ s1 hs1

theorem Plist.chain_of_cdr (h : Plist.Heap) (data : Plist.Lisp_Object) (n : Nat)
    (hn : Plist.chain_of h data n) (hd : Plist.CONSP data = true) :
    ∃ m, n = m + 1 ∧ Plist.chain_of h (Plist.XCDR h data) m := by
  cases n with
  | zero =>
    have := hn.2
    simp only [Plist.nthcdr, Function.iterate_zero, id_eq] at this
    rw [hd] at this
    exact absurd this (by simp)
  | succ m =>
    refine ⟨m, rfl, ?_, ?_⟩
    · intro k hk
      rw [← Plist.nthcdr_succ_cdr]
      exact hn.1 (k + 1) (by omega)
    · rw [← Plist.nthcdr_succ_cdr]
      exact hn.2

theorem Plist.alist_loop_total (h : Plist.Heap) (host : Nat → Bool)
    (create : Plist.Lisp_Object → Plist.Conv → Option (Option Plist.CFPropertyList × Plist.Conv))
    (t : Plist.bstree_node)
    (hT : ∀ x s, s.ancestors = t → ∃ r s', create x s = some (r, s') ∧ s'.ancestors = t) :
    ∀ (steps : Nat) (data : Plist.Lisp_Object) (n : Nat)
      (dictionary : List (List Nat × Plist.CFPropertyList)) (s : Plist.Conv),
      Plist.chain_of h data n → n < steps → s.ancestors = t →
      ∃ r s', Plist.alist_loop h host create steps data dictionary s = some (r, s') ∧
        s'.ancestors = t := by
  intro steps
  induction steps with
  | zero => intro _ n _ _ _ hn; omega
  | succ steps ih =>
    intro data n dictionary s hch hn hs
    simp only [Plist.alist_loop]
    by_cases hd : Plist.CONSP data = true
    · obtain ⟨m, rfl, hm⟩ := Plist.chain_of_cdr h data n hch hd
      simp only [hd, if_true]
      by_cases hkey : (Plist.CONSP (Plist.XCAR h data) &&
          Plist.STRINGP (Plist.XCAR h (Plist.XCAR h data))) = true
      · simp only [hkey, if_true]
        by_cases hcr : (Plist.cf_create host s).1 = true
        · simp only [hcr, if_true]
          obtain ⟨r, s1, hc, hs1⟩ := hT (Plist.XCDR h (Plist.XCAR h data))
            (Plist.cf_create host s).2 hs
          simp only [hc]
          cases r with
          | none => exact ⟨none, s1, rfl, hs1⟩
          | some value => exact ih _ m _ s1 hm (by omega) hs1
        · simp only [hcr, Bool.false_eq_true, if_false]
          exact ⟨none, _, rfl, hs⟩
      · simp only [hkey, Bool.false_eq_true, if_false]
        exact ⟨none, s, rfl, hs⟩
    · simp only [hd, Bool.false_eq_true, if_false]
      by_cases hnil : Plist.NILP data = true
      · simp only [hnil, Bool.not_true, Bool.false_eq_true, if_false]
        exact ⟨some dictionary, s, rfl, hs⟩
      · simp only [hnil, Bool.not_false, if_true]
        exact ⟨none, s, rfl, hs⟩

theorem Plist.hash_loop_total (host : Nat → Bool)
    (create : Plist.Lisp_Object → Plist.Conv → Option (Option Plist.CFPropertyList × Plist.Conv))
    (t : Plist.bstree_node)
    (hT : ∀ x s, s.ancestors = t → ∃ r s', create x s = some (r, s') ∧ s'.ancestors = t) :
    ∀ (sl : List Plist.Slot) (dictionary : List (List Nat × Plist.CFPropertyList))
      (s : Plist.Conv), s.ancestors = t →
      ∃ r s', Plist.hash_loop host create sl dictionary s = some (r, s') ∧
        s'.ancestors = t := by
  intro sl
  induction sl with
  | nil => intro dictionary s hs; exact ⟨some dictionary, s, rfl, hs⟩
  | cons slot rest ih =>
    intro dictionary s hs
    simp only [Plist.hash_loop]
    by_cases h0 : Plist.NILP slot.hash = true
    · simp only [h0, Bool.not_true, Bool.false_eq_true, if_false]
      exact ih dictionary s hs
    · simp only [h0, Bool.not_false, if_true]
      by_cases hkey : Plist.STRINGP slot.key = true
      · simp only [hkey, if_true]
        by_cases hcr : (Plist.cf_create host s).1 = true
        · simp only [hcr, if_true]
          obtain ⟨r, s1, hc, hs1⟩ := hT slot.value (Plist.cf_create host s).2 hs
          simp only [hc]
          cases r with
          | none => exact ⟨none, s1, rfl, hs1⟩
          | some value => exact ih _ s1 hs1
        · simp only [hcr, Bool.false_eq_true, if_false]
          exact ⟨none, _, rfl, hs⟩
      · simp only [hkey, Bool.false_eq_true, if_false]
        exact ⟨none, s, rfl, hs⟩

/-- The recursive cases return, and leave the tree as it was, if the
recursive call does. -/
theorem Plist.recursive_cases_total (h : Plist.Heap) (host : Nat → Bool) (steps : Nat)
    (hsteps : h.conses.length + 2 ≤ steps)
    (create : Plist.Lisp_Object → Plist.Conv → Option (Option Plist.CFPropertyList × Plist.Conv))
    (obj : Plist.Lisp_Object) (t : Plist.bstree_node)
    (hT : Plist.XCAR h obj = Plist.Qarray ∨ Plist.XCAR h obj = Plist.Qdictionary →
      ∀ x s, s.ancestors = t → ∃ r s', create x s = some (r, s') ∧ s'.ancestors = t)
    (s1 : Plist.Conv) (hs : s1.ancestors = t) :
    ∃ r s', Plist.recursive_cases h host steps create obj s1 = some (r, s') ∧
      s'.ancestors = t := by
  simp only [Plist.recursive_cases]
  by_cases ha : Plist.XCAR h obj = Plist.Qarray
  · simp only [ha, if_true]
    by_cases hv : Plist.VECTORP (Plist.XCDR h obj) = true
    · simp only [hv, if_true]
      by_cases hcr : (Plist.cf_create host s1).1 = true
      · simp only [hcr, if_true]
        obtain ⟨r, s2, hl, hs2⟩ := Plist.array_loop_total create t (hT (Or.inl ha))
          (Plist.contents h (Plist.XCDR h obj)) [] (Plist.cf_create host s1).2 hs
        simp only [hl]
        exact ⟨_, s2, rfl, hs2⟩
      · simp only [hcr, Bool.false_eq_true, if_false]
        exact ⟨none, _, rfl, hs⟩
    · simp only [hv, Bool.false_eq_true, if_false]
      exact ⟨none, s1, rfl, hs⟩
  · simp only [ha, if_false]
    by_cases hd : Plist.XCAR h obj = Plist.Qdictionary
    · simp only [hd, if_true]
      by_cases hal : (Plist.CONSP (Plist.XCDR h obj) || Plist.NILP (Plist.XCDR h obj)) = true
      · simp only [hal, if_true]
        obtain ⟨size, hlen⟩ := Plist.cdr_chain_length_total h steps (Plist.XCDR h obj) hsteps
        simp only [hlen]
        by_cases hsz : size ≥ 0
        · simp only [hsz, if_true]
          by_cases hcr : (Plist.cf_create host s1).1 = true
          · simp only [hcr, if_true]
            have hch : ∃ n, n < steps ∧ Plist.chain_of h (Plist.XCDR h obj) n := by
              rcases Plist.cdr_chain_length_sound h steps _ size hlen with
                ⟨e, -⟩ | ⟨n, -, hn⟩
              · omega
              · rcases Plist.chain_or_meet h (Plist.XCDR h obj) with
                  ⟨m, hm, hm2⟩ | ⟨hcirc, -⟩
                · exact ⟨m, by omega, hm2⟩
                · exact absurd hcirc (Plist.not_circular_of_chain h _ n hn)
            obtain ⟨n, hn1, hn2⟩ := hch
            obtain ⟨r, s2, hl, hs2⟩ := Plist.alist_loop_total h host create t
              (hT (Or.inr hd)) steps (Plist.XCDR h obj) n [] (Plist.cf_create host s1).2
              hn2 hn1 hs
            simp only [hl]
            exact ⟨_, s2, rfl, hs2⟩
          · simp only [hcr, Bool.false_eq_true, if_false]
            exact ⟨none, _, rfl, hs⟩
        · simp only [hsz, if_false]
          exact ⟨none, s1, rfl, hs⟩
      · simp only [hal, Bool.false_eq_true, if_false]
        by_cases ht : Plist.HASH_TABLE_P (Plist.XCDR h obj) = true
        · simp only [ht, if_true]
          by_cases hcr : (Plist.cf_create host s1).1 = true
          · simp only [hcr, if_true]
            obtain ⟨r, s2, hl, hs2⟩ := Plist.hash_loop_total host create t (hT (Or.inr hd))
              (Plist.slots h (Plist.XCDR h obj)) [] (Plist.cf_create host s1).2 hs
            simp only [hl]
            exact ⟨_, s2, rfl, hs2⟩
          · simp only [hcr, Bool.false_eq_true, if_false]
            exact ⟨none, _, rfl, hs⟩
        · simp only [ht, Bool.false_eq_true, if_false]
          exact ⟨none, s1, rfl, hs⟩
    · simp only [hd, if_false]
      exact ⟨none, s1, rfl, hs⟩

theorem Plist.valid_of_tag (h : Plist.Heap) (obj : Plist.Lisp_Object)
    (ht : Plist.XCAR h obj = Plist.Qarray ∨ Plist.XCAR h obj = Plist.Qdictionary) :
    ∃ a, obj = Plist.Lisp_Object.cons a ∧ a < h.conses.length := by
  cases obj with
  | cons a =>
    refine ⟨a, rfl, ?_⟩
    by_contra hlt
    have : h.conses.getD a (Plist.Qnil, Plist.Qnil) = (Plist.Qnil, Plist.Qnil) :=
      List.getD_eq_default _ _ (by omega)
    simp only [Plist.XCAR] at ht
    rw [this] at ht
    rcases ht with ht | ht <;> exact absurd ht (by decide)
  | _ =>
    simp only [Plist.XCAR] at ht
    rcases ht with ht | ht <;> exact absurd ht (by decide)

/-- With `steps` beyond the number of cons cells of the heap, and fuel
beyond the number of cons cells that are not in the tree,
`cfproperty_list_create_with_lisp_1` returns, and leaves the tree as it
was. -/
theorem Plist.cfproperty_list_create_with_lisp_1_total (h : Plist.Heap)
    (XHASH : Plist.Lisp_Object → Nat) (host : Nat → Bool) (steps : Nat)
    (hsteps : h.conses.length + 2 ≤ steps) :
    ∀ (fuel : Nat) (obj : Plist.Lisp_Object) (s : Plist.Conv),
      Plist.ordered XHASH s.ancestors →
      (∀ o ∈ Plist.objs s.ancestors,
        ∃ a, o = Plist.Lisp_Object.cons a ∧ a < h.conses.length) →
      h.conses.length < (Plist.objs s.ancestors).length + fuel →
      ∃ r s', Plist.cfproperty_list_create_with_lisp_1 h XHASH host steps fuel obj s
          = some (r, s') ∧ s'.ancestors = s.ancestors := by
  intro fuel
  induction fuel with
  | zero =>
    intro obj s hord hv hf
    have := Plist.objs_length_le XHASH _ s.ancestors hord hv
    omega
  | succ fuel ih =>
    intro obj s hord hv hf
    simp only [Plist.cfproperty_list_create_with_lisp_1]
    by_cases hc : Plist.CONSP obj = true
    · simp only [hc, Bool.not_true, Bool.false_eq_true, if_false]
      by_cases h1 : Plist.XCAR h obj = Plist.Qstring
      · simp only [h1, if_true]
        split_ifs <;> exact ⟨_, _, rfl, rfl⟩
      simp only [h1, if_false]
      by_cases h2 : Plist.XCAR h obj = Plist.Qnumber
      · simp only [h2, if_true]
        split_ifs <;> exact ⟨_, _, rfl, rfl⟩
      simp only [h2, if_false]
      by_cases h3 : Plist.XCAR h obj = Plist.Qboolean
      · simp only [h3, if_true]
        split_ifs <;> exact ⟨_, _, rfl, rfl⟩
      simp only [h3, if_false]
      by_cases h4 : Plist.XCAR h obj = Plist.Qdate
      · simp only [h4, if_true]
        split_ifs <;> exact ⟨_, _, rfl, rfl⟩
      simp only [h4, if_false]
      by_cases h5 : Plist.XCAR h obj = Plist.Qdata
      · simp only [h5, if_true]
        split_ifs <;> exact ⟨_, _, rfl, rfl⟩
      simp only [h5, if_false]
      by_cases hfind : Plist.deref s.ancestors (Plist.bstree_find XHASH s.ancestors obj)
          = Plist.bstree_node.NULL
      · simp only [hfind, if_true]
        obtain ⟨i1, i2, i3⟩ := Plist.bstree_insert XHASH obj s.ancestors hord hfind
        have hT : Plist.XCAR h obj = Plist.Qarray ∨ Plist.XCAR h obj = Plist.Qdictionary →
            ∀ x (s2 : Plist.Conv),
              s2.ancestors = Plist.assign s.ancestors
                (Plist.bstree_find XHASH s.ancestors obj)
                (Plist.bstree_node.node obj Plist.bstree_node.NULL Plist.bstree_node.NULL) →
              ∃ r s',
                Plist.cfproperty_list_create_with_lisp_1 h XHASH host steps fuel x s2
                  = some (r, s') ∧
                s'.ancestors = Plist.assign s.ancestors
                  (Plist.bstree_find XHASH s.ancestors obj)
                  (Plist.bstree_node.node obj Plist.bstree_node.NULL
                    Plist.bstree_node.NULL) := by
          intro htag x s2 hs2
          obtain ⟨r, s', e1, e2⟩ := ih x s2 (by rw [hs2]; exact i1)
            (by
              rw [hs2]
              intro o ho
              rcases (i2 o).mp ho with rfl | ho
              · exact Plist.valid_of_tag h o htag
              · exact hv o ho)
            (by rw [hs2, i3]; omega)
          exact ⟨r, s', e1, by rw [e2, hs2]⟩
        obtain ⟨r, s3, e1, e2⟩ := Plist.recursive_cases_total h host steps hsteps
          (Plist.cfproperty_list_create_with_lisp_1 h XHASH host steps fuel) obj _ hT
          { ancestors := Plist.assign s.ancestors (Plist.bstree_find XHASH s.ancestors obj)
              (Plist.bstree_node.node obj Plist.bstree_node.NULL Plist.bstree_node.NULL)
            created := s.created } rfl
        simp only [e1]
        refine ⟨r, _, rfl, ?_⟩
        simp only [e2]
        exact Plist.assign_restore _ _ _ hfind
      · simp only [hfind, if_false]
        exact ⟨none, s, rfl, rfl⟩
    · simp only [hc, Bool.not_false, if_true]
      exact ⟨none, s, rfl, rfl⟩

/-- With fuel beyond the number of cons cells of the heap,
`cfproperty_list_create_with_lisp` returns. -/
theorem Plist.cfproperty_list_create_with_lisp_total (h : Plist.Heap)
    (XHASH : Plist.Lisp_Object → Nat) (host : Nat → Bool) (fuel : Nat)
    (hfuel : h.conses.length + 2 ≤ fuel) (obj : Plist.Lisp_Object) :
    ∃ r, Plist.cfproperty_list_create_with_lisp h XHASH host fuel obj = some r := by
  obtain ⟨r, s', e, -⟩ := Plist.cfproperty_list_create_with_lisp_1_total h XHASH host fuel
    hfuel fuel obj ⟨Plist.bstree_node.NULL, 0⟩ (by simp [Plist.ordered])
    (by simp [Plist.objs]) (by simp [Plist.objs]; omega)
  exact ⟨r, by simp [Plist.cfproperty_list_create_with_lisp, e]⟩

theorem Plist.element_tag {h : Plist.Heap} {x y : Plist.Lisp_Object}
    (hxy : Plist.element h x y) :
    Plist.XCAR h x = Plist.Qarray ∨ Plist.XCAR h x = Plist.Qdictionary := by
  cases hxy with
  | array _ e _ _ => exact Or.inl e
  | alist k e _ => exact Or.inr e
  | hash slot e _ _ _ => exact Or.inr e

/-- A circular object is a cons. -/
theorem Plist.Circular.consp {h : Plist.Heap} {obj : Plist.Lisp_Object}
    (hc : Plist.Circular h obj) : Plist.CONSP obj = true := by
  have key : ∀ x y, Plist.element h x y → Plist.CONSP x = true := by
    intro x y hxy
    obtain ⟨a, rfl, -⟩ := Plist.valid_of_tag h x (Plist.element_tag hxy)
    rfl
  obtain ⟨x, hx, hc⟩ := hc
  rcases Relation.ReflTransGen.cases_head hx with rfl | ⟨y, hy, -⟩
  · rcases hc with hc | hc
    · obtain ⟨y, hy, -⟩ := Relation.TransGen.head'_iff.mp hc
      exact key _ _ hy
    · obtain ⟨a, rfl, -⟩ := Plist.valid_of_tag h obj (Or.inr hc.1)
      rfl
  · exact key _ _ hy

theorem Plist.heap_plists_circular :
    Plist.Circular Plist.heap_plists (Plist.Lisp_Object.cons 0) := by
  refine ⟨Plist.Lisp_Object.cons 0, Relation.ReflTransGen.refl, Or.inl ?_⟩
  have e1 : Plist.element Plist.heap_plists (Plist.Lisp_Object.cons 0)
      (Plist.Lisp_Object.cons 2) :=
    Plist.element.array _ _ (by decide) (by decide) (by decide)
  have e2 : Plist.element Plist.heap_plists (Plist.Lisp_Object.cons 2)
      (Plist.Lisp_Object.cons 0) :=
    Plist.element.alist (Plist.Lisp_Object.cons 2) 0 (by decide) (by decide)
  exact Relation.TransGen.tail (Relation.TransGen.single e1) e2

/-- C21: circular property lists are rejected.  For every heap and every
tagged Lisp object in which an array or a dictionary occurs again inside
its own elements at some nesting depth, or in which a dictionary has an
alist with a circular cdr chain, the object is a cons, and with fuel beyond
the number of cons cells of the heap `cfproperty_list_create_with_lisp`
returns, and returns `NULL`, whatever `XHASH` is and whichever Core
Foundation calls succeed; so `Fmac_convert_property_list` returns `nil`
for it, for every format and every `hash_bound` that is `nil` or an
integer, as the function requires of it. -/
theorem cfproperty_list_create_with_lisp_rejects_circular (h : Plist.Heap)
    (XHASH : Plist.Lisp_Object → Nat) (host : Nat → Bool) (fuel : Nat)
    (hfuel : h.conses.length + 2 ≤ fuel) (obj : Plist.Lisp_Object)
    (hc : Plist.Circular h obj) :
    Plist.CONSP obj = true ∧
    Plist.cfproperty_list_create_with_lisp h XHASH host fuel obj = some none ∧
    ∀ (create_with_string : Plist.Lisp_Object → Option Plist.CFPropertyList)
      (convert : Plist.CFPropertyList → Plist.Lisp_Object → Plist.Lisp_Object →
        Plist.Lisp_Object)
      (format hash_bound : Plist.Lisp_Object),
      Plist.NILP hash_bound = true ∨ Plist.INTEGERP hash_bound = true →
      Plist.Fmac_convert_property_list h XHASH host create_with_string convert fuel
        obj format hash_bound = some (Plist.Outcome.value Plist.Qnil) := by
  have hcons := hc.consp
  have hnull : Plist.cfproperty_list_create_with_lisp h XHASH host fuel obj = some none := by
    obtain ⟨r, hr⟩ := Plist.cfproperty_list_create_with_lisp_total h XHASH host fuel hfuel obj
    cases r with
    | none => exact hr
    | some v =>
      exact absurd hc (Plist.cfproperty_list_create_with_lisp_sound h XHASH host fuel obj v hr)
  refine ⟨hcons, hnull, ?_⟩
  intro create_with_string convert format hash_bound hb
  have hb' : (!Plist.NILP hash_bound && !Plist.INTEGERP hash_bound) = false := by
    rcases hb with hb | hb <;> simp [hb]
  simp only [Plist.Fmac_convert_property_list, hcons, Bool.not_true, Bool.false_and,
    Bool.false_eq_true, if_false, hb', if_true, hnull]

theorem cfproperty_list_create_with_lisp_rejects_circular_witness :
    Plist.CONSP (Plist.Lisp_Object.cons 0) = true ∧
    Plist.cfproperty_list_create_with_lisp Plist.heap_plists Plist.addr (fun _ => true) 10
      (Plist.Lisp_Object.cons 0) = some none ∧
    ∀ (create_with_string : Plist.Lisp_Object → Option Plist.CFPropertyList)
      (convert : Plist.CFPropertyList → Plist.Lisp_Object → Plist.Lisp_Object →
        Plist.Lisp_Object)
      (format hash_bound : Plist.Lisp_Object),
      Plist.NILP hash_bound = true ∨ Plist.INTEGERP hash_bound = true →
      Plist.Fmac_convert_property_list Plist.heap_plists Plist.addr (fun _ => true)
        create_with_string convert 10 (Plist.Lisp_Object.cons 0) format hash_bound
        = some (Plist.Outcome.value Plist.Qnil) :=
  cfproperty_list_create_with_lisp_rejects_circular Plist.heap_plists Plist.addr
    (fun _ => true) 10 (by decide) (Plist.Lisp_Object.cons 0) Plist.heap_plists_circular

/-- On the example heap, with every Core Foundation call succeeding: the
circular array and the dictionary with the circular alist give `NULL`; the
array that holds one string twice is converted, and so is the string; and
the circular array gives `NULL` also with less fuel than the theorem asks
for, and when `XHASH` does not tell the objects apart. -/
theorem Plist.cfproperty_list_create_with_lisp_examples :
    (Plist.cfproperty_list_create_with_lisp Plist.heap_plists Plist.addr (fun _ => true) 10
      (Plist.Lisp_Object.cons 0)).map Option.isSome = some false ∧
    (Plist.cfproperty_list_create_with_lisp Plist.heap_plists Plist.addr (fun _ => true) 10
      (Plist.Lisp_Object.cons 5)).map Option.isSome = some false ∧
    (Plist.cfproperty_list_create_with_lisp Plist.heap_plists Plist.addr (fun _ => true) 10
      (Plist.Lisp_Object.cons 7)).map Option.isSome = some true ∧
    (Plist.cfproperty_list_create_with_lisp Plist.heap_plists Plist.addr (fun _ => true) 10
      (Plist.Lisp_Object.cons 1)).map Option.isSome = some true ∧
    (Plist.cfproperty_list_create_with_lisp Plist.heap_plists Plist.addr (fun _ => true) 4
      (Plist.Lisp_Object.cons 0)).map Option.isSome = some false ∧
    (Plist.cfproperty_list_create_with_lisp Plist.heap_plists (fun _ => 0) (fun _ => true) 10
      (Plist.Lisp_Object.cons 0)).map Option.isSome = some false ∧
    Plist.cdr_chain_length Plist.heap_plists 10 (Plist.Lisp_Object.cons 6) = some (-1) := by
  decide

end Mac
